import Mathlib

/-!
# Rail routing demo: a verification development

A shallow embedding of the routing engine (`railrouting.cc`, `railrouting.hh`) and of the
entity model it works on (`ObjectBases.hh`, `Objects.hh`), followed by theorems about it.

Modelling conventions.

* `double` lengths are exact integers; `+infinity` is `none` in `ELen = Option Int`.
  `Distance` and `Bearing` (`geomath.hh`) are floating-point routines and enter the
  development as the two fields of `GeoMath`.
* A `double` bearing is the integer multiple of 2^-1074 that it is, and the arithmetic on
  bearings is that of IEEE 754 doubles: every operation rounds to the nearest double, ties
  to even (`roundDouble`).
* `std::map<osmid_t, T>` is a key-ordered association list (`mapInsert`, `mapFind`),
  `std::multimap` a key-ordered list with insertion at the upper bound of the key,
  `std::set` a sorted duplicate-free list, `std::unordered_map` an association list.
* A `const Node*` is the node it points to; an edge array handed out by the pool is the
  list of its slots.
* `assert` failures, exceptions and undefined behaviour are error results.
* Loops that are not bounded by a data structure take a fuel argument.
* `int` arithmetic (`ParseInt`, `DumpCoord`) wraps around at 32 bits (`wrapInt`); a text
  is the list of its characters.
-/

namespace RailRouting

/-! ## Entity model (ObjectBases.hh, Objects.hh) -/

/-- TagContainer of ObjectBases.hh: the key/value pairs of `tags_`. -/
structure TagContainer where
  tags_ : List (String × String)
deriving DecidableEq, Repr

/-- GetTag(key, value): the stored value, or `none` when `tags_.find(key)` is `end()`. -/
def TagContainer.GetTag (t : TagContainer) (key : String) : Option String :=
  t.tags_.lookup key

/-- IsTag(key, value): the key exists and its value equals `value`. -/
def TagContainer.IsTag (t : TagContainer) (key value : String) : Bool :=
  match t.tags_.lookup key with
  | none => false
  | some v => v == value

/-- Node of Objects.hh: id, fixed-point coordinates and tags. -/
structure Node where
  id_ : Int
  lon_ : Int
  lat_ : Int
  tags : TagContainer
deriving DecidableEq, Repr

/-- Way of Objects.hh: id, tags and the ordered node references. -/
structure Way where
  id_ : Int
  tags : TagContainer
  nodes_ : List Int
deriving DecidableEq, Repr

/-- Way::GetNodesCount. -/
def Way.GetNodesCount (w : Way) : Nat := w.nodes_.length

/-- Way::NodeAt, `nodes_.at(pos)`: `none` stands for `std::out_of_range`. -/
def Way.NodeAt (w : Way) (pos : Nat) : Option Int := w.nodes_[pos]?

/-! ## Containers -/

/-- The `std::map::insert` of a pair: key order is kept and an existing key is left alone. -/
def mapInsert {β : Type} (m : List (Int × β)) (k : Int) (v : β) : List (Int × β) :=
  match m with
  | [] => [(k, v)]
  | (k1, v1) :: rest =>
    if k < k1 then (k, v) :: (k1, v1) :: rest
    else if k = k1 then (k1, v1) :: rest
    else (k1, v1) :: mapInsert rest k v

/-- The `std::map::find`, and `std::unordered_map::find`, of a key. -/
def mapFind {β : Type} (m : List (Int × β)) (k : Int) : Option β :=
  match m with
  | [] => none
  | (k1, v1) :: rest => if k1 = k then some v1 else mapFind rest k

/-- The `std::set<osmid_t>::insert`. -/
def idSetInsert (s : List Int) (k : Int) : List Int :=
  match s with
  | [] => [k]
  | k1 :: rest =>
    if k < k1 then k :: k1 :: rest
    else if k = k1 then k1 :: rest
    else k1 :: idSetInsert rest k

/-- The `std::set<int>::insert` on routing-node indices. -/
def nodeSetInsert (s : List Nat) (k : Nat) : List Nat :=
  match s with
  | [] => [k]
  | k1 :: rest =>
    if k < k1 then k :: k1 :: rest
    else if k = k1 then k1 :: rest
    else k1 :: nodeSetInsert rest k

/-- The `<` of `std::string`: lexicographic on the characters. -/
def strLt (a b : String) : Bool := decide (a.data < b.data)

/-- The `std::multimap<std::string, V>::insert`: the pair goes after every entry whose key
is not greater (the upper bound of its key). -/
def multimapInsert {β : Type} (m : List (String × β)) (k : String) (v : β) :
    List (String × β) :=
  match m with
  | [] => [(k, v)]
  | (k1, v1) :: rest =>
    if strLt k k1 then (k, v) :: (k1, v1) :: rest
    else (k1, v1) :: multimapInsert rest k v

/-- The `equal_range(name)` of a multimap, as the list of mapped values in iteration order. -/
def equalRange {β : Type} (m : List (String × β)) (name : String) : List β :=
  (m.filter (fun kv => kv.1 == name)).map (fun kv => kv.2)

/-- The `std::unordered_map<osmid_t, int>::insert`: an existing key is left alone. -/
def idMapInsert (m : List (Int × Nat)) (k : Int) (v : Nat) : List (Int × Nat) :=
  match mapFind m k with
  | some _ => m
  | none => m ++ [(k, v)]

/-! ## Lengths -/

/-- A `double` length: an exact integer, or `none` for `+infinity`. -/
abbrev ELen := Option Int

/-- The `<` of two lengths. -/
def ELen.lt : ELen → ELen → Bool
  | some a, some b => decide (a < b)
  | some _, none => true
  | none, _ => false

/-- The sum `a + w` of a length and a finite edge length. -/
def ELen.addLen (a : ELen) (w : Int) : ELen :=
  match a with
  | some x => some (x + w)
  | none => none

/-- The `std::min(a, b)`: `b` when `b < a`, else `a`. -/
def ELen.min (a b : ELen) : ELen := if ELen.lt b a then b else a

/-- The floating-point routines of geomath.hh. `Distance` is a number of a fixed length
unit, and sums of distances are taken as exact: the structure stands for the routines on
the points between which the distance is a number (the section on lengths that may be NaN
has the structure for the others). `Bearing` is the double that `atan2` returns, an angle
in radians, given as the integer multiple of 2^-1074 that it is (every finite double is
such a multiple). -/
structure GeoMath where
  Distance : Node → Node → Int
  Bearing : Node → Node → Int

/-! ## Routing graph (railrouting.hh) -/

/-- RouteEdge of railrouting.hh. -/
structure RouteEdge where
  osmid : Int
  start_pos : Nat
  end_pos : Nat
  node : Int
  direction : Int
  length : Int
deriving DecidableEq, Repr

/-- The default-constructed RouteEdge: `osmid(0), start_pos(-1), end_pos(-1), node(-1),
direction(0), length(0.0)`, the positions being `unsigned short`. -/
def RouteEdge.empty : RouteEdge :=
  { osmid := 0, start_pos := 65535, end_pos := 65535, node := -1, direction := 0, length := 0 }

/-- RouteNode of railrouting.hh; `nedges` is the length of `edges`. -/
structure RouteNode where
  osmid : Int
  edges : List RouteEdge
deriving DecidableEq, Repr

/-- The `nedges` member of a RouteNode. -/
def RouteNode.nedges (r : RouteNode) : Nat := r.edges.length

/-- ConnectivityInfo of railrouting.hh. -/
structure ConnectivityInfo where
  nedges : Nat
  nways : Nat
  isstop : Bool
deriving DecidableEq, Repr

/-- The default-constructed ConnectivityInfo. -/
def ConnectivityInfo.empty : ConnectivityInfo := { nedges := 0, nways := 0, isstop := false }

/-- RouteStatus of FindRouteResult. -/
inductive RouteStatus where
  | OK
  | START_STATION_NOT_FOUND
  | END_STATION_NOT_FOUND
  | BOTH_STATIONS_NOT_FOUND
  | NO_ROUTE_FOUND
deriving DecidableEq, Repr

/-- FindRouteResult of railrouting.hh; a null or unset node pointer is `none`. -/
structure FindRouteResult where
  status : RouteStatus
  start_count : Nat
  end_count : Nat
  start_node : Option Node
  end_node : Option Node
  distance : ELen
  route_nodes : List Node
  sharp_turns : List Node
deriving DecidableEq, Repr

/-- The state of pool.hh: the number of owned chunks, the free slots left in the last one,
and the chunk size. -/
structure Pool where
  chunks_ : Nat
  last_chunk_free_ : Nat
  chunk_size_ : Nat
deriving DecidableEq, Repr

/-- The members of the RailRouting class. -/
structure Engine where
  nodes_ : List (Int × Node)
  ways_ : List (Int × Way)
  needed_nodes_ : List Int
  stops_ : List (String × Nat)
  route_nodes_ : List RouteNode
  route_edge_pool_ : Pool
deriving DecidableEq, Repr

/-- The engine after construction: empty containers and a pool of chunk size 1024. -/
def Engine.init : Engine :=
  { nodes_ := [], ways_ := [], needed_nodes_ := [], stops_ := [], route_nodes_ := [],
    route_edge_pool_ := { chunks_ := 0, last_chunk_free_ := 0, chunk_size_ := 1024 } }

/-! ## Ingest callbacks (railrouting.cc, lines 36-48) -/

/-- The test on the `railway` tag in ProcessWay. -/
def isRailWay (way : Way) : Bool :=
  match way.tags.GetTag "railway" with
  | none => false
  | some railway =>
    railway == "rail" || railway == "abandoned" || railway == "disused" ||
      railway == "narrow_gauge"

/-- RailRouting::ProcessWay. -/
def ProcessWay (eng : Engine) (way : Way) : Engine :=
  if isRailWay way then
    { eng with
      needed_nodes_ := way.nodes_.foldl idSetInsert eng.needed_nodes_
      ways_ := mapInsert eng.ways_ way.id_ way }
  else eng

/-- RailRouting::ProcessNode. -/
def ProcessNode (eng : Engine) (node : Node) : Engine :=
  if node.id_ ∈ eng.needed_nodes_ then
    { eng with nodes_ := mapInsert eng.nodes_ node.id_ node }
  else eng

/-! ## Graph compilation (railrouting.cc, lines 50-228) -/

/-- The ways Prepare can end without a compiled graph: a failed `assert`, the
`std::length_error` of the pool, or undefined behaviour inside `pool::alloc`. -/
inductive PrepareError where
  | assertConnectivity
  | assertFirstRouteNode
  | assertLastRouteNode
  | assertPositions
  | assertEdgeSlot
  | assertStop
  | lengthError
  | poolUndefined
deriving DecidableEq, Repr

/-- pool::alloc with GetFreeSpace (pool.hh, lines 35-67). It returns the pool and the
place of the span: the index of the chunk and the offset in it. `count > chunk_size_`
throws; `chunks_.back()` on a pool without chunks and the placement `new` one past the end
of a chunk (both only for `count = 0`) are undefined behaviour. -/
def Pool.alloc (p : Pool) (count : Nat) : Except PrepareError (Pool × Nat × Nat) :=
  if count > p.chunk_size_ then .error .lengthError
  else
    let p1 : Pool :=
      if p.last_chunk_free_ < count then
        { p with chunks_ := p.chunks_ + 1, last_chunk_free_ := p.chunk_size_ }
      else p
    if p1.chunks_ = 0 then .error .poolUndefined
    else if p1.last_chunk_free_ = 0 then .error .poolUndefined
    else
      .ok ({ p1 with last_chunk_free_ := p1.last_chunk_free_ - count },
        p1.chunks_ - 1, p1.chunk_size_ - p1.last_chunk_free_)

/-- The `node_connectivity[id]` of the `std::unordered_map` followed by an update of the
entry: a missing entry is default-constructed first. -/
def connModify (m : List (Int × ConnectivityInfo)) (id : Int)
    (f : ConnectivityInfo → ConnectivityInfo) : List (Int × ConnectivityInfo) :=
  match m with
  | [] => [(id, f ConnectivityInfo.empty)]
  | (k, c) :: rest => if k = id then (k, f c) :: rest else (k, c) :: connModify rest id f

/-- The stop test of lines 68-69. -/
def isStopNode (node : Node) : Bool :=
  node.tags.IsTag "railway" "station" || node.tags.IsTag "railway" "halt" ||
    (node.tags.IsTag "public_transport" "stop_position" && node.tags.IsTag "train" "yes")

/-- The values of the `name`, `alt_name` and `official_name` tags of a node, in the order
lines 72-83 read them. -/
def stopNames (node : Node) : List String :=
  (node.tags.GetTag "name").toList ++ (node.tags.GetTag "alt_name").toList ++
    (node.tags.GetTag "official_name").toList

/-- The body of lines 72-83 for one name: insert into `temp_stops_` and mark the node. -/
def addStopName (id : Int) (acc : List (String × Int) × List (Int × ConnectivityInfo))
    (name : String) : List (String × Int) × List (Int × ConnectivityInfo) :=
  (multimapInsert acc.1 name id, connModify acc.2 id (fun c => { c with isstop := true }))

/-- The body of the loop "find stops" (lines 67-85) for one entry of `nodes_`. -/
def findStopsStep (acc : List (String × Int) × List (Int × ConnectivityInfo))
    (entry : Int × Node) : List (String × Int) × List (Int × ConnectivityInfo) :=
  if isStopNode entry.2 then (stopNames entry.2).foldl (addStopName entry.2.id_) acc
  else acc

/-- The inner loop of lines 92-95 from position `i` on: `count` is `GetNodesCount()`. -/
def countWayNodes (count : Nat) :
    Nat → List Int → List (Int × ConnectivityInfo) → List (Int × ConnectivityInfo)
  | _, [], conn => conn
  | i, id :: rest, conn =>
    countWayNodes count (i + 1) rest
      (connModify conn id (fun c =>
        { c with
          nedges := c.nedges + (if i = 0 ∨ i = count - 1 then 1 else 2)
          nways := c.nways + 1 }))

/-- The body of the loop "process all ways and build connectivity map" (lines 88-96). -/
def countWayStep (conn : List (Int × ConnectivityInfo)) (entry : Int × Way) :
    List (Int × ConnectivityInfo) :=
  if entry.2.GetNodesCount ≤ 1 then conn
  else countWayNodes entry.2.GetNodesCount 0 entry.2.nodes_ conn

/-- The state of the loop "create route nodes". -/
structure RouteNodesState where
  route_nodes : List RouteNode
  id_to_routenode : List (Int × Nat)
  route_edge_pool : Pool
deriving DecidableEq, Repr

/-- The loop "create route nodes" (lines 99-107) over the entries of `nodes_`. -/
def createRouteNodes (conn : List (Int × ConnectivityInfo)) :
    List (Int × Node) → RouteNodesState → Except PrepareError RouteNodesState
  | [], st => .ok st
  | (id, _) :: rest, st =>
    match mapFind conn id with
    | none => .error .assertConnectivity
    | some connectivity =>
      if connectivity.nways > 1 ∨ connectivity.nedges ≠ 2 ∨ connectivity.isstop = true then
        match st.route_edge_pool.alloc connectivity.nedges with
        | .error err => .error err
        | .ok (pool1, _) =>
          createRouteNodes conn rest
            { route_nodes :=
                st.route_nodes ++
                  [{ osmid := id, edges := List.replicate connectivity.nedges RouteEdge.empty }]
              id_to_routenode :=
                idMapInsert st.id_to_routenode id (st.route_nodes.length + 1 - 1)
              route_edge_pool := pool1 }
      else createRouteNodes conn rest st

/-- The search for a free slot (lines 177-188 and 194-205): the first edge whose `osmid`
is 0 is overwritten; `none` when the loop runs to `nedges`. -/
def fillSlot (edges : List RouteEdge) (e : RouteEdge) : Option (List RouteEdge) :=
  match edges with
  | [] => none
  | slot :: rest =>
    if slot.osmid = 0 then some (e :: rest)
    else
      match fillSlot rest e with
      | none => none
      | some rest1 => some (slot :: rest1)

/-- The commit of an edge into `route_nodes_[n]` together with its `assert`. -/
def addEdge (route_nodes : List RouteNode) (n : Nat) (e : RouteEdge) :
    Except PrepareError (List RouteNode) :=
  match route_nodes[n]? with
  | none => .error .assertEdgeSlot
  | some r =>
    match fillSlot r.edges e with
    | none => .error .assertEdgeSlot
    | some edges1 => .ok (route_nodes.set n { r with edges := edges1 })

/-- The test of line 176 for the forward edge. -/
def forwardAllowed (way : Way) : Bool :=
  !way.tags.IsTag "oneway" "-1" && !way.tags.IsTag "designated_direction" "backward"

/-- The test of line 193 for the backward edge. -/
def backwardAllowed (way : Way) : Bool :=
  !way.tags.IsTag "oneway" "yes" && !way.tags.IsTag "designated_direction" "forward"

/-- The locals of the walk along one way (lines 126-140). -/
structure WayWalk where
  prev_node : Node
  start_node : Node
  start_route_node : Nat
  start_node_pos : Nat
  second_node : Option Node
  dist : Int
deriving DecidableEq, Repr

/-- The block "if we are at routing node, add routing edge" (lines 172-207): the forward
edge goes into the start routing node, the backward edge into this one. -/
def commitEdges (geo : GeoMath) (way_id : Int) (way : Way) (walk : WayWalk)
    (this_node : Node) (second_node : Option Node) (dist : Int) (this_route_node node_pos : Nat)
    (route_nodes : List RouteNode) : Except PrepareError (List RouteNode) :=
  let forward : RouteEdge :=
    { osmid := way_id, start_pos := walk.start_node_pos, end_pos := node_pos,
      node := Int.ofNat this_route_node,
      direction := geo.Bearing walk.start_node (second_node.getD this_node),
      length := dist }
  let backward : RouteEdge :=
    { osmid := way_id, start_pos := node_pos, end_pos := walk.start_node_pos,
      node := Int.ofNat walk.start_route_node,
      direction := geo.Bearing this_node walk.prev_node,
      length := dist }
  match (if forwardAllowed way then addEdge route_nodes walk.start_route_node forward
      else .ok route_nodes) with
  | .error err => .error err
  | .ok route_nodes1 =>
    if backwardAllowed way then addEdge route_nodes1 this_route_node backward
    else .ok route_nodes1

/-- The loop over the node positions of one way (lines 141-216), from `node_pos` on;
`ids` are the node references at `node_pos` and after it. -/
def walkWay (geo : GeoMath) (nodes_ : List (Int × Node)) (id_to_routenode : List (Int × Nat))
    (way_id : Int) (way : Way) :
    Nat → List Int → WayWalk → List RouteNode → Except PrepareError (List RouteNode)
  | _, [], _, route_nodes => .ok route_nodes
  | node_pos, id :: rest, walk, route_nodes =>
    match mapFind nodes_ id with
    | none => .ok route_nodes
    | some this_node =>
      let second_node := if node_pos = 1 then some this_node else walk.second_node
      let dist := walk.dist + geo.Distance walk.prev_node this_node
      let this_route_node := mapFind id_to_routenode id
      if node_pos = way.GetNodesCount - 1 ∧ this_route_node = none then
        .error .assertLastRouteNode
      else if ¬ (walk.start_node_pos < 65535 ∧ node_pos < 65535) then
        .error .assertPositions
      else
        match this_route_node with
        | some trn =>
          match commitEdges geo way_id way walk this_node second_node dist trn node_pos
              route_nodes with
          | .error err => .error err
          | .ok route_nodes1 =>
            walkWay geo nodes_ id_to_routenode way_id way (node_pos + 1) rest
              { prev_node := this_node, start_node := this_node, start_route_node := trn,
                start_node_pos := node_pos, second_node := second_node, dist := 0 }
              route_nodes1
        | none =>
          walkWay geo nodes_ id_to_routenode way_id way (node_pos + 1) rest
            { walk with prev_node := this_node, second_node := second_node, dist := dist }
            route_nodes

/-- The body of the loop "split real edges to route edges" (lines 113-217) for one entry
of `ways_`. -/
def splitWay (geo : GeoMath) (nodes_ : List (Int × Node)) (id_to_routenode : List (Int × Nat))
    (route_nodes : List RouteNode) (entry : Int × Way) :
    Except PrepareError (List RouteNode) :=
  if entry.2.GetNodesCount < 2 then .ok route_nodes
  else
    match entry.2.nodes_ with
    | [] => .ok route_nodes
    | first :: rest =>
      match mapFind nodes_ first with
      | none => .ok route_nodes
      | some start_node =>
        match mapFind id_to_routenode first with
        | none => .error .assertFirstRouteNode
        | some start_route_node =>
          walkWay geo nodes_ id_to_routenode entry.1 entry.2 1 rest
            { prev_node := start_node, start_node := start_node,
              start_route_node := start_route_node, start_node_pos := 0,
              second_node := none, dist := 0 }
            route_nodes

/-- The loop "split real edges to route edges" over the entries of `ways_`. -/
def splitWays (geo : GeoMath) (nodes_ : List (Int × Node)) (id_to_routenode : List (Int × Nat)) :
    List (Int × Way) → List RouteNode → Except PrepareError (List RouteNode)
  | [], route_nodes => .ok route_nodes
  | entry :: rest, route_nodes =>
    match splitWay geo nodes_ id_to_routenode route_nodes entry with
    | .error err => .error err
    | .ok route_nodes1 => splitWays geo nodes_ id_to_routenode rest route_nodes1

/-- The loop "postprocess stops" (lines 222-227) over `temp_stops_`. -/
def postprocessStops (id_to_routenode : List (Int × Nat)) :
    List (String × Int) → List (String × Nat) → Except PrepareError (List (String × Nat))
  | [], stops => .ok stops
  | (name, id) :: rest, stops =>
    match mapFind id_to_routenode id with
    | none => .error .assertStop
    | some routeidx => postprocessStops id_to_routenode rest (multimapInsert stops name routeidx)

/-- RailRouting::Prepare. -/
def Prepare (geo : GeoMath) (eng : Engine) : Except PrepareError Engine :=
  let found := eng.nodes_.foldl findStopsStep ([], [])
  let temp_stops := found.1
  let node_connectivity := eng.ways_.foldl countWayStep found.2
  match createRouteNodes node_connectivity eng.nodes_
      { route_nodes := eng.route_nodes_, id_to_routenode := [],
        route_edge_pool := eng.route_edge_pool_ } with
  | .error err => .error err
  | .ok created =>
    match splitWays geo eng.nodes_ created.id_to_routenode eng.ways_ created.route_nodes with
    | .error err => .error err
    | .ok route_nodes =>
      match postprocessStops created.id_to_routenode temp_stops eng.stops_ with
      | .error err => .error err
      | .ok stops =>
        .ok { eng with
              needed_nodes_ := []
              stops_ := stops
              route_nodes_ := route_nodes
              route_edge_pool_ := created.route_edge_pool }

/-- The three passes registered by the constructor, run by `Parse` over the ways and the
nodes of the input in document order: "loading ways", "loading nodes", "preparing". -/
def Parse (geo : GeoMath) (ways : List Way) (nodes : List Node) : Except PrepareError Engine :=
  Prepare geo (nodes.foldl ProcessNode (ways.foldl ProcessWay Engine.init))

/-! ## Route search (railrouting.cc, lines 230-410) -/

/-- The errors of FindRoute: a failed `assert`, `std::out_of_range` from `NodeAt`, or a
loop that did not finish within the fuel. -/
inductive FRError where
  | outOfFuel
  | assertStartNode
  | assertEndNode
  | assertEdge
  | assertWay
  | assertNode
  | outOfRange
deriving DecidableEq, Repr

/-- The `queue.insert(std::make_pair(length, node))` of the `std::multimap<double, int>`:
the pair goes after every entry whose key is not greater. -/
def queueInsert (q : List (ELen × Nat)) (k : ELen) (v : Nat) : List (ELen × Nat) :=
  match q with
  | [] => [(k, v)]
  | (k1, v1) :: rest =>
    if ELen.lt k k1 then (k, v) :: (k1, v1) :: rest
    else (k1, v1) :: queueInsert rest k v

/-- The locals of FindRoute that the search works on. The three `lazyinit_array`s are
lists of `route_nodes_.size()` cells holding the default until written. -/
structure SearchState where
  queue : List (ELen × Nat)
  starts : List Int
  prevs : List Int
  lengths : List ELen
  shortest_length : ELen
deriving DecidableEq, Repr

/-- The loop "find stops for station A" (lines 245-253) over the equal range of `name_a`;
it returns `start_nodes`, the search state and `result.start_count`. -/
def initStarts (stops : List Nat) (start_nodes : List Nat) (st : SearchState)
    (start_count : Nat) : List Nat × SearchState × Nat :=
  match stops with
  | [] => (start_nodes, st, start_count)
  | stop :: rest =>
    initStarts rest (nodeSetInsert start_nodes stop)
      { st with
        prevs := st.prevs.set stop (-1)
        starts := st.starts.set stop (Int.ofNat stop)
        lengths := st.lengths.set stop (some 0)
        queue := queueInsert st.queue (some 0) stop }
      (start_count + 1)

/-- The loop "fin stop for station B" (lines 256-260); it returns `fin_nodes` and
`result.end_count`. -/
def initFins (stops : List Nat) (fin_nodes : List Nat) (end_count : Nat) : List Nat × Nat :=
  match stops with
  | [] => (fin_nodes, end_count)
  | stop :: rest => initFins rest (nodeSetInsert fin_nodes stop) (end_count + 1)

/-- The update of lines 305-309 for a shorter way to `other_node` through `current_node`. -/
def relax (st : SearchState) (current_node other_node : Nat) (new_length : ELen) :
    SearchState :=
  { st with
    starts := st.starts.set other_node (st.starts.getD current_node (-1))
    prevs := st.prevs.set other_node (Int.ofNat current_node)
    lengths := st.lengths.set other_node new_length
    queue := queueInsert st.queue new_length other_node }

/-- The `for` loop over the edges of `current_node` (lines 291-311), on the edges not yet
scanned. -/
def scanEdges (current_node : Nat) (edges : List RouteEdge) (st : SearchState) : SearchState :=
  match edges with
  | [] => st
  | e :: rest =>
    let new_length := ELen.addLen (st.lengths.getD current_node none) e.length
    if ELen.lt st.shortest_length new_length then st
    else if e.node = -1 then scanEdges current_node rest st
    else
      let other_node := e.node.toNat
      if ELen.lt new_length (st.lengths.getD other_node none) then
        scanEdges current_node rest (relax st current_node other_node new_length)
      else scanEdges current_node rest st

/-- The edges `route_nodes_[n].edges[0 .. nedges)`. -/
def edgesOf (route_nodes : List RouteNode) (n : Nat) : List RouteEdge :=
  match route_nodes[n]? with
  | some r => r.edges
  | none => []

/-- The `while (!queue.empty())` loop (lines 275-312); `none` when the fuel runs out
before the queue is empty. -/
def dijkstraLoop (route_nodes : List RouteNode) (fin_nodes : List Nat) :
    Nat → SearchState → Option SearchState
  | 0, st =>
    match st.queue with
    | [] => some st
    | _ :: _ => none
  | fuel + 1, st =>
    match st.queue with
    | [] => some st
    | (current_length, current_node) :: rest =>
      let st1 := { st with queue := rest }
      if ELen.lt (st1.lengths.getD current_node none) current_length then
        dijkstraLoop route_nodes fin_nodes fuel st1
      else
        let st2 :=
          if current_node ∈ fin_nodes then
            { st1 with
              shortest_length :=
                ELen.min st1.shortest_length (st1.lengths.getD current_node none) }
          else st1
        dijkstraLoop route_nodes fin_nodes fuel
          (scanEdges current_node (edgesOf route_nodes current_node) st2)

/-- The loop "find closest final node" (lines 317-322) over the rest of `fin_nodes`. -/
def closestFin (lengths : List ELen) (fins : List Nat) (best_fin : Nat) (best_length : ELen) :
    Nat × ELen :=
  match fins with
  | [] => (best_fin, best_length)
  | fin :: rest =>
    if ELen.lt (lengths.getD fin none) best_length then
      closestFin lengths rest fin (lengths.getD fin none)
    else closestFin lengths rest best_fin best_length

/-- The node positions visited for an edge (lines 360-374): from `end_pos` towards
`start_pos`, `start_pos` excluded. -/
def edgePositions (e : RouteEdge) : List Nat :=
  if e.start_pos < e.end_pos then
    (List.range' (e.start_pos + 1) (e.end_pos - e.start_pos)).reverse
  else List.range' e.end_pos (e.start_pos - e.end_pos)

/-- The body of the two inner loops of the route recovery: look up the way node at each
position and the node it names. -/
def expandPositions (nodes_ : List (Int × Node)) (way : Way) :
    List Nat → Except FRError (List Node)
  | [] => .ok []
  | node_pos :: rest =>
    match way.NodeAt node_pos with
    | none => .error .outOfRange
    | some id =>
      match mapFind nodes_ id with
      | none => .error .assertNode
      | some node =>
        match expandPositions nodes_ way rest with
        | .error err => .error err
        | .ok more => .ok (node :: more)

/-- The `while (prev_route_node != -1)` loop of the route recovery (lines 344-379);
`temp_nodes` is the buffer filled so far. -/
def recoverRoute (eng : Engine) (prevs : List Int) :
    Nat → Nat → Int → List Node → Except FRError (List Node)
  | 0, _, prev_route_node, temp_nodes =>
    if prev_route_node = -1 then .ok temp_nodes else .error .outOfFuel
  | fuel + 1, current_route_node, prev_route_node, temp_nodes =>
    if prev_route_node = -1 then .ok temp_nodes
    else
      let prev_node := prev_route_node.toNat
      match (edgesOf eng.route_nodes_ prev_node).find?
          (fun e => e.node == Int.ofNat current_route_node) with
      | none => .error .assertEdge
      | some edge =>
        match mapFind eng.ways_ edge.osmid with
        | none => .error .assertWay
        | some way =>
          match expandPositions eng.nodes_ way (edgePositions edge) with
          | .error err => .error err
          | .ok more =>
            recoverRoute eng prevs fuel prev_node (prevs.getD prev_node (-1))
              (temp_nodes ++ more)

/-- The constant `M_PI` of <cmath>: the double 884279719003555 * 2^-48, as a multiple of
2^-1074. -/
def M_PI : Int :=
  635865432060267445468214182091255143872403807686233472603792193275656356707688919982837471838052747972478524629983029917167695672135057166860157826274832966513867892628499855176210243632893770193919817964592300301104964149478683857093638587052393633657306350059152722017417798014182989122203290511554679949608784156447211520

/-- The double 1.0 as a multiple of 2^-1074: 2^1074. -/
def dblOne : Int :=
  202402253307310618352495346718917307049556649764142118356901358027430339567995346891960383701437124495187077864316811911389808737385793476867013399940738509921517424276566361364466907742093216341239767678472745068562007483424692698618103355649159556340810056512358769552333414615230502532186327508646006263307707741093494784

/-- One step of the search for the leading binary digit of `t`: the position `acc` found
so far moves up by `j` when `t` has a digit at `acc + j` or above. -/
def leadStep (t : Nat) (acc j : Nat) : Nat := if t >>> (acc + j) = 0 then acc else acc + j

/-- The position of the leading binary digit of `t` (the `n` with `2^n <= t < 2^(n+1)`),
for `0 < t < 2^4096`, by bisection. -/
def leadingBit (t : Nat) : Nat :=
  let n := leadStep t 0 2048
  let n := leadStep t n 1024
  let n := leadStep t n 512
  let n := leadStep t n 256
  let n := leadStep t n 128
  let n := leadStep t n 64
  let n := leadStep t n 32
  let n := leadStep t n 16
  let n := leadStep t n 8
  let n := leadStep t n 4
  let n := leadStep t n 2
  leadStep t n 1

/-- The double nearest to the quotient `n / d` of two natural numbers, ties to the even
significand, as a multiple of 2^-1074 (`n / d` counts these units, and `d > 0`). The
result is a multiple of `2^k` where the quotient has `53 + k` binary digits before the
point; below 2^53 units (the subnormal numbers and the first binade) every integer is a
double. The quotient stays below 2^2098 units, the range of the finite doubles, in all
uses. -/
def roundMag (n d : Nat) : Nat :=
  let t := n / d
  let k := (if t = 0 then 0 else leadingBit t + 1) - 53
  let step := d <<< k
  let q := n / step
  let r := n % step
  let m :=
    if 2 * r < step then q
    else if step < 2 * r then q + 1
    else if q % 2 = 0 then q
    else q + 1
  m <<< k

/-- The double nearest to the quotient `num / den` of two integers, `den` not 0: the
rounding of IEEE 754 binary64 to nearest, ties to even, which is symmetric in the sign
(`roundDouble_nearest` and `roundMag_ties_even` prove that it is). -/
def roundDouble (num den : Int) : Int :=
  if (num < 0) = (den < 0) then Int.ofNat (roundMag num.natAbs den.natAbs)
  else -Int.ofNat (roundMag num.natAbs den.natAbs)

/-- The `a - b` of two doubles. -/
def dsub (a b : Int) : Int := roundDouble (a - b) 1

/-- The `a + b` of two doubles. -/
def dadd (a b : Int) : Int := roundDouble (a + b) 1

/-- The `a * b` of two doubles. -/
def dmul (a b : Int) : Int := roundDouble (a * b) dblOne

/-- The `a / b` of two doubles, `b` not 0. -/
def ddiv (a b : Int) : Int := roundDouble (a * dblOne) b

/-- The test on two successive bearings (lines 394-399), both doubles in radians given as
multiples of 2^-1074, in the arithmetic of doubles: every operation is rounded to the
nearest double. The constants 180.0, 360.0 and 90.0 are these multiples of `dblOne`. -/
def isSharpTurn (prev_bearing bearing : Int) : Bool :=
  let delta := dmul (ddiv (dsub bearing prev_bearing) M_PI) (180 * dblOne)
  let delta := if delta > 180 * dblOne then dsub delta (360 * dblOne) else delta
  let delta := if delta < -(180 * dblOne) then dadd delta (360 * dblOne) else delta
  let delta := if delta < 0 then -delta else delta
  decide (delta > 90 * dblOne)

/-- The loop over the interior nodes of the route (lines 391-403); the list starts at the
node under the iterator. -/
def sharpTurnsLoop (geo : GeoMath) : Int → List Node → List Node
  | prev_bearing, node :: next :: rest =>
    let bearing := geo.Bearing node next
    if isSharpTurn prev_bearing bearing then
      node :: sharpTurnsLoop geo bearing (next :: rest)
    else sharpTurnsLoop geo bearing (next :: rest)
  | _, _ => []

/-- The block "find sharp turns" (lines 388-404). -/
def findSharpTurns (geo : GeoMath) (temp_nodes : List Node) : List Node :=
  if temp_nodes.length > 2 then
    match temp_nodes with
    | first :: second :: rest =>
      sharpTurnsLoop geo (geo.Bearing first second) (second :: rest)
    | _ => []
  else []

/-- RailRouting::FindRoute. The `result` argument is the object the caller passes by
reference; the value returned pairs the `bool` with that object after the call. -/
def FindRoute (geo : GeoMath) (eng : Engine) (fuel : Nat) (name_a name_b : String)
    (result : FindRouteResult) : Except FRError (Bool × FindRouteResult) :=
  let size := eng.route_nodes_.length
  let st0 : SearchState :=
    { queue := [], starts := List.replicate size (-1), prevs := List.replicate size (-1),
      lengths := List.replicate size none, shortest_length := none }
  let result := { result with start_count := 0, end_count := 0 }
  match initStarts (equalRange eng.stops_ name_a) [] st0 result.start_count with
  | (start_nodes, st1, start_count) =>
    let result := { result with start_count := start_count }
    match initFins (equalRange eng.stops_ name_b) [] result.end_count with
    | (fin_nodes, end_count) =>
      let result := { result with end_count := end_count }
      match start_nodes, fin_nodes with
      | [], [] => .ok (false, { result with status := .BOTH_STATIONS_NOT_FOUND })
      | [], _ :: _ => .ok (false, { result with status := .START_STATION_NOT_FOUND })
      | _ :: _, [] => .ok (false, { result with status := .END_STATION_NOT_FOUND })
      | _ :: _, first_fin :: more_fins =>
        match dijkstraLoop eng.route_nodes_ fin_nodes fuel st1 with
        | none => .error .outOfFuel
        | some st =>
          match closestFin st.lengths more_fins first_fin (st.lengths.getD first_fin none) with
          | (_, none) => .ok (false, { result with status := .NO_ROUTE_FOUND })
          | (best_fin, some best_length) =>
            match eng.route_nodes_[(st.starts.getD best_fin (-1)).toNat]?,
                eng.route_nodes_[best_fin]? with
            | some start_rn, some end_rn =>
              match mapFind eng.nodes_ start_rn.osmid with
              | none => .error .assertStartNode
              | some start_node =>
                match mapFind eng.nodes_ end_rn.osmid with
                | none => .error .assertEndNode
                | some end_node =>
                  let result :=
                    { result with
                      start_node := some start_node
                      end_node := some end_node
                      distance := some best_length
                      status := .OK }
                  match recoverRoute eng st.prevs fuel best_fin (st.prevs.getD best_fin (-1))
                      [] with
                  | .error err => .error err
                  | .ok temp_nodes =>
                    let temp_nodes := (temp_nodes ++ [start_node]).reverse
                    .ok (true,
                      { result with
                        route_nodes := temp_nodes
                        sharp_turns := findSharpTurns geo temp_nodes })
            | _, _ => .error .outOfRange

/-! ## Vocabulary of the statements -/

/-- The way has a `railway` tag whose value is one of `rail`, `abandoned`, `disused`,
`narrow_gauge`. -/
def HasRailTag (way : Way) : Prop :=
  ∃ v, way.tags.GetTag "railway" = some v ∧
    (v = "rail" ∨ v = "abandoned" ∨ v = "disused" ∨ v = "narrow_gauge")

/-- The name has an entry in the stop index. -/
def HasStop (eng : Engine) (name : String) : Prop := ∃ i, (name, i) ∈ eng.stops_

/-- The keys of an association list increase strictly, as in a `std::map`. -/
def SortedKeys {β : Type} (m : List (Int × β)) : Prop := m.Pairwise (fun a b => a.1 < b.1)

/-- A walk in the compiled graph along populated edges (`node` not -1), with the sum of
the edge lengths. -/
inductive Walk (rn : List RouteNode) : Nat → Nat → Int → Prop where
  | nil (u : Nat) : Walk rn u u 0
  | cons (u v w : Nat) (e : RouteEdge) (len : Int) :
      e ∈ edgesOf rn u → e.node = Int.ofNat v → Walk rn v w len →
      Walk rn u w (e.length + len)

/-- The length `d` is that of a walk from a routing node indexed under `name_a` to one
indexed under `name_b`. -/
def IsRouteLength (eng : Engine) (name_a name_b : String) (d : Int) : Prop :=
  ∃ s t, (name_a, s) ∈ eng.stops_ ∧ (name_b, t) ∈ eng.stops_ ∧ Walk eng.route_nodes_ s t d

/-- The length `d` is the minimum over all start nodes of `name_a`, end nodes of `name_b`
and walks between them. -/
def IsShortestRouteLength (eng : Engine) (name_a name_b : String) (d : Int) : Prop :=
  IsRouteLength eng name_a name_b d ∧ ∀ d2, IsRouteLength eng name_a name_b d2 → d ≤ d2

/-- Some end node of `name_b` can be reached from some start node of `name_a`. -/
def Reachable (eng : Engine) (name_a name_b : String) : Prop :=
  ∃ d, IsRouteLength eng name_a name_b d

/-- Every populated edge points to a routing node of the graph. -/
def EdgesInRange (rn : List RouteNode) : Prop :=
  ∀ r ∈ rn, ∀ e ∈ r.edges, e.node = -1 ∨ ∃ v, v < rn.length ∧ e.node = Int.ofNat v

/-- No edge has a negative length. -/
def NonNegLengths (rn : List RouteNode) : Prop :=
  ∀ r ∈ rn, ∀ e ∈ r.edges, 0 ≤ e.length

/-- Every entry of the stop index is the index of a routing node. -/
def StopsInRange (eng : Engine) : Prop :=
  ∀ p ∈ eng.stops_, p.2 < eng.route_nodes_.length

/-- The number of edge slots over all routing nodes. -/
def totalEdges (rn : List RouteNode) : Nat := (rn.map (fun r => r.edges.length)).sum

/-- A fuel that suffices for the loops of FindRoute: every queue entry is taken once,
there are at most as many entries as start entries and relaxations, and the way back
along `prevs` has fewer hops than there are routing nodes. -/
def searchFuel (eng : Engine) (name_a : String) : Nat :=
  ((equalRange eng.stops_ name_a).length + 1) * (totalEdges eng.route_nodes_ + 1) +
    eng.route_nodes_.length

/-! ## Invariants of the compiled graph -/

/-- The node of the node map that a way references at a position. -/
def nodeAt (nodes_ : List (Int × Node)) (way : Way) (pos : Nat) : Option Node :=
  match way.nodes_[pos]? with
  | none => none
  | some id => mapFind nodes_ id

/-- The Distance between the nodes at two positions of a way (0 when one is missing). -/
def stepLength (geo : GeoMath) (nodes_ : List (Int × Node)) (way : Way) (i j : Nat) : Int :=
  match nodeAt nodes_ way i, nodeAt nodes_ way j with
  | some a, some b => geo.Distance a b
  | _, _ => 0

/-- The sum of Distance over the `count` consecutive node pairs of a way that start at
position `lo`, each pair taken in the order of the way. -/
def segmentLength (geo : GeoMath) (nodes_ : List (Int × Node)) (way : Way) (lo : Nat) :
    Nat → Int
  | 0 => 0
  | k + 1 => segmentLength geo nodes_ way lo k + stepLength geo nodes_ way (lo + k) (lo + k + 1)

/-- The osmids of the routing nodes, by index. -/
def routeIds (rn : List RouteNode) : List Int := rn.map (fun r => r.osmid)

/-- What a written edge slot `e` of routing node `u` records: the routing node `v` it leads
to and the way it runs along. -/
structure EdgeProv (geo : GeoMath) (nodes_ : List (Int × Node)) (ways_ : List (Int × Way))
    (ids : List Int) (u : Nat) (e : RouteEdge) (v : Nat) (way : Way) : Prop where
  node_eq : e.node = Int.ofNat v
  way_found : mapFind ways_ e.osmid = some way
  pos_ne : e.start_pos ≠ e.end_pos
  start_id : ∃ id, way.nodes_[e.start_pos]? = some id ∧ ids[u]? = some id
  end_id : ∃ id, way.nodes_[e.end_pos]? = some id ∧ ids[v]? = some id
  resolves : ∀ pos, min e.start_pos e.end_pos ≤ pos → pos ≤ max e.start_pos e.end_pos →
    ∃ node, nodeAt nodes_ way pos = some node
  interior : ∀ pos, min e.start_pos e.end_pos < pos → pos < max e.start_pos e.end_pos →
    ∀ id, way.nodes_[pos]? = some id → id ∉ ids
  length_eq : e.length =
    segmentLength geo nodes_ way (min e.start_pos e.end_pos)
      (max e.start_pos e.end_pos - min e.start_pos e.end_pos)
  forward : e.start_pos < e.end_pos → forwardAllowed way = true
  backward : e.end_pos < e.start_pos → backwardAllowed way = true

/-- Every edge slot is either still default-constructed or a written edge. -/
def EdgesProv (geo : GeoMath) (nodes_ : List (Int × Node)) (ways_ : List (Int × Way))
    (rn : List RouteNode) : Prop :=
  ∀ u, ∀ e ∈ edgesOf rn u,
    e = RouteEdge.empty ∨ ∃ v way, EdgeProv geo nodes_ ways_ (routeIds rn) u e v way

/-- The map from node ids to routing-node indices agrees with the routing nodes. -/
def IdMapOK (id_to_routenode : List (Int × Nat)) (ids : List Int) : Prop :=
  ∀ id i, mapFind id_to_routenode id = some i ↔ ids[i]? = some id

/-- The entries of a map carry their own id as the key. -/
def KeyedById {β : Type} (getId : β → Int) (m : List (Int × β)) : Prop :=
  ∀ p ∈ m, getId p.2 = p.1

/-- The forward edge that `commitEdges` writes. -/
def forwardEdge (geo : GeoMath) (way_id : Int) (walk : WayWalk) (this_node : Node)
    (second_node : Option Node) (dist : Int) (this_route_node node_pos : Nat) : RouteEdge :=
  { osmid := way_id, start_pos := walk.start_node_pos, end_pos := node_pos,
    node := Int.ofNat this_route_node,
    direction := geo.Bearing walk.start_node (second_node.getD this_node),
    length := dist }

/-- The backward edge that `commitEdges` writes. -/
def backwardEdge (geo : GeoMath) (way_id : Int) (walk : WayWalk) (this_node : Node)
    (dist : Int) (node_pos : Nat) : RouteEdge :=
  { osmid := way_id, start_pos := node_pos, end_pos := walk.start_node_pos,
    node := Int.ofNat walk.start_route_node,
    direction := geo.Bearing this_node walk.prev_node,
    length := dist }

/-- The invariant of the walk along one way, before the node at `node_pos` is visited. -/
structure WayWalkInv (geo : GeoMath) (nodes_ : List (Int × Node)) (ids : List Int) (way : Way)
    (node_pos : Nat) (walk : WayWalk) : Prop where
  start_lt : walk.start_node_pos < node_pos
  start_id : ∃ id, way.nodes_[walk.start_node_pos]? = some id ∧
    ids[walk.start_route_node]? = some id
  prev_node : nodeAt nodes_ way (node_pos - 1) = some walk.prev_node
  resolves : ∀ pos, walk.start_node_pos ≤ pos → pos < node_pos →
    ∃ node, nodeAt nodes_ way pos = some node
  interior : ∀ pos, walk.start_node_pos < pos → pos < node_pos →
    ∀ id, way.nodes_[pos]? = some id → id ∉ ids
  dist_eq : walk.dist =
    segmentLength geo nodes_ way walk.start_node_pos (node_pos - 1 - walk.start_node_pos)

/-- The state of the loop "create route nodes". -/
structure CreateInv (conn : List (Int × ConnectivityInfo)) (st : RouteNodesState) : Prop where
  idmap : IdMapOK st.id_to_routenode (routeIds st.route_nodes)
  empty : ∀ u, ∀ e ∈ edgesOf st.route_nodes u, e = RouteEdge.empty
  counted : ∀ r ∈ st.route_nodes, ∃ c, mapFind conn r.osmid = some c ∧
    r.edges.length = c.nedges ∧ (c.nways > 1 ∨ c.nedges ≠ 2 ∨ c.isstop = true)

/-- The stop predicate of the rail selector: `railway` is `station` or `halt`, or
`public_transport=stop_position` together with `train=yes`. -/
def StopPredicate (node : Node) : Prop :=
  node.tags.GetTag "railway" = some "station" ∨ node.tags.GetTag "railway" = some "halt" ∨
    (node.tags.GetTag "public_transport" = some "stop_position" ∧
      node.tags.GetTag "train" = some "yes")

/-- The node carries `name` as the value of its `name`, `alt_name` or `official_name` tag. -/
def CarriesName (node : Node) (name : String) : Prop :=
  node.tags.GetTag "name" = some name ∨ node.tags.GetTag "alt_name" = some name ∨
    node.tags.GetTag "official_name" = some name

/-- The source node of routing node `i`: the node of the node map under its osmid. -/
def sourceNode (eng : Engine) (i : Nat) : Option Node :=
  match eng.route_nodes_[i]? with
  | none => none
  | some r => mapFind eng.nodes_ r.osmid

/-- What holds of an engine after a compilation that completes. -/
structure Compiled (geo : GeoMath) (eng : Engine) : Prop where
  nodes_sorted : SortedKeys eng.nodes_
  nodes_keyed : KeyedById (fun n : Node => n.id_) eng.nodes_
  ways_sorted : SortedKeys eng.ways_
  ways_keyed : KeyedById (fun w : Way => w.id_) eng.ways_
  ways_rail : ∀ p ∈ eng.ways_, HasRailTag p.2
  ids_nodup : (routeIds eng.route_nodes_).Nodup
  ids_nodes : ∀ id ∈ routeIds eng.route_nodes_, ∃ node, mapFind eng.nodes_ id = some node
  edges : EdgesProv geo eng.nodes_ eng.ways_ eng.route_nodes_
  stops : ∀ name i, (name, i) ∈ eng.stops_ ↔
    ∃ node, sourceNode eng i = some node ∧ isStopNode node = true ∧ name ∈ stopNames node

/-- The ids of two nodes occupy adjacent positions in the node list of some way of the
way map. -/
def Adjacent (eng : Engine) (a b : Node) : Prop :=
  ∃ way_id way pos, mapFind eng.ways_ way_id = some way ∧
    ((way.nodes_[pos]? = some a.id_ ∧ way.nodes_[pos + 1]? = some b.id_) ∨
      (way.nodes_[pos]? = some b.id_ ∧ way.nodes_[pos + 1]? = some a.id_))

/-- Every two consecutive elements of the list are related. -/
def Linked {α : Type} (R : α → α → Prop) : List α → Prop
  | [] => True
  | [_] => True
  | a :: b :: rest => R a b ∧ Linked R (b :: rest)

/-- Two positions of a way that are next to each other. -/
def UnitStep (a b : Nat) : Prop := a = b + 1 ∨ b = a + 1

/-- The nodes `out` are the nodes of the way at the positions `ps`. -/
def NodesAt (nodes_ : List (Int × Node)) (way : Way) : List Nat → List Node → Prop
  | [], [] => True
  | pos :: ps, node :: out => nodeAt nodes_ way pos = some node ∧ NodesAt nodes_ way ps out
  | _, _ => False

/-! ## Invariants of the search -/

/-- The label `lengths[v]`. -/
def SearchState.len (st : SearchState) (v : Nat) : ELen := st.lengths.getD v none

/-- The label of `u` cannot be improved through an edge of `u`. -/
def EdgesRelaxed (rn : List RouteNode) (st : SearchState) (u : Nat) (x : Int) : Prop :=
  ∀ e ∈ edgesOf rn u, ∀ v, e.node = Int.ofNat v → ∃ y, st.len v = some y ∧ y ≤ x + e.length

/-- The part of the invariant that the outer loop and the edge scan share. -/
structure CoreInv (rn : List RouteNode) (S F : List Nat) (st : SearchState) : Prop where
  len_lengths : st.lengths.length = rn.length
  len_prevs : st.prevs.length = rn.length
  len_starts : st.starts.length = rn.length
  sorted : st.queue.Pairwise (fun a b => ¬ ELen.lt b.1 a.1 = true)
  queue_ok : ∀ p ∈ st.queue, p.2 < rn.length ∧
    ∃ k y, p.1 = some k ∧ st.len p.2 = some y ∧ y ≤ k
  sound : ∀ v y, st.len v = some y → ∃ s ∈ S, Walk rn s v y
  start_zero : ∀ s ∈ S, ∃ y, st.len s = some y ∧ y ≤ 0
  shortest_fin : ∀ s, st.shortest_length = some s → ∃ f ∈ F, ∃ y, st.len f = some y ∧ y ≤ s
  origin : ∀ v y, st.len v = some y → ∃ s ∈ S, st.starts.getD v (-1) = Int.ofNat s
  root : ∀ v y, st.len v = some y → st.prevs.getD v (-1) = -1 → st.starts.getD v (-1) = Int.ofNat v
  rank : ∃ rank : Nat → Nat, ∀ w p, st.prevs.getD w (-1) = Int.ofNat p → rank p < rank w
  origin_prev : ∀ w p, st.prevs.getD w (-1) = Int.ofNat p →
    st.starts.getD w (-1) = st.starts.getD p (-1)

/-- The invariant of the `while` loop of the search. -/
structure SearchInv (rn : List RouteNode) (S F : List Nat) (st : SearchState) : Prop where
  core : CoreInv rn S F st
  closed : ∀ v y, st.len v = some y →
    (some y, v) ∈ st.queue ∨ ∀ p ∈ st.queue, ∀ k, p.1 = some k → y ≤ k
  shortest_le : ∀ s, st.shortest_length = some s → ∀ p ∈ st.queue, ∀ k, p.1 = some k → s ≤ k
  relaxed : ∀ u x, st.len u = some x →
    (some x, u) ∈ st.queue ∨ EdgesRelaxed rn st u x ∨ ∃ s, st.shortest_length = some s ∧ s ≤ x
  prevs_ok : ∀ w, st.prevs.getD w (-1) = -1 ∨
    ∃ p, st.prevs.getD w (-1) = Int.ofNat p ∧ p < rn.length ∧
      (∃ e ∈ edgesOf rn p, e.node = Int.ofNat w) ∧
      ∃ y, st.len p = some y ∧ ∀ q ∈ st.queue, ∀ k, q.1 = some k → y ≤ k

/-- The invariant of the scan of the edges of `u`, taken from the queue with the key `x`. -/
structure ScanInv (rn : List RouteNode) (S F : List Nat) (u : Nat) (x : Int)
    (st : SearchState) : Prop where
  core : CoreInv rn S F st
  cur_lt : u < rn.length
  cur_len : st.len u = some x
  keys_ge : ∀ p ∈ st.queue, ∀ k, p.1 = some k → x ≤ k
  closed : ∀ v y, st.len v = some y → (some y, v) ∈ st.queue ∨ y ≤ x
  shortest_le : ∀ s, st.shortest_length = some s → s ≤ x
  relaxed : ∀ v, v ≠ u → ∀ y, st.len v = some y →
    (some y, v) ∈ st.queue ∨ EdgesRelaxed rn st v y ∨ ∃ s, st.shortest_length = some s ∧ s ≤ y
  prevs_ok : ∀ w, st.prevs.getD w (-1) = -1 ∨
    ∃ p, st.prevs.getD w (-1) = Int.ofNat p ∧ p < rn.length ∧
      (∃ e ∈ edgesOf rn p, e.node = Int.ofNat w) ∧ ∃ y, st.len p = some y ∧ y ≤ x

/-- The state of the loop "find stops for station A" after the stops `D` are entered. -/
structure InitInv (rn : List RouteNode) (D : List Nat) (st : SearchState) : Prop where
  len_lengths : st.lengths.length = rn.length
  len_prevs : st.prevs.length = rn.length
  len_starts : st.starts.length = rn.length
  labels : ∀ v, st.len v = none ∨
    (st.len v = some 0 ∧ v ∈ D ∧ st.starts.getD v (-1) = Int.ofNat v)
  entries : ∀ p ∈ st.queue, p.1 = some 0 ∧ p.2 ∈ D
  pending : ∀ v ∈ D, (some 0, v) ∈ st.queue ∧ st.len v = some 0
  prevs : ∀ v, st.prevs.getD v (-1) = -1
  shortest : st.shortest_length = none
  count : st.queue.length = D.length

/-- The weight of the queue entries that carry the current label of their node. -/
def liveWeight (rn : List RouteNode) (lengths : List ELen) (q : List (ELen × Nat)) : Nat :=
  (q.map (fun p => if p.1 = lengths.getD p.2 none then (edgesOf rn p.2).length else 0)).sum

/-- The weight of the nodes below `n` that have no label yet. -/
def unseenWeight (rn : List RouteNode) (lengths : List ELen) (n : Nat) : Nat :=
  ((List.range n).map
    (fun v => if lengths.getD v none = none then (edgesOf rn v).length else 0)).sum

/-- The measure that every turn of the `while` loop decreases. -/
def searchMeasure (rn : List RouteNode) (st : SearchState) : Nat :=
  st.queue.length + liveWeight rn st.lengths st.queue + unseenWeight rn st.lengths rn.length

/-! ## The uncompiled graph -/

/-- The ways of the way map. -/
def storedWays (eng : Engine) : List Way := eng.ways_.map (fun p => p.2)

/-- Every way of the list has at least 2 node references, and all of them resolve in the
node map. -/
def WellFormed (ws : List Way) (nodes_ : List (Int × Node)) : Prop :=
  ∀ way ∈ ws, 2 ≤ way.nodes_.length ∧ ∀ id ∈ way.nodes_, (mapFind nodes_ id).isSome = true

/-- No way of the list has a `oneway` or a `designated_direction` tag. -/
def NoDirectionTags (ws : List Way) : Prop :=
  ∀ way ∈ ws, way.tags.GetTag "oneway" = none ∧ way.tags.GetTag "designated_direction" = none

/-- The reference graph of the refinement claim, in its words: one vertex per node (the id
of a node of the node map) and, per pair of consecutive nodes of a way of the list, one
edge of weight Distance (of the pair in the order of the way) usable in both directions. -/
def ReferenceEdge (geo : GeoMath) (ws : List Way) (nodes_ : List (Int × Node))
    (a b : Int) (w : Int) : Prop :=
  ∃ way ∈ ws, ∃ i x y nx ny, way.nodes_[i]? = some x ∧ way.nodes_[i + 1]? = some y ∧
    mapFind nodes_ x = some nx ∧ mapFind nodes_ y = some ny ∧ w = geo.Distance nx ny ∧
    ((a = x ∧ b = y) ∨ (a = y ∧ b = x))

/-- A walk in the reference graph, with the exact sum of its weights. -/
inductive ReferenceWalk (geo : GeoMath) (ws : List Way) (nodes_ : List (Int × Node)) :
    Int → Int → Int → Prop where
  | nil (a : Int) : ReferenceWalk geo ws nodes_ a a 0
  | cons (a b c : Int) (w len : Int) :
      ReferenceEdge geo ws nodes_ a b w → ReferenceWalk geo ws nodes_ b c len →
      ReferenceWalk geo ws nodes_ a c (w + len)

/-- The node with this id is a stop that carries the name: a source, or a target, of the
reference search. -/
def IsStopOf (nodes_ : List (Int × Node)) (name : String) (id : Int) : Prop :=
  ∃ node, mapFind nodes_ id = some node ∧ isStopNode node = true ∧ name ∈ stopNames node

/-- The length `d` is that of a walk of the reference graph from a stop of `name_a` to a
stop of `name_b`. -/
def IsReferenceRouteLength (geo : GeoMath) (ws : List Way) (nodes_ : List (Int × Node))
    (name_a name_b : String) (d : Int) : Prop :=
  ∃ a b, IsStopOf nodes_ name_a a ∧ IsStopOf nodes_ name_b b ∧ ReferenceWalk geo ws nodes_ a b d

/-- The multi-source/multi-target shortest distance of the reference graph: the value a
Dijkstra search from the stops of `name_a` to the stops of `name_b` computes there. -/
def IsReferenceDistance (geo : GeoMath) (ws : List Way) (nodes_ : List (Int × Node))
    (name_a name_b : String) (d : Int) : Prop :=
  IsReferenceRouteLength geo ws nodes_ name_a name_b d ∧
    ∀ d2, IsReferenceRouteLength geo ws nodes_ name_a name_b d2 → d ≤ d2

/-- How far the compiled graph has followed a walk of the reference graph that started at
routing node `s` and has reached the node `x` with the length `len`: either `x` is a
routing node reached by a compiled walk that is not longer, or `x` lies on a way at
position `pos`, and a compiled walk to the routing node at position `r` of the same way,
continued along the way to `pos` without meeting a routing node, is not longer. -/
def Covered (geo : GeoMath) (eng : Engine) (s : Nat) (x : Int) (len : Int) : Prop :=
  (∃ v d, (routeIds eng.route_nodes_)[v]? = some x ∧ Walk eng.route_nodes_ s v d ∧ d ≤ len) ∨
  (x ∉ routeIds eng.route_nodes_ ∧
    ∃ wid way r pos idr v d, mapFind eng.ways_ wid = some way ∧
      way.nodes_[pos]? = some x ∧ way.nodes_[r]? = some idr ∧
      (routeIds eng.route_nodes_)[v]? = some idr ∧ Walk eng.route_nodes_ s v d ∧
      (∀ i, min r pos < i → i < max r pos → ∀ id, way.nodes_[i]? = some id →
        id ∉ routeIds eng.route_nodes_) ∧
      d + segmentLength geo eng.nodes_ way (min r pos) (max r pos - min r pos) ≤ len)

/-- The `nways` counter of a node in the connectivity map, 0 without an entry. -/
def nwaysOf (conn : List (Int × ConnectivityInfo)) (id : Int) : Nat :=
  match mapFind conn id with
  | some c => c.nways
  | none => 0

/-! ## Coordinates as text (ParserBase.hh, ObjectBases.hh) -/

/-- The value of an `int` expression: 32 bits, two's complement, wrapping around. -/
def wrapInt (x : Int) : Int := (x + 2147483648) % 4294967296 - 2147483648

/-- The two messages of `ParsingException` that ParseInt throws. -/
inductive ParsingException where
  | unexpectedSymbol
  | multipleDots
deriving DecidableEq, Repr

/-- The locals `value`, `fracdig` and `haddot` of ParseInt. The two counters are below the
length of the text and are not wrapped. -/
structure ParseIntState where
  value : Int
  fracdig : Nat
  haddot : Nat
deriving DecidableEq, Repr

/-- The `for` loop of ParseInt (ParserBase.hh, lines 55-65) over the characters from
`cur` on; the list ends where the C string has its terminator, and a NUL character in it
is one. The result is the state at the exit of the loop, also at the `break`. -/
def parseIntLoop (I : Nat) : List Char → ParseIntState → Except ParsingException ParseIntState
  | [], st => .ok st
  | c :: rest, st =>
    if c.toNat = 0 then .ok st
    else if 48 ≤ c.toNat ∧ c.toNat ≤ 57 then
      let value := wrapInt (wrapInt (wrapInt (st.value * 10) + Int.ofNat c.toNat) - 48)
      if st.haddot ≠ 0 then
        if st.fracdig + 1 = I then .ok { st with value := value, fracdig := st.fracdig + 1 }
        else parseIntLoop I rest { st with value := value, fracdig := st.fracdig + 1 }
      else parseIntLoop I rest { st with value := value }
    else if c = '.' then parseIntLoop I rest { st with haddot := st.haddot + 1 }
    else .error .unexpectedSymbol

/-- The loop `for (; fracdig < I; ++fracdig) value *= 10` with `count` rounds to go. -/
def padValue : Nat → Int → Int
  | 0, value => value
  | count + 1, value => padValue count (wrapInt (value * 10))

/-- ParseInt of ParserBase.hh with the template argument `I`. -/
def ParseInt (I : Nat) (str : List Char) : Except ParsingException Int :=
  let neg := str.head? = some '-'
  let cur := if neg then str.tail else str
  match parseIntLoop I cur { value := 0, fracdig := 0, haddot := 0 } with
  | .error err => .error err
  | .ok st =>
    if st.haddot > 1 then .error .multipleDots
    else
      let value := padValue (I - st.fracdig) st.value
      .ok (if neg then wrapInt (-value) else value)

/-- The character of a decimal digit. -/
def digitChar (d : Nat) : Char := Char.ofNat (48 + d)

/-- The decimal digits of a natural number, most significant first, as `operator<<`
writes them; `fuel` bounds the number of digits. -/
def natDigits : Nat → Nat → List Char
  | 0, _ => []
  | fuel + 1, n =>
    if n < 10 then [digitChar n] else natDigits fuel (n / 10) ++ [digitChar (n % 10)]

/-- The text `operator<<` writes for an `int` in decimal. -/
def showInt (x : Int) : List Char :=
  if x < 0 then '-' :: natDigits (x.natAbs + 1) x.natAbs
  else natDigits (x.natAbs + 1) x.natAbs

/-- The effect of `std::setw(width)` with `std::setfill(fill)` on the next item: it is
padded on the left up to the width. -/
def padLeft (width : Nat) (fill : Char) (text : List Char) : List Char :=
  List.replicate (width - text.length) fill ++ text

/-- The loop `while (lo % 10 == 0) { lo /= 10; ++w; }` of DumpCoord; it ends within 32
rounds for a `lo` other than 0. -/
def stripZeros : Nat → Int → Nat → Int × Nat
  | 0, lo, w => (lo, w)
  | fuel + 1, lo, w =>
    if Int.tmod lo 10 = 0 then stripZeros fuel (Int.tdiv lo 10) (w + 1) else (lo, w)

/-- The `shift_` of LonLat. -/
def shift_ : Int := 10000000

/-- LonLat::DumpCoord (ObjectBases.hh, lines 119-143): the characters written to a stream
that is in its initial formatting state (decimal, width 0). -/
def DumpCoord (coord : Int) : List Char :=
  let neg := decide (coord < 0)
  let val := if coord < 0 then wrapInt (-coord) else coord
  let hi := Int.tdiv val shift_
  let lo0 := wrapInt (val - wrapInt (hi * shift_))
  let stripped := if lo0 = 0 then (lo0, 0) else stripZeros 32 lo0 0
  let sign : List Char := if neg then ['-'] else []
  if stripped.1 ≠ 0 then
    sign ++ showInt hi ++ ['.'] ++ padLeft (7 - stripped.2) '0' (showInt stripped.1)
  else sign ++ showInt hi

/-- The number that a sequence of decimal digits forms. -/
def decimalValue (digits : List Char) : Nat :=
  digits.foldl (fun acc c => acc * 10 + (c.toNat - 48)) 0

/-- Every character of the text is a decimal digit. -/
def AllDigits (text : List Char) : Prop := ∀ c ∈ text, 48 ≤ c.toNat ∧ c.toNat ≤ 57

/-- The text `[-]D[.F]`: an optional minus, the digits `D` and, when `frac` is `some F`,
a dot and the digits `F`. -/
def decimalText (neg : Bool) (D : List Char) (frac : Option (List Char)) : List Char :=
  (if neg then ['-'] else []) ++
    (match frac with
     | none => D
     | some F => D ++ '.' :: F)

/-- The fixed-point reading of `[-]D[.F]` in the words of the specification: the sign
applied to `D * 10^7 + F1 * 10^(7 - k)`, where `F1` is the number of the first
`k = min |F| 7` digits of `F`. -/
def fixedPointValue (neg : Bool) (D : List Char) (frac : Option (List Char)) : Int :=
  let F := frac.getD []
  let k := min F.length 7
  (if neg then -1 else 1) *
    Int.ofNat (decimalValue D * 10 ^ 7 + decimalValue (F.take k) * 10 ^ (7 - k))

/-! ## lazyinit_array (lazyinit_array.hh) -/

/-- The members of `lazyinit_array<T, EltPerPage>`: the cells of `data_`, the bytes of the
bitmap `page_initialized_`, `size_` and `default_`. The template argument `EltPerPage`
is the parameter `epp` of the operations. -/
structure LazyArray (α : Type) where
  data_ : List α
  page_initialized_ : List Nat
  size_ : Nat
  default_ : α
deriving DecidableEq, Repr

/-- The `GetBitmapSize` of lazyinit_array.hh, in `size_t` arithmetic for sizes that an
allocation can have (no wrap-around). -/
def GetBitmapSize (epp size : Nat) : Nat := ((size + epp - 1) / epp + 7) / 8

/-- The constructor `lazyinit_array(size, def)`: the cells of `new T[size]` hold whatever
the allocation holds, given here by `raw`; the bitmap is filled with 0. -/
def LazyArray.create {α : Type} (epp size : Nat) (d : α) (raw : Nat → α) : LazyArray α :=
  { data_ := (List.range size).map raw
    page_initialized_ := List.replicate (GetBitmapSize epp size) 0
    size_ := size
    default_ := d }

/-- The test `page_initialized_[npage / 8] & (1 << (npage % 8))` on the byte. -/
def pageBit (byte k : Nat) : Bool := (byte &&& (1 <<< k)) != 0

/-- The update `|= (1 << (npage % 8))` of an `unsigned char`. -/
def setPageBit (byte k : Nat) : Nat := (byte ||| (1 <<< k)) % 256

/-- The `std::fill(first, last, value)` over the cells from position `lo` up to, not
including, `hi`; `i` is the position of the head of the list. -/
def fillCells {α : Type} (lo hi : Nat) (v : α) : Nat → List α → List α
  | _, [] => []
  | i, x :: rest => (if lo ≤ i ∧ i < hi then v else x) :: fillCells lo hi v (i + 1) rest

/-- The body of the non-const `operator[]` up to the `return`: the page of `n` is filled
with the default on its first access. `none` is undefined behaviour: an index outside the
array or a byte outside the bitmap. -/
def LazyArray.touch {α : Type} (epp : Nat) (a : LazyArray α) (n : Nat) :
    Option (LazyArray α) :=
  if a.size_ ≤ n then none
  else
    let npage := n / epp
    match a.page_initialized_[npage / 8]? with
    | none => none
    | some byte =>
      if pageBit byte (npage % 8) = false then
        some { a with
          data_ := fillCells (npage * epp) (min (npage * epp + epp) a.size_) a.default_ 0
            a.data_
          page_initialized_ := a.page_initialized_.set (npage / 8) (setPageBit byte (npage % 8)) }
      else some a

/-- An assignment `a[n] = v` through the reference the non-const `operator[]` returns. -/
def LazyArray.write {α : Type} (epp : Nat) (a : LazyArray α) (n : Nat) (v : α) :
    Option (LazyArray α) :=
  match a.touch epp n with
  | none => none
  | some a1 => some { a1 with data_ := a1.data_.set n v }

/-- A read `a[n]` through the non-const `operator[]`: the array afterwards and the value. -/
def LazyArray.read {α : Type} (epp : Nat) (a : LazyArray α) (n : Nat) :
    Option (LazyArray α × α) :=
  match a.touch epp n with
  | none => none
  | some a1 =>
    match a1.data_[n]? with
    | none => none
    | some v => some (a1, v)

/-- The const `operator[]`: the default when the page is not initialized. -/
def LazyArray.readConst {α : Type} (epp : Nat) (a : LazyArray α) (n : Nat) : Option α :=
  if a.size_ ≤ n then none
  else
    match a.page_initialized_[n / epp / 8]? with
    | none => none
    | some byte =>
      if pageBit byte (n / epp % 8) = false then some a.default_
      else a.data_[n]?

/-- A sequence of assignments `a[i] = v`, in order. -/
def LazyArray.writes {α : Type} (epp : Nat) :
    List (Nat × α) → LazyArray α → Option (LazyArray α)
  | [], a => some a
  | (i, v) :: rest, a =>
    match a.write epp i v with
    | none => none
    | some a1 => LazyArray.writes epp rest a1

/-- The plain array of the refinement claim after the same assignments: it starts
pre-filled with the default. -/
def plainWrites {α : Type} (ws : List (Nat × α)) (cells : List α) : List α :=
  ws.foldl (fun l w => l.set w.1 w.2) cells

/-- The value of the last assignment to index `j` in the sequence, or `cur` when there is
none. -/
def lastWritten {α : Type} : List (Nat × α) → Nat → α → α
  | [], _, cur => cur
  | (i, v) :: rest, j, cur => lastWritten rest j (if i = j then v else cur)

/-- The page of `n` is marked in the bitmap. -/
def LazyArray.pageInit {α : Type} (epp : Nat) (a : LazyArray α) (n : Nat) : Bool :=
  match a.page_initialized_[n / epp / 8]? with
  | none => false
  | some byte => pageBit byte (n / epp % 8)

/-- The lazy array `a` represents the plain array `cells`: a cell of an initialized page
holds the plain value, and the plain value of a cell of any other page is the default. -/
structure LazyRep {α : Type} (epp : Nat) (a : LazyArray α) (cells : List α) : Prop where
  size_eq : a.size_ = cells.length
  data_len : a.data_.length = a.size_
  bitmap_len : a.page_initialized_.length = GetBitmapSize epp a.size_
  init_cell : ∀ n, n < a.size_ → a.pageInit epp n = true → a.data_[n]? = cells[n]?
  lazy_cell : ∀ n, n < a.size_ → a.pageInit epp n = false → cells[n]? = some a.default_

/-! ## Counts of the connectivity pass -/

/-- The entry of a node in the connectivity map, default-constructed without one. -/
def connGet (conn : List (Int × ConnectivityInfo)) (id : Int) : ConnectivityInfo :=
  (mapFind conn id).getD ConnectivityInfo.empty

/-- The incident-edge-ends of the node `x` over the node references `ids` of a way, which
stand at the positions `i`, `i + 1`, ... of a way with `count` references: 1 per
occurrence at an endpoint, 2 per interior occurrence. -/
def endsFrom (count : Nat) (x : Int) : Nat → List Int → Nat
  | _, [] => 0
  | i, id :: rest =>
    (if id = x then (if i = 0 ∨ i = count - 1 then 1 else 2) else 0) +
      endsFrom count x (i + 1) rest

/-- The incident-edge-ends count of a node over the ways of a way map that have at least
2 node references. -/
def edgeEnds (ways : List (Int × Way)) (x : Int) : Nat :=
  (ways.map (fun entry =>
    if 2 ≤ entry.2.nodes_.length then endsFrom entry.2.nodes_.length x 0 entry.2.nodes_
    else 0)).sum

/-- The occurrence count of a node over the ways of a way map that have at least 2 node
references. -/
def occurrenceCount (ways : List (Int × Way)) (x : Int) : Nat :=
  (ways.map (fun entry =>
    if 2 ≤ entry.2.nodes_.length then entry.2.nodes_.count x else 0)).sum

/-- The node is marked as a stop by the loop "find stops": it satisfies the stop test and
has a `name`, `alt_name` or `official_name` tag. -/
def markedStop (node : Node) : Bool := isStopNode node && !(stopNames node).isEmpty

/-- The number of edge slots of routing node `u` that are free for the slot search of
lines 177 and 194: those whose `osmid` is 0. -/
def freeSlots (rn : List RouteNode) (u : Nat) : Nat :=
  (edgesOf rn u).countP (fun e => e.osmid = 0)

/-! ## Example data -/

/-- A distance for the examples: the sum of the coordinate differences. -/
def exGeo : GeoMath :=
  { Distance := fun a b => Int.ofNat ((a.lon_ - b.lon_).natAbs + (a.lat_ - b.lat_).natAbs),
    Bearing := fun _ _ => 0 }

/-- Station A at (0, 0). -/
def exNode1 : Node := ⟨1, 0, 0, ⟨[("name", "A"), ("railway", "station")]⟩⟩

/-- A plain node at (0, 0.001). -/
def exNode2 : Node := ⟨2, 0, 10000, ⟨[]⟩⟩

/-- Station B at (0, 0.002). -/
def exNode3 : Node := ⟨3, 0, 20000, ⟨[("name", "B"), ("railway", "station")]⟩⟩

/-- The rail way 10 through the three nodes (scenario S1). -/
def exWay : Way := ⟨10, ⟨[("railway", "rail")]⟩, [1, 2, 3]⟩

/-- A second rail way carrying the id 10, over other nodes. -/
def exWayDup : Way := ⟨10, ⟨[("railway", "rail")]⟩, [7, 8]⟩

/-- A rail way with the id 11. -/
def exWay11 : Way := ⟨11, ⟨[("railway", "rail")]⟩, [3, 4]⟩

/-- A way that is a road, not a railway. -/
def exWayPlain : Way := ⟨12, ⟨[("highway", "residential")]⟩, [1, 2]⟩

/-- The engine compiled from scenario S1. -/
def exEngine : Engine :=
  { nodes_ := [(1, exNode1), (2, exNode2), (3, exNode3)]
    ways_ := [(10, exWay)]
    needed_nodes_ := []
    stops_ := [("A", 0), ("B", 1)]
    route_nodes_ :=
      [⟨1, [⟨10, 0, 2, 1, 0, 20000⟩]⟩, ⟨3, [⟨10, 2, 0, 0, 0, 20000⟩]⟩]
    route_edge_pool_ := ⟨1, 1022, 1024⟩ }

/-- The rail way 10 with `oneway=yes` (scenario S2). -/
def exWayOneway : Way := ⟨10, ⟨[("oneway", "yes"), ("railway", "rail")]⟩, [1, 2, 3]⟩

/-- The engine compiled from scenario S2: only the forward edge is there. -/
def exEngineOneway : Engine :=
  { nodes_ := [(1, exNode1), (2, exNode2), (3, exNode3)]
    ways_ := [(10, exWayOneway)]
    needed_nodes_ := []
    stops_ := [("A", 0), ("B", 1)]
    route_nodes_ :=
      [⟨1, [⟨10, 0, 2, 1, 0, 20000⟩]⟩, ⟨3, [RouteEdge.empty]⟩]
    route_edge_pool_ := ⟨1, 1022, 1024⟩ }

/-- The result of the query from A to B in scenario S1. -/
def exRouteResult : FindRouteResult :=
  ⟨.OK, 1, 1, some exNode1, some exNode3, some 20000, [exNode1, exNode2, exNode3], []⟩

/-- A plain node at (0, 0.003). -/
def exNode4 : Node := ⟨4, 0, 30000, ⟨[]⟩⟩

/-- Halt C at the place of node 2. -/
def exNode2Stop : Node := ⟨2, 0, 10000, ⟨[("name", "C"), ("railway", "halt")]⟩⟩

/-- The rail way 10 through four nodes; the examples leave node 2 out of the input. -/
def exWayGap : Way := ⟨10, ⟨[("railway", "rail")]⟩, [1, 2, 3, 4]⟩

/-- The engine compiled from the way `exWayGap` and the nodes 1, 3 and 4: the walk along
the way stops at the missing node 2, and every edge slot is left as constructed. -/
def exEngineGap : Engine :=
  { nodes_ := [(1, exNode1), (3, exNode3), (4, exNode4)]
    ways_ := [(10, exWayGap)]
    needed_nodes_ := []
    stops_ := [("A", 0), ("B", 1)]
    route_nodes_ :=
      [⟨1, [RouteEdge.empty]⟩, ⟨3, [RouteEdge.empty, RouteEdge.empty]⟩, ⟨4, [RouteEdge.empty]⟩]
    route_edge_pool_ := ⟨1, 1020, 1024⟩ }

/-- A rail way with the id 0 through the three nodes. -/
def exWayZero : Way := ⟨0, ⟨[("railway", "rail")]⟩, [1, 2, 3]⟩

/-- The engine compiled from the way `exWayZero` and the nodes 1, 2 (the halt C) and 3:
the edge from node 2 back to node 1 was written into the first slot of routing node 1 and
then overwritten by the edge from node 2 on to node 3. -/
def exEngineZero : Engine :=
  { nodes_ := [(1, exNode1), (2, exNode2Stop), (3, exNode3)]
    ways_ := [(0, exWayZero)]
    needed_nodes_ := []
    stops_ := [("A", 0), ("B", 2), ("C", 1)]
    route_nodes_ :=
      [⟨1, [⟨0, 0, 1, 1, 0, 10000⟩]⟩,
       ⟨2, [⟨0, 1, 2, 2, 0, 10000⟩, RouteEdge.empty]⟩,
       ⟨3, [⟨0, 2, 1, 1, 0, 10000⟩]⟩]
    route_edge_pool_ := ⟨1, 1020, 1024⟩ }

/-- The rail way 5 from node 3 over node 4 back to node 1. -/
def exWayBack : Way := ⟨5, ⟨[("railway", "rail")]⟩, [3, 4, 1]⟩

/-- The engine compiled from the ways `exWayZero` and `exWayBack` and the nodes 1, 2 (the
halt C), 3 and 4: the edges that the way 0 wrote into the routing nodes 0 and 2 were
overwritten by those of the way 5, and only the edge from node 2 to node 3 is left of it. -/
def exEngineDetour : Engine :=
  { nodes_ := [(1, exNode1), (2, exNode2Stop), (3, exNode3), (4, exNode4)]
    ways_ := [(0, exWayZero), (5, exWayBack)]
    needed_nodes_ := []
    stops_ := [("A", 0), ("B", 2), ("C", 1)]
    route_nodes_ :=
      [⟨1, [⟨5, 2, 0, 2, 0, 40000⟩, RouteEdge.empty]⟩,
       ⟨2, [⟨0, 1, 2, 2, 0, 10000⟩, RouteEdge.empty]⟩,
       ⟨3, [⟨5, 0, 2, 0, 0, 40000⟩, RouteEdge.empty]⟩]
    route_edge_pool_ := ⟨1, 1018, 1024⟩ }

/-- The result of the query from B to A on `exEngineDetour`: the way round over node 4. -/
def exDetourResult : FindRouteResult :=
  ⟨.OK, 1, 1, some exNode3, some exNode1, some 40000, [exNode3, exNode4, exNode1], []⟩

/-- A plain node off the line, at (0.0005, 0.001). -/
def exNode5 : Node := ⟨5, 5000, 10000, ⟨[]⟩⟩

/-- The rail way 10 from node 1 over node 5 to node 3. -/
def exWayBend : Way := ⟨10, ⟨[("railway", "rail")]⟩, [1, 5, 3]⟩

/-- A second rail way carrying the id 10, straight from node 1 to node 3. -/
def exWayChord : Way := ⟨10, ⟨[("railway", "rail")]⟩, [1, 3]⟩

/-- The engine compiled from the ways `exWayBend` and `exWayChord` (in this order) and the
nodes 1, 5 and 3: the way map holds `exWayBend` only. -/
def exEngineBend : Engine :=
  { nodes_ := [(1, exNode1), (3, exNode3), (5, exNode5)]
    ways_ := [(10, exWayBend)]
    needed_nodes_ := []
    stops_ := [("A", 0), ("B", 1)]
    route_nodes_ :=
      [⟨1, [⟨10, 0, 2, 1, 0, 30000⟩]⟩, ⟨3, [⟨10, 2, 0, 0, 0, 30000⟩]⟩]
    route_edge_pool_ := ⟨1, 1022, 1024⟩ }

/-- The result of the query from A to B on `exEngineBend`: along the way over node 5. -/
def exBendResult : FindRouteResult :=
  ⟨.OK, 1, 1, some exNode1, some exNode3, some 30000, [exNode1, exNode5, exNode3], []⟩

/-- A station at the place of node 2 that has none of the three name tags. -/
def exNode2Unnamed : Node := ⟨2, 0, 10000, ⟨[("railway", "station")]⟩⟩

/-- The engine compiled from scenario S1 with the unnamed station as node 2: the routing
nodes are those of the nodes 1 and 3. -/
def exEngineUnnamed : Engine :=
  { nodes_ := [(1, exNode1), (2, exNode2Unnamed), (3, exNode3)]
    ways_ := [(10, exWay)]
    needed_nodes_ := []
    stops_ := [("A", 0), ("B", 1)]
    route_nodes_ :=
      [⟨1, [⟨10, 0, 2, 1, 0, 20000⟩]⟩, ⟨3, [⟨10, 2, 0, 0, 0, 20000⟩]⟩]
    route_edge_pool_ := ⟨1, 1022, 1024⟩ }

/-- A rail way with a single node reference. -/
def exWaySingle : Way := ⟨20, ⟨[("railway", "rail")]⟩, [9]⟩

/-- A plain node that only the way `exWaySingle` references. -/
def exNode9 : Node := ⟨9, 0, 0, ⟨[]⟩⟩

/-- Station A carrying its name in both the `name` and the `alt_name` tag. -/
def exNode1Twice : Node :=
  ⟨1, 0, 0, ⟨[("alt_name", "A"), ("name", "A"), ("railway", "station")]⟩⟩

/-- The engine compiled from scenario S1 with `exNode1Twice` as node 1: the stop index
holds the entry ("A", 0) twice. -/
def exEngineTwice : Engine :=
  { nodes_ := [(1, exNode1Twice), (2, exNode2), (3, exNode3)]
    ways_ := [(10, exWay)]
    needed_nodes_ := []
    stops_ := [("A", 0), ("A", 0), ("B", 1)]
    route_nodes_ :=
      [⟨1, [⟨10, 0, 2, 1, 0, 20000⟩]⟩, ⟨3, [⟨10, 2, 0, 0, 0, 20000⟩]⟩]
    route_edge_pool_ := ⟨1, 1022, 1024⟩ }

/-- The result of the query from A to B on `exEngineTwice`: the start count is 2. -/
def exTwiceResult : FindRouteResult :=
  ⟨.OK, 2, 1, some exNode1Twice, some exNode3, some 20000, [exNode1Twice, exNode2, exNode3], []⟩

/-- A result object holding the distance 5. -/
def exResult5 : FindRouteResult := ⟨.OK, 0, 0, none, none, some 5, [], []⟩

/-- A result object holding the distance 7. -/
def exResult7 : FindRouteResult := ⟨.OK, 0, 0, none, none, some 7, [], []⟩

end RailRouting

namespace RailRouting

/-! ## Copies of a lazyinit_array (lazyinit_array.hh, lines 60-80) -/

/-- The copy constructor `lazyinit_array(const self& other)`: `data_` is a fresh array that
receives the `size_` cells of `other`; `page_initialized_` is a fresh array of
`GetBitmapSize(other.size_)` bytes, whose content `rawBitmap` the second `std::copy`
copies from `page_initialized_.get()` onto itself. -/
def LazyArray.copy {α : Type} (epp : Nat) (other : LazyArray α) (rawBitmap : Nat → Nat) :
    LazyArray α :=
  { data_ := other.data_.take other.size_
    page_initialized_ := (List.range (GetBitmapSize epp other.size_)).map
      (fun i => rawBitmap i % 256)
    size_ := other.size_
    default_ := other.default_ }

/-- The `operator=(const self& other)` on an array other than `other`: both arrays are
replaced by fresh ones, the cells are copied from `other`, and the second `std::copy`
copies the fresh bitmap, of content `rawBitmap`, onto itself. -/
def LazyArray.assign {α : Type} (epp : Nat) (_self other : LazyArray α)
    (rawBitmap : Nat → Nat) : LazyArray α :=
  { data_ := other.data_.take other.size_
    page_initialized_ := (List.range (GetBitmapSize epp other.size_)).map
      (fun i => rawBitmap i % 256)
    size_ := other.size_
    default_ := other.default_ }

/-! ## The pool (pool.hh) -/

/-- GetFreeSpace (pool.hh, lines 35-50) with the members after the call, also when it
throws: the `throw` of line 37 comes before any member is written. The place returned is
the index of the chunk and the offset in it; `chunks_.back()` on a pool without chunks is
undefined behaviour. -/
def Pool.GetFreeSpace (p : Pool) (count : Nat) : Pool × Except PrepareError (Nat × Nat) :=
  if count > p.chunk_size_ then (p, .error .lengthError)
  else
    let p1 : Pool :=
      if p.last_chunk_free_ < count then
        { p with chunks_ := p.chunks_ + 1, last_chunk_free_ := p.chunk_size_ }
      else p
    if p1.chunks_ = 0 then (p1, .error .poolUndefined)
    else (p1, .ok (p1.chunks_ - 1, p1.chunk_size_ - p1.last_chunk_free_))

/-- pool::alloc (pool.hh, lines 60-65) with the members after the call: the placement
`new` builds one `T` at the place, which is undefined behaviour one past the end of the
chunk (no slot of the last chunk is free), and `last_chunk_free_` goes down by `count`. -/
def Pool.allocState (p : Pool) (count : Nat) : Pool × Except PrepareError (Nat × Nat) :=
  match p.GetFreeSpace count with
  | (p1, .error err) => (p1, .error err)
  | (p1, .ok place) =>
    if p1.last_chunk_free_ = 0 then (p1, .error .poolUndefined)
    else ({ p1 with last_chunk_free_ := p1.last_chunk_free_ - count }, .ok place)

/-- A span of slots handed out by the pool: the index of the chunk, the offset of the first
slot in the chunk and the number of slots. -/
structure Span where
  chunk : Nat
  offset : Nat
  count : Nat
deriving DecidableEq, Repr

/-- A sequence of `alloc` calls, in order: the pool afterwards and the spans returned. -/
def Pool.allocs : Pool → List Nat → Except PrepareError (Pool × List Span)
  | p, [] => .ok (p, [])
  | p, count :: rest =>
    match p.alloc count with
    | .error err => .error err
    | .ok (p1, chunk, offset) =>
      match Pool.allocs p1 rest with
      | .error err => .error err
      | .ok (p2, spans) => .ok (p2, { chunk := chunk, offset := offset, count := count } :: spans)

/-- Two spans share no slot. -/
def Span.Disjoint (a b : Span) : Prop :=
  a.chunk ≠ b.chunk ∨ a.offset + a.count ≤ b.offset ∨ b.offset + b.count ≤ a.offset

/-- The pool after construction with the chunk size `n`. -/
def Pool.empty (n : Nat) : Pool := { chunks_ := 0, last_chunk_free_ := 0, chunk_size_ := n }

/-- The members of a pool are consistent: the free count is at most the chunk size, and it
is 0 while there is no chunk. -/
def Pool.Valid (p : Pool) : Prop :=
  p.last_chunk_free_ ≤ p.chunk_size_ ∧ (p.chunks_ = 0 → p.last_chunk_free_ = 0)

/-! ## Tags and entity ids (ObjectBases.hh, Objects.hh) -/

/-- The `tags_.insert(std::make_pair(key, value))` of the
`std::map<std::string, std::string>`: the map afterwards and `res.second`. The pair goes
before the first greater key; an equal key stops the insertion. -/
def tagMapInsert (m : List (String × String)) (k v : String) : List (String × String) × Bool :=
  match m with
  | [] => ([(k, v)], true)
  | (k1, v1) :: rest =>
    if strLt k k1 then ((k, v) :: (k1, v1) :: rest, true)
    else if k = k1 then ((k1, v1) :: rest, false)
    else ((k1, v1) :: (tagMapInsert rest k v).1, (tagMapInsert rest k v).2)

/-- TagContainer::AddTag: the container afterwards and the `bool` returned. -/
def TagContainer.AddTag (t : TagContainer) (key value : String) : TagContainer × Bool :=
  ({ tags_ := (tagMapInsert t.tags_ key value).1 }, (tagMapInsert t.tags_ key value).2)

/-- The keys of `tags_` increase strictly, as in every `std::map`. -/
def TagContainer.Sorted (t : TagContainer) : Prop :=
  t.tags_.Pairwise (fun a b => strLt a.1 b.1 = true)

/-- ObjectBase::GetId of a node. -/
def Node.GetId (n : Node) : Int := n.id_

/-- ObjectBase::GetId of a way. -/
def Way.GetId (w : Way) : Int := w.id_

/-- The constructor `Node(osmint_t id, int lat, int lon)` called with a 64-bit id, as
StartElement does with the `long` of `strtol`: the argument is converted to the 32-bit
`osmint_t` before `ObjectBase(id)` stores it. -/
def Node.create (id lat lon : Int) : Node :=
  { id_ := wrapInt id, lon_ := lon, lat_ := lat, tags := { tags_ := [] } }

/-- The constructor `Way(osmint_t id)` called with a 64-bit id. -/
def Way.create (id : Int) : Way :=
  { id_ := wrapInt id, tags := { tags_ := [] }, nodes_ := [] }

/-- Relation::MemberType. -/
inductive MemberType where
  | NODE
  | WAY
  | RELATION
deriving DecidableEq, Repr

/-- Relation of Objects.hh: id, tags and the members (type, id, role). -/
structure Relation where
  id_ : Int
  tags : TagContainer
  members_ : List (MemberType × Int × String)
deriving DecidableEq, Repr

/-- ObjectBase::GetId of a relation. -/
def Relation.GetId (r : Relation) : Int := r.id_

/-- The constructor `Relation(osmint_t id)` called with a 64-bit id. -/
def Relation.create (id : Int) : Relation :=
  { id_ := wrapInt id, tags := { tags_ := [] }, members_ := [] }

/-! ## Attribute values in XML (ObjectBases.hh, lines 44-62) -/

/-- The text that one turn of the `switch` of XMLEncodeAttr appends for the character. -/
def encodeChar (c : Char) : List Char :=
  if c = '&' then "&amp;".data
  else if c = '<' then "&lt;".data
  else if c = '>' then "&gt;".data
  else if c.toNat = 34 then "&quot;".data
  else if c.toNat = 39 then "&apos;".data
  else if c.toNat = 9 then "&#x9;".data
  else if c.toNat = 10 then "&#xA;".data
  else if c.toNat = 13 then "&#xD;".data
  else [c]

/-- XMLEncodeAttr: the loop appends the text of each character to `temp`. -/
def XMLEncodeAttr (str : List Char) : List Char :=
  str.foldl (fun temp c => temp ++ encodeChar c) []

/-- The eight entities of the specification with the character each one stands for. -/
def entityTable : List (List Char × Char) :=
  [("&amp;".data, '&'), ("&lt;".data, '<'), ("&gt;".data, '>'),
   ("&quot;".data, Char.ofNat 34), ("&apos;".data, Char.ofNat 39),
   ("&#x9;".data, Char.ofNat 9), ("&#xA;".data, Char.ofNat 10),
   ("&#xD;".data, Char.ofNat 13)]

/-- The rest of `text` after the leading `name`, when `text` starts with `name`. -/
def stripLeading : List Char → List Char → Option (List Char)
  | [], text => some text
  | _ :: _, [] => none
  | a :: name, c :: text => if a = c then stripLeading name text else none

/-- The entity that `text` starts with: its character and the text after it. -/
def matchEntity (text : List Char) : Option (Char × List Char) :=
  entityTable.findSome? (fun e => (stripLeading e.1 text).map (fun rest => (e.2, rest)))

/-- The decoder of the specification: an entity of the table is replaced by its
character, every other character is kept. The fuel bounds the number of steps. -/
def decodeEntities : Nat → List Char → List Char
  | 0, _ => []
  | _ + 1, [] => []
  | fuel + 1, c :: rest =>
    match matchEntity (c :: rest) with
    | some (ch, remaining) => ch :: decodeEntities fuel remaining
    | none => c :: decodeEntities fuel rest

/-- The decoder on a whole text: one step per character suffices. -/
def XMLDecodeAttr (text : List Char) : List Char := decodeEntities text.length text

/-- The character is one of the raw characters `<`, `>`, `"`, the apostrophe, TAB, LF
and CR. -/
def IsRawSpecial (c : Char) : Prop :=
  c = '<' ∨ c = '>' ∨ c.toNat = 34 ∨ c.toNat = 39 ∨ c.toNat = 9 ∨ c.toNat = 10 ∨ c.toNat = 13

/-! ## The search without the early exit -/

/-- The variant of `scanEdges` in which the test `new_length > shortest_length` with its
`break` (lines 294-296) is removed. -/
def scanEdgesNoBreak (current_node : Nat) (edges : List RouteEdge) (st : SearchState) :
    SearchState :=
  match edges with
  | [] => st
  | e :: rest =>
    let new_length := ELen.addLen (st.lengths.getD current_node none) e.length
    if e.node = -1 then scanEdgesNoBreak current_node rest st
    else
      let other_node := e.node.toNat
      if ELen.lt new_length (st.lengths.getD other_node none) then
        scanEdgesNoBreak current_node rest (relax st current_node other_node new_length)
      else scanEdgesNoBreak current_node rest st

/-- The `while` loop of the search with `scanEdgesNoBreak` for the edge scan. -/
def dijkstraLoopNoBreak (route_nodes : List RouteNode) (fin_nodes : List Nat) :
    Nat → SearchState → Option SearchState
  | 0, st =>
    match st.queue with
    | [] => some st
    | _ :: _ => none
  | fuel + 1, st =>
    match st.queue with
    | [] => some st
    | (current_length, current_node) :: rest =>
      let st1 := { st with queue := rest }
      if ELen.lt (st1.lengths.getD current_node none) current_length then
        dijkstraLoopNoBreak route_nodes fin_nodes fuel st1
      else
        let st2 :=
          if current_node ∈ fin_nodes then
            { st1 with
              shortest_length :=
                ELen.min st1.shortest_length (st1.lengths.getD current_node none) }
          else st1
        dijkstraLoopNoBreak route_nodes fin_nodes fuel
          (scanEdgesNoBreak current_node (edgesOf route_nodes current_node) st2)

/-- The variant of FindRoute in which the early exit from the edge scan is removed; every
other line is that of `FindRoute`. -/
def FindRouteNoBreak (geo : GeoMath) (eng : Engine) (fuel : Nat) (name_a name_b : String)
    (result : FindRouteResult) : Except FRError (Bool × FindRouteResult) :=
  let size := eng.route_nodes_.length
  let st0 : SearchState :=
    { queue := [], starts := List.replicate size (-1), prevs := List.replicate size (-1),
      lengths := List.replicate size none, shortest_length := none }
  let result := { result with start_count := 0, end_count := 0 }
  match initStarts (equalRange eng.stops_ name_a) [] st0 result.start_count with
  | (start_nodes, st1, start_count) =>
    let result := { result with start_count := start_count }
    match initFins (equalRange eng.stops_ name_b) [] result.end_count with
    | (fin_nodes, end_count) =>
      let result := { result with end_count := end_count }
      match start_nodes, fin_nodes with
      | [], [] => .ok (false, { result with status := .BOTH_STATIONS_NOT_FOUND })
      | [], _ :: _ => .ok (false, { result with status := .START_STATION_NOT_FOUND })
      | _ :: _, [] => .ok (false, { result with status := .END_STATION_NOT_FOUND })
      | _ :: _, first_fin :: more_fins =>
        match dijkstraLoopNoBreak eng.route_nodes_ fin_nodes fuel st1 with
        | none => .error .outOfFuel
        | some st =>
          match closestFin st.lengths more_fins first_fin (st.lengths.getD first_fin none) with
          | (_, none) => .ok (false, { result with status := .NO_ROUTE_FOUND })
          | (best_fin, some best_length) =>
            match eng.route_nodes_[(st.starts.getD best_fin (-1)).toNat]?,
                eng.route_nodes_[best_fin]? with
            | some start_rn, some end_rn =>
              match mapFind eng.nodes_ start_rn.osmid with
              | none => .error .assertStartNode
              | some start_node =>
                match mapFind eng.nodes_ end_rn.osmid with
                | none => .error .assertEndNode
                | some end_node =>
                  let result :=
                    { result with
                      start_node := some start_node
                      end_node := some end_node
                      distance := some best_length
                      status := .OK }
                  match recoverRoute eng st.prevs fuel best_fin (st.prevs.getD best_fin (-1))
                      [] with
                  | .error err => .error err
                  | .ok temp_nodes =>
                    let temp_nodes := (temp_nodes ++ [start_node]).reverse
                    .ok (true,
                      { result with
                        route_nodes := temp_nodes
                        sharp_turns := findSharpTurns geo temp_nodes })
            | _, _ => .error .outOfRange

/-! ## Lengths along a route -/

/-- The sum of Distance over the consecutive pairs of a list of nodes. -/
def pathLength (geo : GeoMath) : List Node → Int
  | a :: b :: rest => geo.Distance a b + pathLength geo (b :: rest)
  | _ => 0

/-! ## ChangeTag (ObjectBases.hh, lines 212-218) -/

/-- The position of the element that the iterator `res.first` of
`tags_.insert(std::make_pair(key, value))` points to: the inserted pair, or the pair that
holds the key already. -/
def tagMapInsertPos (m : List (String × String)) (k : String) : Nat :=
  match m with
  | [] => 0
  | (k1, _) :: rest =>
    if strLt k k1 then 0
    else if k = k1 then 0
    else tagMapInsertPos rest k + 1

/-- The assignment `it->second = value` through an iterator to the element at `pos`. -/
def tagMapAssign (m : List (String × String)) (pos : Nat) (v : String) :
    List (String × String) :=
  match m[pos]? with
  | none => m
  | some p => m.set pos (p.1, v)

/-- TagContainer::ChangeTag: the container afterwards and the `bool` returned. -/
def TagContainer.ChangeTag (t : TagContainer) (key value : String) : TagContainer × Bool :=
  let res := tagMapInsert t.tags_ key value
  if res.2 = false then ({ tags_ := res.1 }, false)
  else ({ tags_ := tagMapAssign res.1 (tagMapInsertPos t.tags_ key) value }, true)

/-! ## Sharp turns in the words of the specification -/

/-- The difference of two bearings converted to degrees, in the arithmetic of doubles:
`(bearing - prev_bearing) / M_PI * 180.0`. -/
def turnDegrees (prev_bearing bearing : Int) : Int :=
  dmul (ddiv (dsub bearing prev_bearing) M_PI) (180 * dblOne)

/-- A number of degrees normalised by a turn of 360: lowered by 360 when above 180, then
raised by 360 when below -180. -/
def normalizeDegrees (d : Int) : Int :=
  let d := if d > 180 * dblOne then dsub d (360 * dblOne) else d
  if d < -(180 * dblOne) then dadd d (360 * dblOne) else d

/-- The turn between two successive bearings: the difference converted to degrees and
normalised to an absolute value, a double of degrees. -/
def turnAngle (prev_bearing bearing : Int) : Int :=
  let d := normalizeDegrees (turnDegrees prev_bearing bearing)
  if d < 0 then -d else d

/-- A double has a significand of at most 53 binary digits: as a multiple of 2^-1074 its
absolute value is `m * 2^j` with `m < 2^53`. -/
def IsDouble (x : Int) : Prop := ∃ m j : Nat, m < 2 ^ 53 ∧ x.natAbs = m * 2 ^ j

/-- The triples (n_{i-1}, n_i, n_{i+1}) of a route for its interior nodes n_i, in travel
order. -/
def routeTriples (route : List Node) : List (Node × Node × Node) :=
  List.zip route (List.zip route.tail route.tail.tail)

/-- The interior nodes of a route at which the turn is greater than 90 degrees, in travel
order. -/
def sharpTurnsOf (geo : GeoMath) (route : List Node) : List Node :=
  (routeTriples route).filterMap (fun t =>
    if turnAngle (geo.Bearing t.1 t.2.1) (geo.Bearing t.2.1 t.2.2) > 90 * dblOne then
      some t.2.1
    else none)

/-! ## The end of the search and the way back -/

/-- The state of FindRoute after the `while` loop of the search, with the `best_fin` and
`best_length` of the loop "find closest final node": the lines 231-322 of FindRoute
without the three early returns. `none` when `fin_nodes` is empty or the fuel runs out. -/
def searchEnd (eng : Engine) (fuel : Nat) (name_a name_b : String) :
    Option (SearchState × Nat × ELen) :=
  let size := eng.route_nodes_.length
  let st0 : SearchState :=
    { queue := [], starts := List.replicate size (-1), prevs := List.replicate size (-1),
      lengths := List.replicate size none, shortest_length := none }
  match initStarts (equalRange eng.stops_ name_a) [] st0 0 with
  | (_, st1, _) =>
    match initFins (equalRange eng.stops_ name_b) [] 0 with
    | (fin_nodes, _) =>
      match fin_nodes with
      | [] => none
      | first_fin :: more_fins =>
        match dijkstraLoop eng.route_nodes_ fin_nodes fuel st1 with
        | none => none
        | some st =>
          some (st, closestFin st.lengths more_fins first_fin (st.lengths.getD first_fin none))

/-- The routing nodes that `current_route_node` takes in the `while (prev_route_node != -1)`
loop of the route recovery (lines 344-379), the look-up of the edge and of its nodes left
out; `none` when the fuel runs out before `prev_route_node` is -1. -/
def prevWalk (prevs : List Int) : Nat → Nat → Int → List Nat → Option (List Nat)
  | 0, current_route_node, prev_route_node, visited =>
    if prev_route_node = -1 then some (visited ++ [current_route_node]) else none
  | fuel + 1, current_route_node, prev_route_node, visited =>
    if prev_route_node = -1 then some (visited ++ [current_route_node])
    else
      prevWalk prevs fuel prev_route_node.toNat (prevs.getD prev_route_node.toNat (-1))
        (visited ++ [current_route_node])

/-- Every entry of `prevs` other than -1 is a routing node with an edge to the node of the
entry. -/
def PrevEdges (rn : List RouteNode) (prevs : List Int) : Prop :=
  ∀ w, prevs.getD w (-1) = -1 ∨
    ∃ p, prevs.getD w (-1) = Int.ofNat p ∧ ∃ e ∈ edgesOf rn p, e.node = Int.ofNat w

/-- The start nodes keep what the loop "find stops for station A" wrote: the length 0, no
predecessor, and themselves as the start. -/
def StartsKept (S : List Nat) (st : SearchState) : Prop :=
  ∀ s ∈ S, st.len s = some 0 ∧ st.prevs.getD s (-1) = -1 ∧
    st.starts.getD s (-1) = Int.ofNat s

/-- Consecutive elements of the list are linked by `prevs`. -/
def PrevLinked (prevs : List Int) : List Nat → Prop
  | a :: b :: rest => prevs.getD a (-1) = Int.ofNat b ∧ PrevLinked prevs (b :: rest)
  | _ => True

/-- The nodes that the body of the `while (prev_route_node != -1)` loop (lines 346-374)
appends for the hops of a list of routing nodes, each followed by its predecessor: for the
hop from `cur` to `prev`, the first edge of `prev` whose node is `cur`, its way, and the
nodes at its positions. -/
def hopNodes (eng : Engine) : List Nat → Except FRError (List Node)
  | cur :: prev :: rest =>
    match (edgesOf eng.route_nodes_ prev).find? (fun e => e.node == Int.ofNat cur) with
    | none => .error .assertEdge
    | some edge =>
      match mapFind eng.ways_ edge.osmid with
      | none => .error .assertWay
      | some way =>
        match expandPositions eng.nodes_ way (edgePositions edge) with
        | .error err => .error err
        | .ok more =>
          match hopNodes eng (prev :: rest) with
          | .error err => .error err
          | .ok out => .ok (more ++ out)
  | _ => .ok []

/-- No way of the list has one of the four tag values that the tests of lines 176 and 193
look for: `oneway=-1`, `oneway=yes`, `designated_direction=backward`,
`designated_direction=forward`. -/
def NoDirectionLimit (ws : List Way) : Prop :=
  ∀ way ∈ ws, way.tags.GetTag "oneway" ≠ some "-1" ∧ way.tags.GetTag "oneway" ≠ some "yes" ∧
    way.tags.GetTag "designated_direction" ≠ some "backward" ∧
    way.tags.GetTag "designated_direction" ≠ some "forward"

/-! ## More example data -/

/-- A station X that only the way `exWaySingle` references. -/
def exNode9Stop : Node := ⟨9, 0, 0, ⟨[("name", "X"), ("railway", "station")]⟩⟩

/-- The rail way 11 straight from node 1 to node 3, next to the way 10 over node 5. -/
def exWayDirect : Way := ⟨11, ⟨[("railway", "rail")]⟩, [1, 3]⟩

/-- The engine compiled from the ways `exWayBend` and `exWayDirect` and the nodes 1, 3
and 5: the routing nodes of the stations A and B are joined by two edges in each
direction, the one along the way 10 over node 5 in the first slot. -/
def exEngineParallel : Engine :=
  { nodes_ := [(1, exNode1), (3, exNode3), (5, exNode5)]
    ways_ := [(10, exWayBend), (11, exWayDirect)]
    needed_nodes_ := []
    stops_ := [("A", 0), ("B", 1)]
    route_nodes_ :=
      [⟨1, [⟨10, 0, 2, 1, 0, 30000⟩, ⟨11, 0, 1, 1, 0, 20000⟩]⟩,
       ⟨3, [⟨10, 2, 0, 0, 0, 30000⟩, ⟨11, 1, 0, 0, 0, 20000⟩]⟩]
    route_edge_pool_ := ⟨1, 1020, 1024⟩ }

/-- The result of the query from A to B on `exEngineParallel`: the distance of the way 11
with the nodes of the way 10. -/
def exParallelResult : FindRouteResult :=
  ⟨.OK, 1, 1, some exNode1, some exNode3, some 20000, [exNode1, exNode5, exNode3], []⟩

/-- The constant `M_PI_2` of <cmath>, half of `M_PI`, as a multiple of 2^-1074. -/
def M_PI_2 : Int :=
  317932716030133722734107091045627571936201903843116736301896096637828178353844459991418735919026373986239262314991514958583847836067528583430078913137416483256933946314249927588105121816446885096959908982296150150552482074739341928546819293526196816828653175029576361008708899007091494561101645255777339974804392078223605760

/-- The double 1.578125, that is 101/64 radians or about 90.42 degrees, as a multiple of
2^-1074. -/
def exBearingSteep : Int :=
  319416056000599569587531719040791375187581587909036780531984955637038504630742656813874980528830462093967107254624968797662041913686955330680755521781477960969894685186456289028299338780490857038519008367589800811324418059779593165006694358133829924850340870433566183199776169939660636808606548099581978634282476278913171456

/-- A compass for the examples: the bearing is `M_PI_2` to the east, `-M_PI_2` to the
west, 0 to the north and `M_PI` to the south; the distance is that of `exGeo`. -/
def exGeoCompass : GeoMath :=
  { Distance := exGeo.Distance
    Bearing := fun a b =>
      if b.lon_ > a.lon_ then M_PI_2
      else if b.lon_ < a.lon_ then -M_PI_2
      else if b.lat_ ≥ a.lat_ then 0
      else M_PI }

/-- Station D at (0, 0.0005), south of node 2. -/
def exNode6 : Node := ⟨6, 0, 5000, ⟨[("name", "D"), ("railway", "station")]⟩⟩

/-- The rail way 10 from node 1 north to node 2 and back south to node 6. -/
def exWayHairpin : Way := ⟨10, ⟨[("railway", "rail")]⟩, [1, 2, 6]⟩

/-- The engine compiled from the way `exWayHairpin` and the nodes 1, 2 and 6. -/
def exEngineHairpin : Engine :=
  { nodes_ := [(1, exNode1), (2, exNode2), (6, exNode6)]
    ways_ := [(10, exWayHairpin)]
    needed_nodes_ := []
    stops_ := [("A", 0), ("D", 1)]
    route_nodes_ := [⟨1, [⟨10, 0, 2, 1, 0, 15000⟩]⟩, ⟨6, [⟨10, 2, 0, 0, 0, 15000⟩]⟩]
    route_edge_pool_ := { chunks_ := 1, last_chunk_free_ := 1022, chunk_size_ := 1024 } }

/-- The result of the search from A to D on `exEngineHairpin`: the route turns back at
node 2. -/
def exHairpinResult : FindRouteResult :=
  ⟨.OK, 1, 1, some exNode1, some exNode6, some 15000, [exNode1, exNode2, exNode6], [exNode2]⟩

/-- Station E at (0.001, 0.001), east of node 2. -/
def exNode7 : Node := ⟨7, 10000, 10000, ⟨[("name", "E"), ("railway", "station")]⟩⟩

/-- The rail way 10 from node 1 north to node 2 and then east to node 7. -/
def exWayCorner : Way := ⟨10, ⟨[("railway", "rail")]⟩, [1, 2, 7]⟩

/-- The engine compiled from the way `exWayCorner` and the nodes 1, 2 and 7. -/
def exEngineCorner : Engine :=
  { nodes_ := [(1, exNode1), (2, exNode2), (7, exNode7)]
    ways_ := [(10, exWayCorner)]
    needed_nodes_ := []
    stops_ := [("A", 0), ("E", 1)]
    route_nodes_ :=
      [⟨1, [⟨10, 0, 2, 1, 0, 20000⟩]⟩, ⟨7, [⟨10, 2, 0, 0, -M_PI_2, 20000⟩]⟩]
    route_edge_pool_ := { chunks_ := 1, last_chunk_free_ := 1022, chunk_size_ := 1024 } }

/-- The result of the search from A to E on `exEngineCorner`: the turn at node 2 is a
right angle and is not listed. -/
def exCornerResult : FindRouteResult :=
  ⟨.OK, 1, 1, some exNode1, some exNode7, some 20000, [exNode1, exNode2, exNode7], []⟩

/-- A second rail way carrying the id 10, over the nodes 2 and 3. -/
def exWayTail : Way := ⟨10, ⟨[("railway", "rail")]⟩, [2, 3]⟩

/-- The rail way 10 of scenario S1 with the tag `oneway=no`. -/
def exWayOnewayNo : Way := ⟨10, ⟨[("oneway", "no"), ("railway", "rail")]⟩, [1, 2, 3]⟩

/-- The engine compiled from the way `exWayOnewayNo` and the nodes of scenario S1. -/
def exEngineOnewayNo : Engine :=
  { nodes_ := [(1, exNode1), (2, exNode2), (3, exNode3)]
    ways_ := [(10, exWayOnewayNo)]
    needed_nodes_ := []
    stops_ := [("A", 0), ("B", 1)]
    route_nodes_ :=
      [⟨1, [⟨10, 0, 2, 1, 0, 20000⟩]⟩, ⟨3, [⟨10, 2, 0, 0, 0, 20000⟩]⟩]
    route_edge_pool_ := { chunks_ := 1, last_chunk_free_ := 1022, chunk_size_ := 1024 } }

/-- The rail way 10 of scenario S1 with the tag `oneway=-1`. -/
def exWayOnewayMinus : Way := ⟨10, ⟨[("oneway", "-1"), ("railway", "rail")]⟩, [1, 2, 3]⟩

/-- The rail way 10 of scenario S1 with the tag `designated_direction=backward`. -/
def exWayDirBackward : Way :=
  ⟨10, ⟨[("designated_direction", "backward"), ("railway", "rail")]⟩, [1, 2, 3]⟩

/-- The rail way 10 of scenario S1 with the tag `designated_direction=forward`. -/
def exWayDirForward : Way :=
  ⟨10, ⟨[("designated_direction", "forward"), ("railway", "rail")]⟩, [1, 2, 3]⟩

/-- The engine compiled from a way 10 over the nodes of scenario S1 of which only the
backward edge is written. -/
def exEngineBackOnly (way : Way) : Engine :=
  { nodes_ := [(1, exNode1), (2, exNode2), (3, exNode3)]
    ways_ := [(10, way)]
    needed_nodes_ := []
    stops_ := [("A", 0), ("B", 1)]
    route_nodes_ :=
      [⟨1, [RouteEdge.empty]⟩, ⟨3, [⟨10, 2, 0, 0, 0, 20000⟩]⟩]
    route_edge_pool_ := { chunks_ := 1, last_chunk_free_ := 1022, chunk_size_ := 1024 } }

/-- The engine compiled from a way 10 over the nodes of scenario S1 of which only the
forward edge is written. -/
def exEngineForwardOnly (way : Way) : Engine :=
  { nodes_ := [(1, exNode1), (2, exNode2), (3, exNode3)]
    ways_ := [(10, way)]
    needed_nodes_ := []
    stops_ := [("A", 0), ("B", 1)]
    route_nodes_ :=
      [⟨1, [⟨10, 0, 2, 1, 0, 20000⟩]⟩, ⟨3, [RouteEdge.empty]⟩]
    route_edge_pool_ := { chunks_ := 1, last_chunk_free_ := 1022, chunk_size_ := 1024 } }

/-- The state of the search from A to B on `exEngine` when the `while` loop is left. -/
def exSearchState : SearchState :=
  { queue := [], starts := [0, 0], prevs := [-1, 0], lengths := [some 0, some 20000],
    shortest_length := some 20000 }

/-- The result of the search from A to A on `exEngine`. -/
def exSameResult : FindRouteResult :=
  ⟨.OK, 1, 1, some exNode1, some exNode1, some 0, [exNode1], []⟩

end RailRouting


namespace RailRouting

/-! ## The compilation and the search with lengths that may be NaN

The definitions of this section are those of the sections "Graph compilation" and "Route
search" once more, with one change: a `double` that holds a length is a `Dbl`, which has
the value NaN besides the finite numbers and `+infinity`. The haversine formula of
geomath.hh returns NaN for some pairs of points, and every comparison with NaN is false.
The names carry the suffix `Nan`. Where the distances are numbers the definitions of this
section return what those of the two other sections return (`ParseNan_numbers`,
`FindRouteNan_toNan`). -/

/-- A `double` that holds a length: a finite number (the arithmetic on these taken as
exact), `+infinity`, or NaN. -/
inductive Dbl where
  | finite (x : Int)
  | inf
  | nan
deriving DecidableEq, Repr

/-- The sum of two doubles: NaN when one of them is NaN, `+infinity` when one of them is
`+infinity` and none is NaN. -/
def Dbl.add : Dbl → Dbl → Dbl
  | .finite a, .finite b => .finite (a + b)
  | .nan, _ => .nan
  | _, .nan => .nan
  | _, _ => .inf

/-- The `<` of two doubles: false when one of them is NaN. -/
def Dbl.lt : Dbl → Dbl → Bool
  | .finite a, .finite b => decide (a < b)
  | .finite _, .inf => true
  | _, _ => false

/-- The `std::min(a, b)`: `b` when `b < a`, else `a`. -/
def Dbl.min (a b : Dbl) : Dbl := if Dbl.lt b a then b else a

/-- The routines of geomath.hh with a `Distance` that may be NaN. -/
structure GeoMathNan where
  Distance : Node → Node → Dbl
  Bearing : Node → Node → Int

/-- RouteEdge of railrouting.hh, the `double length` with NaN. -/
structure RouteEdgeNan where
  osmid : Int
  start_pos : Nat
  end_pos : Nat
  node : Int
  direction : Int
  length : Dbl
deriving DecidableEq, Repr

/-- The default-constructed RouteEdge: `osmid(0), start_pos(-1), end_pos(-1), node(-1),
direction(0), length(0.0)`, the positions being `unsigned short`. -/
def RouteEdgeNan.empty : RouteEdgeNan :=
  { osmid := 0, start_pos := 65535, end_pos := 65535, node := -1, direction := 0,
    length := .finite 0 }

/-- RouteNode of railrouting.hh over these edges; `nedges` is the length of `edges`. -/
structure RouteNodeNan where
  osmid : Int
  edges : List RouteEdgeNan
deriving DecidableEq, Repr

/-- FindRouteResult of railrouting.hh, the `double distance` with NaN; a null or unset
node pointer is `none`. -/
structure FindRouteResultNan where
  status : RouteStatus
  start_count : Nat
  end_count : Nat
  start_node : Option Node
  end_node : Option Node
  distance : Dbl
  route_nodes : List Node
  sharp_turns : List Node
deriving DecidableEq, Repr

/-- The members of the RailRouting class, over these routing nodes. -/
structure EngineNan where
  nodes_ : List (Int × Node)
  ways_ : List (Int × Way)
  needed_nodes_ : List Int
  stops_ : List (String × Nat)
  route_nodes_ : List RouteNodeNan
  route_edge_pool_ : Pool
deriving DecidableEq, Repr

/-- The engine after construction: empty containers and a pool of chunk size 1024. -/
def EngineNan.init : EngineNan :=
  { nodes_ := [], ways_ := [], needed_nodes_ := [], stops_ := [], route_nodes_ := [],
    route_edge_pool_ := { chunks_ := 0, last_chunk_free_ := 0, chunk_size_ := 1024 } }

/-- RailRouting::ProcessWay. -/
def ProcessWayNan (eng : EngineNan) (way : Way) : EngineNan :=
  if isRailWay way then
    { eng with
      needed_nodes_ := way.nodes_.foldl idSetInsert eng.needed_nodes_
      ways_ := mapInsert eng.ways_ way.id_ way }
  else eng

/-- RailRouting::ProcessNode. -/
def ProcessNodeNan (eng : EngineNan) (node : Node) : EngineNan :=
  if node.id_ ∈ eng.needed_nodes_ then
    { eng with nodes_ := mapInsert eng.nodes_ node.id_ node }
  else eng

/-- The state of the loop "create route nodes". -/
structure RouteNodesStateNan where
  route_nodes : List RouteNodeNan
  id_to_routenode : List (Int × Nat)
  route_edge_pool : Pool
deriving DecidableEq, Repr

/-- The loop "create route nodes" (lines 99-107) over the entries of `nodes_`. -/
def createRouteNodesNan (conn : List (Int × ConnectivityInfo)) :
    List (Int × Node) → RouteNodesStateNan → Except PrepareError RouteNodesStateNan
  | [], st => .ok st
  | (id, _) :: rest, st =>
    match mapFind conn id with
    | none => .error .assertConnectivity
    | some connectivity =>
      if connectivity.nways > 1 ∨ connectivity.nedges ≠ 2 ∨ connectivity.isstop = true then
        match st.route_edge_pool.alloc connectivity.nedges with
        | .error err => .error err
        | .ok (pool1, _) =>
          createRouteNodesNan conn rest
            { route_nodes :=
                st.route_nodes ++
                  [{ osmid := id
                     edges := List.replicate connectivity.nedges RouteEdgeNan.empty }]
              id_to_routenode :=
                idMapInsert st.id_to_routenode id (st.route_nodes.length + 1 - 1)
              route_edge_pool := pool1 }
      else createRouteNodesNan conn rest st

/-- The search for a free slot (lines 177-188 and 194-205): the first edge whose `osmid`
is 0 is overwritten; `none` when the loop runs to `nedges`. -/
def fillSlotNan (edges : List RouteEdgeNan) (e : RouteEdgeNan) :
    Option (List RouteEdgeNan) :=
  match edges with
  | [] => none
  | slot :: rest =>
    if slot.osmid = 0 then some (e :: rest)
    else
      match fillSlotNan rest e with
      | none => none
      | some rest1 => some (slot :: rest1)

/-- The commit of an edge into `route_nodes_[n]` together with its `assert`. -/
def addEdgeNan (route_nodes : List RouteNodeNan) (n : Nat) (e : RouteEdgeNan) :
    Except PrepareError (List RouteNodeNan) :=
  match route_nodes[n]? with
  | none => .error .assertEdgeSlot
  | some r =>
    match fillSlotNan r.edges e with
    | none => .error .assertEdgeSlot
    | some edges1 => .ok (route_nodes.set n { r with edges := edges1 })

/-- The locals of the walk along one way (lines 126-140). -/
structure WayWalkNan where
  prev_node : Node
  start_node : Node
  start_route_node : Nat
  start_node_pos : Nat
  second_node : Option Node
  dist : Dbl
deriving DecidableEq, Repr

/-- The block "if we are at routing node, add routing edge" (lines 172-207): the forward
edge goes into the start routing node, the backward edge into this one. -/
def commitEdgesNan (geo : GeoMathNan) (way_id : Int) (way : Way) (walk : WayWalkNan)
    (this_node : Node) (second_node : Option Node) (dist : Dbl) (this_route_node node_pos : Nat)
    (route_nodes : List RouteNodeNan) : Except PrepareError (List RouteNodeNan) :=
  let forward : RouteEdgeNan :=
    { osmid := way_id, start_pos := walk.start_node_pos, end_pos := node_pos,
      node := Int.ofNat this_route_node,
      direction := geo.Bearing walk.start_node (second_node.getD this_node),
      length := dist }
  let backward : RouteEdgeNan :=
    { osmid := way_id, start_pos := node_pos, end_pos := walk.start_node_pos,
      node := Int.ofNat walk.start_route_node,
      direction := geo.Bearing this_node walk.prev_node,
      length := dist }
  match (if forwardAllowed way then addEdgeNan route_nodes walk.start_route_node forward
      else .ok route_nodes) with
  | .error err => .error err
  | .ok route_nodes1 =>
    if backwardAllowed way then addEdgeNan route_nodes1 this_route_node backward
    else .ok route_nodes1

/-- The loop over the node positions of one way (lines 141-216), from `node_pos` on;
`ids` are the node references at `node_pos` and after it. -/
def walkWayNan (geo : GeoMathNan) (nodes_ : List (Int × Node))
    (id_to_routenode : List (Int × Nat))
    (way_id : Int) (way : Way) :
    Nat → List Int → WayWalkNan → List RouteNodeNan →
      Except PrepareError (List RouteNodeNan)
  | _, [], _, route_nodes => .ok route_nodes
  | node_pos, id :: rest, walk, route_nodes =>
    match mapFind nodes_ id with
    | none => .ok route_nodes
    | some this_node =>
      let second_node := if node_pos = 1 then some this_node else walk.second_node
      let dist := Dbl.add walk.dist (geo.Distance walk.prev_node this_node)
      let this_route_node := mapFind id_to_routenode id
      if node_pos = way.GetNodesCount - 1 ∧ this_route_node = none then
        .error .assertLastRouteNode
      else if ¬ (walk.start_node_pos < 65535 ∧ node_pos < 65535) then
        .error .assertPositions
      else
        match this_route_node with
        | some trn =>
          match commitEdgesNan geo way_id way walk this_node second_node dist trn node_pos
              route_nodes with
          | .error err => .error err
          | .ok route_nodes1 =>
            walkWayNan geo nodes_ id_to_routenode way_id way (node_pos + 1) rest
              { prev_node := this_node, start_node := this_node, start_route_node := trn,
                start_node_pos := node_pos, second_node := second_node,
                dist := .finite 0 }
              route_nodes1
        | none =>
          walkWayNan geo nodes_ id_to_routenode way_id way (node_pos + 1) rest
            { walk with prev_node := this_node, second_node := second_node, dist := dist }
            route_nodes

/-- The body of the loop "split real edges to route edges" (lines 113-217) for one entry
of `ways_`. -/
def splitWayNan (geo : GeoMathNan) (nodes_ : List (Int × Node))
    (id_to_routenode : List (Int × Nat))
    (route_nodes : List RouteNodeNan) (entry : Int × Way) :
    Except PrepareError (List RouteNodeNan) :=
  if entry.2.GetNodesCount < 2 then .ok route_nodes
  else
    match entry.2.nodes_ with
    | [] => .ok route_nodes
    | first :: rest =>
      match mapFind nodes_ first with
      | none => .ok route_nodes
      | some start_node =>
        match mapFind id_to_routenode first with
        | none => .error .assertFirstRouteNode
        | some start_route_node =>
          walkWayNan geo nodes_ id_to_routenode entry.1 entry.2 1 rest
            { prev_node := start_node, start_node := start_node,
              start_route_node := start_route_node, start_node_pos := 0,
              second_node := none, dist := .finite 0 }
            route_nodes

/-- The loop "split real edges to route edges" over the entries of `ways_`. -/
def splitWaysNan (geo : GeoMathNan) (nodes_ : List (Int × Node))
    (id_to_routenode : List (Int × Nat)) :
    List (Int × Way) → List RouteNodeNan → Except PrepareError (List RouteNodeNan)
  | [], route_nodes => .ok route_nodes
  | entry :: rest, route_nodes =>
    match splitWayNan geo nodes_ id_to_routenode route_nodes entry with
    | .error err => .error err
    | .ok route_nodes1 => splitWaysNan geo nodes_ id_to_routenode rest route_nodes1

/-- RailRouting::Prepare, the distances with NaN. -/
def PrepareNan (geo : GeoMathNan) (eng : EngineNan) : Except PrepareError EngineNan :=
  let found := eng.nodes_.foldl findStopsStep ([], [])
  let temp_stops := found.1
  let node_connectivity := eng.ways_.foldl countWayStep found.2
  match createRouteNodesNan node_connectivity eng.nodes_
      { route_nodes := eng.route_nodes_, id_to_routenode := [],
        route_edge_pool := eng.route_edge_pool_ } with
  | .error err => .error err
  | .ok created =>
    match splitWaysNan geo eng.nodes_ created.id_to_routenode eng.ways_ created.route_nodes with
    | .error err => .error err
    | .ok route_nodes =>
      match postprocessStops created.id_to_routenode temp_stops eng.stops_ with
      | .error err => .error err
      | .ok stops =>
        .ok { eng with
              needed_nodes_ := []
              stops_ := stops
              route_nodes_ := route_nodes
              route_edge_pool_ := created.route_edge_pool }

/-- The three passes registered by the constructor, run by `Parse` over the ways and the
nodes of the input in document order: "loading ways", "loading nodes", "preparing". -/
def ParseNan (geo : GeoMathNan) (ways : List Way) (nodes : List Node) :
    Except PrepareError EngineNan :=
  PrepareNan geo (nodes.foldl ProcessNodeNan (ways.foldl ProcessWayNan EngineNan.init))

/-- The `queue.insert(std::make_pair(length, node))` of the `std::multimap<double, int>`:
the pair goes after every entry whose key is not greater. -/
def queueInsertNan (q : List (Dbl × Nat)) (k : Dbl) (v : Nat) : List (Dbl × Nat) :=
  match q with
  | [] => [(k, v)]
  | (k1, v1) :: rest =>
    if Dbl.lt k k1 then (k, v) :: (k1, v1) :: rest
    else (k1, v1) :: queueInsertNan rest k v

/-- The locals of FindRoute that the search works on. The three `lazyinit_array`s are
lists of `route_nodes_.size()` cells holding the default until written. -/
structure SearchStateNan where
  queue : List (Dbl × Nat)
  starts : List Int
  prevs : List Int
  lengths : List Dbl
  shortest_length : Dbl
deriving DecidableEq, Repr

/-- The loop "find stops for station A" (lines 245-253) over the equal range of `name_a`;
it returns `start_nodes`, the search state and `result.start_count`. -/
def initStartsNan (stops : List Nat) (start_nodes : List Nat) (st : SearchStateNan)
    (start_count : Nat) : List Nat × SearchStateNan × Nat :=
  match stops with
  | [] => (start_nodes, st, start_count)
  | stop :: rest =>
    initStartsNan rest (nodeSetInsert start_nodes stop)
      { st with
        prevs := st.prevs.set stop (-1)
        starts := st.starts.set stop (Int.ofNat stop)
        lengths := st.lengths.set stop (.finite 0)
        queue := queueInsertNan st.queue (.finite 0) stop }
      (start_count + 1)

/-- The update of lines 305-309 for a shorter way to `other_node` through `current_node`. -/
def relaxNan (st : SearchStateNan) (current_node other_node : Nat) (new_length : Dbl) :
    SearchStateNan :=
  { st with
    starts := st.starts.set other_node (st.starts.getD current_node (-1))
    prevs := st.prevs.set other_node (Int.ofNat current_node)
    lengths := st.lengths.set other_node new_length
    queue := queueInsertNan st.queue new_length other_node }

/-- The `for` loop over the edges of `current_node` (lines 291-311), on the edges not yet
scanned. -/
def scanEdgesNan (current_node : Nat) (edges : List RouteEdgeNan) (st : SearchStateNan) :
    SearchStateNan :=
  match edges with
  | [] => st
  | e :: rest =>
    let new_length := Dbl.add (st.lengths.getD current_node .inf) e.length
    if Dbl.lt st.shortest_length new_length then st
    else if e.node = -1 then scanEdgesNan current_node rest st
    else
      let other_node := e.node.toNat
      if Dbl.lt new_length (st.lengths.getD other_node .inf) then
        scanEdgesNan current_node rest (relaxNan st current_node other_node new_length)
      else scanEdgesNan current_node rest st

/-- The edges `route_nodes_[n].edges[0 .. nedges)`. -/
def edgesOfNan (route_nodes : List RouteNodeNan) (n : Nat) : List RouteEdgeNan :=
  match route_nodes[n]? with
  | some r => r.edges
  | none => []

/-- The `while (!queue.empty())` loop (lines 275-312); `none` when the fuel runs out
before the queue is empty. -/
def dijkstraLoopNan (route_nodes : List RouteNodeNan) (fin_nodes : List Nat) :
    Nat → SearchStateNan → Option SearchStateNan
  | 0, st =>
    match st.queue with
    | [] => some st
    | _ :: _ => none
  | fuel + 1, st =>
    match st.queue with
    | [] => some st
    | (current_length, current_node) :: rest =>
      let st1 := { st with queue := rest }
      if Dbl.lt (st1.lengths.getD current_node .inf) current_length then
        dijkstraLoopNan route_nodes fin_nodes fuel st1
      else
        let st2 :=
          if current_node ∈ fin_nodes then
            { st1 with
              shortest_length :=
                Dbl.min st1.shortest_length (st1.lengths.getD current_node .inf) }
          else st1
        dijkstraLoopNan route_nodes fin_nodes fuel
          (scanEdgesNan current_node (edgesOfNan route_nodes current_node) st2)

/-- The loop "find closest final node" (lines 317-322) over the rest of `fin_nodes`. -/
def closestFinNan (lengths : List Dbl) (fins : List Nat) (best_fin : Nat) (best_length : Dbl) :
    Nat × Dbl :=
  match fins with
  | [] => (best_fin, best_length)
  | fin :: rest =>
    if Dbl.lt (lengths.getD fin .inf) best_length then
      closestFinNan lengths rest fin (lengths.getD fin .inf)
    else closestFinNan lengths rest best_fin best_length

/-- The node positions visited for an edge (lines 360-374): from `end_pos` towards
`start_pos`, `start_pos` excluded. -/
def edgePositionsNan (e : RouteEdgeNan) : List Nat :=
  if e.start_pos < e.end_pos then
    (List.range' (e.start_pos + 1) (e.end_pos - e.start_pos)).reverse
  else List.range' e.end_pos (e.start_pos - e.end_pos)

/-- The `while (prev_route_node != -1)` loop of the route recovery (lines 344-379);
`temp_nodes` is the buffer filled so far. -/
def recoverRouteNan (eng : EngineNan) (prevs : List Int) :
    Nat → Nat → Int → List Node → Except FRError (List Node)
  | 0, _, prev_route_node, temp_nodes =>
    if prev_route_node = -1 then .ok temp_nodes else .error .outOfFuel
  | fuel + 1, current_route_node, prev_route_node, temp_nodes =>
    if prev_route_node = -1 then .ok temp_nodes
    else
      let prev_node := prev_route_node.toNat
      match (edgesOfNan eng.route_nodes_ prev_node).find?
          (fun e => e.node == Int.ofNat current_route_node) with
      | none => .error .assertEdge
      | some edge =>
        match mapFind eng.ways_ edge.osmid with
        | none => .error .assertWay
        | some way =>
          match expandPositions eng.nodes_ way (edgePositionsNan edge) with
          | .error err => .error err
          | .ok more =>
            recoverRouteNan eng prevs fuel prev_node (prevs.getD prev_node (-1))
              (temp_nodes ++ more)

/-- The loop over the interior nodes of the route (lines 391-403); the list starts at the
node under the iterator. -/
def sharpTurnsLoopNan (geo : GeoMathNan) : Int → List Node → List Node
  | prev_bearing, node :: next :: rest =>
    let bearing := geo.Bearing node next
    if isSharpTurn prev_bearing bearing then
      node :: sharpTurnsLoopNan geo bearing (next :: rest)
    else sharpTurnsLoopNan geo bearing (next :: rest)
  | _, _ => []

/-- The block "find sharp turns" (lines 388-404). -/
def findSharpTurnsNan (geo : GeoMathNan) (temp_nodes : List Node) : List Node :=
  if temp_nodes.length > 2 then
    match temp_nodes with
    | first :: second :: rest =>
      sharpTurnsLoopNan geo (geo.Bearing first second) (second :: rest)
    | _ => []
  else []

/-- RailRouting::FindRoute, the lengths with NaN. The `result` argument is the object the
caller passes by reference; the value returned pairs the `bool` with that object after the
call. -/
def FindRouteNan (geo : GeoMathNan) (eng : EngineNan) (fuel : Nat) (name_a name_b : String)
    (result : FindRouteResultNan) : Except FRError (Bool × FindRouteResultNan) :=
  let size := eng.route_nodes_.length
  let st0 : SearchStateNan :=
    { queue := [], starts := List.replicate size (-1), prevs := List.replicate size (-1),
      lengths := List.replicate size .inf, shortest_length := .inf }
  let result := { result with start_count := 0, end_count := 0 }
  match initStartsNan (equalRange eng.stops_ name_a) [] st0 result.start_count with
  | (start_nodes, st1, start_count) =>
    let result := { result with start_count := start_count }
    match initFins (equalRange eng.stops_ name_b) [] result.end_count with
    | (fin_nodes, end_count) =>
      let result := { result with end_count := end_count }
      match start_nodes, fin_nodes with
      | [], [] => .ok (false, { result with status := .BOTH_STATIONS_NOT_FOUND })
      | [], _ :: _ => .ok (false, { result with status := .START_STATION_NOT_FOUND })
      | _ :: _, [] => .ok (false, { result with status := .END_STATION_NOT_FOUND })
      | _ :: _, first_fin :: more_fins =>
        match dijkstraLoopNan eng.route_nodes_ fin_nodes fuel st1 with
        | none => .error .outOfFuel
        | some st =>
          match closestFinNan st.lengths more_fins first_fin
              (st.lengths.getD first_fin .inf) with
          | (_, .inf) => .ok (false, { result with status := .NO_ROUTE_FOUND })
          | (best_fin, best_length) =>
            match eng.route_nodes_[(st.starts.getD best_fin (-1)).toNat]?,
                eng.route_nodes_[best_fin]? with
            | some start_rn, some end_rn =>
              match mapFind eng.nodes_ start_rn.osmid with
              | none => .error .assertStartNode
              | some start_node =>
                match mapFind eng.nodes_ end_rn.osmid with
                | none => .error .assertEndNode
                | some end_node =>
                  let result :=
                    { result with
                      start_node := some start_node
                      end_node := some end_node
                      distance := best_length
                      status := .OK }
                  match recoverRouteNan eng st.prevs fuel best_fin
                      (st.prevs.getD best_fin (-1)) [] with
                  | .error err => .error err
                  | .ok temp_nodes =>
                    let temp_nodes := (temp_nodes ++ [start_node]).reverse
                    .ok (true,
                      { result with
                        route_nodes := temp_nodes
                        sharp_turns := findSharpTurnsNan geo temp_nodes })
            | _, _ => .error .outOfRange

/-! ## The graphs whose lengths are numbers

An engine of the sections "Graph compilation" and "Route search", whose lengths are exact
integers, is one of the engines of this section whose lengths are numbers. -/

/-- A length of the section "Lengths" as a double. -/
def ELen.toDbl : ELen → Dbl
  | some x => .finite x
  | none => .inf

/-- An edge with a length that is a number. -/
def RouteEdge.toNan (e : RouteEdge) : RouteEdgeNan :=
  { osmid := e.osmid, start_pos := e.start_pos, end_pos := e.end_pos, node := e.node,
    direction := e.direction, length := .finite e.length }

/-- A routing node whose edges have lengths that are numbers. -/
def RouteNode.toNan (r : RouteNode) : RouteNodeNan :=
  { osmid := r.osmid, edges := r.edges.map RouteEdge.toNan }

/-- An engine whose edges have lengths that are numbers. -/
def Engine.toNan (eng : Engine) : EngineNan :=
  { nodes_ := eng.nodes_, ways_ := eng.ways_, needed_nodes_ := eng.needed_nodes_,
    stops_ := eng.stops_, route_nodes_ := eng.route_nodes_.map RouteNode.toNan,
    route_edge_pool_ := eng.route_edge_pool_ }

/-- The state of the loop "create route nodes", the lengths as doubles. -/
def RouteNodesState.toNan (st : RouteNodesState) : RouteNodesStateNan :=
  { route_nodes := st.route_nodes.map RouteNode.toNan, id_to_routenode := st.id_to_routenode,
    route_edge_pool := st.route_edge_pool }

/-- The locals of the walk along one way, the distance as a double. -/
def WayWalk.toNan (walk : WayWalk) : WayWalkNan :=
  { prev_node := walk.prev_node, start_node := walk.start_node,
    start_route_node := walk.start_route_node, start_node_pos := walk.start_node_pos,
    second_node := walk.second_node, dist := .finite walk.dist }

/-- The locals of the search, the lengths as doubles. -/
def SearchState.toNan (st : SearchState) : SearchStateNan :=
  { queue := st.queue.map (fun p => (ELen.toDbl p.1, p.2)), starts := st.starts,
    prevs := st.prevs, lengths := st.lengths.map ELen.toDbl,
    shortest_length := ELen.toDbl st.shortest_length }

/-- A result object with the fields of `r` other than the distance, and the distance `d`. -/
def FindRouteResult.toNan (r : FindRouteResult) (d : Dbl) : FindRouteResultNan :=
  { status := r.status, start_count := r.start_count, end_count := r.end_count,
    start_node := r.start_node, end_node := r.end_node, distance := d,
    route_nodes := r.route_nodes, sharp_turns := r.sharp_turns }

/-- A result object with the fields of `r` other than the distance, and no distance. -/
def FindRouteResultNan.numbers (r : FindRouteResultNan) : FindRouteResult :=
  { status := r.status, start_count := r.start_count, end_count := r.end_count,
    start_node := r.start_node, end_node := r.end_node, distance := none,
    route_nodes := r.route_nodes, sharp_turns := r.sharp_turns }

/-- The distances of `geo` that are non-negative numbers, with 0 in the place of the
others, and the bearings of `geo`. -/
def GeoMathNan.numbers (geo : GeoMathNan) : GeoMath :=
  { Distance := fun a b =>
      match geo.Distance a b with
      | .finite x => if 0 ≤ x then x else 0
      | _ => 0
    Bearing := geo.Bearing }

/-- The distance between the nodes at two neighbouring positions of a way of the way
map, both in the node map, is a non-negative number: it is not NaN. -/
def NumberDistances (geo : GeoMathNan) (eng : EngineNan) : Prop :=
  ∀ p ∈ eng.ways_, ∀ pos a b, nodeAt eng.nodes_ p.2 pos = some a →
    nodeAt eng.nodes_ p.2 (pos + 1) = some b → ∃ x, geo.Distance a b = .finite x ∧ 0 ≤ x

/-- The name has an entry in the stop index. -/
def HasStopNan (eng : EngineNan) (name : String) : Prop := ∃ i, (name, i) ∈ eng.stops_

/-- A walk in the compiled graph along populated edges (`node` not -1). -/
inductive PathNan (rn : List RouteNodeNan) : Nat → Nat → Prop where
  | nil (u : Nat) : PathNan rn u u
  | cons (u v w : Nat) (e : RouteEdgeNan) :
      e ∈ edgesOfNan rn u → e.node = Int.ofNat v → PathNan rn v w → PathNan rn u w

/-- Some end node of `name_b` can be reached from some start node of `name_a`. -/
def ReachableNan (eng : EngineNan) (name_a name_b : String) : Prop :=
  ∃ s t, (name_a, s) ∈ eng.stops_ ∧ (name_b, t) ∈ eng.stops_ ∧ PathNan eng.route_nodes_ s t

/-- The number of edge slots over all routing nodes. -/
def totalEdgesNan (rn : List RouteNodeNan) : Nat := (rn.map (fun r => r.edges.length)).sum

/-- A fuel that suffices for the loops of FindRoute: every queue entry is taken once,
there are at most as many entries as start entries and relaxations, and the way back
along `prevs` has fewer hops than there are routing nodes. -/
def searchFuelNan (eng : EngineNan) (name_a : String) : Nat :=
  ((equalRange eng.stops_ name_a).length + 1) * (totalEdgesNan eng.route_nodes_ + 1) +
    eng.route_nodes_.length

/-! ## Example data with a NaN distance -/

/-- Station P at longitude 0 and latitude 85 degrees. -/
def exNodeP : Node := ⟨21, 0, 850000000, ⟨[("name", "P"), ("railway", "station")]⟩⟩

/-- Station Q at longitude 180 and latitude 95 degrees: a latitude that the parser takes as
it does any number. -/
def exNodeQ : Node := ⟨22, 1800000000, 950000000, ⟨[("name", "Q"), ("railway", "station")]⟩⟩

/-- The rail way 30 from station P to station Q. -/
def exWayPQ : Way := ⟨30, ⟨[("railway", "rail")]⟩, [21, 22]⟩

/-- A distance for the example: NaN between a point at latitude 85 degrees and a point at
latitude 95 degrees whose longitudes differ by 180 degrees, as the formula of geomath.hh
gives in doubles (the argument of its `sqrt` is -8.67e-19 there); else the sum of the
coordinate differences. -/
def exGeoNan : GeoMathNan :=
  { Distance := fun a b =>
      if (a.lat_ = 850000000 ∧ b.lat_ = 950000000 ∨
            a.lat_ = 950000000 ∧ b.lat_ = 850000000) ∧
          (a.lon_ - b.lon_).natAbs = 1800000000 then .nan
      else .finite (Int.ofNat ((a.lon_ - b.lon_).natAbs + (a.lat_ - b.lat_).natAbs))
    Bearing := fun _ _ => 0 }

/-- The engine compiled from the way `exWayPQ` and the stations P and Q: the two edges
have the length NaN. -/
def exEngineNan : EngineNan :=
  { nodes_ := [(21, exNodeP), (22, exNodeQ)]
    ways_ := [(30, exWayPQ)]
    needed_nodes_ := []
    stops_ := [("P", 0), ("Q", 1)]
    route_nodes_ := [⟨21, [⟨30, 0, 1, 1, 0, .nan⟩]⟩, ⟨22, [⟨30, 1, 0, 0, 0, .nan⟩]⟩]
    route_edge_pool_ := { chunks_ := 1, last_chunk_free_ := 1022, chunk_size_ := 1024 } }

/-- A result object before a call. -/
def exResultNan : FindRouteResultNan := ⟨.OK, 0, 0, none, none, .finite 5, [], []⟩

end RailRouting

namespace RailRouting

/-! ## FindRoute: the station look-up (lines 244-271) -/

theorem initStarts_fst (stops : List Nat) (start_nodes : List Nat) (st : SearchState) (c : Nat) :
    (initStarts stops start_nodes st c).1 = stops.foldl nodeSetInsert start_nodes := by
  induction stops generalizing start_nodes st c with
  | nil => rfl
  | cons s rest ih => simp [initStarts, ih]

theorem initFins_fst (stops : List Nat) (fin_nodes : List Nat) (c : Nat) :
    (initFins stops fin_nodes c).1 = stops.foldl nodeSetInsert fin_nodes := by
  induction stops generalizing fin_nodes c with
  | nil => rfl
  | cons s rest ih => simp [initFins, ih]

theorem initStarts_count (stops : List Nat) (start_nodes : List Nat) (st : SearchState) (c : Nat) :
    (initStarts stops start_nodes st c).2.2 = c + stops.length := by
  induction stops generalizing start_nodes st c with
  | nil => rfl
  | cons s rest ih => simp [initStarts, ih]; omega

theorem initFins_count (stops : List Nat) (fin_nodes : List Nat) (c : Nat) :
    (initFins stops fin_nodes c).2 = c + stops.length := by
  induction stops generalizing fin_nodes c with
  | nil => rfl
  | cons s rest ih => simp [initFins, ih]; omega

theorem mem_nodeSetInsert (s : List Nat) (k x : Nat) :
    x ∈ nodeSetInsert s k ↔ x = k ∨ x ∈ s := by
  induction s with
  | nil => simp [nodeSetInsert]
  | cons a rest ih =>
    unfold nodeSetInsert
    split_ifs with h1 h2
    · simp
    · subst h2; simp
    · simp [ih]; tauto

theorem mem_foldl_nodeSetInsert (stops s : List Nat) (x : Nat) :
    x ∈ stops.foldl nodeSetInsert s ↔ x ∈ stops ∨ x ∈ s := by
  induction stops generalizing s with
  | nil => simp
  | cons a rest ih => simp [ih, mem_nodeSetInsert]; tauto

theorem foldl_nodeSetInsert_eq_nil (stops s : List Nat) :
    stops.foldl nodeSetInsert s = [] ↔ stops = [] ∧ s = [] := by
  constructor
  · intro h
    have hm := mem_foldl_nodeSetInsert stops s
    rw [h] at hm
    constructor
    · cases stops with
      | nil => rfl
      | cons a rest => exact absurd ((hm a).2 (Or.inl (List.mem_cons_self _ _))) (List.not_mem_nil _)
    · cases s with
      | nil => rfl
      | cons a rest => exact absurd ((hm a).2 (Or.inr (List.mem_cons_self _ _))) (List.not_mem_nil _)
  · rintro ⟨rfl, rfl⟩; rfl

theorem mem_equalRange {β : Type} (m : List (String × β)) (name : String) (v : β) :
    v ∈ equalRange m name ↔ (name, v) ∈ m := by
  unfold equalRange
  simp only [List.mem_map, List.mem_filter, beq_iff_eq]
  constructor
  · rintro ⟨⟨k, w⟩, ⟨hm, hk⟩, hv⟩
    simp only at hk hv
    subst hk; subst hv; exact hm
  · intro h
    exact ⟨(name, v), ⟨h, rfl⟩, rfl⟩

theorem equalRange_eq_nil {β : Type} (m : List (String × β)) (name : String) :
    equalRange m name = [] ↔ ¬ ∃ v, (name, v) ∈ m := by
  constructor
  · rintro h ⟨v, hv⟩
    have := (mem_equalRange m name v).2 hv
    rw [h] at this
    exact List.not_mem_nil _ this
  · intro h
    cases hr : equalRange m name with
    | nil => rfl
    | cons a rest =>
      exfalso; apply h
      exact ⟨a, (mem_equalRange m name a).1 (by rw [hr]; exact List.mem_cons_self _ _)⟩

end RailRouting

namespace RailRouting

/-- FindRoute, with the look-up of the two names and the search laid out step by step. -/
theorem FindRoute_unfold (geo : GeoMath) (eng : Engine) (fuel : Nat) (name_a name_b : String)
    (result : FindRouteResult) :
    FindRoute geo eng fuel name_a name_b result =
      (let A := equalRange eng.stops_ name_a
       let B := equalRange eng.stops_ name_b
       let size := eng.route_nodes_.length
       let st0 : SearchState :=
        { queue := [], starts := List.replicate size (-1), prevs := List.replicate size (-1),
          lengths := List.replicate size none, shortest_length := none }
       let st1 := (initStarts A [] st0 0).2.1
       let res1 : FindRouteResult :=
         { result with start_count := A.length, end_count := B.length }
       match A.foldl nodeSetInsert [], B.foldl nodeSetInsert [] with
       | [], [] => .ok (false, { res1 with status := .BOTH_STATIONS_NOT_FOUND })
       | [], _ :: _ => .ok (false, { res1 with status := .START_STATION_NOT_FOUND })
       | _ :: _, [] => .ok (false, { res1 with status := .END_STATION_NOT_FOUND })
       | _ :: _, first_fin :: more_fins =>
        match dijkstraLoop eng.route_nodes_ (B.foldl nodeSetInsert []) fuel st1 with
        | none => .error .outOfFuel
        | some st =>
          match closestFin st.lengths more_fins first_fin (st.lengths.getD first_fin none) with
          | (_, none) => .ok (false, { res1 with status := .NO_ROUTE_FOUND })
          | (best_fin, some best_length) =>
            match eng.route_nodes_[(st.starts.getD best_fin (-1)).toNat]?,
                eng.route_nodes_[best_fin]? with
            | some start_rn, some end_rn =>
              match mapFind eng.nodes_ start_rn.osmid with
              | none => .error .assertStartNode
              | some start_node =>
                match mapFind eng.nodes_ end_rn.osmid with
                | none => .error .assertEndNode
                | some end_node =>
                  match recoverRoute eng st.prevs fuel best_fin (st.prevs.getD best_fin (-1))
                      [] with
                  | .error err => .error err
                  | .ok temp_nodes =>
                    .ok (true,
                      { status := .OK, start_count := A.length, end_count := B.length,
                        start_node := some start_node, end_node := some end_node,
                        distance := some best_length,
                        route_nodes := (temp_nodes ++ [start_node]).reverse,
                        sharp_turns :=
                          findSharpTurns geo (temp_nodes ++ [start_node]).reverse })
            | _, _ => .error .outOfRange) := by
  unfold FindRoute
  simp only []
  rcases hA : initStarts (equalRange eng.stops_ name_a) []
      { queue := [], starts := List.replicate eng.route_nodes_.length (-1),
        prevs := List.replicate eng.route_nodes_.length (-1),
        lengths := List.replicate eng.route_nodes_.length none, shortest_length := none } 0
    with ⟨sn, st1, sc⟩
  rcases hB : initFins (equalRange eng.stops_ name_b) [] 0 with ⟨fn, ec⟩
  have h1 := initStarts_fst (equalRange eng.stops_ name_a) []
      { queue := [], starts := List.replicate eng.route_nodes_.length (-1),
        prevs := List.replicate eng.route_nodes_.length (-1),
        lengths := List.replicate eng.route_nodes_.length none, shortest_length := none } 0
  have h2 := initStarts_count (equalRange eng.stops_ name_a) []
      { queue := [], starts := List.replicate eng.route_nodes_.length (-1),
        prevs := List.replicate eng.route_nodes_.length (-1),
        lengths := List.replicate eng.route_nodes_.length none, shortest_length := none } 0
  have h3 := initFins_fst (equalRange eng.stops_ name_b) [] 0
  have h4 := initFins_count (equalRange eng.stops_ name_b) [] 0
  rw [hA] at h1 h2
  rw [hB] at h3 h4
  simp only [Nat.zero_add] at h1 h2 h3 h4
  subst h1 h2 h3 h4
  rfl

end RailRouting

namespace RailRouting

/-- C8 (amended). Two calls of FindRoute on the same engine with the same fuel and names,
whatever the two result objects held before, end alike: both return true with the same
result object, of status OK; or both return false with the same status (not OK) and the
same two counts, each result object being its prior content with only the status and the
two counts written; or both stop with the same error. -/
theorem FindRoute_prior_result (geo : GeoMath) (eng : Engine) (fuel : Nat)
    (name_a name_b : String) (res1 res2 : FindRouteResult) :
    match FindRoute geo eng fuel name_a name_b res1, FindRoute geo eng fuel name_a name_b res2 with
    | .ok (true, r1), .ok (true, r2) => r1 = r2 ∧ r1.status = .OK
    | .ok (false, r1), .ok (false, r2) =>
      r1.status = r2.status ∧ r1.start_count = r2.start_count ∧ r1.end_count = r2.end_count ∧
        r1.status ≠ .OK ∧
        r1 = { res1 with status := r1.status, start_count := r1.start_count,
                         end_count := r1.end_count } ∧
        r2 = { res2 with status := r2.status, start_count := r2.start_count,
                         end_count := r2.end_count }
    | .error e1, .error e2 => e1 = e2
    | _, _ => False := by
  rw [FindRoute_unfold, FindRoute_unfold]
  simp only []
  generalize (equalRange eng.stops_ name_a).foldl nodeSetInsert [] = sn
  generalize hfn : (equalRange eng.stops_ name_b).foldl nodeSetInsert [] = fn
  cases sn with
  | nil => cases fn <;> simp
  | cons s sr =>
    cases fn with
    | nil => simp
    | cons f fr =>
      simp only []
      generalize dijkstraLoop eng.route_nodes_ (f :: fr) fuel _ = d
      cases d with
      | none => simp
      | some st =>
        simp only []
        generalize closestFin st.lengths fr f (st.lengths.getD f none) = cf
        rcases cf with ⟨bf, _ | bl⟩
        · simp
        · simp only []
          generalize eng.route_nodes_[(st.starts.getD bf (-1)).toNat]? = x
          generalize eng.route_nodes_[bf]? = y
          cases x with
          | none => simp
          | some srn =>
            cases y with
            | none => simp
            | some ern =>
              simp only []
              cases mapFind eng.nodes_ srn.osmid with
              | none => simp
              | some sn =>
                simp only []
                cases mapFind eng.nodes_ ern.osmid with
                | none => simp
                | some en =>
                  simp only []
                  cases recoverRoute eng st.prevs fuel bf (st.prevs.getD bf (-1)) [] with
                  | error e => simp
                  | ok t => simp

end RailRouting

namespace RailRouting

/-! ## Ordered maps -/

theorem mem_idSetInsert (s : List Int) (k x : Int) :
    x ∈ idSetInsert s k ↔ x = k ∨ x ∈ s := by
  induction s with
  | nil => simp [idSetInsert]
  | cons a rest ih =>
    unfold idSetInsert
    split_ifs with h1 h2
    · simp
    · subst h2; simp
    · simp [ih]; tauto

theorem mem_foldl_idSetInsert (ids s : List Int) (x : Int) :
    x ∈ ids.foldl idSetInsert s ↔ x ∈ ids ∨ x ∈ s := by
  induction ids generalizing s with
  | nil => simp
  | cons a rest ih => simp [ih, mem_idSetInsert]; tauto

theorem mem_mapInsert {β : Type} (m : List (Int × β)) (k : Int) (v : β) (p : Int × β) :
    p ∈ mapInsert m k v → p ∈ m ∨ p = (k, v) := by
  induction m with
  | nil => simp [mapInsert]
  | cons a rest ih =>
    obtain ⟨k1, v1⟩ := a
    unfold mapInsert
    split_ifs with h1 h2
    · simp; tauto
    · intro h; exact Or.inl h
    · simp only [List.mem_cons]
      rintro (h | h)
      · exact Or.inl (Or.inl h)
      · rcases ih h with h | h
        · exact Or.inl (Or.inr h)
        · exact Or.inr h

theorem mem_mapInsert_of_mem {β : Type} (m : List (Int × β)) (k : Int) (v : β) (p : Int × β)
    (h : p ∈ m) : p ∈ mapInsert m k v := by
  induction m with
  | nil => simp at h
  | cons a rest ih =>
    obtain ⟨k1, v1⟩ := a
    unfold mapInsert
    split_ifs with h1 h2
    · exact List.mem_cons_of_mem _ h
    · exact h
    · rcases List.mem_cons.1 h with h | h
      · rw [h]; exact List.mem_cons_self _ _
      · exact List.mem_cons_of_mem _ (ih h)

theorem sortedKeys_mapInsert {β : Type} (m : List (Int × β)) (k : Int) (v : β)
    (hs : SortedKeys m) : SortedKeys (mapInsert m k v) := by
  induction m with
  | nil => simp [mapInsert, SortedKeys]
  | cons a rest ih =>
    obtain ⟨k1, v1⟩ := a
    unfold SortedKeys at hs ih ⊢
    rw [List.pairwise_cons] at hs
    unfold mapInsert
    split_ifs with h1 h2
    · rw [List.pairwise_cons]
      refine ⟨?_, List.pairwise_cons.2 hs⟩
      intro b hb
      rcases List.mem_cons.1 hb with hb | hb
      · rw [hb]; exact h1
      · have := hs.1 b hb
        simp only at this ⊢
        omega
    · exact List.pairwise_cons.2 hs
    · rw [List.pairwise_cons]
      refine ⟨?_, ih hs.2⟩
      intro b hb
      rcases mem_mapInsert rest k v b hb with hb | hb
      · exact hs.1 b hb
      · rw [hb]; simp only; omega

theorem mapFind_eq_some_of_mem {β : Type} (m : List (Int × β)) (k : Int) (v : β)
    (hs : SortedKeys m) (h : (k, v) ∈ m) : mapFind m k = some v := by
  induction m with
  | nil => simp at h
  | cons a rest ih =>
    obtain ⟨k1, v1⟩ := a
    unfold SortedKeys at hs ih
    rw [List.pairwise_cons] at hs
    unfold mapFind
    rcases List.mem_cons.1 h with h | h
    · injection h with h1 h2
      subst h1 h2; simp
    · have := hs.1 _ h
      simp only at this
      rw [if_neg (by omega)]
      exact ih hs.2 h

theorem mem_of_mapFind_eq_some {β : Type} (m : List (Int × β)) (k : Int) (v : β)
    (h : mapFind m k = some v) : (k, v) ∈ m := by
  induction m with
  | nil => simp [mapFind] at h
  | cons a rest ih =>
    obtain ⟨k1, v1⟩ := a
    unfold mapFind at h
    split_ifs at h with h1
    · injection h with h
      subst h1 h; exact List.mem_cons_self _ _
    · exact List.mem_cons_of_mem _ (ih h)

theorem mapFind_eq_none_iff {β : Type} (m : List (Int × β)) (k : Int) :
    mapFind m k = none ↔ ∀ v, (k, v) ∉ m := by
  induction m with
  | nil => simp [mapFind]
  | cons a rest ih =>
    obtain ⟨k1, v1⟩ := a
    unfold mapFind
    split_ifs with h1
    · subst h1
      simp only [false_iff, not_forall, not_not]
      exact ⟨v1, List.mem_cons_self _ _⟩
    · rw [ih]
      constructor
      · intro h v hv
        rcases List.mem_cons.1 hv with hv | hv
        · injection hv with hv1 hv2; exact h1 hv1.symm
        · exact h v hv
      · intro h v hv
        exact h v (List.mem_cons_of_mem _ hv)

theorem mapFind_eq_none_of_lt {β : Type} (m : List (Int × β)) (k : Int)
    (h : ∀ p ∈ m, k < p.1) : mapFind m k = none := by
  rw [mapFind_eq_none_iff]
  intro v hv
  have := h _ hv
  simp only at this
  omega

theorem mapFind_mapInsert_self {β : Type} (m : List (Int × β)) (k : Int) (v : β)
    (hs : SortedKeys m) :
    mapFind (mapInsert m k v) k =
      match mapFind m k with
      | some x => some x
      | none => some v := by
  induction m with
  | nil => simp [mapInsert, mapFind]
  | cons a rest ih =>
    obtain ⟨k1, v1⟩ := a
    unfold SortedKeys at hs ih
    rw [List.pairwise_cons] at hs
    unfold mapInsert
    split_ifs with h1 h2
    · have hn : mapFind ((k1, v1) :: rest) k = none := by
        apply mapFind_eq_none_of_lt
        intro p hp
        rcases List.mem_cons.1 hp with hp | hp
        · rw [hp]; exact h1
        · have := hs.1 p hp
          simp only at this
          omega
      rw [hn]
      simp [mapFind]
    · subst h2; simp [mapFind]
    · have hne : ¬ k1 = k := fun h => h2 h.symm
      simp only [mapFind, if_neg hne]
      exact ih hs.2

theorem mapFind_mapInsert_ne {β : Type} (m : List (Int × β)) (k k2 : Int) (v : β)
    (hne : k2 ≠ k) : mapFind (mapInsert m k v) k2 = mapFind m k2 := by
  induction m with
  | nil => simp [mapInsert, mapFind, hne.symm]
  | cons a rest ih =>
    obtain ⟨k1, v1⟩ := a
    unfold mapInsert
    split_ifs with h1 h2
    · simp [mapFind, hne.symm]
    · rfl
    · simp only [mapFind, ih]

end RailRouting

namespace RailRouting

/-! ## The ways pass -/

theorem isRailWay_iff (way : Way) : isRailWay way = true ↔ HasRailTag way := by
  unfold isRailWay HasRailTag
  cases way.tags.GetTag "railway" with
  | none => simp
  | some v => simp [Bool.or_assoc]

theorem waysPass_invariant (ways : List Way) (eng : Engine)
    (hs : SortedKeys eng.ways_)
    (hr : ∀ p ∈ eng.ways_, HasRailTag p.2 ∧ p.2.id_ = p.1) :
    SortedKeys (ways.foldl ProcessWay eng).ways_ ∧
      ∀ p ∈ (ways.foldl ProcessWay eng).ways_, HasRailTag p.2 ∧ p.2.id_ = p.1 := by
  induction ways generalizing eng with
  | nil => exact ⟨hs, hr⟩
  | cons w rest ih =>
    rw [List.foldl_cons]
    apply ih
    · unfold ProcessWay
      split_ifs with h
      · exact sortedKeys_mapInsert _ _ _ hs
      · exact hs
    · unfold ProcessWay
      split_ifs with h
      · intro p hp
        rcases mem_mapInsert _ _ _ _ hp with hp | hp
        · exact hr p hp
        · rw [hp]; exact ⟨(isRailWay_iff w).1 h, rfl⟩
      · exact hr

theorem waysPass_init (ways : List Way) :
    SortedKeys (ways.foldl ProcessWay Engine.init).ways_ ∧
      ∀ p ∈ (ways.foldl ProcessWay Engine.init).ways_, HasRailTag p.2 ∧ p.2.id_ = p.1 := by
  apply waysPass_invariant
  · simp [SortedKeys, Engine.init]
  · simp [Engine.init]

/-- C10 (as stated, refuted). With the rail way 10 already in the way map, ProcessWay on a
second rail way with the id 10 does not store it: the map still holds the first one. -/
theorem ProcessWay_duplicate_id_not_stored :
    HasRailTag exWayDup ∧
      mapFind (ProcessWay ([exWay].foldl ProcessWay Engine.init) exWayDup).ways_ exWayDup.id_
        = some exWay ∧ exWay ≠ exWayDup := by
  refine ⟨⟨"rail", by decide, Or.inl rfl⟩, by decide, by decide⟩

/-- C10 (amended). In the ways pass, ProcessWay leaves the way stored under its id exactly
when the way has a `railway` tag with one of the four values and the map did not already
hold another way under that id; every node id of a rail way is in the needed-nodes set
afterwards; a way without such a tag leaves the engine as it was. -/
theorem ProcessWay_stores_iff (ways : List Way) (w : Way) :
    (mapFind (ProcessWay (ways.foldl ProcessWay Engine.init) w).ways_ w.id_ = some w ↔
        HasRailTag w ∧
          (mapFind (ways.foldl ProcessWay Engine.init).ways_ w.id_ = none ∨
            mapFind (ways.foldl ProcessWay Engine.init).ways_ w.id_ = some w)) ∧
      (HasRailTag w →
        ∀ id ∈ w.nodes_, id ∈ (ProcessWay (ways.foldl ProcessWay Engine.init) w).needed_nodes_) ∧
      (¬ HasRailTag w →
        ProcessWay (ways.foldl ProcessWay Engine.init) w = ways.foldl ProcessWay Engine.init) := by
  obtain ⟨hs, hr⟩ := waysPass_init ways
  generalize ways.foldl ProcessWay Engine.init = eng at hs hr
  refine ⟨?_, ?_, ?_⟩
  · by_cases h : isRailWay w = true
    · have hw := (isRailWay_iff w).1 h
      simp only [ProcessWay, if_pos h, mapFind_mapInsert_self _ _ _ hs]
      cases hf : mapFind eng.ways_ w.id_ with
      | none => simp [hw]
      | some x =>
        simp only [hw, true_and]
        constructor
        · intro hx; exact Or.inr hx
        · rintro (hx | hx)
          · exact absurd hx (by simp)
          · exact hx
    · have hw : ¬ HasRailTag w := fun hw => h ((isRailWay_iff w).2 hw)
      simp only [ProcessWay, if_neg h, hw, false_and, iff_false]
      intro hf
      exact hw (hr _ (mem_of_mapFind_eq_some _ _ _ hf)).1
  · intro hw id hid
    have h := (isRailWay_iff w).2 hw
    simp only [ProcessWay, if_pos h]
    exact (mem_foldl_idSetInsert _ _ _).2 (Or.inl hid)
  · intro hw
    have h : ¬ isRailWay w = true := fun h => hw ((isRailWay_iff w).1 h)
    simp only [ProcessWay, if_neg h]

/-- C10 (witness). After the rail way 10, the rail way 11 is stored and its nodes are
needed; the hypotheses of the three parts are met by the example ways. -/
theorem ProcessWay_stores_iff_witness :
    (HasRailTag exWay11 ∧
        (mapFind ([exWay].foldl ProcessWay Engine.init).ways_ exWay11.id_ = none ∨
          mapFind ([exWay].foldl ProcessWay Engine.init).ways_ exWay11.id_ = some exWay11)) ∧
      mapFind (ProcessWay ([exWay].foldl ProcessWay Engine.init) exWay11).ways_ exWay11.id_
        = some exWay11 ∧
      (∀ id ∈ exWay11.nodes_,
        id ∈ (ProcessWay ([exWay].foldl ProcessWay Engine.init) exWay11).needed_nodes_) ∧
      ¬ HasRailTag exWayPlain ∧
      ProcessWay ([exWay].foldl ProcessWay Engine.init) exWayPlain
        = [exWay].foldl ProcessWay Engine.init :=
  have hrail : HasRailTag exWay11 := ⟨"rail", by decide, Or.inl rfl⟩
  have hplain : ¬ HasRailTag exWayPlain := fun h => by
    have := (isRailWay_iff exWayPlain).2 h
    revert this; decide
  have h1 := ProcessWay_stores_iff [exWay] exWay11
  have h2 := ProcessWay_stores_iff [exWay] exWayPlain
  ⟨⟨hrail, Or.inl (by decide)⟩, h1.1.2 ⟨hrail, Or.inl (by decide)⟩, h1.2.1 hrail, hplain,
    h2.2.2 hplain⟩

end RailRouting

namespace RailRouting

/-! ## FindRoute: statuses of the station look-up, and the prior result -/

theorem startNodes_eq_nil_iff (eng : Engine) (name : String) :
    (equalRange eng.stops_ name).foldl nodeSetInsert [] = [] ↔ ¬ HasStop eng name := by
  rw [foldl_nodeSetInsert_eq_nil, equalRange_eq_nil]
  simp [HasStop]

theorem station_lookup_status (geo : GeoMath) (eng : Engine) (fuel : Nat)
    (name_a name_b : String) (result : FindRouteResult) :
    (¬ HasStop eng name_a → ¬ HasStop eng name_b →
        ∃ r, FindRoute geo eng fuel name_a name_b result = .ok (false, r) ∧
          r.status = .BOTH_STATIONS_NOT_FOUND) ∧
      (¬ HasStop eng name_a → HasStop eng name_b →
        ∃ r, FindRoute geo eng fuel name_a name_b result = .ok (false, r) ∧
          r.status = .START_STATION_NOT_FOUND) ∧
      (HasStop eng name_a → ¬ HasStop eng name_b →
        ∃ r, FindRoute geo eng fuel name_a name_b result = .ok (false, r) ∧
          r.status = .END_STATION_NOT_FOUND) ∧
      (HasStop eng name_a → HasStop eng name_b →
        ∀ ok r, FindRoute geo eng fuel name_a name_b result = .ok (ok, r) →
          r.status ≠ .BOTH_STATIONS_NOT_FOUND ∧ r.status ≠ .START_STATION_NOT_FOUND ∧
            r.status ≠ .END_STATION_NOT_FOUND) := by
  have hA := startNodes_eq_nil_iff eng name_a
  have hB := startNodes_eq_nil_iff eng name_b
  rw [FindRoute_unfold]
  simp only []
  generalize (equalRange eng.stops_ name_a).foldl nodeSetInsert [] = sn at hA
  generalize (equalRange eng.stops_ name_b).foldl nodeSetInsert [] = fn at hB
  cases sn with
  | nil =>
    have ha : ¬ HasStop eng name_a := hA.1 rfl
    cases fn with
    | nil =>
      have hb : ¬ HasStop eng name_b := hB.1 rfl
      simp [ha, hb]
    | cons f fr =>
      have hb : HasStop eng name_b := by
        by_contra h
        exact absurd (hB.2 h) (by simp)
      simp [ha, hb]
  | cons s sr =>
    have ha : HasStop eng name_a := by
      by_contra h
      exact absurd (hA.2 h) (by simp)
    cases fn with
    | nil =>
      have hb : ¬ HasStop eng name_b := hB.1 rfl
      simp [ha, hb]
    | cons f fr =>
      have hb : HasStop eng name_b := by
        by_contra h
        exact absurd (hB.2 h) (by simp)
      simp only [ha, hb, not_true_eq_false, false_implies, true_implies, true_and]
      intro ok r
      generalize dijkstraLoop eng.route_nodes_ (f :: fr) fuel _ = d
      cases d with
      | none => simp
      | some st =>
        simp only []
        generalize closestFin st.lengths fr f (st.lengths.getD f none) = cf
        rcases cf with ⟨bf, _ | bl⟩
        · simp only [Except.ok.injEq, Prod.mk.injEq]
          rintro ⟨-, rfl⟩
          simp
        · simp only []
          generalize eng.route_nodes_[(st.starts.getD bf (-1)).toNat]? = x
          generalize eng.route_nodes_[bf]? = y
          cases x with
          | none => simp
          | some srn =>
            cases y with
            | none => simp
            | some ern =>
              simp only []
              cases mapFind eng.nodes_ srn.osmid with
              | none => simp
              | some sn =>
                simp only []
                cases mapFind eng.nodes_ ern.osmid with
                | none => simp
                | some en =>
                  simp only []
                  cases recoverRoute eng st.prevs fuel bf (st.prevs.getD bf (-1)) [] with
                  | error e => simp
                  | ok t =>
                    simp only [Except.ok.injEq, Prod.mk.injEq]
                    rintro ⟨-, rfl⟩
                    simp

/-- C3. FindRoute returns false with BOTH_STATIONS_NOT_FOUND when neither name has an entry
in the stop index, with START_STATION_NOT_FOUND when only the first has none, with
END_STATION_NOT_FOUND when only the second has none; and when both names have entries no
call returns one of these three statuses. This holds for every engine state, fuel and prior
result object. -/
theorem FindRoute_station_status (geo : GeoMath) (eng : Engine) (fuel : Nat)
    (name_a name_b : String) (result : FindRouteResult) :
    (¬ HasStop eng name_a → ¬ HasStop eng name_b →
        ∃ r, FindRoute geo eng fuel name_a name_b result = .ok (false, r) ∧
          r.status = .BOTH_STATIONS_NOT_FOUND) ∧
      (¬ HasStop eng name_a → HasStop eng name_b →
        ∃ r, FindRoute geo eng fuel name_a name_b result = .ok (false, r) ∧
          r.status = .START_STATION_NOT_FOUND) ∧
      (HasStop eng name_a → ¬ HasStop eng name_b →
        ∃ r, FindRoute geo eng fuel name_a name_b result = .ok (false, r) ∧
          r.status = .END_STATION_NOT_FOUND) ∧
      (HasStop eng name_a → HasStop eng name_b →
        ∀ ok r, FindRoute geo eng fuel name_a name_b result = .ok (ok, r) →
          r.status ≠ .BOTH_STATIONS_NOT_FOUND ∧ r.status ≠ .START_STATION_NOT_FOUND ∧
            r.status ≠ .END_STATION_NOT_FOUND) :=
  station_lookup_status geo eng fuel name_a name_b result

/-- C3 (witness). On the engine of scenario S1, where A and B are stops and X, Z are not,
each of the four cases applies. -/
theorem FindRoute_station_status_witness :
    (∃ r, FindRoute exGeo exEngine 9 "X" "Z" exResult5 = .ok (false, r) ∧
        r.status = .BOTH_STATIONS_NOT_FOUND) ∧
      (∃ r, FindRoute exGeo exEngine 9 "X" "B" exResult5 = .ok (false, r) ∧
        r.status = .START_STATION_NOT_FOUND) ∧
      (∃ r, FindRoute exGeo exEngine 9 "A" "Z" exResult5 = .ok (false, r) ∧
        r.status = .END_STATION_NOT_FOUND) ∧
      (∀ ok r, FindRoute exGeo exEngine 9 "A" "B" exResult5 = .ok (ok, r) →
        r.status ≠ .BOTH_STATIONS_NOT_FOUND ∧ r.status ≠ .START_STATION_NOT_FOUND ∧
          r.status ≠ .END_STATION_NOT_FOUND) :=
  have hA : HasStop exEngine "A" := ⟨0, by decide⟩
  have hB : HasStop exEngine "B" := ⟨1, by decide⟩
  have hX : ¬ HasStop exEngine "X" := by
    rintro ⟨i, hi⟩; revert hi; simp [exEngine]
  have hZ : ¬ HasStop exEngine "Z" := by
    rintro ⟨i, hi⟩; revert hi; simp [exEngine]
  ⟨(FindRoute_station_status exGeo exEngine 9 "X" "Z" exResult5).1 hX hZ,
    (FindRoute_station_status exGeo exEngine 9 "X" "B" exResult5).2.1 hX hB,
    (FindRoute_station_status exGeo exEngine 9 "A" "Z" exResult5).2.2.1 hA hZ,
    (FindRoute_station_status exGeo exEngine 9 "A" "B" exResult5).2.2.2 hA hB⟩

/-- C8 (as stated, refuted). On the engine compiled from scenario S1 the query from A to
the unknown name Z fails, and the result object keeps the distance it held before the call:
two calls with the same names end with different result objects. -/
theorem FindRoute_failure_keeps_prior_fields :
    Parse exGeo [exWay] [exNode1, exNode2, exNode3] = .ok exEngine ∧
      FindRoute exGeo exEngine 9 "A" "Z" exResult5 =
        .ok (false, ⟨.END_STATION_NOT_FOUND, 1, 0, none, none, some 5, [], []⟩) ∧
      FindRoute exGeo exEngine 9 "A" "Z" exResult7 =
        .ok (false, ⟨.END_STATION_NOT_FOUND, 1, 0, none, none, some 7, [], []⟩) ∧
      (⟨.END_STATION_NOT_FOUND, 1, 0, none, none, some 5, [], []⟩ : FindRouteResult) ≠
        ⟨.END_STATION_NOT_FOUND, 1, 0, none, none, some 7, [], []⟩ := by
  refine ⟨by rfl, by rfl, by rfl, by decide⟩

end RailRouting

namespace RailRouting

/-! ## Lengths, the queue and walks -/

theorem ELen.lt_some_some (a b : Int) : ELen.lt (some a) (some b) = true ↔ a < b := by
  simp [ELen.lt]

theorem ELen.lt_some_none (a : Int) : ELen.lt (some a) none = true := rfl

theorem ELen.lt_none (b : ELen) : ELen.lt none b = false := by
  cases b <;> rfl

theorem getD_set_self {α : Type} (l : List α) (i : Nat) (a d : α) (h : i < l.length) :
    (l.set i a).getD i d = a := by
  simp [List.getD_eq_getElem?_getD, List.getElem?_set, h]

theorem getD_set_other {α : Type} (l : List α) (i j : Nat) (a d : α) (h : i ≠ j) :
    (l.set i a).getD j d = l.getD j d := by
  simp [List.getD_eq_getElem?_getD, List.getElem?_set_ne h]

theorem getD_replicate {α : Type} (n i : Nat) (a : α) : (List.replicate n a).getD i a = a := by
  simp only [List.getD_eq_getElem?_getD, List.getElem?_replicate]
  split_ifs <;> rfl

theorem len_lt_of_some (st : SearchState) (v : Nat) (y : Int) (h : st.len v = some y) :
    v < st.lengths.length := by
  by_contra hn
  unfold SearchState.len at h
  rw [List.getD_eq_getElem?_getD, List.getElem?_eq_none (by omega)] at h
  simp at h

theorem mem_queueInsert (q : List (ELen × Nat)) (k : ELen) (v : Nat) (p : ELen × Nat) :
    p ∈ queueInsert q k v ↔ p = (k, v) ∨ p ∈ q := by
  induction q with
  | nil => simp [queueInsert]
  | cons a rest ih =>
    obtain ⟨k1, v1⟩ := a
    unfold queueInsert
    split_ifs with h
    · simp
    · simp only [List.mem_cons, ih]; tauto

theorem length_queueInsert (q : List (ELen × Nat)) (k : ELen) (v : Nat) :
    (queueInsert q k v).length = q.length + 1 := by
  induction q with
  | nil => simp [queueInsert]
  | cons a rest ih =>
    obtain ⟨k1, v1⟩ := a
    unfold queueInsert
    split_ifs with h
    · simp
    · simp [ih]

theorem sorted_queueInsert (q : List (ELen × Nat)) (k : Int) (v : Nat)
    (hk : ∀ p ∈ q, ∃ k1, p.1 = some k1)
    (hs : q.Pairwise (fun a b => ¬ ELen.lt b.1 a.1 = true)) :
    (queueInsert q (some k) v).Pairwise (fun a b => ¬ ELen.lt b.1 a.1 = true) := by
  induction q with
  | nil => simp [queueInsert]
  | cons a rest ih =>
    obtain ⟨k1, v1⟩ := a
    obtain ⟨x1, hx1⟩ := hk (k1, v1) (List.mem_cons_self _ _)
    simp only at hx1
    subst hx1
    rw [List.pairwise_cons] at hs
    unfold queueInsert
    split_ifs with h
    · rw [ELen.lt_some_some] at h
      rw [List.pairwise_cons]
      refine ⟨?_, List.pairwise_cons.2 hs⟩
      intro b hb
      rcases List.mem_cons.1 hb with hb | hb
      · rw [hb]; simp only [ELen.lt_some_some]; omega
      · obtain ⟨kb, hkb⟩ := hk b (List.mem_cons_of_mem _ hb)
        have h2 := hs.1 b hb
        rw [hkb] at h2 ⊢
        simp only [ELen.lt_some_some] at h2 ⊢
        omega
    · rw [ELen.lt_some_some] at h
      rw [List.pairwise_cons]
      refine ⟨?_, ih (fun p hp => hk p (List.mem_cons_of_mem _ hp)) hs.2⟩
      intro b hb
      rcases (mem_queueInsert _ _ _ _).1 hb with hb | hb
      · rw [hb]; simp only [ELen.lt_some_some]; omega
      · exact hs.1 b hb

theorem mem_of_getElem?_eq_some {α : Type} (l : List α) (n : Nat) (a : α)
    (h : l[n]? = some a) : a ∈ l :=
  List.mem_iff_getElem?.2 ⟨n, h⟩

theorem mem_edgesOf (rn : List RouteNode) (u : Nat) (e : RouteEdge) (he : e ∈ edgesOf rn u) :
    ∃ r, rn[u]? = some r ∧ r ∈ rn ∧ e ∈ r.edges := by
  unfold edgesOf at he
  cases hr : rn[u]? with
  | none => rw [hr] at he; simp at he
  | some r =>
    rw [hr] at he
    exact ⟨r, rfl, mem_of_getElem?_eq_some rn u r hr, he⟩

theorem Walk.snoc (rn : List RouteNode) (s u v : Nat) (x : Int) (e : RouteEdge)
    (hw : Walk rn s u x) (he : e ∈ edgesOf rn u) (hv : e.node = Int.ofNat v) :
    Walk rn s v (x + e.length) := by
  induction hw with
  | nil a =>
    have := Walk.cons a v v e 0 he hv (Walk.nil v)
    simpa using this
  | cons a b c e1 len h1 h2 _ ih =>
    have := Walk.cons a b v e1 (len + e.length) h1 h2 (ih he)
    have heq : e1.length + len + e.length = e1.length + (len + e.length) := by omega
    rw [heq]; exact this

theorem edgesOf_nonneg (rn : List RouteNode) (hn : NonNegLengths rn) (u : Nat) (e : RouteEdge)
    (he : e ∈ edgesOf rn u) : 0 ≤ e.length := by
  obtain ⟨r, -, hr, her⟩ := mem_edgesOf rn u e he
  exact hn r hr e her

theorem edgesOf_inRange (rn : List RouteNode) (hw : EdgesInRange rn) (u : Nat) (e : RouteEdge)
    (he : e ∈ edgesOf rn u) : e.node = -1 ∨ ∃ v, v < rn.length ∧ e.node = Int.ofNat v := by
  obtain ⟨r, -, hr, her⟩ := mem_edgesOf rn u e he
  exact hw r hr e her

theorem Walk.nonneg (rn : List RouteNode) (hn : NonNegLengths rn) (s v : Nat) (x : Int)
    (hw : Walk rn s v x) : 0 ≤ x := by
  induction hw with
  | nil a => exact le_refl _
  | cons a b c e len h1 h2 _ ih =>
    have := edgesOf_nonneg rn hn a e h1
    omega

end RailRouting

namespace RailRouting

/-! ## One relaxation -/

theorem relax_len (st : SearchState) (u v z : Nat) (nl : ELen) (hv : v < st.lengths.length) :
    (relax st u v nl).len z = if z = v then nl else st.len z := by
  unfold relax SearchState.len
  simp only
  split_ifs with h
  · subst h; exact getD_set_self _ _ _ _ hv
  · exact getD_set_other _ _ _ _ _ (fun h2 => h h2.symm)

theorem relax_prevs (st : SearchState) (u v z : Nat) (nl : ELen) (hv : v < st.prevs.length) :
    (relax st u v nl).prevs.getD z (-1) =
      if z = v then Int.ofNat u else st.prevs.getD z (-1) := by
  unfold relax
  simp only
  split_ifs with h
  · subst h; exact getD_set_self _ _ _ _ hv
  · exact getD_set_other _ _ _ _ _ (fun h2 => h h2.symm)

theorem relax_starts (st : SearchState) (u v z : Nat) (nl : ELen) (hv : v < st.starts.length) :
    (relax st u v nl).starts.getD z (-1) =
      if z = v then st.starts.getD u (-1) else st.starts.getD z (-1) := by
  unfold relax
  simp only
  split_ifs with h
  · subst h; exact getD_set_self _ _ _ _ hv
  · exact getD_set_other _ _ _ _ _ (fun h2 => h h2.symm)

theorem relax_queue (st : SearchState) (u v : Nat) (nl : ELen) :
    (relax st u v nl).queue = queueInsert st.queue nl v := rfl

theorem relax_shortest (st : SearchState) (u v : Nat) (nl : ELen) :
    (relax st u v nl).shortest_length = st.shortest_length := rfl

/-- What an improvement of the label of `v` to `nl` says about the old label. -/
theorem improvement_cases (st : SearchState) (v : Nat) (nl : Int)
    (h : ELen.lt (some nl) (st.len v) = true) :
    st.len v = none ∨ ∃ y, st.len v = some y ∧ nl < y := by
  cases hl : st.len v with
  | none => exact Or.inl rfl
  | some y =>
    rw [hl, ELen.lt_some_some] at h
    exact Or.inr ⟨y, rfl, h⟩

theorem coreInv_relax (rn : List RouteNode) (S F : List Nat) (st : SearchState) (u v : Nat)
    (x : Int) (e : RouteEdge) (hc : CoreInv rn S F st) (hu : st.len u = some x)
    (he : e ∈ edgesOf rn u) (hev : e.node = Int.ofNat v) (hvn : v < rn.length)
    (hw : 0 ≤ e.length) (himp : ELen.lt (some (x + e.length)) (st.len v) = true)
    (hpar : ∀ w p, st.prevs.getD w (-1) = Int.ofNat p → ∃ y, st.len p = some y ∧ y ≤ x) :
    CoreInv rn S F (relax st u v (some (x + e.length))) := by
  have hvl : v < st.lengths.length := by rw [hc.len_lengths]; exact hvn
  have hvp : v < st.prevs.length := by rw [hc.len_prevs]; exact hvn
  have hvs : v < st.starts.length := by rw [hc.len_starts]; exact hvn
  have hold := improvement_cases st v _ himp
  have hne : v ≠ u := by
    rintro rfl
    rcases hold with h | ⟨y, h, hy⟩
    · rw [hu] at h; simp at h
    · rw [hu] at h; injection h with h; omega
  constructor
  · simp [relax, hc.len_lengths]
  · simp [relax, hc.len_prevs]
  · simp [relax, hc.len_starts]
  · rw [relax_queue]
    exact sorted_queueInsert _ _ _
      (fun p hp => by
        obtain ⟨-, k, y, hk, -⟩ := hc.queue_ok p hp
        exact ⟨k, hk⟩) hc.sorted
  · intro p hp
    rw [relax_queue, mem_queueInsert] at hp
    rw [relax_len _ _ _ _ _ hvl]
    rcases hp with hp | hp
    · subst hp
      exact ⟨hvn, x + e.length, x + e.length, rfl, by simp, le_refl _⟩
    · obtain ⟨hlt, k, y, hk, hy, hyk⟩ := hc.queue_ok p hp
      refine ⟨hlt, ?_⟩
      split_ifs with hpv
      · refine ⟨k, x + e.length, hk, rfl, ?_⟩
        rcases hold with h | ⟨y2, h, hy2⟩
        · rw [hpv, h] at hy; simp at hy
        · rw [hpv, h] at hy; injection hy with hy; omega
      · exact ⟨k, y, hk, hy, hyk⟩
  · intro z y hz
    rw [relax_len _ _ _ _ _ hvl] at hz
    split_ifs at hz with hzv
    · injection hz with hz
      subst hzv hz
      obtain ⟨s, hs, hws⟩ := hc.sound u x hu
      exact ⟨s, hs, Walk.snoc rn s u z x e hws he hev⟩
    · exact hc.sound z y hz
  · intro s hs
    obtain ⟨y, hy, hy0⟩ := hc.start_zero s hs
    rw [relax_len _ _ _ _ _ hvl]
    split_ifs with hsv
    · refine ⟨x + e.length, rfl, ?_⟩
      rcases hold with h | ⟨y2, h, hy2⟩
      · rw [hsv, h] at hy; simp at hy
      · rw [hsv, h] at hy; injection hy with hy; omega
    · exact ⟨y, hy, hy0⟩
  · intro s hs
    rw [relax_shortest] at hs
    obtain ⟨f, hf, y, hy, hys⟩ := hc.shortest_fin s hs
    refine ⟨f, hf, ?_⟩
    rw [relax_len _ _ _ _ _ hvl]
    split_ifs with hfv
    · refine ⟨x + e.length, rfl, ?_⟩
      rcases hold with h | ⟨y2, h, hy2⟩
      · rw [hfv, h] at hy; simp at hy
      · rw [hfv, h] at hy; injection hy with hy; omega
    · exact ⟨y, hy, hys⟩
  · intro z y hz
    rw [relax_len _ _ _ _ _ hvl] at hz
    rw [relax_starts _ _ _ _ _ hvs]
    split_ifs at hz ⊢ with hzv
    · exact hc.origin u x hu
    · exact hc.origin z y hz
  · intro z y hz hp
    rw [relax_len _ _ _ _ _ hvl] at hz
    rw [relax_prevs _ _ _ _ _ hvp] at hp
    rw [relax_starts _ _ _ _ _ hvs]
    by_cases hzv : z = v
    · exfalso
      rw [if_pos hzv] at hp
      have : Int.ofNat u ≠ -1 := by
        intro h
        have h2 : (0 : Int) ≤ Int.ofNat u := Int.ofNat_nonneg u
        omega
      exact this hp
    · rw [if_neg hzv] at hz hp ⊢
      exact hc.root z y hz hp
  · obtain ⟨rank, hr⟩ := hc.rank
    refine ⟨fun z => if z = v then rank u + 1 else rank z, ?_⟩
    intro w p hwp
    rw [relax_prevs _ _ _ _ _ hvp] at hwp
    split_ifs at hwp with hwv
    · have hpu : p = u := by
        have := Int.ofNat_inj.1 hwp
        exact this.symm
      subst hpu
      simp only [if_neg hne.symm, hwv, if_true]
      omega
    · have hpv : p ≠ v := by
        rintro rfl
        obtain ⟨y, hy, hyx⟩ := hpar w p hwp
        rcases hold with h | ⟨y2, h, hy2⟩
        · rw [h] at hy; simp at hy
        · rw [h] at hy; injection hy with hy; omega
      simp only [if_neg hpv, if_neg hwv]
      exact hr w p hwp
  · intro w p hwp
    rw [relax_prevs _ _ _ _ _ hvp] at hwp
    rw [relax_starts _ _ _ _ _ hvs, relax_starts _ _ _ _ _ hvs]
    by_cases hwv : w = v
    · rw [if_pos hwv] at hwp
      have hpu : p = u := (Int.ofNat_inj.1 hwp).symm
      subst hpu
      rw [if_pos hwv, if_neg hne.symm]
    · rw [if_neg hwv] at hwp
      have hpv : p ≠ v := by
        rintro rfl
        obtain ⟨y, hy, hyx⟩ := hpar w p hwp
        rcases hold with h | ⟨y2, h, hy2⟩
        · rw [h] at hy; simp at hy
        · rw [h] at hy; injection hy with hy; omega
      rw [if_neg hwv, if_neg hpv]
      exact hc.origin_prev w p hwp

end RailRouting

namespace RailRouting

theorem scanInv_parent (rn : List RouteNode) (S F : List Nat) (u : Nat) (x : Int)
    (st : SearchState) (hs : ScanInv rn S F u x st) (w p : Nat)
    (h : st.prevs.getD w (-1) = Int.ofNat p) :
    p < rn.length ∧ (∃ e ∈ edgesOf rn p, e.node = Int.ofNat w) ∧
      ∃ y, st.len p = some y ∧ y ≤ x := by
  rcases hs.prevs_ok w with h1 | ⟨p2, h1, h2⟩
  · exfalso
    rw [h1] at h
    have h2 : (0 : Int) ≤ Int.ofNat p := Int.ofNat_nonneg p
    omega
  · rw [h1] at h
    have := Int.ofNat_inj.1 h
    subst this
    exact h2

theorem scanInv_relax (rn : List RouteNode) (S F : List Nat) (st : SearchState) (u v : Nat)
    (x : Int) (e : RouteEdge) (hs : ScanInv rn S F u x st)
    (he : e ∈ edgesOf rn u) (hev : e.node = Int.ofNat v) (hvn : v < rn.length)
    (hw : 0 ≤ e.length) (himp : ELen.lt (some (x + e.length)) (st.len v) = true) :
    ScanInv rn S F u x (relax st u v (some (x + e.length))) := by
  have hc := hs.core
  have hvl : v < st.lengths.length := by rw [hc.len_lengths]; exact hvn
  have hvp : v < st.prevs.length := by rw [hc.len_prevs]; exact hvn
  have hold := improvement_cases st v _ himp
  have hne : v ≠ u := by
    rintro rfl
    rcases hold with h | ⟨y, h, hy⟩
    · rw [hs.cur_len] at h; simp at h
    · rw [hs.cur_len] at h; injection h with h; omega
  have hnotv : ∀ p y, st.len p = some y → y ≤ x → p ≠ v := by
    rintro p y hy hyx rfl
    rcases hold with h | ⟨y2, h, hy2⟩
    · rw [h] at hy; simp at hy
    · rw [h] at hy; injection hy with hy; omega
  constructor
  · exact coreInv_relax rn S F st u v x e hc hs.cur_len he hev hvn hw himp
      (fun w p h => (scanInv_parent rn S F u x st hs w p h).2.2)
  · exact hs.cur_lt
  · rw [relax_len _ _ _ _ _ hvl, if_neg hne.symm]; exact hs.cur_len
  · intro p hp k hk
    rw [relax_queue, mem_queueInsert] at hp
    rcases hp with hp | hp
    · subst hp
      simp only [Option.some.injEq] at hk
      omega
    · exact hs.keys_ge p hp k hk
  · intro z y hz
    rw [relax_len _ _ _ _ _ hvl] at hz
    rw [relax_queue, mem_queueInsert]
    by_cases hzv : z = v
    · rw [if_pos hzv] at hz
      left; left; rw [hzv, hz]
    · rw [if_neg hzv] at hz
      rcases hs.closed z y hz with h | h
      · exact Or.inl (Or.inr h)
      · exact Or.inr h
  · exact hs.shortest_le
  · intro z hzu y hz
    rw [relax_len _ _ _ _ _ hvl] at hz
    rw [relax_queue, mem_queueInsert]
    by_cases hzv : z = v
    · rw [if_pos hzv] at hz
      left; left; rw [hzv, hz]
    · rw [if_neg hzv] at hz
      rcases hs.relaxed z hzu y hz with h | h | h
      · exact Or.inl (Or.inr h)
      · right; left
        intro e2 he2 t ht
        obtain ⟨y2, hy2, hle⟩ := h e2 he2 t ht
        rw [relax_len _ _ _ _ _ hvl]
        by_cases htv : t = v
        · rw [if_pos htv]
          refine ⟨x + e.length, rfl, ?_⟩
          rcases hold with h3 | ⟨y3, h3, hy3⟩
          · rw [htv, h3] at hy2; simp at hy2
          · rw [htv, h3] at hy2; injection hy2 with hy2; omega
        · rw [if_neg htv]; exact ⟨y2, hy2, hle⟩
      · exact Or.inr (Or.inr h)
  · intro w
    rw [relax_prevs _ _ _ _ _ hvp]
    by_cases hwv : w = v
    · rw [if_pos hwv]
      right
      refine ⟨u, rfl, hs.cur_lt, ⟨e, he, by rw [hwv]; exact hev⟩, x, ?_, le_refl _⟩
      rw [relax_len _ _ _ _ _ hvl, if_neg hne.symm]; exact hs.cur_len
    · rw [if_neg hwv]
      rcases hs.prevs_ok w with h | ⟨p, hp, hpn, hpe, y, hy, hyx⟩
      · exact Or.inl h
      · right
        refine ⟨p, hp, hpn, hpe, y, ?_, hyx⟩
        rw [relax_len _ _ _ _ _ hvl, if_neg (hnotv p y hy hyx)]; exact hy

/-! ## The measure -/

theorem sum_map_le {α : Type} (q : List α) (f g : α → Nat) (h : ∀ p ∈ q, f p ≤ g p) :
    (q.map f).sum ≤ (q.map g).sum := by
  induction q with
  | nil => simp
  | cons a rest ih =>
    simp only [List.map_cons, List.sum_cons]
    have h1 := h a (List.mem_cons_self _ _)
    have h2 := ih (fun p hp => h p (List.mem_cons_of_mem _ hp))
    omega

theorem sum_map_add_le {α : Type} (q : List α) (f g : α → Nat) (d : Nat) (p0 : α)
    (h0 : p0 ∈ q) (hd : f p0 + d ≤ g p0) (h : ∀ p ∈ q, f p ≤ g p) :
    (q.map f).sum + d ≤ (q.map g).sum := by
  induction q with
  | nil => simp at h0
  | cons a rest ih =>
    simp only [List.map_cons, List.sum_cons]
    rcases List.mem_cons.1 h0 with h1 | h1
    · subst h1
      have h2 := sum_map_le rest f g (fun p hp => h p (List.mem_cons_of_mem _ hp))
      omega
    · have h2 := ih h1 (fun p hp => h p (List.mem_cons_of_mem _ hp))
      have h3 := h a (List.mem_cons_self _ _)
      omega

theorem liveWeight_queueInsert (rn : List RouteNode) (L : List ELen) (q : List (ELen × Nat))
    (k : ELen) (v : Nat) :
    liveWeight rn L (queueInsert q k v) =
      (if k = L.getD v none then (edgesOf rn v).length else 0) + liveWeight rn L q := by
  induction q with
  | nil => simp [queueInsert, liveWeight]
  | cons a rest ih =>
    obtain ⟨k1, v1⟩ := a
    unfold queueInsert
    by_cases h : ELen.lt k k1 = true
    · rw [if_pos h]
      simp only [liveWeight, List.map_cons, List.sum_cons]
    · rw [if_neg h]
      unfold liveWeight at ih ⊢
      simp only [List.map_cons, List.sum_cons] at ih ⊢
      rw [ih]
      omega

theorem unseenWeight_congr (rn : List RouteNode) (L1 L2 : List ELen) (n : Nat)
    (h : ∀ i, i < n → L1.getD i none = L2.getD i none) :
    unseenWeight rn L1 n = unseenWeight rn L2 n := by
  unfold unseenWeight
  congr 1
  apply List.map_congr_left
  intro i hi
  rw [h i (List.mem_range.1 hi)]

theorem unseenWeight_succ (rn : List RouteNode) (L : List ELen) (n : Nat) :
    unseenWeight rn L (n + 1) =
      unseenWeight rn L n + (if L.getD n none = none then (edgesOf rn n).length else 0) := by
  unfold unseenWeight
  rw [List.range_succ, List.map_append, List.sum_append]
  simp

theorem unseenWeight_set_unseen (rn : List RouteNode) (L : List ELen) (n v : Nat) (a : Int)
    (hv : v < n) (hvl : v < L.length) (hn : L.getD v none = none) :
    unseenWeight rn (L.set v (some a)) n + (edgesOf rn v).length = unseenWeight rn L n := by
  induction n with
  | zero => omega
  | succ m ih =>
    rw [unseenWeight_succ, unseenWeight_succ]
    by_cases hvm : v = m
    · subst hvm
      rw [getD_set_self _ _ _ _ hvl, hn]
      rw [unseenWeight_congr rn (L.set v (some a)) L v
        (fun i hi => getD_set_other _ _ _ _ _ (by omega))]
      simp
    · have h1 := ih (by omega)
      rw [getD_set_other _ _ _ _ _ hvm]
      omega

theorem unseenWeight_set_seen (rn : List RouteNode) (L : List ELen) (n v : Nat) (a y : Int)
    (hvl : v < L.length) (hn : L.getD v none = some y) :
    unseenWeight rn (L.set v (some a)) n = unseenWeight rn L n := by
  unfold unseenWeight
  congr 1
  apply List.map_congr_left
  intro i _
  by_cases hiv : v = i
  · subst hiv
    rw [getD_set_self _ _ _ _ hvl, hn]
    simp
  · rw [getD_set_other _ _ _ _ _ hiv]

theorem searchMeasure_relax (rn : List RouteNode) (S F : List Nat) (st : SearchState)
    (u v : Nat) (x : Int) (e : RouteEdge) (hs : ScanInv rn S F u x st) (hvn : v < rn.length)
    (hw : 0 ≤ e.length) (himp : ELen.lt (some (x + e.length)) (st.len v) = true) :
    searchMeasure rn (relax st u v (some (x + e.length))) ≤ searchMeasure rn st + 1 := by
  have hc := hs.core
  have hvl : v < st.lengths.length := by rw [hc.len_lengths]; exact hvn
  have hold := improvement_cases st v _ himp
  unfold searchMeasure
  rw [relax_queue, length_queueInsert]
  have hL : (relax st u v (some (x + e.length))).lengths = st.lengths.set v (some (x + e.length)) :=
    rfl
  rw [hL, liveWeight_queueInsert, getD_set_self _ _ _ _ hvl, if_pos rfl]
  have hother : ∀ p ∈ st.queue,
      (if p.1 = (st.lengths.set v (some (x + e.length))).getD p.2 none
        then (edgesOf rn p.2).length else 0) ≤
      (if p.1 = st.lengths.getD p.2 none then (edgesOf rn p.2).length else 0) := by
    intro p hp
    by_cases hpv : v = p.2
    · obtain ⟨-, k, y, hk, hy, hyk⟩ := hc.queue_ok p hp
      rw [← hpv, getD_set_self _ _ _ _ hvl]
      have : ¬ p.1 = some (x + e.length) := by
        rw [hk]
        intro h
        injection h with h
        rcases hold with h3 | ⟨y3, h3, hy3⟩
        · rw [← hpv, h3] at hy; simp at hy
        · rw [← hpv, h3] at hy; injection hy with hy; omega
      rw [if_neg this]
      exact Nat.zero_le _
    · rw [getD_set_other _ _ _ _ _ hpv]
  rcases hold with h | ⟨y, h, hy⟩
  · have h1 := unseenWeight_set_unseen rn st.lengths rn.length v (x + e.length) hvn hvl h
    have h2 := sum_map_le st.queue _ _ hother
    unfold liveWeight
    omega
  · have h1 := unseenWeight_set_seen rn st.lengths rn.length v (x + e.length) y hvl h
    have hmem : (some y, v) ∈ st.queue := by
      rcases hs.closed v y h with h2 | h2
      · exact h2
      · omega
    have h2 := sum_map_add_le st.queue
      (fun p => if p.1 = (st.lengths.set v (some (x + e.length))).getD p.2 none
        then (edgesOf rn p.2).length else 0)
      (fun p => if p.1 = st.lengths.getD p.2 none then (edgesOf rn p.2).length else 0)
      (edgesOf rn v).length (some y, v) hmem
      (by
        simp only
        rw [getD_set_self _ _ _ _ hvl]
        have h3 : st.lengths.getD v none = some y := h
        rw [h3, if_pos rfl, if_neg]
        · omega
        · intro h4; injection h4 with h4; omega)
      hother
    unfold liveWeight
    rw [h1]
    omega

end RailRouting

namespace RailRouting

/-! ## The scan of the edges of one node -/

theorem scanEdges_spec (rn : List RouteNode) (S F : List Nat) (u : Nat) (x : Int)
    (hn : NonNegLengths rn) (hr : EdgesInRange rn) (edges : List RouteEdge) (st : SearchState)
    (hs : ScanInv rn S F u x st) (hsub : ∀ e ∈ edges, e ∈ edgesOf rn u) :
    ScanInv rn S F u x (scanEdges u edges st) ∧
      searchMeasure rn (scanEdges u edges st) ≤ searchMeasure rn st + edges.length ∧
      (∀ z y, st.len z = some y → ∃ y2, (scanEdges u edges st).len z = some y2 ∧ y2 ≤ y) ∧
      (scanEdges u edges st).shortest_length = st.shortest_length ∧
      (st.shortest_length = none → ∀ e ∈ edges, ∀ t, e.node = Int.ofNat t →
        ∃ y, (scanEdges u edges st).len t = some y ∧ y ≤ x + e.length) := by
  induction edges generalizing st with
  | nil =>
    refine ⟨hs, by simp [scanEdges], fun z y h => ⟨y, h, le_refl _⟩, rfl, ?_⟩
    intro _ e he
    simp at he
  | cons e rest ih =>
    have he : e ∈ edgesOf rn u := hsub e (List.mem_cons_self _ _)
    have hrest : ∀ e2 ∈ rest, e2 ∈ edgesOf rn u := fun e2 h => hsub e2 (List.mem_cons_of_mem _ h)
    have hw := edgesOf_nonneg rn hn u e he
    have hcur : st.lengths.getD u none = some x := hs.cur_len
    unfold scanEdges
    simp only [hcur, ELen.addLen]
    by_cases hbreak : ELen.lt st.shortest_length (some (x + e.length)) = true
    · rw [if_pos hbreak]
      refine ⟨hs, by omega, fun z y h => ⟨y, h, le_refl _⟩, rfl, ?_⟩
      intro hnone
      rw [hnone, ELen.lt_none] at hbreak
      simp at hbreak
    · rw [if_neg hbreak]
      by_cases hsent : e.node = -1
      · rw [if_pos hsent]
        obtain ⟨h1, h2, h3, h4, h5⟩ := ih st hs hrest
        refine ⟨h1, by simp only [List.length_cons]; omega, h3, h4, ?_⟩
        intro hnone e2 he2 t ht
        rcases List.mem_cons.1 he2 with h | h
        · subst h
          rw [hsent] at ht
          have : (0 : Int) ≤ Int.ofNat t := Int.ofNat_nonneg t
          omega
        · exact h5 hnone e2 h t ht
      · rw [if_neg hsent]
        rcases edgesOf_inRange rn hr u e he with h | ⟨v, hvn, hev⟩
        · exact absurd h hsent
        · have htoNat : e.node.toNat = v := by rw [hev]; rfl
          rw [htoNat]
          have hlen : st.lengths.getD v none = st.len v := rfl
          rw [hlen]
          by_cases himp : ELen.lt (some (x + e.length)) (st.len v) = true
          · rw [if_pos himp]
            have hs1 := scanInv_relax rn S F st u v x e hs he hev hvn hw himp
            have hm1 := searchMeasure_relax rn S F st u v x e hs hvn hw himp
            have hvl : v < st.lengths.length := by rw [hs.core.len_lengths]; exact hvn
            obtain ⟨h1, h2, h3, h4, h5⟩ := ih _ hs1 hrest
            refine ⟨h1, by simp only [List.length_cons]; omega, ?_, by rw [h4]; rfl, ?_⟩
            · intro z y hz
              by_cases hzv : z = v
              · obtain ⟨y2, hy2, hle⟩ := h3 z (x + e.length)
                  (by rw [relax_len _ _ _ _ _ hvl, if_pos hzv])
                refine ⟨y2, hy2, ?_⟩
                rcases improvement_cases st v _ himp with h6 | ⟨y6, h6, hy6⟩
                · rw [hzv, h6] at hz; simp at hz
                · rw [hzv, h6] at hz; injection hz with hz; omega
              · exact h3 z y (by rw [relax_len _ _ _ _ _ hvl, if_neg hzv]; exact hz)
            · intro hnone e2 he2 t ht
              rcases List.mem_cons.1 he2 with h | h
              · subst h
                have htv : t = v := by
                  rw [hev] at ht
                  exact (Int.ofNat_inj.1 ht).symm
                subst htv
                obtain ⟨y2, hy2, hle⟩ := h3 t (x + e2.length)
                  (by rw [relax_len _ _ _ _ _ hvl, if_pos rfl])
                exact ⟨y2, hy2, hle⟩
              · exact h5 hnone e2 h t ht
          · rw [if_neg himp]
            obtain ⟨h1, h2, h3, h4, h5⟩ := ih st hs hrest
            refine ⟨h1, by simp only [List.length_cons]; omega, h3, h4, ?_⟩
            intro hnone e2 he2 t ht
            rcases List.mem_cons.1 he2 with h | h
            · subst h
              have htv : t = v := by
                rw [hev] at ht
                exact (Int.ofNat_inj.1 ht).symm
              subst htv
              cases hl : st.len t with
              | none => rw [hl] at himp; exact absurd (ELen.lt_some_none _) himp
              | some y =>
                rw [hl, ELen.lt_some_some] at himp
                obtain ⟨y2, hy2, hle⟩ := h3 t y hl
                exact ⟨y2, hy2, by omega⟩
            · exact h5 hnone e2 h t ht

end RailRouting

namespace RailRouting

/-! ## The `while` loop of the search -/

/-- The state after the head of the queue is taken and `shortest_length` is set. -/
theorem popState_eq (st : SearchState) (F : List Nat) (u : Nat) (rest : List (ELen × Nat)) :
    (if u ∈ F then
        { ({ st with queue := rest } : SearchState) with
          shortest_length :=
            ELen.min ({ st with queue := rest } : SearchState).shortest_length
              (({ st with queue := rest } : SearchState).lengths.getD u none) }
      else { st with queue := rest }) =
      { st with
        queue := rest
        shortest_length :=
          if u ∈ F then ELen.min st.shortest_length (st.len u) else st.shortest_length } := by
  split_ifs <;> rfl

theorem coreInv_pop (rn : List RouteNode) (S F : List Nat) (st : SearchState)
    (p : ELen × Nat) (rest : List (ELen × Nat)) (s2 : ELen) (hc : CoreInv rn S F st)
    (hq : st.queue = p :: rest)
    (hs2 : ∀ s, s2 = some s → ∃ f ∈ F, ∃ y, st.len f = some y ∧ y ≤ s) :
    CoreInv rn S F { st with queue := rest, shortest_length := s2 } := by
  have hsub : ∀ a ∈ rest, a ∈ st.queue := fun a ha => by rw [hq]; exact List.mem_cons_of_mem _ ha
  constructor
  · exact hc.len_lengths
  · exact hc.len_prevs
  · exact hc.len_starts
  · have := hc.sorted
    rw [hq, List.pairwise_cons] at this
    exact this.2
  · intro a ha
    exact hc.queue_ok a (hsub a ha)
  · exact hc.sound
  · exact hc.start_zero
  · exact hs2
  · exact hc.origin
  · exact hc.root
  · exact hc.rank
  · exact hc.origin_prev

theorem searchInv_pop_stale (rn : List RouteNode) (S F : List Nat) (st : SearchState)
    (k : ELen) (u : Nat) (rest : List (ELen × Nat)) (hs : SearchInv rn S F st)
    (hq : st.queue = (k, u) :: rest) (hstale : ELen.lt (st.len u) k = true) :
    SearchInv rn S F { st with queue := rest } := by
  have hsub : ∀ a ∈ rest, a ∈ st.queue := fun a ha => by rw [hq]; exact List.mem_cons_of_mem _ ha
  have hnot : ∀ y, st.len u = some y → k ≠ some y := by
    intro y hy hk
    rw [hy, hk, ELen.lt_some_some] at hstale
    omega
  have hkeep : ∀ v y, st.len v = some y → (some y, v) ∈ st.queue → (some y, v) ∈ rest := by
    intro v y hy hm
    rw [hq] at hm
    rcases List.mem_cons.1 hm with h | h
    · injection h with h1 h2
      subst h2
      exact absurd h1.symm (hnot y hy)
    · exact h
  constructor
  · exact coreInv_pop rn S F st (k, u) rest st.shortest_length hs.core hq hs.core.shortest_fin
  · intro v y hy
    rcases hs.closed v y hy with h | h
    · exact Or.inl (hkeep v y hy h)
    · exact Or.inr (fun p hp => h p (hsub p hp))
  · intro s hs1 p hp
    exact hs.shortest_le s hs1 p (hsub p hp)
  · intro v y hy
    rcases hs.relaxed v y hy with h | h | h
    · exact Or.inl (hkeep v y hy h)
    · exact Or.inr (Or.inl h)
    · exact Or.inr (Or.inr h)
  · intro w
    rcases hs.prevs_ok w with h | ⟨p, hp, hpn, hpe, y, hy, hyk⟩
    · exact Or.inl h
    · exact Or.inr ⟨p, hp, hpn, hpe, y, hy, fun q hq2 => hyk q (hsub q hq2)⟩

theorem min_some_cases (s : ELen) (x : Int) :
    (ELen.min s (some x) = some x ∧ (s = none ∨ ∃ s0, s = some s0 ∧ x < s0)) ∨
      (∃ s0, s = some s0 ∧ ELen.min s (some x) = some s0 ∧ s0 ≤ x) := by
  cases s with
  | none => left; exact ⟨rfl, Or.inl rfl⟩
  | some s0 =>
    by_cases h : x < s0
    · left
      refine ⟨?_, Or.inr ⟨s0, rfl, h⟩⟩
      simp [ELen.min, ELen.lt, h]
    · right
      refine ⟨s0, rfl, ?_, by omega⟩
      simp [ELen.min, ELen.lt, h]

theorem scanInv_of_pop (rn : List RouteNode) (S F : List Nat) (st : SearchState)
    (x : Int) (u : Nat) (rest : List (ELen × Nat)) (hs : SearchInv rn S F st)
    (hq : st.queue = (some x, u) :: rest) (hlen : st.len u = some x) :
    ScanInv rn S F u x
      { st with
        queue := rest
        shortest_length :=
          if u ∈ F then ELen.min st.shortest_length (st.len u) else st.shortest_length } := by
  have hsub : ∀ a ∈ rest, a ∈ st.queue := fun a ha => by rw [hq]; exact List.mem_cons_of_mem _ ha
  have hhead : ((some x, u) : ELen × Nat) ∈ st.queue := by rw [hq]; exact List.mem_cons_self _ _
  have hold_le : ∀ s, st.shortest_length = some s → s ≤ x :=
    fun s h => hs.shortest_le s h _ hhead x rfl
  -- the new value of shortest_length
  have hnew : ∀ s,
      (if u ∈ F then ELen.min st.shortest_length (st.len u) else st.shortest_length) = some s →
      s ≤ x ∧ (st.shortest_length = some s ∨ (s = x ∧ u ∈ F)) ∧
        ∀ s0, st.shortest_length = some s0 → s ≤ s0 := by
    intro s h
    by_cases huF : u ∈ F
    · rw [if_pos huF, hlen] at h
      rcases min_some_cases st.shortest_length x with ⟨h1, h2⟩ | ⟨s0, h1, h2, h3⟩
      · rw [h1] at h
        injection h with h
        subst h
        refine ⟨le_refl _, Or.inr ⟨rfl, huF⟩, ?_⟩
        intro s0 hs0
        rcases h2 with h2 | ⟨s1, h2, h3⟩
        · rw [h2] at hs0; simp at hs0
        · rw [h2] at hs0; injection hs0 with hs0; omega
      · rw [h2] at h
        injection h with h
        subst h
        refine ⟨h3, Or.inl h1, ?_⟩
        intro s1 hs1
        rw [h1] at hs1; injection hs1 with hs1; omega
    · rw [if_neg huF] at h
      refine ⟨hold_le s h, Or.inl h, ?_⟩
      intro s0 hs0
      rw [h] at hs0; injection hs0 with hs0; omega
  have hkeys : ∀ p ∈ rest, ∀ k, p.1 = some k → x ≤ k := by
    intro p hp k hk
    have := hs.core.sorted
    rw [hq, List.pairwise_cons] at this
    have h2 := this.1 p hp
    rw [hk] at h2
    simp only [ELen.lt_some_some] at h2
    omega
  constructor
  · apply coreInv_pop rn S F st (some x, u) rest _ hs.core hq
    intro s h
    obtain ⟨-, h2, -⟩ := hnew s h
    rcases h2 with h2 | ⟨h2, h3⟩
    · exact hs.core.shortest_fin s h2
    · exact ⟨u, h3, x, hlen, by omega⟩
  · exact (hs.core.queue_ok _ hhead).1
  · exact hlen
  · exact hkeys
  · intro v y hy
    rcases hs.closed v y hy with h | h
    · rw [hq] at h
      rcases List.mem_cons.1 h with h | h
      · injection h with h1 h2
        injection h1 with h1
        right; omega
      · exact Or.inl h
    · exact Or.inr (h _ hhead x rfl)
  · intro s h
    exact (hnew s h).1
  · intro v hvu y hy
    rcases hs.relaxed v y hy with h | h | ⟨s0, h, hle⟩
    · rw [hq] at h
      rcases List.mem_cons.1 h with h | h
      · injection h with h1 h2
        exact absurd h2 hvu
      · exact Or.inl h
    · exact Or.inr (Or.inl h)
    · right; right
      by_cases huF : u ∈ F
      · simp only [if_pos huF]
        rw [hlen]
        rcases min_some_cases st.shortest_length x with ⟨h1, h2⟩ | ⟨s1, h1, h2, h3⟩
        · refine ⟨x, h1, ?_⟩
          rcases h2 with h2 | ⟨s1, h2, h3⟩
          · rw [h2] at h; simp at h
          · rw [h2] at h; injection h with h; omega
        · refine ⟨s1, h2, ?_⟩
          rw [h1] at h; injection h with h; omega
      · simp only [if_neg huF]
        exact ⟨s0, h, hle⟩
  · intro w
    rcases hs.prevs_ok w with h | ⟨p, hp, hpn, hpe, y, hy, hyk⟩
    · exact Or.inl h
    · exact Or.inr ⟨p, hp, hpn, hpe, y, hy, hyk _ hhead x rfl⟩

theorem searchInv_of_scan (rn : List RouteNode) (S F : List Nat) (st : SearchState)
    (x : Int) (u : Nat) (hs : ScanInv rn S F u x st)
    (hrel : st.shortest_length = none → EdgesRelaxed rn st u x) :
    SearchInv rn S F st := by
  constructor
  · exact hs.core
  · intro v y hy
    rcases hs.closed v y hy with h | h
    · exact Or.inl h
    · right
      intro p hp k hk
      have := hs.keys_ge p hp k hk
      omega
  · intro s h p hp k hk
    have h1 := hs.shortest_le s h
    have h2 := hs.keys_ge p hp k hk
    omega
  · intro v y hy
    by_cases hvu : v = u
    · subst hvu
      rw [hs.cur_len] at hy
      injection hy with hy
      subst hy
      cases hsl : st.shortest_length with
      | none => exact Or.inr (Or.inl (hrel hsl))
      | some s => exact Or.inr (Or.inr ⟨s, rfl, hs.shortest_le s hsl⟩)
    · exact hs.relaxed v hvu y hy
  · intro w
    rcases hs.prevs_ok w with h | ⟨p, hp, hpn, hpe, y, hy, hyx⟩
    · exact Or.inl h
    · right
      refine ⟨p, hp, hpn, hpe, y, hy, ?_⟩
      intro q hq k hk
      have := hs.keys_ge q hq k hk
      omega

theorem searchMeasure_pop (rn : List RouteNode) (st : SearchState) (k : ELen) (u : Nat)
    (rest : List (ELen × Nat)) (s2 : ELen) (hq : st.queue = (k, u) :: rest) :
    searchMeasure rn { st with queue := rest, shortest_length := s2 } + 1 +
        (if k = st.len u then (edgesOf rn u).length else 0) =
      searchMeasure rn st := by
  unfold searchMeasure liveWeight
  simp only [hq, List.map_cons, List.sum_cons, List.length_cons, SearchState.len]
  omega

theorem dijkstraLoop_spec (rn : List RouteNode) (S F : List Nat) (hn : NonNegLengths rn)
    (hr : EdgesInRange rn) (fuel : Nat) (st : SearchState) (hs : SearchInv rn S F st)
    (hfuel : searchMeasure rn st ≤ fuel) :
    ∃ st2, dijkstraLoop rn F fuel st = some st2 ∧ SearchInv rn S F st2 ∧ st2.queue = [] := by
  induction fuel generalizing st with
  | zero =>
    have hq : st.queue = [] := by
      unfold searchMeasure at hfuel
      exact List.length_eq_zero.1 (by omega)
    refine ⟨st, ?_, hs, hq⟩
    unfold dijkstraLoop
    rw [hq]
  | succ fuel ih =>
    cases hq : st.queue with
    | nil =>
      refine ⟨st, ?_, hs, hq⟩
      unfold dijkstraLoop
      rw [hq]
    | cons p rest =>
      obtain ⟨k, u⟩ := p
      have hhead : ((k, u) : ELen × Nat) ∈ st.queue := by rw [hq]; exact List.mem_cons_self _ _
      obtain ⟨hun, kx, y, hk, hy, hyk⟩ := hs.core.queue_ok _ hhead
      simp only at hk hy hun
      subst hk
      unfold dijkstraLoop
      simp only [hq]
      have hlen : st.lengths.getD u none = some y := hy
      by_cases hstale : ELen.lt (some y) (some kx) = true
      · simp only [hlen, if_pos hstale]
        apply ih
        · exact searchInv_pop_stale rn S F st (some kx) u rest hs hq (by rw [hy]; exact hstale)
        · have := searchMeasure_pop rn st (some kx) u rest st.shortest_length hq
          have heq : ({ st with queue := rest, shortest_length := st.shortest_length }
              : SearchState) = { st with queue := rest } := rfl
          rw [heq] at this
          omega
      · simp only [hlen, if_neg hstale]
        rw [ELen.lt_some_some] at hstale
        have hyx : y = kx := by omega
        subst hyx
        have hpop := popState_eq st F u rest
        simp only [hlen] at hpop
        rw [hpop]
        have hsc := scanInv_of_pop rn S F st y u rest hs hq hy
        rw [hy] at hsc
        obtain ⟨h1, h2, h3, h4, h5⟩ :=
          scanEdges_spec rn S F u y hn hr (edgesOf rn u) _ hsc (fun e he => he)
        rw [hy]
        apply ih
        · apply searchInv_of_scan rn S F _ y u h1
          intro hnone
          rw [h4] at hnone
          intro e he t ht
          exact h5 hnone e he t ht
        · have := searchMeasure_pop rn st (some y) u rest
            (if u ∈ F then ELen.min st.shortest_length (some y) else st.shortest_length) hq
          rw [hy, if_pos rfl] at this
          omega

end RailRouting

namespace RailRouting

/-! ## The state after the start stops are entered -/

theorem initInv_empty (rn : List RouteNode) :
    InitInv rn []
      { queue := [], starts := List.replicate rn.length (-1),
        prevs := List.replicate rn.length (-1),
        lengths := List.replicate rn.length none, shortest_length := none } := by
  constructor
  · simp
  · simp
  · simp
  · intro v; left
    exact getD_replicate _ _ _
  · intro p hp; simp at hp
  · intro v hv; simp at hv
  · intro v; exact getD_replicate _ _ _
  · rfl
  · rfl

theorem initStarts_inv (rn : List RouteNode) (stops D : List Nat) (sn : List Nat)
    (st : SearchState) (c : Nat) (hr : ∀ s ∈ stops, s < rn.length) (hi : InitInv rn D st) :
    InitInv rn (D ++ stops) (initStarts stops sn st c).2.1 := by
  induction stops generalizing D sn st c with
  | nil => simpa [initStarts] using hi
  | cons s rest ih =>
    unfold initStarts
    have hsn : s < rn.length := hr s (List.mem_cons_self _ _)
    have h := ih (D ++ [s]) (nodeSetInsert sn s)
      { st with
        prevs := st.prevs.set s (-1)
        starts := st.starts.set s (Int.ofNat s)
        lengths := st.lengths.set s (some 0)
        queue := queueInsert st.queue (some 0) s } (c + 1)
      (fun t ht => hr t (List.mem_cons_of_mem _ ht)) ?_
    · simpa using h
    · have hsl : s < st.lengths.length := by rw [hi.len_lengths]; exact hsn
      have hsp : s < st.prevs.length := by rw [hi.len_prevs]; exact hsn
      have hss : s < st.starts.length := by rw [hi.len_starts]; exact hsn
      constructor
      · simp [hi.len_lengths]
      · simp [hi.len_prevs]
      · simp [hi.len_starts]
      · intro v
        unfold SearchState.len
        simp only
        by_cases hvs : s = v
        · subst hvs
          right
          rw [getD_set_self _ _ _ _ hsl, getD_set_self _ _ _ _ hss]
          exact ⟨rfl, by simp, rfl⟩
        · rw [getD_set_other _ _ _ _ _ hvs, getD_set_other _ _ _ _ _ hvs]
          rcases hi.labels v with h | ⟨h1, h2, h3⟩
          · exact Or.inl h
          · exact Or.inr ⟨h1, List.mem_append_left _ h2, h3⟩
      · intro p hp
        simp only [mem_queueInsert] at hp
        rcases hp with hp | hp
        · subst hp; simp
        · obtain ⟨h1, h2⟩ := hi.entries p hp
          exact ⟨h1, List.mem_append_left _ h2⟩
      · intro v hv
        unfold SearchState.len
        simp only [mem_queueInsert]
        by_cases hvs : s = v
        · subst hvs
          exact ⟨Or.inl rfl, getD_set_self _ _ _ _ hsl⟩
        · rw [getD_set_other _ _ _ _ _ hvs]
          rcases List.mem_append.1 hv with h | h
          · obtain ⟨h1, h2⟩ := hi.pending v h
            exact ⟨Or.inr h1, h2⟩
          · simp at h; exact absurd h.symm hvs
      · intro v
        simp only
        by_cases hvs : s = v
        · subst hvs; exact getD_set_self _ _ _ _ hsp
        · rw [getD_set_other _ _ _ _ _ hvs]; exact hi.prevs v
      · exact hi.shortest
      · simp [length_queueInsert, hi.count]

theorem searchInv_of_initInv (rn : List RouteNode) (A F : List Nat) (st : SearchState)
    (hi : InitInv rn A st) (hA : ∀ s ∈ A, s < rn.length) : SearchInv rn A F st := by
  have hlab : ∀ v y, st.len v = some y → y = 0 ∧ v ∈ A ∧ st.starts.getD v (-1) = Int.ofNat v := by
    intro v y hy
    rcases hi.labels v with h | ⟨h1, h2, h3⟩
    · rw [h] at hy; simp at hy
    · rw [h1] at hy; injection hy with hy; exact ⟨hy.symm, h2, h3⟩
  have hnop : ∀ w p, st.prevs.getD w (-1) ≠ Int.ofNat p := by
    intro w p h
    rw [hi.prevs w] at h
    have : (0 : Int) ≤ Int.ofNat p := Int.ofNat_nonneg p
    omega
  constructor
  · constructor
    · exact hi.len_lengths
    · exact hi.len_prevs
    · exact hi.len_starts
    · apply List.pairwise_of_forall_mem_list
      intro a ha b hb
      rw [(hi.entries a ha).1, (hi.entries b hb).1]
      simp [ELen.lt]
    · intro p hp
      obtain ⟨h1, h2⟩ := hi.entries p hp
      exact ⟨hA _ h2, 0, 0, h1, (hi.pending _ h2).2, le_refl _⟩
    · intro v y hy
      obtain ⟨h1, h2, -⟩ := hlab v y hy
      subst h1
      exact ⟨v, h2, Walk.nil v⟩
    · intro s hs
      exact ⟨0, (hi.pending s hs).2, le_refl _⟩
    · intro s hs
      rw [hi.shortest] at hs; simp at hs
    · intro v y hy
      obtain ⟨-, h2, h3⟩ := hlab v y hy
      exact ⟨v, h2, h3⟩
    · intro v y hy _
      exact (hlab v y hy).2.2
    · exact ⟨fun _ => 0, fun w p h => absurd h (hnop w p)⟩
    · exact fun w p h => absurd h (hnop w p)
  · intro v y hy
    obtain ⟨h1, h2, -⟩ := hlab v y hy
    subst h1
    exact Or.inl (hi.pending v h2).1
  · intro s hs
    rw [hi.shortest] at hs; simp at hs
  · intro v y hy
    obtain ⟨h1, h2, -⟩ := hlab v y hy
    subst h1
    exact Or.inl (hi.pending v h2).1
  · intro w
    exact Or.inl (hi.prevs w)

/-! ## The fuel -/

theorem edgesOf_length_le (rn : List RouteNode) (v : Nat) :
    (edgesOf rn v).length ≤ totalEdges rn := by
  unfold edgesOf totalEdges
  cases h : rn[v]? with
  | none => simp
  | some r =>
    simp only
    exact List.single_le_sum (fun _ _ => Nat.zero_le _) _
      (List.mem_map.2 ⟨r, mem_of_getElem?_eq_some rn v r h, rfl⟩)

theorem liveWeight_le (rn : List RouteNode) (L : List ELen) (q : List (ELen × Nat)) :
    liveWeight rn L q ≤ q.length * totalEdges rn := by
  induction q with
  | nil => simp [liveWeight]
  | cons a rest ih =>
    unfold liveWeight at ih ⊢
    simp only [List.map_cons, List.sum_cons, List.length_cons]
    have h1 := edgesOf_length_le rn a.2
    have h2 : (if a.1 = L.getD a.2 none then (edgesOf rn a.2).length else 0) ≤ totalEdges rn := by
      split_ifs
      · exact h1
      · exact Nat.zero_le _
    rw [Nat.succ_mul]
    omega

theorem sum_edges_range (rn : List RouteNode) :
    ((List.range rn.length).map (fun v => (edgesOf rn v).length)).sum = totalEdges rn := by
  unfold totalEdges
  congr 1
  apply List.ext_getElem?
  intro i
  simp only [List.getElem?_map, List.getElem?_range, edgesOf]
  by_cases hi : i < rn.length
  · rw [List.getElem?_range hi]
    simp [List.getElem?_eq_getElem hi]
  · rw [List.getElem?_eq_none (by simpa using hi), List.getElem?_eq_none (by simpa using hi)]
    rfl

theorem unseenWeight_le (rn : List RouteNode) (L : List ELen) :
    unseenWeight rn L rn.length ≤ totalEdges rn := by
  rw [← sum_edges_range]
  unfold unseenWeight
  apply sum_map_le
  intro v _
  split_ifs
  · exact le_refl _
  · exact Nat.zero_le _

theorem searchMeasure_le (rn : List RouteNode) (st : SearchState) :
    searchMeasure rn st ≤ (st.queue.length + 1) * (totalEdges rn + 1) := by
  unfold searchMeasure
  have h1 := liveWeight_le rn st.lengths st.queue
  have h2 := unseenWeight_le rn st.lengths
  have h3 : (st.queue.length + 1) * (totalEdges rn + 1) =
      st.queue.length * totalEdges rn + st.queue.length + totalEdges rn + 1 := by ring
  omega

end RailRouting

namespace RailRouting

/-! ## The result of the search -/

theorem closestFin_spec (L : List ELen) (fins : List Nat) (best_fin : Nat) (seen : List Nat)
    (hb : best_fin ∈ seen)
    (hmin : ∀ f ∈ seen, ELen.lt (L.getD f none) (L.getD best_fin none) = false) :
    (closestFin L fins best_fin (L.getD best_fin none)).1 ∈ seen ++ fins ∧
      (closestFin L fins best_fin (L.getD best_fin none)).2 =
        L.getD (closestFin L fins best_fin (L.getD best_fin none)).1 none ∧
      ∀ f ∈ seen ++ fins,
        ELen.lt (L.getD f none) (closestFin L fins best_fin (L.getD best_fin none)).2 = false := by
  induction fins generalizing best_fin seen with
  | nil =>
    simp only [closestFin, List.append_nil]
    exact ⟨hb, trivial, hmin⟩
  | cons fin rest ih =>
    unfold closestFin
    by_cases h : ELen.lt (L.getD fin none) (L.getD best_fin none) = true
    · rw [if_pos h]
      have := ih fin (seen ++ [fin]) (by simp) ?_
      · simpa using this
      · intro f hf
        rcases List.mem_append.1 hf with hf | hf
        · have h1 := hmin f hf
          cases hx : L.getD f none with
          | none => exact ELen.lt_none _
          | some a =>
            cases hy : L.getD fin none with
            | none => rw [hy, ELen.lt_none] at h; simp at h
            | some b =>
              cases hz : L.getD best_fin none with
              | none => rw [hx, hz] at h1; simp [ELen.lt] at h1
              | some c =>
                rw [hx, hz] at h1
                rw [hy, hz] at h
                simp only [ELen.lt, decide_eq_false_iff_not, decide_eq_true_eq] at h h1 ⊢
                omega
        · simp only [List.mem_singleton] at hf
          subst hf
          cases hx : L.getD f none with
          | none => rfl
          | some a => simp [ELen.lt]
    · rw [if_neg h]
      have := ih best_fin (seen ++ [fin]) (List.mem_append_left _ hb) ?_
      · simpa using this
      · intro f hf
        rcases List.mem_append.1 hf with hf | hf
        · exact hmin f hf
        · simp only [List.mem_singleton] at hf
          subst hf
          simpa using h

theorem closestFin_first (L : List ELen) (first : Nat) (more : List Nat) :
    (closestFin L more first (L.getD first none)).1 ∈ first :: more ∧
      (closestFin L more first (L.getD first none)).2 =
        L.getD (closestFin L more first (L.getD first none)).1 none ∧
      ∀ f ∈ first :: more,
        ELen.lt (L.getD f none) (closestFin L more first (L.getD first none)).2 = false := by
  have := closestFin_spec L more first [first] (by simp) ?_
  · simpa using this
  · intro f hf
    simp only [List.mem_singleton] at hf
    subst hf
    cases hx : L.getD f none with
    | none => rfl
    | some a => simp [ELen.lt]

/-- At the end of the search a walk of length `l` from a labelled node bounds the label
of its end, or `shortest_length`, by the label plus `l`. -/
theorem walk_bound (rn : List RouteNode) (S F : List Nat) (st : SearchState)
    (hn : NonNegLengths rn) (hs : SearchInv rn S F st) (hq : st.queue = [])
    (u v : Nat) (l : Int) (hw : Walk rn u v l) (x : Int)
    (hx : (∃ y, st.len u = some y ∧ y ≤ x) ∨ ∃ s, st.shortest_length = some s ∧ s ≤ x) :
    (∃ y, st.len v = some y ∧ y ≤ x + l) ∨ ∃ s, st.shortest_length = some s ∧ s ≤ x + l := by
  induction hw generalizing x with
  | nil a => simpa using hx
  | cons a b c e len he hev _ ih =>
    have hw0 := edgesOf_nonneg rn hn a e he
    have key : (∃ y, st.len b = some y ∧ y ≤ x + e.length) ∨
        ∃ s, st.shortest_length = some s ∧ s ≤ x + e.length := by
      rcases hx with ⟨y, hy, hyx⟩ | ⟨s, hs1, hsx⟩
      · rcases hs.relaxed a y hy with h | h | ⟨s, hs1, hsy⟩
        · rw [hq] at h; simp at h
        · obtain ⟨y2, hy2, hle⟩ := h e he b hev
          exact Or.inl ⟨y2, hy2, by omega⟩
        · exact Or.inr ⟨s, hs1, by omega⟩
      · exact Or.inr ⟨s, hs1, by omega⟩
    have := ih (x + e.length) key
    have heq : x + (e.length + len) = x + e.length + len := by omega
    rw [heq]
    exact this

/-- At the end of the search every walk from a start node to an end node is at least as
long as the label of some end node. -/
theorem walk_to_fin_bound (rn : List RouteNode) (S F : List Nat) (st : SearchState)
    (hn : NonNegLengths rn) (hs : SearchInv rn S F st) (hq : st.queue = [])
    (s t : Nat) (l : Int) (hsS : s ∈ S) (htF : t ∈ F) (hw : Walk rn s t l) :
    ∃ f ∈ F, ∃ y, st.len f = some y ∧ y ≤ l := by
  obtain ⟨y0, hy0, hle0⟩ := hs.core.start_zero s hsS
  rcases walk_bound rn S F st hn hs hq s t l hw 0 (Or.inl ⟨y0, hy0, hle0⟩) with
    ⟨y, hy, hyl⟩ | ⟨s1, hs1, hsl⟩
  · exact ⟨t, htF, y, hy, by omega⟩
  · obtain ⟨f, hf, y, hy, hys⟩ := hs.core.shortest_fin s1 hs1
    exact ⟨f, hf, y, hy, by omega⟩

/-- The length chosen by "find closest final node" is the least length of a walk from a
start node to an end node, and it is infinite exactly when there is no such walk. -/
theorem search_result (rn : List RouteNode) (S : List Nat) (first : Nat) (more : List Nat)
    (st : SearchState) (hn : NonNegLengths rn) (hs : SearchInv rn S (first :: more) st)
    (hq : st.queue = []) :
    match closestFin st.lengths more first (st.lengths.getD first none) with
    | (_, none) => ∀ s ∈ S, ∀ t ∈ first :: more, ∀ l, ¬ Walk rn s t l
    | (best_fin, some d) =>
      best_fin ∈ first :: more ∧ st.len best_fin = some d ∧
        (∃ s ∈ S, Walk rn s best_fin d) ∧
        ∀ s ∈ S, ∀ t ∈ first :: more, ∀ l, Walk rn s t l → d ≤ l := by
  obtain ⟨h1, h2, h3⟩ := closestFin_first st.lengths first more
  rcases hcf : closestFin st.lengths more first (st.lengths.getD first none) with ⟨bf, bl⟩
  rw [hcf] at h1 h2 h3
  simp only at h1 h2 h3
  have hbound : ∀ s ∈ S, ∀ t ∈ first :: more, ∀ l, Walk rn s t l →
      ∃ d, bl = some d ∧ d ≤ l := by
    intro s hsS t htF l hw
    obtain ⟨f, hf, y, hy, hyl⟩ := walk_to_fin_bound rn S _ st hn hs hq s t l hsS htF hw
    have h4 := h3 f hf
    have hy2 : st.lengths.getD f none = some y := hy
    rw [hy2] at h4
    cases bl with
    | none => simp [ELen.lt] at h4
    | some d =>
      simp only [ELen.lt, decide_eq_false_iff_not] at h4
      exact ⟨d, rfl, by omega⟩
  cases bl with
  | none =>
    simp only
    intro s hsS t htF l hw
    obtain ⟨d, hd, -⟩ := hbound s hsS t htF l hw
    simp at hd
  | some d =>
    simp only
    refine ⟨h1, h2.symm, hs.core.sound bf d h2.symm, ?_⟩
    intro s hsS t htF l hw
    obtain ⟨d2, hd, hle⟩ := hbound s hsS t htF l hw
    injection hd with hd
    omega

end RailRouting

namespace RailRouting

/-! ## Edge slots -/

theorem fillSlot_spec (edges : List RouteEdge) (e : RouteEdge) (edges1 : List RouteEdge)
    (h : fillSlot edges e = some edges1) :
    edges1.length = edges.length ∧ e ∈ edges1 ∧
      (∀ x ∈ edges1, x ∈ edges ∨ x = e) ∧
      (∀ x ∈ edges, x.osmid ≠ 0 → x ∈ edges1) := by
  induction edges generalizing edges1 with
  | nil => simp [fillSlot] at h
  | cons slot rest ih =>
    unfold fillSlot at h
    by_cases h0 : slot.osmid = 0
    · rw [if_pos h0] at h
      injection h with h
      subst h
      refine ⟨by simp, List.mem_cons_self _ _, ?_, ?_⟩
      · intro x hx
        rcases List.mem_cons.1 hx with hx | hx
        · exact Or.inr hx
        · exact Or.inl (List.mem_cons_of_mem _ hx)
      · intro x hx hne
        rcases List.mem_cons.1 hx with hx | hx
        · subst hx; exact absurd h0 hne
        · exact List.mem_cons_of_mem _ hx
    · rw [if_neg h0] at h
      cases hf : fillSlot rest e with
      | none => rw [hf] at h; simp at h
      | some rest1 =>
        rw [hf] at h
        injection h with h
        subst h
        obtain ⟨h1, h2, h3, h4⟩ := ih rest1 hf
        refine ⟨by simp [h1], List.mem_cons_of_mem _ h2, ?_, ?_⟩
        · intro x hx
          rcases List.mem_cons.1 hx with hx | hx
          · subst hx; exact Or.inl (List.mem_cons_self _ _)
          · rcases h3 x hx with h5 | h5
            · exact Or.inl (List.mem_cons_of_mem _ h5)
            · exact Or.inr h5
        · intro x hx hne
          rcases List.mem_cons.1 hx with hx | hx
          · subst hx; exact List.mem_cons_self _ _
          · exact List.mem_cons_of_mem _ (h4 x hx hne)

theorem edgesOf_set (rn : List RouteNode) (n u : Nat) (r : RouteNode) (hn : n < rn.length) :
    edgesOf (rn.set n r) u = if u = n then r.edges else edgesOf rn u := by
  unfold edgesOf
  by_cases h : u = n
  · subst h
    rw [if_pos rfl, List.getElem?_set_self hn]
  · rw [if_neg h, List.getElem?_set_ne (fun h2 => h h2.symm)]

theorem addEdge_spec (rn : List RouteNode) (n : Nat) (e : RouteEdge) (rn1 : List RouteNode)
    (h : addEdge rn n e = .ok rn1) :
    n < rn.length ∧ routeIds rn1 = routeIds rn ∧ rn1.length = rn.length ∧
      e ∈ edgesOf rn1 n ∧
      (∀ u x, x ∈ edgesOf rn1 u → x ∈ edgesOf rn u ∨ (u = n ∧ x = e)) ∧
      (∀ u x, x ∈ edgesOf rn u → x.osmid ≠ 0 → x ∈ edgesOf rn1 u) ∧
      (∀ u, (edgesOf rn1 u).length = (edgesOf rn u).length) := by
  unfold addEdge at h
  cases hr : rn[n]? with
  | none => rw [hr] at h; simp at h
  | some r =>
    rw [hr] at h
    simp only at h
    cases hf : fillSlot r.edges e with
    | none => rw [hf] at h; simp at h
    | some edges1 =>
      rw [hf] at h
      simp only [Except.ok.injEq] at h
      subst h
      obtain ⟨hn, hrn⟩ := List.getElem?_eq_some.1 hr
      obtain ⟨h1, h2, h3, h4⟩ := fillSlot_spec r.edges e edges1 hf
      have hedges : edgesOf rn n = r.edges := by unfold edgesOf; rw [hr]
      refine ⟨hn, ?_, by simp, ?_, ?_, ?_, ?_⟩
      · unfold routeIds
        apply List.ext_getElem?
        intro i
        simp only [List.getElem?_map, List.getElem?_set]
        by_cases hi : n = i
        · subst hi
          simp [hn, hr]
        · simp [hi]
      · rw [edgesOf_set _ _ _ _ hn, if_pos rfl]
        exact h2
      · intro u x hx
        rw [edgesOf_set _ _ _ _ hn] at hx
        by_cases hu : u = n
        · rw [if_pos hu] at hx
          rcases h3 x hx with h5 | h5
          · left; rw [hu, hedges]; exact h5
          · exact Or.inr ⟨hu, h5⟩
        · rw [if_neg hu] at hx
          exact Or.inl hx
      · intro u x hx hne
        rw [edgesOf_set _ _ _ _ hn]
        by_cases hu : u = n
        · rw [if_pos hu]
          rw [hu, hedges] at hx
          exact h4 x hx hne
        · rw [if_neg hu]; exact hx
      · intro u
        rw [edgesOf_set _ _ _ _ hn]
        by_cases hu : u = n
        · rw [if_pos hu, hu, hedges]; exact h1
        · rw [if_neg hu]

theorem commitEdges_eq (geo : GeoMath) (way_id : Int) (way : Way) (walk : WayWalk)
    (this_node : Node) (second_node : Option Node) (dist : Int) (trn node_pos : Nat)
    (rn : List RouteNode) :
    commitEdges geo way_id way walk this_node second_node dist trn node_pos rn =
      match (if forwardAllowed way then
          addEdge rn walk.start_route_node
            (forwardEdge geo way_id walk this_node second_node dist trn node_pos)
        else .ok rn) with
      | .error err => .error err
      | .ok rn1 =>
        if backwardAllowed way then
          addEdge rn1 trn (backwardEdge geo way_id walk this_node dist node_pos)
        else .ok rn1 := rfl

theorem commitEdges_spec (geo : GeoMath) (way_id : Int) (way : Way) (walk : WayWalk)
    (this_node : Node) (second_node : Option Node) (dist : Int) (trn node_pos : Nat)
    (rn rn2 : List RouteNode)
    (h : commitEdges geo way_id way walk this_node second_node dist trn node_pos rn = .ok rn2) :
    routeIds rn2 = routeIds rn ∧ rn2.length = rn.length ∧
      (∀ u x, x ∈ edgesOf rn2 u → x ∈ edgesOf rn u ∨
        (forwardAllowed way = true ∧ u = walk.start_route_node ∧
          x = forwardEdge geo way_id walk this_node second_node dist trn node_pos) ∨
        (backwardAllowed way = true ∧ u = trn ∧
          x = backwardEdge geo way_id walk this_node dist node_pos)) ∧
      (∀ u x, x ∈ edgesOf rn u → x.osmid ≠ 0 → x ∈ edgesOf rn2 u) ∧
      (∀ u, (edgesOf rn2 u).length = (edgesOf rn u).length) ∧
      (forwardAllowed way = true → way_id ≠ 0 →
        forwardEdge geo way_id walk this_node second_node dist trn node_pos
          ∈ edgesOf rn2 walk.start_route_node) ∧
      (backwardAllowed way = true →
        backwardEdge geo way_id walk this_node dist node_pos ∈ edgesOf rn2 trn) := by
  rw [commitEdges_eq] at h
  by_cases hf : forwardAllowed way = true
  · rw [if_pos hf] at h
    cases ha : addEdge rn walk.start_route_node
        (forwardEdge geo way_id walk this_node second_node dist trn node_pos) with
    | error err => rw [ha] at h; simp at h
    | ok rn1 =>
      rw [ha] at h
      simp only at h
      obtain ⟨-, a1, a2, a3, a4, a5, a6⟩ := addEdge_spec _ _ _ _ ha
      by_cases hb : backwardAllowed way = true
      · rw [if_pos hb] at h
        obtain ⟨-, b1, b2, b3, b4, b5, b6⟩ := addEdge_spec _ _ _ _ h
        refine ⟨by rw [b1, a1], by rw [b2, a2], ?_, ?_, ?_, ?_, ?_⟩
        · intro u x hx
          rcases b4 u x hx with h1 | ⟨h1, h2⟩
          · rcases a4 u x h1 with h3 | ⟨h3, h4⟩
            · exact Or.inl h3
            · exact Or.inr (Or.inl ⟨hf, h3, h4⟩)
          · exact Or.inr (Or.inr ⟨hb, h1, h2⟩)
        · intro u x hx hne
          exact b5 u x (a5 u x hx hne) hne
        · intro u; rw [b6, a6]
        · intro _ hne
          exact b5 _ _ a3 hne
        · intro _; exact b3
      · rw [if_neg hb] at h
        simp only [Except.ok.injEq] at h
        subst h
        refine ⟨a1, a2, ?_, a5, a6, fun _ _ => a3, fun h => absurd h hb⟩
        intro u x hx
        rcases a4 u x hx with h3 | ⟨h3, h4⟩
        · exact Or.inl h3
        · exact Or.inr (Or.inl ⟨hf, h3, h4⟩)
  · rw [if_neg hf] at h
    simp only at h
    by_cases hb : backwardAllowed way = true
    · rw [if_pos hb] at h
      obtain ⟨-, b1, b2, b3, b4, b5, b6⟩ := addEdge_spec _ _ _ _ h
      refine ⟨b1, b2, ?_, b5, b6, fun h => absurd h hf, fun _ => b3⟩
      intro u x hx
      rcases b4 u x hx with h1 | ⟨h1, h2⟩
      · exact Or.inl h1
      · exact Or.inr (Or.inr ⟨hb, h1, h2⟩)
    · rw [if_neg hb] at h
      simp only [Except.ok.injEq] at h
      subst h
      exact ⟨rfl, rfl, fun u x hx => Or.inl hx, fun u x hx _ => hx, fun u => rfl,
        fun h => absurd h hf, fun h => absurd h hb⟩

end RailRouting

namespace RailRouting

/-! ## The walk along one way keeps the edge records true -/

theorem idMapOK_none (idmap : List (Int × Nat)) (ids : List Int) (h : IdMapOK idmap ids)
    (id : Int) (hn : mapFind idmap id = none) : id ∉ ids := by
  intro hm
  obtain ⟨i, hi⟩ := List.mem_iff_getElem?.1 hm
  have := (h id i).2 hi
  rw [hn] at this
  simp at this

theorem nodeAt_eq (nodes_ : List (Int × Node)) (way : Way) (pos : Nat) (id : Int) (node : Node)
    (h1 : way.nodes_[pos]? = some id) (h2 : mapFind nodes_ id = some node) :
    nodeAt nodes_ way pos = some node := by
  unfold nodeAt
  rw [h1]
  exact h2

theorem segmentLength_step (geo : GeoMath) (nodes_ : List (Int × Node)) (way : Way)
    (start node_pos : Nat) (prev this : Node) (hlt : start < node_pos)
    (hp : nodeAt nodes_ way (node_pos - 1) = some prev)
    (ht : nodeAt nodes_ way node_pos = some this) :
    segmentLength geo nodes_ way start (node_pos - 1 - start) + geo.Distance prev this =
      segmentLength geo nodes_ way start (node_pos - start) := by
  have h1 : node_pos - start = (node_pos - 1 - start) + 1 := by omega
  rw [h1, segmentLength]
  have h2 : start + (node_pos - 1 - start) = node_pos - 1 := by omega
  have h3 : node_pos - 1 + 1 = node_pos := by omega
  rw [h2, h3]
  unfold stepLength
  rw [hp, ht]

theorem walkWay_edgesProv (geo : GeoMath) (nodes_ : List (Int × Node))
    (ways_ : List (Int × Way)) (idmap : List (Int × Nat)) (ids : List Int) (way_id : Int)
    (way : Way) (hway : mapFind ways_ way_id = some way) (hid : IdMapOK idmap ids)
    (rest : List Int) (node_pos : Nat) (walk : WayWalk) (rn rn1 : List RouteNode)
    (hrest : ∀ j, rest[j]? = way.nodes_[node_pos + j]?)
    (hwalk : WayWalkInv geo nodes_ ids way node_pos walk)
    (hids : routeIds rn = ids) (hprov : EdgesProv geo nodes_ ways_ rn)
    (h : walkWay geo nodes_ idmap way_id way node_pos rest walk rn = .ok rn1) :
    routeIds rn1 = ids ∧ EdgesProv geo nodes_ ways_ rn1 := by
  induction rest generalizing node_pos walk rn with
  | nil =>
    unfold walkWay at h
    simp only [Except.ok.injEq] at h
    subst h
    exact ⟨hids, hprov⟩
  | cons id rest ih =>
    have hpos : way.nodes_[node_pos]? = some id := by
      have := hrest 0
      simpa using this.symm
    have hrest2 : ∀ j, rest[j]? = way.nodes_[node_pos + 1 + j]? := by
      intro j
      have := hrest (j + 1)
      simp only [List.getElem?_cons_succ] at this
      rw [this]
      congr 1
      omega
    unfold walkWay at h
    cases hn : mapFind nodes_ id with
    | none =>
      rw [hn] at h
      simp only [Except.ok.injEq] at h
      subst h
      exact ⟨hids, hprov⟩
    | some this_node =>
      rw [hn] at h
      simp only at h
      have hthis : nodeAt nodes_ way node_pos = some this_node := nodeAt_eq _ _ _ _ _ hpos hn
      generalize (if node_pos = 1 then some this_node else walk.second_node) = sec at h
      by_cases h1 : node_pos = way.GetNodesCount - 1 ∧ mapFind idmap id = none
      · rw [if_pos h1] at h; simp at h
      rw [if_neg h1] at h
      by_cases h2 : ¬ (walk.start_node_pos < 65535 ∧ node_pos < 65535)
      · rw [if_pos h2] at h; simp at h
      rw [if_neg h2] at h
      have hdist := segmentLength_step geo nodes_ way walk.start_node_pos node_pos
        walk.prev_node this_node hwalk.start_lt hwalk.prev_node hthis
      cases hr : mapFind idmap id with
      | some trn =>
        rw [hr] at h
        simp only at h
        cases hc : commitEdges geo way_id way walk this_node sec
            (walk.dist + geo.Distance walk.prev_node this_node) trn node_pos rn with
        | error err => rw [hc] at h; simp at h
        | ok rn2 =>
          rw [hc] at h
          simp only at h
          obtain ⟨c1, c2, c3, -, -, -, -⟩ := commitEdges_spec _ _ _ _ _ _ _ _ _ _ _ hc
          have htrn : ids[trn]? = some id := (hid id trn).1 hr
          have hslt := hwalk.start_lt
          refine ih (node_pos + 1) _ rn2 hrest2 ?_ (by rw [c1, hids]) ?_ h
          · constructor
            · simp
            · exact ⟨id, hpos, htrn⟩
            · simpa using hthis
            · intro pos hp1 hp2
              simp only at hp1
              have : pos = node_pos := by omega
              subst this
              exact ⟨this_node, hthis⟩
            · intro pos hp1 hp2
              simp only at hp1
              omega
            · simp [segmentLength]
          · intro u x hx
            rw [c1, hids]
            rcases c3 u x hx with h3 | ⟨hf, hu, hxe⟩ | ⟨hb, hu, hxe⟩
            · have := hprov u x h3
              rw [hids] at this
              exact this
            · right
              refine ⟨trn, way, ?_⟩
              subst hxe hu
              have hmin : min walk.start_node_pos node_pos = walk.start_node_pos :=
                Nat.min_eq_left (by omega)
              have hmax : max walk.start_node_pos node_pos = node_pos :=
                Nat.max_eq_right (by omega)
              constructor
              · rfl
              · exact hway
              · simp only [forwardEdge]; omega
              · exact hwalk.start_id
              · exact ⟨id, hpos, htrn⟩
              · intro pos hp1 hp2
                simp only [forwardEdge, hmin, hmax] at hp1 hp2
                by_cases hpn : pos = node_pos
                · subst hpn; exact ⟨this_node, hthis⟩
                · exact hwalk.resolves pos hp1 (by omega)
              · intro pos hp1 hp2
                simp only [forwardEdge, hmin, hmax] at hp1 hp2
                exact hwalk.interior pos hp1 hp2
              · simp only [forwardEdge, hmin, hmax]
                rw [hwalk.dist_eq, hdist]
              · intro _; exact hf
              · intro hlt
                simp only [forwardEdge] at hlt
                omega
            · right
              refine ⟨walk.start_route_node, way, ?_⟩
              subst hxe hu
              have hmin : min node_pos walk.start_node_pos = walk.start_node_pos :=
                Nat.min_eq_right (by omega)
              have hmax : max node_pos walk.start_node_pos = node_pos :=
                Nat.max_eq_left (by omega)
              constructor
              · rfl
              · exact hway
              · simp only [backwardEdge]; omega
              · exact ⟨id, hpos, htrn⟩
              · exact hwalk.start_id
              · intro pos hp1 hp2
                simp only [backwardEdge, hmin, hmax] at hp1 hp2
                by_cases hpn : pos = node_pos
                · subst hpn; exact ⟨this_node, hthis⟩
                · exact hwalk.resolves pos hp1 (by omega)
              · intro pos hp1 hp2
                simp only [backwardEdge, hmin, hmax] at hp1 hp2
                exact hwalk.interior pos hp1 hp2
              · simp only [backwardEdge, hmin, hmax]
                rw [hwalk.dist_eq, hdist]
              · intro hlt
                simp only [backwardEdge] at hlt
                omega
              · intro _; exact hb
      | none =>
        rw [hr] at h
        simp only at h
        have hnot : id ∉ ids := idMapOK_none idmap ids hid id hr
        have hslt := hwalk.start_lt
        refine ih (node_pos + 1) _ rn hrest2 ?_ hids hprov h
        constructor
        · simp only; omega
        · exact hwalk.start_id
        · simpa using hthis
        · intro pos hp1 hp2
          simp only at hp1
          by_cases hpn : pos = node_pos
          · subst hpn; exact ⟨this_node, hthis⟩
          · exact hwalk.resolves pos hp1 (by omega)
        · intro pos hp1 hp2 id2 hid2
          simp only at hp1
          by_cases hpn : pos = node_pos
          · subst hpn
            rw [hpos] at hid2
            injection hid2 with hid2
            rw [← hid2]; exact hnot
          · exact hwalk.interior pos hp1 (by omega) id2 hid2
        · simp only
          rw [hwalk.dist_eq, hdist]
          congr 1

end RailRouting

namespace RailRouting

/-! ## The loop over the ways keeps the edge records true -/

theorem splitWay_edgesProv (geo : GeoMath) (nodes_ : List (Int × Node))
    (ways_ : List (Int × Way)) (idmap : List (Int × Nat)) (ids : List Int)
    (entry : Int × Way) (hway : mapFind ways_ entry.1 = some entry.2) (hid : IdMapOK idmap ids)
    (rn rn1 : List RouteNode) (hids : routeIds rn = ids) (hprov : EdgesProv geo nodes_ ways_ rn)
    (h : splitWay geo nodes_ idmap rn entry = .ok rn1) :
    routeIds rn1 = ids ∧ EdgesProv geo nodes_ ways_ rn1 := by
  unfold splitWay at h
  by_cases hc : entry.2.GetNodesCount < 2
  · rw [if_pos hc] at h
    simp only [Except.ok.injEq] at h
    subst h
    exact ⟨hids, hprov⟩
  · rw [if_neg hc] at h
    cases hl : entry.2.nodes_ with
    | nil =>
      rw [hl] at h
      simp only [Except.ok.injEq] at h
      subst h
      exact ⟨hids, hprov⟩
    | cons first rest =>
      rw [hl] at h
      simp only at h
      cases hn : mapFind nodes_ first with
      | none =>
        rw [hn] at h
        simp only [Except.ok.injEq] at h
        subst h
        exact ⟨hids, hprov⟩
      | some start_node =>
        rw [hn] at h
        simp only at h
        cases hr : mapFind idmap first with
        | none => rw [hr] at h; simp at h
        | some srn =>
          rw [hr] at h
          simp only at h
          have h0 : entry.2.nodes_[0]? = some first := by rw [hl]; simp
          refine walkWay_edgesProv geo nodes_ ways_ idmap ids entry.1 entry.2 hway hid rest 1 _
            rn rn1 ?_ ?_ hids hprov h
          · intro j
            rw [hl]
            have : 1 + j = j + 1 := by omega
            rw [this, List.getElem?_cons_succ]
          · constructor
            · simp
            · exact ⟨first, h0, (hid first srn).1 hr⟩
            · exact nodeAt_eq _ _ _ _ _ h0 hn
            · intro pos hp1 hp2
              have : pos = 0 := by omega
              subst this
              exact ⟨start_node, nodeAt_eq _ _ _ _ _ h0 hn⟩
            · intro pos hp1 hp2
              simp only at hp1
              omega
            · simp [segmentLength]

theorem splitWays_edgesProv (geo : GeoMath) (nodes_ : List (Int × Node))
    (ways_ : List (Int × Way)) (idmap : List (Int × Nat)) (ids : List Int)
    (ways : List (Int × Way)) (hways : ∀ entry ∈ ways, mapFind ways_ entry.1 = some entry.2)
    (hid : IdMapOK idmap ids)
    (rn rn1 : List RouteNode) (hids : routeIds rn = ids) (hprov : EdgesProv geo nodes_ ways_ rn)
    (h : splitWays geo nodes_ idmap ways rn = .ok rn1) :
    routeIds rn1 = ids ∧ EdgesProv geo nodes_ ways_ rn1 := by
  induction ways generalizing rn with
  | nil =>
    unfold splitWays at h
    simp only [Except.ok.injEq] at h
    subst h
    exact ⟨hids, hprov⟩
  | cons entry rest ih =>
    unfold splitWays at h
    cases hs : splitWay geo nodes_ idmap rn entry with
    | error err => rw [hs] at h; simp at h
    | ok rn2 =>
      rw [hs] at h
      simp only at h
      obtain ⟨h1, h2⟩ := splitWay_edgesProv geo nodes_ ways_ idmap ids entry
        (hways entry (List.mem_cons_self _ _)) hid rn rn2 hids hprov hs
      exact ih (fun e he => hways e (List.mem_cons_of_mem _ he)) rn2 h1 h2 h

/-! ## The routing nodes -/

theorem mapFind_append {β : Type} (m1 m2 : List (Int × β)) (k : Int) :
    mapFind (m1 ++ m2) k =
      match mapFind m1 k with
      | some x => some x
      | none => mapFind m2 k := by
  induction m1 with
  | nil => simp [mapFind]
  | cons a rest ih =>
    obtain ⟨k1, v1⟩ := a
    simp only [List.cons_append, mapFind]
    split_ifs with h
    · rfl
    · exact ih

theorem mapFind_idMapInsert (m : List (Int × Nat)) (k k2 : Int) (v : Nat) :
    mapFind (idMapInsert m k v) k2 =
      match mapFind m k2 with
      | some x => some x
      | none => if k = k2 then some v else none := by
  unfold idMapInsert
  cases hk : mapFind m k with
  | some x =>
    simp only
    cases hk2 : mapFind m k2 with
    | some y => rfl
    | none =>
      simp only
      have : k ≠ k2 := by
        rintro rfl
        rw [hk] at hk2
        simp at hk2
      rw [if_neg this]
  | none =>
    simp only
    rw [mapFind_append]
    cases hk2 : mapFind m k2 with
    | some y => rfl
    | none => simp [mapFind]

end RailRouting

namespace RailRouting

theorem routeIds_append (rn : List RouteNode) (r : RouteNode) :
    routeIds (rn ++ [r]) = routeIds rn ++ [r.osmid] := by
  simp [routeIds]

theorem routeIds_length (rn : List RouteNode) : (routeIds rn).length = rn.length := by
  simp [routeIds]

theorem edgesOf_append (rn : List RouteNode) (r : RouteNode) (u : Nat) :
    edgesOf (rn ++ [r]) u =
      if u < rn.length then edgesOf rn u else if u = rn.length then r.edges else [] := by
  unfold edgesOf
  rw [List.getElem?_append]
  by_cases h : u < rn.length
  · rw [if_pos h, if_pos h]
  · rw [if_neg h, if_neg h]
    by_cases h2 : u = rn.length
    · rw [if_pos h2, h2]; simp
    · rw [if_neg h2]
      have : 0 < u - rn.length := by omega
      rw [List.getElem?_eq_none (by simp; omega)]

theorem idMapOK_push (idmap : List (Int × Nat)) (rn : List RouteNode) (r : RouteNode)
    (h : IdMapOK idmap (routeIds rn)) (hfresh : r.osmid ∉ routeIds rn) :
    IdMapOK (idMapInsert idmap r.osmid rn.length) (routeIds (rn ++ [r])) := by
  intro id i
  rw [mapFind_idMapInsert, routeIds_append, List.getElem?_append, routeIds_length]
  have hnone : mapFind idmap r.osmid = none := by
    cases hf : mapFind idmap r.osmid with
    | none => rfl
    | some j =>
      exfalso
      exact hfresh (mem_of_getElem?_eq_some _ _ _ ((h r.osmid j).1 hf))
  cases hf : mapFind idmap id with
  | some x =>
    simp only
    have hx := (h id x).1 hf
    have hxlt : x < rn.length := by
      have := (List.getElem?_eq_some.1 hx).1
      rw [routeIds_length] at this
      exact this
    constructor
    · intro hxi
      injection hxi with hxi
      subst hxi
      rw [if_pos hxlt]; exact hx
    · intro hi
      by_cases hlt : i < rn.length
      · rw [if_pos hlt] at hi
        have := (h id i).2 hi
        rw [hf] at this
        exact this
      · rw [if_neg hlt] at hi
        exfalso
        have hi2 := mem_of_getElem?_eq_some _ _ _ hi
        simp only [List.mem_singleton] at hi2
        rw [hi2, hnone] at hf
        simp at hf
  | none =>
    simp only
    constructor
    · intro hi
      split_ifs at hi with h1
      injection hi with hi
      subst hi
      rw [if_neg (by omega)]
      simp [h1]
    · intro hi
      by_cases hlt : i < rn.length
      · rw [if_pos hlt] at hi
        have := (h id i).2 hi
        rw [hf] at this
        simp at this
      · rw [if_neg hlt] at hi
        have hi2 := mem_of_getElem?_eq_some _ _ _ hi
        simp only [List.mem_singleton] at hi2
        subst hi2
        rw [if_pos rfl]
        have hlen := (List.getElem?_eq_some.1 hi).1
        simp only [List.length_singleton] at hlen
        congr 1
        omega

theorem createRouteNodes_spec (conn : List (Int × ConnectivityInfo)) (nodes : List (Int × Node))
    (st st1 : RouteNodesState) (hinv : CreateInv conn st)
    (hdist : nodes.Pairwise (fun a b => a.1 ≠ b.1))
    (hfresh : ∀ p ∈ nodes, p.1 ∉ routeIds st.route_nodes)
    (h : createRouteNodes conn nodes st = .ok st1) :
    CreateInv conn st1 ∧
      (∀ id ∈ routeIds st1.route_nodes,
        id ∈ routeIds st.route_nodes ∨ ∃ node, (id, node) ∈ nodes) ∧
      (∀ id ∈ routeIds st.route_nodes, id ∈ routeIds st1.route_nodes) ∧
      (∀ p ∈ nodes, ∃ c, mapFind conn p.1 = some c ∧
        (p.1 ∈ routeIds st1.route_nodes ↔
          (c.nways > 1 ∨ c.nedges ≠ 2 ∨ c.isstop = true))) := by
  induction nodes generalizing st with
  | nil =>
    unfold createRouteNodes at h
    simp only [Except.ok.injEq] at h
    subst h
    exact ⟨hinv, fun id hid => Or.inl hid, fun id hid => hid, fun p hp => by simp at hp⟩
  | cons p rest ih =>
    obtain ⟨id, node⟩ := p
    rw [List.pairwise_cons] at hdist
    unfold createRouteNodes at h
    cases hc : mapFind conn id with
    | none => rw [hc] at h; simp at h
    | some c =>
      rw [hc] at h
      simp only at h
      have hidf : id ∉ routeIds st.route_nodes := hfresh (id, node) (List.mem_cons_self _ _)
      by_cases hq : c.nways > 1 ∨ c.nedges ≠ 2 ∨ c.isstop = true
      · rw [if_pos hq] at h
        cases ha : st.route_edge_pool.alloc c.nedges with
        | error err => rw [ha] at h; simp at h
        | ok res =>
          rw [ha] at h
          simp only at h
          have hlen : st.route_nodes.length + 1 - 1 = st.route_nodes.length := by omega
          rw [hlen] at h
          have hinv2 : CreateInv conn
              { route_nodes :=
                  st.route_nodes ++
                    [{ osmid := id, edges := List.replicate c.nedges RouteEdge.empty }]
                id_to_routenode := idMapInsert st.id_to_routenode id st.route_nodes.length
                route_edge_pool := res.1 } := by
            constructor
            · exact idMapOK_push _ _
                { osmid := id, edges := List.replicate c.nedges RouteEdge.empty }
                hinv.idmap hidf
            · intro u e he
              simp only at he
              rw [edgesOf_append] at he
              split_ifs at he with h1 h2
              · exact hinv.empty u e he
              · simp only [List.mem_replicate] at he
                exact he.2
              · simp at he
            · intro r hr
              simp only [List.mem_append, List.mem_singleton] at hr
              rcases hr with hr | hr
              · exact hinv.counted r hr
              · subst hr
                exact ⟨c, hc, by simp, hq⟩
          have hfresh2 : ∀ p ∈ rest, p.1 ∉ routeIds
              (st.route_nodes ++
                [{ osmid := id, edges := List.replicate c.nedges RouteEdge.empty }]) := by
            intro p hp
            simp only [routeIds_append, List.mem_append, List.mem_singleton, not_or]
            refine ⟨hfresh p (List.mem_cons_of_mem _ hp), ?_⟩
            intro heq
            exact hdist.1 p hp heq.symm
          obtain ⟨i1, i2, i3, i4⟩ := ih _ hinv2 hdist.2 hfresh2 h
          refine ⟨i1, ?_, ?_, ?_⟩
          · intro id2 hid2
            rcases i2 id2 hid2 with h5 | ⟨nd, h5⟩
            · simp only [routeIds_append, List.mem_append, List.mem_singleton] at h5
              rcases h5 with h5 | h5
              · exact Or.inl h5
              · right; exact ⟨node, by rw [h5]; exact List.mem_cons_self _ _⟩
            · right; exact ⟨nd, List.mem_cons_of_mem _ h5⟩
          · intro id2 hid2
            apply i3
            simp only [routeIds_append, List.mem_append]
            exact Or.inl hid2
          · intro p hp
            rcases List.mem_cons.1 hp with hp | hp
            · subst hp
              refine ⟨c, hc, ?_⟩
              simp only [hq, iff_true]
              apply i3
              simp [routeIds_append]
            · exact i4 p hp
      · rw [if_neg hq] at h
        obtain ⟨i1, i2, i3, i4⟩ := ih st hinv hdist.2
          (fun p hp => hfresh p (List.mem_cons_of_mem _ hp)) h
        refine ⟨i1, ?_, i3, ?_⟩
        · intro id2 hid2
          rcases i2 id2 hid2 with h5 | ⟨nd, h5⟩
          · exact Or.inl h5
          · right; exact ⟨nd, List.mem_cons_of_mem _ h5⟩
        · intro p hp
          rcases List.mem_cons.1 hp with hp | hp
          · subst hp
            refine ⟨c, hc, ?_⟩
            simp only [hq, iff_false]
            intro hmem
            rcases i2 id hmem with h5 | ⟨nd, h5⟩
            · exact hidf h5
            · exact hdist.1 (id, nd) h5 rfl
          · exact i4 p hp

end RailRouting

namespace RailRouting

/-! ## The passes before the compilation -/

theorem nodesPass_invariant (nodes : List Node) (eng : Engine)
    (hs : SortedKeys eng.nodes_) (hk : KeyedById (fun n : Node => n.id_) eng.nodes_) :
    SortedKeys (nodes.foldl ProcessNode eng).nodes_ ∧
      KeyedById (fun n : Node => n.id_) (nodes.foldl ProcessNode eng).nodes_ ∧
      (nodes.foldl ProcessNode eng).ways_ = eng.ways_ ∧
      (nodes.foldl ProcessNode eng).stops_ = eng.stops_ ∧
      (nodes.foldl ProcessNode eng).route_nodes_ = eng.route_nodes_ ∧
      (nodes.foldl ProcessNode eng).route_edge_pool_ = eng.route_edge_pool_ := by
  induction nodes generalizing eng with
  | nil => exact ⟨hs, hk, rfl, rfl, rfl, rfl⟩
  | cons n rest ih =>
    rw [List.foldl_cons]
    have key : SortedKeys (ProcessNode eng n).nodes_ ∧
        KeyedById (fun n : Node => n.id_) (ProcessNode eng n).nodes_ ∧
        (ProcessNode eng n).ways_ = eng.ways_ ∧ (ProcessNode eng n).stops_ = eng.stops_ ∧
        (ProcessNode eng n).route_nodes_ = eng.route_nodes_ ∧
        (ProcessNode eng n).route_edge_pool_ = eng.route_edge_pool_ := by
      unfold ProcessNode
      split_ifs with h
      · refine ⟨sortedKeys_mapInsert _ _ _ hs, ?_, rfl, rfl, rfl, rfl⟩
        intro p hp
        rcases mem_mapInsert _ _ _ _ hp with hp | hp
        · exact hk p hp
        · rw [hp]
      · exact ⟨hs, hk, rfl, rfl, rfl, rfl⟩
    obtain ⟨k1, k2, k3, k4, k5, k6⟩ := key
    obtain ⟨i1, i2, i3, i4, i5, i6⟩ := ih (ProcessNode eng n) k1 k2
    exact ⟨i1, i2, by rw [i3, k3], by rw [i4, k4], by rw [i5, k5], by rw [i6, k6]⟩

theorem waysPass_rest (ways : List Way) (eng : Engine) :
    (ways.foldl ProcessWay eng).nodes_ = eng.nodes_ ∧
      (ways.foldl ProcessWay eng).stops_ = eng.stops_ ∧
      (ways.foldl ProcessWay eng).route_nodes_ = eng.route_nodes_ ∧
      (ways.foldl ProcessWay eng).route_edge_pool_ = eng.route_edge_pool_ := by
  induction ways generalizing eng with
  | nil => exact ⟨rfl, rfl, rfl, rfl⟩
  | cons w rest ih =>
    rw [List.foldl_cons]
    obtain ⟨i1, i2, i3, i4⟩ := ih (ProcessWay eng w)
    have key : (ProcessWay eng w).nodes_ = eng.nodes_ ∧
        (ProcessWay eng w).stops_ = eng.stops_ ∧
        (ProcessWay eng w).route_nodes_ = eng.route_nodes_ ∧
        (ProcessWay eng w).route_edge_pool_ = eng.route_edge_pool_ := by
      unfold ProcessWay
      split_ifs <;> exact ⟨rfl, rfl, rfl, rfl⟩
    exact ⟨by rw [i1, key.1], by rw [i2, key.2.1], by rw [i3, key.2.2.1], by rw [i4, key.2.2.2]⟩

/-- The engine that Prepare starts from in `Parse`. -/
theorem loaded_engine (ways : List Way) (nodes : List Node) :
    SortedKeys (nodes.foldl ProcessNode (ways.foldl ProcessWay Engine.init)).nodes_ ∧
      KeyedById (fun n : Node => n.id_)
        (nodes.foldl ProcessNode (ways.foldl ProcessWay Engine.init)).nodes_ ∧
      SortedKeys (nodes.foldl ProcessNode (ways.foldl ProcessWay Engine.init)).ways_ ∧
      KeyedById (fun w : Way => w.id_)
        (nodes.foldl ProcessNode (ways.foldl ProcessWay Engine.init)).ways_ ∧
      (∀ p ∈ (nodes.foldl ProcessNode (ways.foldl ProcessWay Engine.init)).ways_,
        HasRailTag p.2) ∧
      (nodes.foldl ProcessNode (ways.foldl ProcessWay Engine.init)).stops_ = [] ∧
      (nodes.foldl ProcessNode (ways.foldl ProcessWay Engine.init)).route_nodes_ = [] := by
  obtain ⟨w1, w2⟩ := waysPass_init ways
  obtain ⟨r1, r2, r3, r4⟩ := waysPass_rest ways Engine.init
  obtain ⟨n1, n2, n3, n4, n5, n6⟩ := nodesPass_invariant nodes (ways.foldl ProcessWay Engine.init)
    (by rw [r1]; simp [SortedKeys, Engine.init])
    (by rw [r1]; intro p hp; simp [Engine.init] at hp)
  refine ⟨n1, n2, by rw [n3]; exact w1, ?_, ?_, by rw [n4, r2]; rfl, by rw [n5, r3]; rfl⟩
  · rw [n3]; intro p hp; exact (w2 p hp).2
  · rw [n3]; intro p hp; exact (w2 p hp).1

/-! ## The stop index -/

theorem mem_multimapInsert {β : Type} (m : List (String × β)) (k : String) (v : β)
    (p : String × β) : p ∈ multimapInsert m k v ↔ p = (k, v) ∨ p ∈ m := by
  induction m with
  | nil => simp [multimapInsert]
  | cons a rest ih =>
    obtain ⟨k1, v1⟩ := a
    unfold multimapInsert
    split_ifs with h
    · simp
    · simp only [List.mem_cons, ih]; tauto

theorem postprocessStops_spec (idmap : List (Int × Nat)) (temp : List (String × Int))
    (stops0 stops : List (String × Nat))
    (h : postprocessStops idmap temp stops0 = .ok stops) (name : String) (i : Nat) :
    (name, i) ∈ stops ↔
      (name, i) ∈ stops0 ∨ ∃ id, (name, id) ∈ temp ∧ mapFind idmap id = some i := by
  induction temp generalizing stops0 with
  | nil =>
    unfold postprocessStops at h
    simp only [Except.ok.injEq] at h
    subst h
    simp
  | cons a rest ih =>
    obtain ⟨n1, id1⟩ := a
    unfold postprocessStops at h
    cases hf : mapFind idmap id1 with
    | none => rw [hf] at h; simp at h
    | some idx =>
      rw [hf] at h
      simp only at h
      rw [ih _ h, mem_multimapInsert]
      constructor
      · rintro (h1 | h1)
        · rcases h1 with h1 | h1
          · injection h1 with h2 h3
            subst h2 h3
            exact Or.inr ⟨id1, List.mem_cons_self _ _, hf⟩
          · exact Or.inl h1
        · obtain ⟨id, h2, h3⟩ := h1
          exact Or.inr ⟨id, List.mem_cons_of_mem _ h2, h3⟩
      · rintro (h1 | ⟨id, h2, h3⟩)
        · exact Or.inl (Or.inr h1)
        · rcases List.mem_cons.1 h2 with h2 | h2
          · injection h2 with h4 h5
            subst h4 h5
            rw [hf] at h3
            injection h3 with h3
            subst h3
            exact Or.inl (Or.inl rfl)
          · exact Or.inr ⟨id, h2, h3⟩

theorem addStopName_fst (id : Int) (names : List String)
    (acc : List (String × Int) × List (Int × ConnectivityInfo)) (p : String × Int) :
    p ∈ (names.foldl (addStopName id) acc).1 ↔ p ∈ acc.1 ∨ (p.2 = id ∧ p.1 ∈ names) := by
  induction names generalizing acc with
  | nil => simp
  | cons n rest ih =>
    rw [List.foldl_cons, ih]
    simp only [addStopName, mem_multimapInsert, List.mem_cons]
    constructor
    · rintro ((h | h) | ⟨h1, h2⟩)
      · subst h; exact Or.inr ⟨rfl, Or.inl rfl⟩
      · exact Or.inl h
      · exact Or.inr ⟨h1, Or.inr h2⟩
    · rintro (h | ⟨h1, h2 | h2⟩)
      · exact Or.inl (Or.inr h)
      · left; left
        obtain ⟨a, b⟩ := p
        simp only at h1 h2
        subst h1 h2
        rfl
      · exact Or.inr ⟨h1, h2⟩

theorem findStops_fst (nodes : List (Int × Node))
    (acc : List (String × Int) × List (Int × ConnectivityInfo)) (p : String × Int) :
    p ∈ (nodes.foldl findStopsStep acc).1 ↔
      p ∈ acc.1 ∨ ∃ entry ∈ nodes, isStopNode entry.2 = true ∧ p.2 = entry.2.id_ ∧
        p.1 ∈ stopNames entry.2 := by
  induction nodes generalizing acc with
  | nil => simp
  | cons e rest ih =>
    rw [List.foldl_cons, ih]
    unfold findStopsStep
    by_cases hs : isStopNode e.2 = true
    · rw [if_pos hs, addStopName_fst]
      constructor
      · rintro ((h | ⟨h1, h2⟩) | ⟨entry, h1, h2⟩)
        · exact Or.inl h
        · exact Or.inr ⟨e, List.mem_cons_self _ _, hs, h1, h2⟩
        · exact Or.inr ⟨entry, List.mem_cons_of_mem _ h1, h2⟩
      · rintro (h | ⟨entry, h1, h2, h3, h4⟩)
        · exact Or.inl (Or.inl h)
        · rcases List.mem_cons.1 h1 with h1 | h1
          · subst h1
            exact Or.inl (Or.inr ⟨h3, h4⟩)
          · exact Or.inr ⟨entry, h1, h2, h3, h4⟩
    · rw [if_neg hs]
      constructor
      · rintro (h | ⟨entry, h1, h2⟩)
        · exact Or.inl h
        · exact Or.inr ⟨entry, List.mem_cons_of_mem _ h1, h2⟩
      · rintro (h | ⟨entry, h1, h2, h3, h4⟩)
        · exact Or.inl h
        · rcases List.mem_cons.1 h1 with h1 | h1
          · subst h1
            exact absurd h2 hs
          · exact Or.inr ⟨entry, h1, h2, h3, h4⟩

end RailRouting

namespace RailRouting

/-! ## The compiled engine -/

theorem Prepare_ok (geo : GeoMath) (eng eng1 : Engine) (h : Prepare geo eng = .ok eng1) :
    ∃ created rn stops,
      createRouteNodes
          (eng.ways_.foldl countWayStep (eng.nodes_.foldl findStopsStep ([], [])).2)
          eng.nodes_
          { route_nodes := eng.route_nodes_, id_to_routenode := [],
            route_edge_pool := eng.route_edge_pool_ } = .ok created ∧
        splitWays geo eng.nodes_ created.id_to_routenode eng.ways_ created.route_nodes
          = .ok rn ∧
        postprocessStops created.id_to_routenode
          (eng.nodes_.foldl findStopsStep ([], [])).1 eng.stops_ = .ok stops ∧
        eng1 = { eng with
                 needed_nodes_ := []
                 stops_ := stops
                 route_nodes_ := rn
                 route_edge_pool_ := created.route_edge_pool } := by
  unfold Prepare at h
  simp only at h
  cases hc : createRouteNodes
      (eng.ways_.foldl countWayStep (eng.nodes_.foldl findStopsStep ([], [])).2)
      eng.nodes_
      { route_nodes := eng.route_nodes_, id_to_routenode := [],
        route_edge_pool := eng.route_edge_pool_ } with
  | error err => rw [hc] at h; simp at h
  | ok created =>
    rw [hc] at h
    simp only at h
    cases hs : splitWays geo eng.nodes_ created.id_to_routenode eng.ways_ created.route_nodes with
    | error err => rw [hs] at h; simp at h
    | ok rn =>
      rw [hs] at h
      simp only at h
      cases hp : postprocessStops created.id_to_routenode
          (eng.nodes_.foldl findStopsStep ([], [])).1 eng.stops_ with
      | error err => rw [hp] at h; simp at h
      | ok stops =>
        rw [hp] at h
        simp only [Except.ok.injEq] at h
        exact ⟨created, rn, stops, rfl, hs, hp, h.symm⟩

theorem idMapOK_nodup (idmap : List (Int × Nat)) (ids : List Int) (h : IdMapOK idmap ids) :
    ids.Nodup := by
  rw [List.nodup_iff_getElem?_ne_getElem?]
  intro i j hij hj heq
  have hi : i < ids.length := by omega
  have h1 : ids[i]? = some ids[i] := List.getElem?_eq_getElem hi
  have h2 : ids[j]? = some ids[i] := by rw [← heq, h1]
  have h3 := (h ids[i] i).2 h1
  have h4 := (h ids[i] j).2 h2
  rw [h3] at h4
  injection h4 with h4
  omega

theorem sourceNode_eq (eng : Engine) (i : Nat) (node : Node) :
    sourceNode eng i = some node ↔
      ∃ id, (routeIds eng.route_nodes_)[i]? = some id ∧ mapFind eng.nodes_ id = some node := by
  unfold sourceNode routeIds
  rw [List.getElem?_map]
  cases eng.route_nodes_[i]? with
  | none => simp
  | some r => simp

/-- What the compilation establishes, with the map from node ids to routing nodes that
Prepare builds and drops. -/
theorem parse_compiled_idmap (geo : GeoMath) (ways : List Way) (nodes : List Node)
    (eng : Engine) (h : Parse geo ways nodes = .ok eng) :
    Compiled geo eng ∧
      eng.nodes_ = (nodes.foldl ProcessNode (ways.foldl ProcessWay Engine.init)).nodes_ ∧
      eng.ways_ = (nodes.foldl ProcessNode (ways.foldl ProcessWay Engine.init)).ways_ ∧
      ∃ created,
        createRouteNodes
          (eng.ways_.foldl countWayStep (eng.nodes_.foldl findStopsStep ([], [])).2)
          eng.nodes_
          { route_nodes := [], id_to_routenode := [],
            route_edge_pool := Engine.init.route_edge_pool_ } = .ok created ∧
        splitWays geo eng.nodes_ created.id_to_routenode eng.ways_ created.route_nodes
          = .ok eng.route_nodes_ ∧
        IdMapOK created.id_to_routenode (routeIds eng.route_nodes_) ∧
        routeIds created.route_nodes = routeIds eng.route_nodes_ := by
  unfold Parse at h
  obtain ⟨l1, l2, l3, l4, l5, l6, l7⟩ := loaded_engine ways nodes
  obtain ⟨-, -, -, r4⟩ := waysPass_rest ways Engine.init
  obtain ⟨-, -, -, -, -, n6⟩ := nodesPass_invariant nodes (ways.foldl ProcessWay Engine.init)
    (by rw [(waysPass_rest ways Engine.init).1]; simp [SortedKeys, Engine.init])
    (by rw [(waysPass_rest ways Engine.init).1]; intro p hp; simp [Engine.init] at hp)
  generalize nodes.foldl ProcessNode (ways.foldl ProcessWay Engine.init) = E at *
  obtain ⟨created, rn, stops, hc, hs, hp, heq⟩ := Prepare_ok geo E eng h
  subst heq
  simp only
  rw [l7] at hc
  rw [n6, r4] at hc
  rw [l6] at hp
  have hinit : CreateInv
      (E.ways_.foldl countWayStep (E.nodes_.foldl findStopsStep ([], [])).2)
      { route_nodes := [], id_to_routenode := [],
        route_edge_pool := Engine.init.route_edge_pool_ } := by
    constructor
    · intro id i; simp [mapFind, routeIds]
    · intro u e he; simp [edgesOf] at he
    · intro r hr; simp at hr
  have hdist : E.nodes_.Pairwise (fun a b => a.1 ≠ b.1) :=
    List.Pairwise.imp (fun hab => by omega) l1
  obtain ⟨c1, c2, -, -⟩ := createRouteNodes_spec _ _ _ _ hinit hdist
    (by intro p _; simp [routeIds]) hc
  have hprov0 : EdgesProv geo E.nodes_ E.ways_ created.route_nodes :=
    fun u e he => Or.inl (c1.empty u e he)
  obtain ⟨s1, s2⟩ := splitWays_edgesProv geo E.nodes_ E.ways_ created.id_to_routenode
    (routeIds created.route_nodes) E.ways_
    (fun entry he => mapFind_eq_some_of_mem _ _ _ l3 he) c1.idmap created.route_nodes rn rfl
    hprov0 hs
  have hidmap : IdMapOK created.id_to_routenode (routeIds rn) := by rw [s1]; exact c1.idmap
  refine ⟨?_, trivial, trivial, created, hc, hs, hidmap, s1.symm⟩
  constructor
  · exact l1
  · exact l2
  · exact l3
  · exact l4
  · exact l5
  · exact idMapOK_nodup _ _ hidmap
  · intro id hid
    simp only at hid
    rw [s1] at hid
    rcases c2 id hid with h1 | ⟨nd, h1⟩
    · simp [routeIds] at h1
    · exact ⟨nd, mapFind_eq_some_of_mem _ _ _ l1 h1⟩
  · exact s2
  · intro name i
    simp only
    rw [postprocessStops_spec _ _ _ _ hp name i]
    simp only [List.not_mem_nil, false_or]
    constructor
    · rintro ⟨id, h1, h2⟩
      rw [findStops_fst] at h1
      simp only [List.not_mem_nil, false_or] at h1
      obtain ⟨entry, e1, e2, e3, e4⟩ := h1
      have hkey : entry.2.id_ = entry.1 := l2 entry e1
      refine ⟨entry.2, ?_, e2, e4⟩
      rw [sourceNode_eq]
      refine ⟨id, (hidmap id i).1 h2, ?_⟩
      rw [e3, hkey]
      exact mapFind_eq_some_of_mem _ _ _ l1 e1
    · rintro ⟨nd, h1, h2, h3⟩
      rw [sourceNode_eq] at h1
      obtain ⟨id, h4, h5⟩ := h1
      have hmem := mem_of_mapFind_eq_some _ _ _ h5
      have hkey : nd.id_ = id := l2 (id, nd) hmem
      refine ⟨id, ?_, (hidmap id i).2 h4⟩
      rw [findStops_fst]
      right
      exact ⟨(id, nd), hmem, h2, hkey.symm, h3⟩

theorem parse_compiled (geo : GeoMath) (ways : List Way) (nodes : List Node)
    (eng : Engine) (h : Parse geo ways nodes = .ok eng) : Compiled geo eng :=
  (parse_compiled_idmap geo ways nodes eng h).1

end RailRouting

namespace RailRouting

/-! ## Linked lists of nodes -/

theorem linked_append {α : Type} (R : α → α → Prop) (l1 l2 : List α)
    (h1 : Linked R l1) (h2 : Linked R l2)
    (h : ∀ x y, l1.getLast? = some x → l2.head? = some y → R x y) :
    Linked R (l1 ++ l2) := by
  induction l1 with
  | nil => simpa using h2
  | cons a rest ih =>
    cases rest with
    | nil =>
      cases l2 with
      | nil => simp [Linked]
      | cons b rest2 =>
        simp only [List.singleton_append, Linked]
        exact ⟨h a b (by simp) (by simp), h2⟩
    | cons b rest =>
      simp only [List.cons_append, Linked] at h1 ⊢
      refine ⟨h1.1, ?_⟩
      apply ih h1.2
      intro x y hx hy
      apply h x y _ hy
      simp only [List.getLast?_cons_cons]
      exact hx

theorem linked_reverse {α : Type} (R : α → α → Prop) (hsymm : ∀ a b, R a b → R b a)
    (l : List α) (h : Linked R l) : Linked R l.reverse := by
  induction l with
  | nil => simp [Linked]
  | cons a rest ih =>
    cases rest with
    | nil => simp [Linked]
    | cons b rest =>
      simp only [Linked] at h
      rw [List.reverse_cons]
      apply linked_append R _ _ (ih h.2) (by simp [Linked])
      intro x y hx hy
      simp only [List.head?_cons, Option.some.injEq] at hy
      subst hy
      rw [List.getLast?_reverse] at hx
      simp only [List.head?_cons, Option.some.injEq] at hx
      subst hx
      exact hsymm _ _ h.1

theorem linked_getElem {α : Type} (R : α → α → Prop) (l : List α) (h : Linked R l)
    (i : Nat) (a b : α) (ha : l[i]? = some a) (hb : l[i + 1]? = some b) : R a b := by
  induction l generalizing i with
  | nil => simp at ha
  | cons x rest ih =>
    cases rest with
    | nil => simp at hb
    | cons y rest =>
      simp only [Linked] at h
      cases i with
      | zero =>
        simp only [List.getElem?_cons_zero, Option.some.injEq, zero_add,
          List.getElem?_cons_succ] at ha hb
        subst ha hb
        exact h.1
      | succ j =>
        simp only [List.getElem?_cons_succ] at ha hb
        exact ih h.2 j ha (by simpa using hb)

theorem adjacent_symm (eng : Engine) (a b : Node) (h : Adjacent eng a b) : Adjacent eng b a := by
  obtain ⟨wid, way, pos, hw, h1⟩ := h
  exact ⟨wid, way, pos, hw, h1.symm⟩

/-! ## The nodes of one edge -/

theorem expandPositions_ok (nodes_ : List (Int × Node)) (way : Way) (ps : List Nat)
    (h : ∀ pos ∈ ps, ∃ node, nodeAt nodes_ way pos = some node) :
    ∃ out, expandPositions nodes_ way ps = .ok out ∧ NodesAt nodes_ way ps out := by
  induction ps with
  | nil => exact ⟨[], rfl, trivial⟩
  | cons pos rest ih =>
    obtain ⟨node, hn⟩ := h pos (List.mem_cons_self _ _)
    obtain ⟨out, ho, hat⟩ := ih (fun p hp => h p (List.mem_cons_of_mem _ hp))
    refine ⟨node :: out, ?_, hn, hat⟩
    unfold expandPositions
    unfold nodeAt at hn
    unfold Way.NodeAt
    cases hw : way.nodes_[pos]? with
    | none => rw [hw] at hn; simp at hn
    | some id =>
      rw [hw] at hn
      simp only at hn ⊢
      rw [hn, ho]

theorem nodeAt_id (nodes_ : List (Int × Node)) (hk : KeyedById (fun n : Node => n.id_) nodes_)
    (way : Way) (pos : Nat) (node : Node) (h : nodeAt nodes_ way pos = some node) :
    way.nodes_[pos]? = some node.id_ := by
  unfold nodeAt at h
  cases hw : way.nodes_[pos]? with
  | none => rw [hw] at h; simp at h
  | some id =>
    rw [hw] at h
    have := hk (id, node) (mem_of_mapFind_eq_some _ _ _ h)
    simp only at this
    rw [this]

theorem adjacent_of_unitStep (eng : Engine)
    (hk : KeyedById (fun n : Node => n.id_) eng.nodes_) (way_id : Int) (way : Way)
    (hw : mapFind eng.ways_ way_id = some way) (p q : Nat) (a b : Node)
    (hs : UnitStep p q) (ha : nodeAt eng.nodes_ way p = some a)
    (hb : nodeAt eng.nodes_ way q = some b) : Adjacent eng a b := by
  have h1 := nodeAt_id _ hk way p a ha
  have h2 := nodeAt_id _ hk way q b hb
  rcases hs with hs | hs
  · subst hs
    exact ⟨way_id, way, q, hw, Or.inr ⟨h2, h1⟩⟩
  · subst hs
    exact ⟨way_id, way, p, hw, Or.inl ⟨h1, h2⟩⟩

theorem linked_of_nodesAt (eng : Engine)
    (hk : KeyedById (fun n : Node => n.id_) eng.nodes_) (way_id : Int) (way : Way)
    (hw : mapFind eng.ways_ way_id = some way) (ps : List Nat) (out : List Node)
    (hs : Linked UnitStep ps) (hat : NodesAt eng.nodes_ way ps out) :
    Linked (Adjacent eng) out := by
  induction ps generalizing out with
  | nil =>
    cases out with
    | nil => trivial
    | cons a rest => simp [NodesAt] at hat
  | cons p rest ih =>
    cases out with
    | nil => simp [NodesAt] at hat
    | cons a out1 =>
      simp only [NodesAt] at hat
      cases rest with
      | nil =>
        cases out1 with
        | nil => trivial
        | cons b out2 => simp [NodesAt] at hat
      | cons q rest2 =>
        cases out1 with
        | nil => simp [NodesAt] at hat
        | cons b out2 =>
          simp only [Linked] at hs ⊢
          refine ⟨?_, ih (b :: out2) hs.2 hat.2⟩
          simp only [NodesAt] at hat
          exact adjacent_of_unitStep eng hk way_id way hw p q a b hs.1 hat.1 hat.2.1

theorem nodesAt_head (nodes_ : List (Int × Node)) (way : Way) (ps : List Nat) (out : List Node)
    (hat : NodesAt nodes_ way ps out) (p : Nat) (hp : ps.head? = some p) :
    ∃ a, out.head? = some a ∧ nodeAt nodes_ way p = some a := by
  cases ps with
  | nil => simp at hp
  | cons p1 rest =>
    cases out with
    | nil => simp [NodesAt] at hat
    | cons a out1 =>
      simp only [List.head?_cons, Option.some.injEq] at hp
      subst hp
      simp only [NodesAt] at hat
      exact ⟨a, rfl, hat.1⟩

theorem nodesAt_getLast (nodes_ : List (Int × Node)) (way : Way) (ps : List Nat)
    (out : List Node) (hat : NodesAt nodes_ way ps out) (a : Node)
    (ha : out.getLast? = some a) :
    ∃ p, ps.getLast? = some p ∧ nodeAt nodes_ way p = some a := by
  induction ps generalizing out with
  | nil =>
    cases out with
    | nil => simp at ha
    | cons b rest => simp [NodesAt] at hat
  | cons p1 rest ih =>
    cases out with
    | nil => simp at ha
    | cons b out1 =>
      simp only [NodesAt] at hat
      cases rest with
      | nil =>
        cases out1 with
        | nil =>
          simp only [List.getLast?_singleton, Option.some.injEq] at ha
          subst ha
          exact ⟨p1, rfl, hat.1⟩
        | cons c out2 => simp [NodesAt] at hat
      | cons p2 rest2 =>
        cases out1 with
        | nil => simp [NodesAt] at hat
        | cons c out2 =>
          simp only [List.getLast?_cons_cons] at ha ⊢
          exact ih (c :: out2) hat.2 ha

end RailRouting

namespace RailRouting

theorem linked_unitStep_range (s n : Nat) : Linked UnitStep (List.range' s n) := by
  induction n generalizing s with
  | zero => simp [Linked]
  | succ k ih =>
    rw [List.range'_succ]
    cases k with
    | zero => simp [Linked]
    | succ j =>
      have := ih (s + 1)
      rw [List.range'_succ] at this ⊢
      simp only [Linked] at this ⊢
      exact ⟨Or.inr rfl, this⟩

theorem edgePositions_spec (e : RouteEdge) (hne : e.start_pos ≠ e.end_pos) :
    Linked UnitStep (edgePositions e) ∧
      (edgePositions e).head? = some e.end_pos ∧
      (∃ q, (edgePositions e).getLast? = some q ∧ UnitStep q e.start_pos) ∧
      ∀ pos ∈ edgePositions e,
        min e.start_pos e.end_pos ≤ pos ∧ pos ≤ max e.start_pos e.end_pos := by
  unfold edgePositions
  by_cases h : e.start_pos < e.end_pos
  · rw [if_pos h]
    refine ⟨?_, ?_, ?_, ?_⟩
    · exact linked_reverse _ (fun a b hab => hab.symm) _ (linked_unitStep_range _ _)
    · rw [List.head?_reverse, List.getLast?_range', if_neg (by omega)]
      congr 1; omega
    · refine ⟨e.start_pos + 1, ?_, Or.inl rfl⟩
      rw [List.getLast?_reverse, List.head?_range', if_neg (by omega)]
    · intro pos hp
      simp only [List.mem_reverse, List.mem_range'_1] at hp
      rw [Nat.min_eq_left (by omega), Nat.max_eq_right (by omega)]
      omega
  · rw [if_neg h]
    have h2 : e.end_pos < e.start_pos := by omega
    refine ⟨linked_unitStep_range _ _, ?_, ?_, ?_⟩
    · rw [List.head?_range', if_neg (by omega)]
    · refine ⟨e.start_pos - 1, ?_, Or.inr (by omega)⟩
      rw [List.getLast?_range', if_neg (by omega)]
      congr 1; omega
    · intro pos hp
      simp only [List.mem_range'_1] at hp
      rw [Nat.min_eq_right (by omega), Nat.max_eq_left (by omega)]
      omega

theorem nodup_length_le (l : List Nat) (n : Nat) (hnd : l.Nodup) (hlt : ∀ x ∈ l, x < n) :
    l.length ≤ n := by
  have h := Finset.card_le_card (s := l.toFinset) (t := Finset.range n)
    (by
      intro x hx
      simp only [List.mem_toFinset] at hx
      simp only [Finset.mem_range]
      exact hlt x hx)
  rw [List.toFinset_card_of_nodup hnd, Finset.card_range] at h
  exact h

theorem sourceNode_of_lt (geo : GeoMath) (eng : Engine) (hc : Compiled geo eng) (i : Nat)
    (hi : i < eng.route_nodes_.length) :
    ∃ id node, (routeIds eng.route_nodes_)[i]? = some id ∧ mapFind eng.nodes_ id = some node ∧
      sourceNode eng i = some node := by
  have hlen : i < (routeIds eng.route_nodes_).length := by rw [routeIds_length]; exact hi
  have h1 : (routeIds eng.route_nodes_)[i]? = some (routeIds eng.route_nodes_)[i] :=
    List.getElem?_eq_getElem hlen
  obtain ⟨node, hn⟩ := hc.ids_nodes _ (mem_of_getElem?_eq_some _ _ _ h1)
  exact ⟨_, node, h1, hn, (sourceNode_eq eng i node).2 ⟨_, h1, hn⟩⟩

/-- One hop of the route recovery: the first edge of `p` that leads to `cur` expands to
nodes that start with the source node of `cur`, are linked by adjacency, and end next to
the source node of `p`. -/
theorem hop_expansion (geo : GeoMath) (eng : Engine) (hc : Compiled geo eng) (p cur : Nat)
    (e0 : RouteEdge) (he0 : e0 ∈ edgesOf eng.route_nodes_ p) (hn0 : e0.node = Int.ofNat cur)
    (ndc ndp : Node) (hsc : sourceNode eng cur = some ndc) (hsp : sourceNode eng p = some ndp) :
    ∃ edge way out,
      (edgesOf eng.route_nodes_ p).find? (fun e => e.node == Int.ofNat cur) = some edge ∧
        mapFind eng.ways_ edge.osmid = some way ∧
        expandPositions eng.nodes_ way (edgePositions edge) = .ok out ∧
        Linked (Adjacent eng) out ∧ out.head? = some ndc ∧
        ∃ last, out.getLast? = some last ∧ Adjacent eng last ndp := by
  cases hf : (edgesOf eng.route_nodes_ p).find? (fun e => e.node == Int.ofNat cur) with
  | none =>
    exfalso
    have := List.find?_eq_none.1 hf e0 he0
    simp [hn0] at this
  | some edge =>
    have hmem := List.mem_of_find?_eq_some hf
    have hnode : edge.node = Int.ofNat cur := by
      have := List.find?_some hf
      simpa using this
    rcases hc.edges p edge hmem with hemp | ⟨v, way, hp⟩
    · exfalso
      rw [hemp] at hnode
      simp only [RouteEdge.empty] at hnode
      have : (0 : Int) ≤ Int.ofNat cur := Int.ofNat_nonneg cur
      omega
    · have hv : v = cur := by
        have := hp.node_eq
        rw [hnode] at this
        exact (Int.ofNat_inj.1 this).symm
      subst hv
      obtain ⟨s1, s2, ⟨q, s3, s4⟩, s5⟩ := edgePositions_spec edge hp.pos_ne
      obtain ⟨out, ho, hat⟩ := expandPositions_ok eng.nodes_ way (edgePositions edge)
        (fun pos hpos => hp.resolves pos (s5 pos hpos).1 (s5 pos hpos).2)
      refine ⟨edge, way, out, rfl, hp.way_found, ho, ?_, ?_, ?_⟩
      · exact linked_of_nodesAt eng hc.nodes_keyed edge.osmid way hp.way_found _ _ s1 hat
      · obtain ⟨a, ha1, ha2⟩ := nodesAt_head _ _ _ _ hat _ s2
        rw [ha1]
        obtain ⟨id, hid1, hid2⟩ := hp.end_id
        obtain ⟨id2, hid3, hid4⟩ := (sourceNode_eq eng v ndc).1 hsc
        rw [hid2] at hid3
        injection hid3 with hid3
        subst hid3
        unfold nodeAt at ha2
        rw [hid1] at ha2
        simp only at ha2
        rw [hid4] at ha2
        exact ha2.symm
      · have hne : out ≠ [] := by
          intro h
          subst h
          cases hps : edgePositions edge with
          | nil => rw [hps] at s2; simp at s2
          | cons a b => rw [hps] at hat; simp [NodesAt] at hat
        obtain ⟨last, hlast⟩ : ∃ last, out.getLast? = some last := by
          cases hl : out.getLast? with
          | none => exact absurd (List.getLast?_eq_none_iff.1 hl) hne
          | some x => exact ⟨x, rfl⟩
        refine ⟨last, hlast, ?_⟩
        obtain ⟨q2, hq1, hq2⟩ := nodesAt_getLast _ _ _ _ hat last hlast
        rw [s3] at hq1
        injection hq1 with hq1
        subst hq1
        obtain ⟨id, hid1, hid2⟩ := hp.start_id
        obtain ⟨id2, hid3, hid4⟩ := (sourceNode_eq eng p ndp).1 hsp
        rw [hid2] at hid3
        injection hid3 with hid3
        subst hid3
        exact adjacent_of_unitStep eng hc.nodes_keyed edge.osmid way hp.way_found q
          edge.start_pos last ndp s4 hq2 (nodeAt_eq _ _ _ _ _ hid1 hid4)

end RailRouting

namespace RailRouting

/-! ## The way back along `prevs` -/

theorem recoverRoute_spec (geo : GeoMath) (eng : Engine) (hc : Compiled geo eng)
    (S F : List Nat) (st : SearchState) (hs : SearchInv eng.route_nodes_ S F st)
    (rank : Nat → Nat)
    (hrank : ∀ w p, st.prevs.getD w (-1) = Int.ofNat p → rank p < rank w)
    (fuel cur : Nat) (acc : List Node) (seen : List Nat) (nd : Node) (y : Int)
    (hlen : st.len cur = some y) (hsrc : sourceNode eng cur = some nd)
    (hnd : seen.Nodup)
    (hseen : ∀ x ∈ seen, x < eng.route_nodes_.length ∧ rank cur < rank x)
    (hfuel : eng.route_nodes_.length ≤ fuel + seen.length + 1) :
    ∃ out root ndr,
      recoverRoute eng st.prevs fuel cur (st.prevs.getD cur (-1)) acc = .ok (acc ++ out) ∧
        st.starts.getD cur (-1) = Int.ofNat root ∧ sourceNode eng root = some ndr ∧
        Linked (Adjacent eng) (out ++ [ndr]) ∧ (out ++ [ndr]).head? = some nd := by
  induction fuel generalizing cur acc seen nd y with
  | zero =>
    rcases hs.prevs_ok cur with h | ⟨p, hp, hpn, -, -⟩
    · refine ⟨[], cur, nd, ?_, hs.core.root cur y hlen h, hsrc, by simp [Linked], by simp⟩
      rw [h]
      simp [recoverRoute]
    · exfalso
      have hcur : cur < eng.route_nodes_.length := by
        have := len_lt_of_some st cur y hlen
        rw [hs.core.len_lengths] at this
        exact this
      have hr := hrank cur p hp
      have hnd2 : (p :: cur :: seen).Nodup := by
        rw [List.nodup_cons, List.nodup_cons]
        refine ⟨?_, ?_, hnd⟩
        · intro hm
          rcases List.mem_cons.1 hm with hm | hm
          · rw [hm] at hr; omega
          · have := (hseen p hm).2
            omega
        · intro hm
          have := (hseen cur hm).2
          omega
      have := nodup_length_le _ eng.route_nodes_.length hnd2 (by
        intro x hx
        rcases List.mem_cons.1 hx with hx | hx
        · omega
        · rcases List.mem_cons.1 hx with hx | hx
          · omega
          · exact (hseen x hx).1)
      simp only [List.length_cons] at this
      omega
  | succ fuel ih =>
    have hcur : cur < eng.route_nodes_.length := by
      have := len_lt_of_some st cur y hlen
      rw [hs.core.len_lengths] at this
      exact this
    rcases hs.prevs_ok cur with h | ⟨p, hp, hpn, ⟨e0, he0, hn0⟩, yp, hyp, -⟩
    · refine ⟨[], cur, nd, ?_, hs.core.root cur y hlen h, hsrc, by simp [Linked], by simp⟩
      rw [h]
      simp [recoverRoute]
    · obtain ⟨-, ndp, -, -, hsp⟩ := sourceNode_of_lt geo eng hc p hpn
      obtain ⟨edge, way, out1, h1, h2, h3, h4, h5, last, h6, h7⟩ :=
        hop_expansion geo eng hc p cur e0 he0 hn0 nd ndp hsrc hsp
      have hr := hrank cur p hp
      obtain ⟨out2, root, ndr, i1, i2, i3, i4, i5⟩ := ih p (acc ++ out1) (cur :: seen) ndp yp
        hyp hsp
        (by
          rw [List.nodup_cons]
          refine ⟨?_, hnd⟩
          intro hm
          have := (hseen cur hm).2
          omega)
        (by
          intro x hx
          rcases List.mem_cons.1 hx with hx | hx
          · subst hx; exact ⟨hcur, hr⟩
          · exact ⟨(hseen x hx).1, by have := (hseen x hx).2; omega⟩)
        (by simp only [List.length_cons]; omega)
      refine ⟨out1 ++ out2, root, ndr, ?_, ?_, i3, ?_, ?_⟩
      · rw [hp]
        unfold recoverRoute
        have hne : ¬ (Int.ofNat p = -1) := by
          have : (0 : Int) ≤ Int.ofNat p := Int.ofNat_nonneg p
          omega
        rw [if_neg hne]
        have htn : (Int.ofNat p).toNat = p := rfl
        simp only [htn, h1, h2, h3]
        rw [i1, List.append_assoc]
      · rw [hs.core.origin_prev cur p hp]; exact i2
      · rw [List.append_assoc]
        apply linked_append _ _ _ h4 i4
        intro a b ha hb
        rw [h6] at ha
        injection ha with ha
        rw [i5] at hb
        injection hb with hb
        subst ha hb
        exact h7
      · cases out1 with
        | nil => simp at h5
        | cons a rest => simpa using h5

end RailRouting

namespace RailRouting

/-! ## FindRoute on a compiled engine -/

theorem compiled_edgesInRange (geo : GeoMath) (eng : Engine) (hc : Compiled geo eng) :
    EdgesInRange eng.route_nodes_ := by
  intro r hr e he
  obtain ⟨u, hu⟩ := List.mem_iff_getElem?.1 hr
  have hmem : e ∈ edgesOf eng.route_nodes_ u := by
    unfold edgesOf; rw [hu]; exact he
  rcases hc.edges u e hmem with h | ⟨v, way, hp⟩
  · left; rw [h]; rfl
  · right
    obtain ⟨id, -, hid⟩ := hp.end_id
    have := (List.getElem?_eq_some.1 hid).1
    rw [routeIds_length] at this
    exact ⟨v, this, hp.node_eq⟩

theorem sourceNode_some (eng : Engine) (i : Nat) (node : Node)
    (h : sourceNode eng i = some node) :
    ∃ r, eng.route_nodes_[i]? = some r ∧ mapFind eng.nodes_ r.osmid = some node := by
  unfold sourceNode at h
  cases hr : eng.route_nodes_[i]? with
  | none => rw [hr] at h; simp at h
  | some r => rw [hr] at h; exact ⟨r, rfl, h⟩

theorem compiled_stopsInRange (geo : GeoMath) (eng : Engine) (hc : Compiled geo eng) :
    StopsInRange eng := by
  intro p hp
  obtain ⟨node, h1, -, -⟩ := (hc.stops p.1 p.2).1 hp
  obtain ⟨r, hr, -⟩ := sourceNode_some eng p.2 node h1
  exact (List.getElem?_eq_some.1 hr).1

/-- The outcome of FindRoute on a compiled engine with non-negative edge lengths, for two
names of the stop index and enough fuel: either no end node can be reached and the call
fails with NO_ROUTE_FOUND, or it succeeds with the shortest length and a linked route. -/
theorem FindRoute_compiled (geo : GeoMath) (eng : Engine) (hc : Compiled geo eng)
    (hnn : NonNegLengths eng.route_nodes_) (name_a name_b : String)
    (ha : HasStop eng name_a) (hb : HasStop eng name_b) (fuel : Nat)
    (hfuel : searchFuel eng name_a ≤ fuel) (result : FindRouteResult) :
    (¬ Reachable eng name_a name_b ∧
        FindRoute geo eng fuel name_a name_b result =
          .ok (false,
            { result with
              start_count := (equalRange eng.stops_ name_a).length
              end_count := (equalRange eng.stops_ name_b).length
              status := .NO_ROUTE_FOUND })) ∨
      ∃ d s t ns nt route,
        IsShortestRouteLength eng name_a name_b d ∧
          (name_a, s) ∈ eng.stops_ ∧ (name_b, t) ∈ eng.stops_ ∧
          sourceNode eng s = some ns ∧ sourceNode eng t = some nt ∧
          route.head? = some ns ∧ route.getLast? = some nt ∧
          Linked (Adjacent eng) route ∧
          FindRoute geo eng fuel name_a name_b result =
            .ok (true,
              { status := .OK
                start_count := (equalRange eng.stops_ name_a).length
                end_count := (equalRange eng.stops_ name_b).length
                start_node := some ns, end_node := some nt, distance := some d
                route_nodes := route, sharp_turns := findSharpTurns geo route }) := by
  have hrange := compiled_edgesInRange geo eng hc
  have hstops := compiled_stopsInRange geo eng hc
  have hA : ∀ s, s ∈ equalRange eng.stops_ name_a ↔ (name_a, s) ∈ eng.stops_ :=
    fun s => mem_equalRange _ _ _
  have hB : ∀ t, t ∈ (equalRange eng.stops_ name_b).foldl nodeSetInsert [] ↔
      (name_b, t) ∈ eng.stops_ := by
    intro t
    rw [mem_foldl_nodeSetInsert, mem_equalRange]
    simp
  have hAlt : ∀ s ∈ equalRange eng.stops_ name_a, s < eng.route_nodes_.length :=
    fun s hs => hstops _ ((hA s).1 hs)
  rw [FindRoute_unfold]
  simp only []
  have hAne := startNodes_eq_nil_iff eng name_a
  have hBne := startNodes_eq_nil_iff eng name_b
  cases hsn : (equalRange eng.stops_ name_a).foldl nodeSetInsert [] with
  | nil => exact absurd ha (hAne.1 hsn)
  | cons s0 sr =>
    cases hfn : (equalRange eng.stops_ name_b).foldl nodeSetInsert [] with
    | nil => exact absurd hb (hBne.1 hfn)
    | cons first more =>
      simp only []
      rw [hfn] at hB
      -- the search
      have hinit := initStarts_inv eng.route_nodes_ (equalRange eng.stops_ name_a) [] []
        { queue := [], starts := List.replicate eng.route_nodes_.length (-1),
          prevs := List.replicate eng.route_nodes_.length (-1),
          lengths := List.replicate eng.route_nodes_.length none, shortest_length := none } 0
        hAlt (initInv_empty eng.route_nodes_)
      simp only [List.nil_append] at hinit
      have hs1 := searchInv_of_initInv eng.route_nodes_ (equalRange eng.stops_ name_a)
        (first :: more) _ hinit hAlt
      have hm := searchMeasure_le eng.route_nodes_
        (initStarts (equalRange eng.stops_ name_a) []
          { queue := [], starts := List.replicate eng.route_nodes_.length (-1),
            prevs := List.replicate eng.route_nodes_.length (-1),
            lengths := List.replicate eng.route_nodes_.length none,
            shortest_length := none } 0).2.1
      rw [hinit.count] at hm
      have hfuel2 : eng.route_nodes_.length ≤ fuel := by
        unfold searchFuel at hfuel; omega
      obtain ⟨st, hd, hs2, hq⟩ := dijkstraLoop_spec eng.route_nodes_
        (equalRange eng.stops_ name_a) (first :: more) hnn hrange fuel _ hs1
        (by unfold searchFuel at hfuel; omega)
      rw [hd]
      simp only []
      have hres := search_result eng.route_nodes_ (equalRange eng.stops_ name_a) first more st
        hnn hs2 hq
      rcases hcf : closestFin st.lengths more first (st.lengths.getD first none) with ⟨bf, bl⟩
      rw [hcf] at hres
      cases bl with
      | none =>
        simp only at hres ⊢
        left
        refine ⟨?_, trivial⟩
        rintro ⟨d, s, t, h1, h2, h3⟩
        exact hres s ((hA s).2 h1) t ((hB t).2 h2) d h3
      | some d =>
        simp only at hres ⊢
        right
        obtain ⟨r1, r2, ⟨s, hsA, hwalk⟩, r4⟩ := hres
        have hbf : bf < eng.route_nodes_.length := hstops _ ((hB bf).1 r1)
        obtain ⟨-, nt, -, -, hsrc⟩ := sourceNode_of_lt geo eng hc bf hbf
        obtain ⟨rank, hrank⟩ := hs2.core.rank
        obtain ⟨out, root, ndr, q1, q2, q3, q4, q5⟩ := recoverRoute_spec geo eng hc _ _ st hs2
          rank hrank fuel bf [] [] nt d r2 hsrc List.nodup_nil (by simp)
          (by simp only [List.length_nil]; omega)
        obtain ⟨s2, hs2A, hs2eq⟩ := hs2.core.origin bf d r2
        have hroot : root = s2 := by
          rw [q2] at hs2eq
          exact Int.ofNat_inj.1 hs2eq
        subst hroot
        obtain ⟨rs, hrs1, hrs2⟩ := sourceNode_some eng root ndr q3
        obtain ⟨rt, hrt1, hrt2⟩ := sourceNode_some eng bf nt hsrc
        have htn : (st.starts.getD bf (-1)).toNat = root := by rw [q2]; rfl
        rw [htn, hrs1, hrt1]
        simp only [hrs2, hrt2, q1, List.nil_append]
        refine ⟨d, root, bf, ndr, nt, (out ++ [ndr]).reverse, ?_, (hA root).1 hs2A,
          (hB bf).1 r1, q3, hsrc, ?_, ?_, ?_, rfl⟩
        · refine ⟨⟨s, bf, (hA s).1 hsA, (hB bf).1 r1, hwalk⟩, ?_⟩
          rintro d2 ⟨s3, t3, h1, h2, h3⟩
          exact r4 s3 ((hA s3).2 h1) t3 ((hB t3).2 h2) d2 h3
        · rw [List.head?_reverse]; simp
        · rw [List.getLast?_reverse]; exact q5
        · exact linked_reverse _ (adjacent_symm eng) _ q4

end RailRouting

namespace RailRouting

/-! ## Edge lengths of a compiled graph -/

theorem segmentLength_nonneg (geo : GeoMath) (hgeo : ∀ a b, 0 ≤ geo.Distance a b)
    (nodes_ : List (Int × Node)) (way : Way) (lo k : Nat) :
    0 ≤ segmentLength geo nodes_ way lo k := by
  induction k with
  | zero => simp [segmentLength]
  | succ j ih =>
    unfold segmentLength
    have : 0 ≤ stepLength geo nodes_ way (lo + j) (lo + j + 1) := by
      unfold stepLength
      split
      · exact hgeo _ _
      · exact le_refl _
    omega

theorem compiled_nonNegLengths (geo : GeoMath) (hgeo : ∀ a b, 0 ≤ geo.Distance a b)
    (eng : Engine) (hc : Compiled geo eng) : NonNegLengths eng.route_nodes_ := by
  intro r hr e he
  obtain ⟨u, hu⟩ := List.mem_iff_getElem?.1 hr
  have hmem : e ∈ edgesOf eng.route_nodes_ u := by
    unfold edgesOf; rw [hu]; exact he
  rcases hc.edges u e hmem with h | ⟨v, way, hp⟩
  · rw [h]; simp [RouteEdge.empty]
  · rw [hp.length_eq]
    exact segmentLength_nonneg geo hgeo _ _ _ _

theorem isTag_iff (t : TagContainer) (key value : String) :
    t.IsTag key value = true ↔ t.GetTag key = some value := by
  unfold TagContainer.IsTag TagContainer.GetTag
  cases t.tags_.lookup key with
  | none => simp
  | some v => simp

theorem isStopNode_iff (node : Node) : isStopNode node = true ↔ StopPredicate node := by
  unfold isStopNode StopPredicate
  simp only [Bool.or_eq_true, Bool.and_eq_true, isTag_iff, or_assoc]

theorem mem_stopNames_iff (node : Node) (name : String) :
    name ∈ stopNames node ↔ CarriesName node name := by
  unfold stopNames CarriesName
  simp only [List.mem_append, Option.mem_toList, Option.mem_def, or_assoc]

/-! ## The claims on FindRoute and the stop index -/

/-- C1. On a graph compiled by `Parse` whose edge lengths are non-negative, for two names
of the stop index and a fuel of at least `searchFuel`, FindRoute returns, and when it
returns OK the distance is the minimum, over the start nodes of the first name, the end
nodes of the second and the walks along populated edges between them, of the exact sum of
the edge lengths. -/
theorem FindRoute_distance_shortest (geo : GeoMath) (ways : List Way) (nodes : List Node)
    (eng : Engine) (hparse : Parse geo ways nodes = .ok eng)
    (hnn : NonNegLengths eng.route_nodes_) (name_a name_b : String)
    (ha : HasStop eng name_a) (hb : HasStop eng name_b) (fuel : Nat)
    (hfuel : searchFuel eng name_a ≤ fuel) (result : FindRouteResult) :
    ∃ ok r, FindRoute geo eng fuel name_a name_b result = .ok (ok, r) ∧
      (r.status = .OK ↔ ok = true) ∧
      (r.status = .OK → ∃ d, r.distance = some d ∧ IsShortestRouteLength eng name_a name_b d) := by
  rcases FindRoute_compiled geo eng (parse_compiled geo ways nodes eng hparse) hnn name_a name_b
    ha hb fuel hfuel result with ⟨-, h⟩ | ⟨d, s, t, ns, nt, route, h1, -, -, -, -, -, -, -, h⟩
  · exact ⟨false, _, h, by simp, by simp⟩
  · exact ⟨true, _, h, by simp, fun _ => ⟨d, rfl, h1⟩⟩

/-- C1 (witness). Scenario S1: the query from A to B returns OK with the distance 20000,
which is the shortest route length. -/
theorem FindRoute_distance_shortest_witness :
    ∃ ok r, FindRoute exGeo exEngine 9 "A" "B" exResult5 = .ok (ok, r) ∧
      (r.status = .OK ↔ ok = true) ∧
      (r.status = .OK → ∃ d, r.distance = some d ∧ IsShortestRouteLength exEngine "A" "B" d) :=
  FindRoute_distance_shortest exGeo [exWay] [exNode1, exNode2, exNode3] exEngine (by rfl)
    (by
      intro r hr e he
      simp only [exEngine, List.mem_cons, List.mem_singleton, List.not_mem_nil, or_false] at hr
      rcases hr with rfl | rfl <;>
      · simp only [List.mem_singleton] at he
        subst he
        decide)
    "A" "B" ⟨0, by decide⟩ ⟨1, by decide⟩ 9 (by decide) exResult5

/-- The outcome of a search on lengths that are numbers. On a graph compiled by `Parse`
whose edge lengths are non-negative, for two names of the stop index and a fuel of at
least `searchFuel`, FindRoute returns; it returns false with NO_ROUTE_FOUND if and only if
no end node of the second name can be reached from a start node of the first along
populated edges, and otherwise it returns true with OK. -/
theorem FindRoute_no_route_iff (geo : GeoMath) (ways : List Way) (nodes : List Node)
    (eng : Engine) (hparse : Parse geo ways nodes = .ok eng)
    (hnn : NonNegLengths eng.route_nodes_) (name_a name_b : String)
    (ha : HasStop eng name_a) (hb : HasStop eng name_b) (fuel : Nat)
    (hfuel : searchFuel eng name_a ≤ fuel) (result : FindRouteResult) :
    ∃ ok r, FindRoute geo eng fuel name_a name_b result = .ok (ok, r) ∧
      ((ok = false ∧ r.status = .NO_ROUTE_FOUND) ↔ ¬ Reachable eng name_a name_b) ∧
      (Reachable eng name_a name_b → ok = true ∧ r.status = .OK) := by
  have hc := parse_compiled geo ways nodes eng hparse
  rcases FindRoute_compiled geo eng hc hnn name_a name_b
    ha hb fuel hfuel result with ⟨hn, h⟩ | ⟨d, s, t, ns, nt, route, h1, -, -, -, -, -, -, -, h⟩
  · exact ⟨false, _, h, by simp [hn], fun hr => absurd hr hn⟩
  · have hr : Reachable eng name_a name_b := ⟨d, h1.1⟩
    exact ⟨true, _, h, by simp [hr], fun _ => ⟨rfl, rfl⟩⟩

/-- Scenario S2 on lengths that are numbers: with `oneway=yes` on the way, the query from B
to A on the compiled engine returns; the one edge has the length 20000, B and A are stops
and the fuel suffices. -/
theorem FindRoute_no_route_iff_witness :
    NonNegLengths exEngineOneway.route_nodes_ ∧
      ∃ ok r, FindRoute exGeo exEngineOneway 9 "B" "A" exResult5 = .ok (ok, r) ∧
        ((ok = false ∧ r.status = .NO_ROUTE_FOUND) ↔ ¬ Reachable exEngineOneway "B" "A") ∧
        (Reachable exEngineOneway "B" "A" → ok = true ∧ r.status = .OK) :=
  have hnn : NonNegLengths exEngineOneway.route_nodes_ :=
    compiled_nonNegLengths exGeo (fun _ _ => Int.ofNat_nonneg _) exEngineOneway
      (parse_compiled exGeo [exWayOneway] [exNode1, exNode2, exNode3] exEngineOneway (by rfl))
  ⟨hnn,
    FindRoute_no_route_iff exGeo [exWayOneway] [exNode1, exNode2, exNode3] exEngineOneway
      (by rfl) hnn "B" "A" ⟨1, by decide⟩ ⟨0, by decide⟩ 9 (by decide) exResult5⟩

/-- C4. Whenever FindRoute returns true on a graph compiled by `Parse`, the route is not
empty, its first element is `start_node` and its last element is `end_node`; `start_node`
is the source node of a routing node indexed under the first name and `end_node` the source
node of one indexed under the second. -/
theorem FindRoute_route_endpoints (geo : GeoMath) (ways : List Way) (nodes : List Node)
    (eng : Engine) (hparse : Parse geo ways nodes = .ok eng)
    (hgeo : ∀ a b, 0 ≤ geo.Distance a b) (name_a name_b : String) (fuel : Nat)
    (hfuel : searchFuel eng name_a ≤ fuel) (result r : FindRouteResult)
    (h : FindRoute geo eng fuel name_a name_b result = .ok (true, r)) :
    r.status = .OK ∧ r.route_nodes ≠ [] ∧
      r.route_nodes.head? = r.start_node ∧ r.route_nodes.getLast? = r.end_node ∧
      ∃ s t, (name_a, s) ∈ eng.stops_ ∧ (name_b, t) ∈ eng.stops_ ∧
        r.start_node = sourceNode eng s ∧ r.end_node = sourceNode eng t ∧
        (sourceNode eng s).isSome ∧ (sourceNode eng t).isSome := by
  have hc := parse_compiled geo ways nodes eng hparse
  have hst := station_lookup_status geo eng fuel name_a name_b result
  have ha : HasStop eng name_a := by
    by_contra hna
    by_cases hb : HasStop eng name_b
    · obtain ⟨r2, h2, -⟩ := hst.2.1 hna hb
      rw [h] at h2; simp at h2
    · obtain ⟨r2, h2, -⟩ := hst.1 hna hb
      rw [h] at h2; simp at h2
  have hb : HasStop eng name_b := by
    by_contra hnb
    obtain ⟨r2, h2, -⟩ := hst.2.2.1 ha hnb
    rw [h] at h2; simp at h2
  rcases FindRoute_compiled geo eng hc (compiled_nonNegLengths geo hgeo eng hc) name_a name_b
    ha hb fuel hfuel result with ⟨-, h2⟩ |
    ⟨d, s, t, ns, nt, route, -, h3, h4, h5, h6, h7, h8, -, h2⟩
  · rw [h] at h2; simp at h2
  · rw [h] at h2
    simp only [Except.ok.injEq, Prod.mk.injEq, true_and] at h2
    subst h2
    refine ⟨rfl, ?_, h7, h8, s, t, h3, h4, h5.symm, h6.symm, by rw [h5]; rfl, by rw [h6]; rfl⟩
    intro hnil
    simp only at hnil
    rw [hnil] at h7
    simp at h7

/-- C4 (witness). Scenario S1: the route from A to B starts at node 1 and ends at node 3. -/
theorem FindRoute_route_endpoints_witness :
    exRouteResult.status = .OK ∧ exRouteResult.route_nodes ≠ [] ∧
      exRouteResult.route_nodes.head? = exRouteResult.start_node ∧
      exRouteResult.route_nodes.getLast? = exRouteResult.end_node ∧
      ∃ s t, ("A", s) ∈ exEngine.stops_ ∧ ("B", t) ∈ exEngine.stops_ ∧
        exRouteResult.start_node = sourceNode exEngine s ∧
        exRouteResult.end_node = sourceNode exEngine t ∧
        (sourceNode exEngine s).isSome ∧ (sourceNode exEngine t).isSome :=
  FindRoute_route_endpoints exGeo [exWay] [exNode1, exNode2, exNode3] exEngine (by rfl)
    (fun _ _ => Int.ofNat_nonneg _) "A" "B" 9 (by decide) exResult5 exRouteResult (by rfl)

/-- C5. Whenever FindRoute returns true on a graph compiled by `Parse`, every two
consecutive nodes of the route have ids at adjacent positions of the node list of some way
of the way map. -/
theorem FindRoute_route_legal (geo : GeoMath) (ways : List Way) (nodes : List Node)
    (eng : Engine) (hparse : Parse geo ways nodes = .ok eng)
    (hgeo : ∀ a b, 0 ≤ geo.Distance a b) (name_a name_b : String) (fuel : Nat)
    (hfuel : searchFuel eng name_a ≤ fuel) (result r : FindRouteResult)
    (h : FindRoute geo eng fuel name_a name_b result = .ok (true, r))
    (i : Nat) (a b : Node) (hi : r.route_nodes[i]? = some a)
    (hi1 : r.route_nodes[i + 1]? = some b) : Adjacent eng a b := by
  have hc := parse_compiled geo ways nodes eng hparse
  have hst := station_lookup_status geo eng fuel name_a name_b result
  have ha : HasStop eng name_a := by
    by_contra hna
    by_cases hb : HasStop eng name_b
    · obtain ⟨r2, h2, -⟩ := hst.2.1 hna hb
      rw [h] at h2; simp at h2
    · obtain ⟨r2, h2, -⟩ := hst.1 hna hb
      rw [h] at h2; simp at h2
  have hb : HasStop eng name_b := by
    by_contra hnb
    obtain ⟨r2, h2, -⟩ := hst.2.2.1 ha hnb
    rw [h] at h2; simp at h2
  rcases FindRoute_compiled geo eng hc (compiled_nonNegLengths geo hgeo eng hc) name_a name_b
    ha hb fuel hfuel result with ⟨-, h2⟩ |
    ⟨d, s, t, ns, nt, route, -, -, -, -, -, -, -, h9, h2⟩
  · rw [h] at h2; simp at h2
  · rw [h] at h2
    simp only [Except.ok.injEq, Prod.mk.injEq, true_and] at h2
    subst h2
    exact linked_getElem _ _ h9 i a b hi hi1

/-- C5 (witness). Scenario S1: the first two nodes of the route from A to B, nodes 1 and
2, are adjacent in way 10. -/
theorem FindRoute_route_legal_witness : Adjacent exEngine exNode1 exNode2 :=
  FindRoute_route_legal exGeo [exWay] [exNode1, exNode2, exNode3] exEngine (by rfl)
    (fun _ _ => Int.ofNat_nonneg _) "A" "B" 9 (by decide) exResult5 exRouteResult (by rfl)
    0 exNode1 exNode2 (by rfl) (by rfl)

/-- C9. After a compilation that completes, a pair (name, i) is in the stop index if and
only if the source node of routing node i satisfies the stop predicate and carries the
name as the value of its `name`, `alt_name` or `official_name` tag. -/
theorem stop_index_iff (geo : GeoMath) (ways : List Way) (nodes : List Node) (eng : Engine)
    (hparse : Parse geo ways nodes = .ok eng) (name : String) (i : Nat) :
    (name, i) ∈ eng.stops_ ↔
      ∃ node, sourceNode eng i = some node ∧ StopPredicate node ∧ CarriesName node name := by
  rw [(parse_compiled geo ways nodes eng hparse).stops name i]
  simp only [isStopNode_iff, mem_stopNames_iff]

/-- C9 (witness). Scenario S1: ("A", 0) is in the stop index, and routing node 0 has the
station A as its source node. -/
theorem stop_index_iff_witness :
    ("A", 0) ∈ exEngine.stops_ ↔
      ∃ node, sourceNode exEngine 0 = some node ∧ StopPredicate node ∧ CarriesName node "A" :=
  stop_index_iff exGeo [exWay] [exNode1, exNode2, exNode3] exEngine (by rfl) "A" 0

end RailRouting

namespace RailRouting

/-! ## Edges that the split of the ways leaves in place -/

theorem walkWay_keeps (geo : GeoMath) (nodes_ : List (Int × Node)) (idmap : List (Int × Nat))
    (way_id : Int) (way : Way) (rest : List Int) (node_pos : Nat) (walk : WayWalk)
    (rn rn1 : List RouteNode)
    (h : walkWay geo nodes_ idmap way_id way node_pos rest walk rn = .ok rn1) :
    ∀ u x, x ∈ edgesOf rn u → x.osmid ≠ 0 → x ∈ edgesOf rn1 u := by
  induction rest generalizing node_pos walk rn with
  | nil =>
    unfold walkWay at h
    simp only [Except.ok.injEq] at h
    subst h
    exact fun u x hx _ => hx
  | cons id rest ih =>
    unfold walkWay at h
    cases hn : mapFind nodes_ id with
    | none =>
      rw [hn] at h
      simp only [Except.ok.injEq] at h
      subst h
      exact fun u x hx _ => hx
    | some this_node =>
      rw [hn] at h
      simp only at h
      generalize (if node_pos = 1 then some this_node else walk.second_node) = sec at h
      by_cases h1 : node_pos = way.GetNodesCount - 1 ∧ mapFind idmap id = none
      · rw [if_pos h1] at h; simp at h
      rw [if_neg h1] at h
      by_cases h2 : ¬ (walk.start_node_pos < 65535 ∧ node_pos < 65535)
      · rw [if_pos h2] at h; simp at h
      rw [if_neg h2] at h
      cases hr : mapFind idmap id with
      | some trn =>
        rw [hr] at h
        simp only at h
        cases hc : commitEdges geo way_id way walk this_node sec
            (walk.dist + geo.Distance walk.prev_node this_node) trn node_pos rn with
        | error err => rw [hc] at h; simp at h
        | ok rn2 =>
          rw [hc] at h
          simp only at h
          obtain ⟨-, -, -, c4, -, -, -⟩ := commitEdges_spec _ _ _ _ _ _ _ _ _ _ _ hc
          intro u x hx hne
          exact ih _ _ _ h u x (c4 u x hx hne) hne
      | none =>
        rw [hr] at h
        simp only at h
        exact ih _ _ _ h

theorem splitWay_keeps (geo : GeoMath) (nodes_ : List (Int × Node)) (idmap : List (Int × Nat))
    (entry : Int × Way) (rn rn1 : List RouteNode)
    (h : splitWay geo nodes_ idmap rn entry = .ok rn1) :
    ∀ u x, x ∈ edgesOf rn u → x.osmid ≠ 0 → x ∈ edgesOf rn1 u := by
  unfold splitWay at h
  by_cases hc : entry.2.GetNodesCount < 2
  · rw [if_pos hc] at h
    simp only [Except.ok.injEq] at h
    subst h
    exact fun u x hx _ => hx
  · rw [if_neg hc] at h
    cases hl : entry.2.nodes_ with
    | nil =>
      rw [hl] at h
      simp only [Except.ok.injEq] at h
      subst h
      exact fun u x hx _ => hx
    | cons first rest =>
      rw [hl] at h
      simp only at h
      cases hf : mapFind nodes_ first with
      | none =>
        rw [hf] at h
        simp only [Except.ok.injEq] at h
        subst h
        exact fun u x hx _ => hx
      | some start_node =>
        rw [hf] at h
        simp only at h
        cases hi : mapFind idmap first with
        | none => rw [hi] at h; simp at h
        | some srn =>
          rw [hi] at h
          simp only at h
          exact walkWay_keeps _ _ _ _ _ _ _ _ _ _ h

theorem splitWays_keeps (geo : GeoMath) (nodes_ : List (Int × Node)) (idmap : List (Int × Nat))
    (ways : List (Int × Way)) (rn rn1 : List RouteNode)
    (h : splitWays geo nodes_ idmap ways rn = .ok rn1) :
    ∀ u x, x ∈ edgesOf rn u → x.osmid ≠ 0 → x ∈ edgesOf rn1 u := by
  induction ways generalizing rn with
  | nil =>
    unfold splitWays at h
    simp only [Except.ok.injEq] at h
    subst h
    exact fun u x hx _ => hx
  | cons entry rest ih =>
    unfold splitWays at h
    cases hs : splitWay geo nodes_ idmap rn entry with
    | error err => rw [hs] at h; simp at h
    | ok rn2 =>
      rw [hs] at h
      simp only at h
      intro u x hx hne
      exact ih _ h u x (splitWay_keeps _ _ _ _ _ _ hs u x hx hne) hne

/-! ## Edges that the walk along a way commits -/

theorem walkWay_commits (geo : GeoMath) (nodes_ : List (Int × Node)) (idmap : List (Int × Nat))
    (way_id : Int) (way : Way) (h0 : way_id ≠ 0) (p q u v : Nat) (idp idq : Int) (hpq : p < q)
    (hp : way.nodes_[p]? = some idp) (hu : mapFind idmap idp = some u)
    (hq : way.nodes_[q]? = some idq) (hv : mapFind idmap idq = some v)
    (hmid : ∀ i, p < i → i < q → ∀ id, way.nodes_[i]? = some id → mapFind idmap id = none)
    (rest : List Int) (node_pos : Nat) (walk : WayWalk) (rn rn1 : List RouteNode)
    (hrest : ∀ j, rest[j]? = way.nodes_[node_pos + j]?)
    (hs_lt : walk.start_node_pos < node_pos)
    (hs_id : ∃ id, way.nodes_[walk.start_node_pos]? = some id ∧
      mapFind idmap id = some walk.start_route_node)
    (hs_int : ∀ i, walk.start_node_pos < i → i < node_pos →
      ∀ id, way.nodes_[i]? = some id → mapFind idmap id = none)
    (hq_ge : node_pos ≤ q)
    (hres : ∀ i, node_pos ≤ i → i ≤ q → ∀ id, way.nodes_[i]? = some id →
      ∃ node, mapFind nodes_ id = some node)
    (h : walkWay geo nodes_ idmap way_id way node_pos rest walk rn = .ok rn1) :
    (forwardAllowed way = true → ∃ e ∈ edgesOf rn1 u,
        e.osmid = way_id ∧ e.start_pos = p ∧ e.end_pos = q ∧ e.node = Int.ofNat v) ∧
      (backwardAllowed way = true → ∃ e ∈ edgesOf rn1 v,
        e.osmid = way_id ∧ e.start_pos = q ∧ e.end_pos = p ∧ e.node = Int.ofNat u) := by
  induction rest generalizing node_pos walk rn with
  | nil =>
    exfalso
    have h1 := hrest 0
    simp only [List.getElem?_nil, Nat.add_zero] at h1
    have h2 : way.nodes_.length ≤ node_pos := List.getElem?_eq_none_iff.1 h1.symm
    have h3 : q < way.nodes_.length := (List.getElem?_eq_some.1 hq).1
    omega
  | cons id rest ih =>
    have hpos : way.nodes_[node_pos]? = some id := by
      have := hrest 0
      simpa using this.symm
    have hrest2 : ∀ j, rest[j]? = way.nodes_[node_pos + 1 + j]? := by
      intro j
      have := hrest (j + 1)
      simp only [List.getElem?_cons_succ] at this
      rw [this]
      congr 1
      omega
    obtain ⟨this_node, hn⟩ := hres node_pos (Nat.le_refl _) hq_ge id hpos
    unfold walkWay at h
    rw [hn] at h
    simp only at h
    generalize (if node_pos = 1 then some this_node else walk.second_node) = sec at h
    by_cases h1 : node_pos = way.GetNodesCount - 1 ∧ mapFind idmap id = none
    · rw [if_pos h1] at h; simp at h
    rw [if_neg h1] at h
    by_cases h2 : ¬ (walk.start_node_pos < 65535 ∧ node_pos < 65535)
    · rw [if_pos h2] at h; simp at h
    rw [if_neg h2] at h
    by_cases hqe : node_pos = q
    · have hidq : id = idq := by
        rw [hqe, hq] at hpos
        injection hpos with hpos
        exact hpos.symm
      rw [hidq, hv] at h
      simp only at h
      obtain ⟨ids, hs1, hs2⟩ := hs_id
      have hps : p = walk.start_node_pos := by
        rcases Nat.lt_trichotomy p walk.start_node_pos with hlt | heq | hgt
        · have := hmid walk.start_node_pos hlt (by omega) ids hs1
          rw [hs2] at this
          simp at this
        · exact heq
        · have := hs_int p hgt (by omega) idp hp
          rw [hu] at this
          simp at this
      have hus : u = walk.start_route_node := by
        rw [← hps, hp] at hs1
        injection hs1 with hs1
        rw [← hs1, hu] at hs2
        injection hs2
      cases hc : commitEdges geo way_id way walk this_node sec
          (walk.dist + geo.Distance walk.prev_node this_node) v node_pos rn with
      | error err => rw [hc] at h; simp at h
      | ok rn2 =>
        rw [hc] at h
        simp only at h
        obtain ⟨-, -, -, -, -, c6, c7⟩ := commitEdges_spec _ _ _ _ _ _ _ _ _ _ _ hc
        have hk := walkWay_keeps _ _ _ _ _ _ _ _ _ _ h
        constructor
        · intro hf
          refine ⟨forwardEdge geo way_id walk this_node sec
            (walk.dist + geo.Distance walk.prev_node this_node) v node_pos,
            ?_, rfl, ?_, ?_, rfl⟩
          · rw [hus]; exact hk _ _ (c6 hf h0) h0
          · simp only [forwardEdge]; exact hps.symm
          · simp only [forwardEdge]; exact hqe
        · intro hb
          refine ⟨backwardEdge geo way_id walk this_node
            (walk.dist + geo.Distance walk.prev_node this_node) node_pos,
            hk _ _ (c7 hb) h0, rfl, ?_, ?_, ?_⟩
          · simp only [backwardEdge]; exact hqe
          · simp only [backwardEdge]; exact hps.symm
          · simp only [backwardEdge]; rw [hus]
    · have hlt : node_pos + 1 ≤ q := by omega
      have hres2 : ∀ i, node_pos + 1 ≤ i → i ≤ q → ∀ id, way.nodes_[i]? = some id →
          ∃ node, mapFind nodes_ id = some node :=
        fun i hi1 hi2 => hres i (by omega) hi2
      cases hr : mapFind idmap id with
      | some trn =>
        rw [hr] at h
        simp only at h
        cases hc : commitEdges geo way_id way walk this_node sec
            (walk.dist + geo.Distance walk.prev_node this_node) trn node_pos rn with
        | error err => rw [hc] at h; simp at h
        | ok rn2 =>
          rw [hc] at h
          simp only at h
          exact ih (node_pos + 1) _ rn2 hrest2 (by simp) ⟨id, hpos, hr⟩
            (by intro i hi1 hi2; simp only at hi1; omega) hlt hres2 h
      | none =>
        rw [hr] at h
        simp only at h
        refine ih (node_pos + 1) _ rn hrest2 ?_ ?_ ?_ hlt hres2 h
        · simp only; omega
        · exact hs_id
        intro i hi1 hi2 id2 hid2
        simp only at hi1
        by_cases hin : i = node_pos
        · subst hin
          rw [hpos] at hid2
          injection hid2 with hid2
          rw [← hid2]
          exact hr
        · exact hs_int i hi1 (by omega) id2 hid2

theorem splitWay_commits (geo : GeoMath) (nodes_ : List (Int × Node)) (idmap : List (Int × Nat))
    (entry : Int × Way) (h0 : entry.1 ≠ 0) (p q u v : Nat) (idp idq : Int) (hpq : p < q)
    (hp : entry.2.nodes_[p]? = some idp) (hu : mapFind idmap idp = some u)
    (hq : entry.2.nodes_[q]? = some idq) (hv : mapFind idmap idq = some v)
    (hmid : ∀ i, p < i → i < q → ∀ id, entry.2.nodes_[i]? = some id → mapFind idmap id = none)
    (hres : ∀ i, i ≤ q → ∀ id, entry.2.nodes_[i]? = some id →
      ∃ node, mapFind nodes_ id = some node)
    (rn rn1 : List RouteNode) (h : splitWay geo nodes_ idmap rn entry = .ok rn1) :
    (forwardAllowed entry.2 = true → ∃ e ∈ edgesOf rn1 u,
        e.osmid = entry.1 ∧ e.start_pos = p ∧ e.end_pos = q ∧ e.node = Int.ofNat v) ∧
      (backwardAllowed entry.2 = true → ∃ e ∈ edgesOf rn1 v,
        e.osmid = entry.1 ∧ e.start_pos = q ∧ e.end_pos = p ∧ e.node = Int.ofNat u) := by
  have hlen : q < entry.2.nodes_.length := (List.getElem?_eq_some.1 hq).1
  unfold splitWay at h
  have hc : ¬ entry.2.GetNodesCount < 2 := by
    unfold Way.GetNodesCount
    omega
  rw [if_neg hc] at h
  cases hl : entry.2.nodes_ with
  | nil => rw [hl] at hlen; simp at hlen
  | cons first rest =>
    rw [hl] at h
    simp only at h
    have hfirst : entry.2.nodes_[0]? = some first := by rw [hl]; simp
    obtain ⟨start_node, hf⟩ := hres 0 (Nat.zero_le _) first hfirst
    rw [hf] at h
    simp only at h
    cases hi : mapFind idmap first with
    | none => rw [hi] at h; simp at h
    | some srn =>
      rw [hi] at h
      simp only at h
      refine walkWay_commits geo nodes_ idmap entry.1 entry.2 h0 p q u v idp idq hpq hp hu hq hv
        hmid rest 1 _ rn rn1 ?_ ?_ ?_ ?_ (by omega) ?_ h
      · intro j
        rw [hl, Nat.add_comm]
        simp
      · simp
      · exact ⟨first, hfirst, hi⟩
      · intro i hi1 hi2
        simp only at hi1
        omega
      · intro i _ hi2
        exact hres i hi2

theorem splitWays_commits (geo : GeoMath) (nodes_ : List (Int × Node))
    (idmap : List (Int × Nat)) (ways : List (Int × Way)) (entry : Int × Way)
    (hentry : entry ∈ ways) (h0 : entry.1 ≠ 0) (p q u v : Nat) (idp idq : Int) (hpq : p < q)
    (hp : entry.2.nodes_[p]? = some idp) (hu : mapFind idmap idp = some u)
    (hq : entry.2.nodes_[q]? = some idq) (hv : mapFind idmap idq = some v)
    (hmid : ∀ i, p < i → i < q → ∀ id, entry.2.nodes_[i]? = some id → mapFind idmap id = none)
    (hres : ∀ i, i ≤ q → ∀ id, entry.2.nodes_[i]? = some id →
      ∃ node, mapFind nodes_ id = some node)
    (rn rn1 : List RouteNode) (h : splitWays geo nodes_ idmap ways rn = .ok rn1) :
    (forwardAllowed entry.2 = true → ∃ e ∈ edgesOf rn1 u,
        e.osmid = entry.1 ∧ e.start_pos = p ∧ e.end_pos = q ∧ e.node = Int.ofNat v) ∧
      (backwardAllowed entry.2 = true → ∃ e ∈ edgesOf rn1 v,
        e.osmid = entry.1 ∧ e.start_pos = q ∧ e.end_pos = p ∧ e.node = Int.ofNat u) := by
  induction ways generalizing rn with
  | nil => simp at hentry
  | cons first rest ih =>
    unfold splitWays at h
    cases hs : splitWay geo nodes_ idmap rn first with
    | error err => rw [hs] at h; simp at h
    | ok rn2 =>
      rw [hs] at h
      simp only at h
      rcases List.mem_cons.1 hentry with he | he
      · subst he
        obtain ⟨c1, c2⟩ := splitWay_commits geo nodes_ idmap entry h0 p q u v idp idq hpq hp hu
          hq hv hmid hres rn rn2 hs
        have hk := splitWays_keeps _ _ _ _ _ _ h
        constructor
        · intro hf
          obtain ⟨e, he1, he2, he3⟩ := c1 hf
          exact ⟨e, hk _ _ he1 (by rw [he2]; exact h0), he2, he3⟩
        · intro hb
          obtain ⟨e, he1, he2, he3⟩ := c2 hb
          exact ⟨e, hk _ _ he1 (by rw [he2]; exact h0), he2, he3⟩
      · exact ih he rn2 h

end RailRouting

namespace RailRouting

/-! ## The edges of a segment between two consecutive routing nodes -/

theorem forwardAllowed_iff (way : Way) :
    forwardAllowed way = true ↔
      (way.tags.GetTag "oneway" ≠ some "-1" ∧
        way.tags.GetTag "designated_direction" ≠ some "backward") := by
  unfold forwardAllowed
  simp only [Bool.and_eq_true, Bool.not_eq_true_eq_eq_false, ← Bool.not_eq_true]
  rw [isTag_iff, isTag_iff]

theorem backwardAllowed_iff (way : Way) :
    backwardAllowed way = true ↔
      (way.tags.GetTag "oneway" ≠ some "yes" ∧
        way.tags.GetTag "designated_direction" ≠ some "forward") := by
  unfold backwardAllowed
  simp only [Bool.and_eq_true, Bool.not_eq_true_eq_eq_false, ← Bool.not_eq_true]
  rw [isTag_iff, isTag_iff]

theorem parse_segment_edges (geo : GeoMath) (ways : List Way) (nodes : List Node)
    (eng : Engine) (hparse : Parse geo ways nodes = .ok eng) (wid : Int) (way : Way)
    (hway : mapFind eng.ways_ wid = some way) (h0 : wid ≠ 0)
    (p q u v : Nat) (idp idq : Int) (hpq : p < q)
    (hp : way.nodes_[p]? = some idp) (hu : (routeIds eng.route_nodes_)[u]? = some idp)
    (hq : way.nodes_[q]? = some idq) (hv : (routeIds eng.route_nodes_)[v]? = some idq)
    (hmid : ∀ i, p < i → i < q → ∀ id, way.nodes_[i]? = some id →
      id ∉ routeIds eng.route_nodes_)
    (hres : ∀ i, i ≤ q → ∀ id, way.nodes_[i]? = some id →
      ∃ node, mapFind eng.nodes_ id = some node) :
    (forwardAllowed way = true → ∃ e ∈ edgesOf eng.route_nodes_ u,
        e.osmid = wid ∧ e.start_pos = p ∧ e.end_pos = q ∧ e.node = Int.ofNat v) ∧
      (backwardAllowed way = true → ∃ e ∈ edgesOf eng.route_nodes_ v,
        e.osmid = wid ∧ e.start_pos = q ∧ e.end_pos = p ∧ e.node = Int.ofNat u) := by
  obtain ⟨-, -, -, created, -, hsw, hidm, -⟩ := parse_compiled_idmap geo ways nodes eng hparse
  have hent : (wid, way) ∈ eng.ways_ := mem_of_mapFind_eq_some _ _ _ hway
  refine splitWays_commits geo eng.nodes_ created.id_to_routenode eng.ways_ (wid, way) hent h0
    p q u v idp idq hpq hp ((hidm idp u).2 hu) hq ((hidm idq v).2 hv) ?_ hres
    created.route_nodes eng.route_nodes_ hsw
  intro i hi1 hi2 id hid
  cases hm : mapFind created.id_to_routenode id with
  | none => rfl
  | some k =>
    exact absurd (mem_of_getElem?_eq_some _ _ _ ((hidm id k).1 hm)) (hmid i hi1 hi2 id hid)

theorem edge_direction_allowed (geo : GeoMath) (eng : Engine) (hc : Compiled geo eng)
    (wid : Int) (way : Way) (hway : mapFind eng.ways_ wid = some way) (u : Nat)
    (e : RouteEdge) (he : e ∈ edgesOf eng.route_nodes_ u) (hid : e.osmid = wid) :
    (e.start_pos < e.end_pos → forwardAllowed way = true) ∧
      (e.end_pos < e.start_pos → backwardAllowed way = true) := by
  rcases hc.edges u e he with hemp | ⟨v, way2, hprov⟩
  · subst hemp
    constructor <;> intro h <;> simp [RouteEdge.empty] at h
  · have h1 := hprov.way_found
    rw [hid, hway] at h1
    injection h1 with h1
    subst h1
    exact ⟨hprov.forward, hprov.backward⟩

end RailRouting

namespace RailRouting

/-! ## The claim on the direction of the committed edges -/

/-- C7 (counterexample). Two compilations that complete and leave a segment between two
consecutive routing nodes without an edge that the tags allow. In the first, node 2 of the
way 10 = [1, 2, 3, 4] is not in the input: the walk stops there, and the segment between
the routing nodes 3 and 4 (positions 2 and 3) gets no forward edge although the way has no
direction tag. In the second the way has the id 0: the backward edge of the segment
between the nodes 1 and 2 (positions 0 and 1) is overwritten in routing node 1. -/
theorem Prepare_segment_without_edge :
    (Parse exGeo [exWayGap] [exNode1, exNode3, exNode4] = .ok exEngineGap ∧
      mapFind exEngineGap.ways_ 10 = some exWayGap ∧
      exWayGap.nodes_[2]? = some 3 ∧ (routeIds exEngineGap.route_nodes_)[1]? = some 3 ∧
      exWayGap.nodes_[3]? = some 4 ∧ (routeIds exEngineGap.route_nodes_)[2]? = some 4 ∧
      exWayGap.tags.GetTag "oneway" = none ∧
      exWayGap.tags.GetTag "designated_direction" = none ∧
      ¬ ∃ e ∈ edgesOf exEngineGap.route_nodes_ 1,
        e.osmid = 10 ∧ e.start_pos = 2 ∧ e.end_pos = 3) ∧
    (Parse exGeo [exWayZero] [exNode1, exNode2Stop, exNode3] = .ok exEngineZero ∧
      mapFind exEngineZero.ways_ 0 = some exWayZero ∧
      exWayZero.nodes_[0]? = some 1 ∧ (routeIds exEngineZero.route_nodes_)[0]? = some 1 ∧
      exWayZero.nodes_[1]? = some 2 ∧ (routeIds exEngineZero.route_nodes_)[1]? = some 2 ∧
      exWayZero.tags.GetTag "oneway" = none ∧
      exWayZero.tags.GetTag "designated_direction" = none ∧
      ¬ ∃ e ∈ edgesOf exEngineZero.route_nodes_ 1,
        e.osmid = 0 ∧ e.start_pos = 1 ∧ e.end_pos = 0) := by
  refine ⟨⟨by rfl, by rfl, by rfl, by rfl, by rfl, by rfl, by rfl, by rfl, by decide⟩,
    ⟨by rfl, by rfl, by rfl, by rfl, by rfl, by rfl, by rfl, by rfl, by decide⟩⟩

/-- C7 (amended). After a compilation that completes, take a way of the way map. For every
two positions p < q of it that hold consecutive routing nodes (the nodes at p and at q are
the routing nodes u and v, and no node strictly between the two positions is a routing
node), provided the id of the way is not 0 and every node reference of the way up to
position q resolves in the node map: routing node u holds an edge of this way with
start_pos p and end_pos q if and only if the way has neither `oneway=-1` nor
`designated_direction=backward`, and routing node v holds an edge of this way with
start_pos q and end_pos p if and only if the way has neither `oneway=yes` nor
`designated_direction=forward`. And no edge of a `oneway=yes` way has start_pos greater
than end_pos. -/
theorem Prepare_directed_edges (geo : GeoMath) (ways : List Way) (nodes : List Node)
    (eng : Engine) (hparse : Parse geo ways nodes = .ok eng) (wid : Int) (way : Way)
    (hway : mapFind eng.ways_ wid = some way) :
    (∀ p q u v idp idq, p < q →
      way.nodes_[p]? = some idp → (routeIds eng.route_nodes_)[u]? = some idp →
      way.nodes_[q]? = some idq → (routeIds eng.route_nodes_)[v]? = some idq →
      (∀ i, p < i → i < q → ∀ id, way.nodes_[i]? = some id →
        id ∉ routeIds eng.route_nodes_) →
      wid ≠ 0 →
      (∀ i, i ≤ q → ∀ id, way.nodes_[i]? = some id →
        ∃ node, mapFind eng.nodes_ id = some node) →
      ((∃ e ∈ edgesOf eng.route_nodes_ u, e.osmid = wid ∧ e.start_pos = p ∧ e.end_pos = q) ↔
          (way.tags.GetTag "oneway" ≠ some "-1" ∧
            way.tags.GetTag "designated_direction" ≠ some "backward")) ∧
        ((∃ e ∈ edgesOf eng.route_nodes_ v,
            e.osmid = wid ∧ e.start_pos = q ∧ e.end_pos = p) ↔
          (way.tags.GetTag "oneway" ≠ some "yes" ∧
            way.tags.GetTag "designated_direction" ≠ some "forward"))) ∧
      (way.tags.GetTag "oneway" = some "yes" →
        ∀ u e, e ∈ edgesOf eng.route_nodes_ u → e.osmid = wid → ¬ e.end_pos < e.start_pos) := by
  have hc := parse_compiled geo ways nodes eng hparse
  constructor
  · intro p q u v idp idq hpq hp hu hq hv hmid h0 hres
    obtain ⟨c1, c2⟩ := parse_segment_edges geo ways nodes eng hparse wid way hway h0 p q u v
      idp idq hpq hp hu hq hv hmid hres
    rw [← forwardAllowed_iff, ← backwardAllowed_iff]
    constructor
    · constructor
      · rintro ⟨e, he, h1, h2, h3⟩
        exact (edge_direction_allowed geo eng hc wid way hway u e he h1).1 (by omega)
      · intro hf
        obtain ⟨e, he, h1, h2, h3, -⟩ := c1 hf
        exact ⟨e, he, h1, h2, h3⟩
    · constructor
      · rintro ⟨e, he, h1, h2, h3⟩
        exact (edge_direction_allowed geo eng hc wid way hway v e he h1).2 (by omega)
      · intro hb
        obtain ⟨e, he, h1, h2, h3, -⟩ := c2 hb
        exact ⟨e, he, h1, h2, h3⟩
  · intro hy u e he hid hlt
    have hb := (edge_direction_allowed geo eng hc wid way hway u e he hid).2 hlt
    rw [backwardAllowed_iff] at hb
    exact hb.1 hy

/-- C7 (witness). Scenario S1: the way 10 = [1, 2, 3] has its routing nodes at the
positions 0 and 2 and no direction tag; routing node 0 holds the edge from position 0 to
position 2 and routing node 1 the edge from position 2 to position 0. -/
theorem Prepare_directed_edges_witness :
    ((∃ e ∈ edgesOf exEngine.route_nodes_ 0, e.osmid = 10 ∧ e.start_pos = 0 ∧ e.end_pos = 2) ↔
        (exWay.tags.GetTag "oneway" ≠ some "-1" ∧
          exWay.tags.GetTag "designated_direction" ≠ some "backward")) ∧
      ((∃ e ∈ edgesOf exEngine.route_nodes_ 1,
          e.osmid = 10 ∧ e.start_pos = 2 ∧ e.end_pos = 0) ↔
        (exWay.tags.GetTag "oneway" ≠ some "yes" ∧
          exWay.tags.GetTag "designated_direction" ≠ some "forward")) :=
  (Prepare_directed_edges exGeo [exWay] [exNode1, exNode2, exNode3] exEngine (by rfl) 10 exWay
    (by rfl)).1 0 2 0 1 1 3 (by decide) (by rfl) (by rfl) (by rfl) (by rfl)
    (by
      intro i h1 h2 id hid
      have hi : i = 1 := by omega
      subst hi
      have h2 : id = 2 := by
        have h3 : exWay.nodes_[1]? = some 2 := by rfl
        rw [h3] at hid
        injection hid with hid
        exact hid.symm
      subst h2
      decide)
    (by decide)
    (by
      intro i hi id hid
      have h3 : id ∈ exWay.nodes_ := mem_of_getElem?_eq_some _ _ _ hid
      have h4 : id = 1 ∨ id = 2 ∨ id = 3 := by simpa [exWay] using h3
      rcases h4 with h | h | h <;> subst h
      · exact ⟨exNode1, by rfl⟩
      · exact ⟨exNode2, by rfl⟩
      · exact ⟨exNode3, by rfl⟩)

end RailRouting

namespace RailRouting

/-! ## The count of the ways through a node -/

theorem mapFind_connModify (conn : List (Int × ConnectivityInfo)) (id : Int)
    (f : ConnectivityInfo → ConnectivityInfo) (id2 : Int) :
    mapFind (connModify conn id f) id2 =
      if id = id2 then some (f ((mapFind conn id).getD ConnectivityInfo.empty))
      else mapFind conn id2 := by
  induction conn with
  | nil =>
    simp only [connModify, mapFind, Option.getD_none]
  | cons a rest ih =>
    obtain ⟨k, c⟩ := a
    by_cases hk : k = id
    · subst hk
      simp only [connModify, mapFind, if_true, Option.getD_some]
      by_cases h2 : k = id2
      · simp only [if_pos h2]
      · simp only [if_neg h2]
    · simp only [connModify, mapFind, if_neg hk, ih]
      by_cases h2 : k = id2
      · have h3 : ¬ id = id2 := fun h => hk (h2.trans h.symm)
        simp only [if_pos h2, if_neg h3]
      · simp only [if_neg h2]

theorem nwaysOf_connModify (conn : List (Int × ConnectivityInfo)) (id : Int) (k : Nat)
    (id2 : Int) :
    nwaysOf (connModify conn id
        (fun c => { c with nedges := c.nedges + k, nways := c.nways + 1 })) id2 =
      if id = id2 then nwaysOf conn id + 1 else nwaysOf conn id2 := by
  unfold nwaysOf
  rw [mapFind_connModify]
  by_cases h : id = id2
  · rw [if_pos h, if_pos h]
    cases mapFind conn id with
    | none => rfl
    | some c => rfl
  · rw [if_neg h, if_neg h]

theorem countWayNodes_nways (count : Nat) (ids : List Int) (i : Nat)
    (conn : List (Int × ConnectivityInfo)) (id : Int) :
    nwaysOf conn id ≤ nwaysOf (countWayNodes count i ids conn) id ∧
      ((∃ j : Nat, ids[j]? = some id) →
        nwaysOf conn id + 1 ≤ nwaysOf (countWayNodes count i ids conn) id) ∧
      ((∃ j1 j2 : Nat, j1 < j2 ∧ ids[j1]? = some id ∧ ids[j2]? = some id) →
        nwaysOf conn id + 2 ≤ nwaysOf (countWayNodes count i ids conn) id) := by
  induction ids generalizing i conn with
  | nil =>
    unfold countWayNodes
    refine ⟨Nat.le_refl _, ?_, ?_⟩
    · rintro ⟨j, hj⟩; simp at hj
    · rintro ⟨j1, j2, -, hj, -⟩; simp at hj
  | cons hd tl ih =>
    unfold countWayNodes
    obtain ⟨m1, m2, m3⟩ := ih (i + 1)
      (connModify conn hd (fun c =>
        { c with
          nedges := c.nedges + (if i = 0 ∨ i = count - 1 then 1 else 2)
          nways := c.nways + 1 }))
    rw [nwaysOf_connModify] at m1 m2 m3
    have hstep : nwaysOf conn id ≤ (if hd = id then nwaysOf conn hd + 1 else nwaysOf conn id) := by
      by_cases h : hd = id
      · rw [if_pos h, h]; omega
      · rw [if_neg h]
    refine ⟨Nat.le_trans hstep m1, ?_, ?_⟩
    · rintro ⟨j, hj⟩
      cases j with
      | zero =>
        simp only [List.getElem?_cons_zero, Option.some.injEq] at hj
        subst hj
        rw [if_pos rfl] at m1
        exact m1
      | succ j =>
        simp only [List.getElem?_cons_succ] at hj
        have := m2 ⟨j, hj⟩
        omega
    · rintro ⟨j1, j2, hlt, hj1, hj2⟩
      cases j2 with
      | zero => omega
      | succ j2 =>
        simp only [List.getElem?_cons_succ] at hj2
        cases j1 with
        | zero =>
          simp only [List.getElem?_cons_zero, Option.some.injEq] at hj1
          subst hj1
          have := m2 ⟨j2, hj2⟩
          rw [if_pos rfl] at this
          omega
        | succ j1 =>
          simp only [List.getElem?_cons_succ] at hj1
          have := m3 ⟨j1, j2, by omega, hj1, hj2⟩
          omega

theorem countWays_nways (ways : List (Int × Way)) (conn : List (Int × ConnectivityInfo))
    (id : Int) :
    nwaysOf conn id ≤ nwaysOf (ways.foldl countWayStep conn) id ∧
      (∀ (k : Nat) (entry : Int × Way) (pos : Nat), ways[k]? = some entry → 2 ≤ entry.2.nodes_.length →
        entry.2.nodes_[pos]? = some id →
        nwaysOf conn id + 1 ≤ nwaysOf (ways.foldl countWayStep conn) id) ∧
      (∀ (k1 : Nat) (e1 : Int × Way) (p1 k2 : Nat) (e2 : Int × Way) (p2 : Nat),
        ways[k1]? = some e1 → 2 ≤ e1.2.nodes_.length →
        e1.2.nodes_[p1]? = some id → ways[k2]? = some e2 → 2 ≤ e2.2.nodes_.length →
        e2.2.nodes_[p2]? = some id → (k1 < k2 ∨ (k1 = k2 ∧ p1 < p2)) →
        nwaysOf conn id + 2 ≤ nwaysOf (ways.foldl countWayStep conn) id) := by
  induction ways generalizing conn with
  | nil =>
    refine ⟨Nat.le_refl _, ?_, ?_⟩
    · intro k entry pos hk; simp at hk
    · intro k1 e1 p1 k2 e2 p2 hk; simp at hk
  | cons hd tl ih =>
    rw [List.foldl_cons]
    obtain ⟨m1, m2, m3⟩ := ih (countWayStep conn hd)
    have hstep : nwaysOf conn id ≤ nwaysOf (countWayStep conn hd) id ∧
        (2 ≤ hd.2.nodes_.length → (∃ j : Nat, hd.2.nodes_[j]? = some id) →
          nwaysOf conn id + 1 ≤ nwaysOf (countWayStep conn hd) id) ∧
        (2 ≤ hd.2.nodes_.length →
          (∃ j1 j2 : Nat, j1 < j2 ∧ hd.2.nodes_[j1]? = some id ∧ hd.2.nodes_[j2]? = some id) →
          nwaysOf conn id + 2 ≤ nwaysOf (countWayStep conn hd) id) := by
      unfold countWayStep
      by_cases hc : hd.2.GetNodesCount ≤ 1
      · rw [if_pos hc]
        unfold Way.GetNodesCount at hc
        exact ⟨Nat.le_refl _, fun h => by omega, fun h => by omega⟩
      · rw [if_neg hc]
        obtain ⟨c1, c2, c3⟩ := countWayNodes_nways hd.2.GetNodesCount hd.2.nodes_ 0 conn id
        exact ⟨c1, fun _ => c2, fun _ => c3⟩
    obtain ⟨s1, s2, s3⟩ := hstep
    refine ⟨Nat.le_trans s1 m1, ?_, ?_⟩
    · intro k entry pos hk hl hp
      cases k with
      | zero =>
        simp only [List.getElem?_cons_zero, Option.some.injEq] at hk
        subst hk
        have := s2 hl ⟨pos, hp⟩
        omega
      | succ k =>
        simp only [List.getElem?_cons_succ] at hk
        have := m2 k entry pos hk hl hp
        omega
    · intro k1 e1 p1 k2 e2 p2 hk1 hl1 hp1 hk2 hl2 hp2 hord
      cases k1 with
      | zero =>
        simp only [List.getElem?_cons_zero, Option.some.injEq] at hk1
        subst hk1
        cases k2 with
        | zero =>
          simp only [List.getElem?_cons_zero, Option.some.injEq] at hk2
          subst hk2
          have hlt : p1 < p2 := by omega
          have := s3 hl1 ⟨p1, p2, hlt, hp1, hp2⟩
          omega
        | succ k2 =>
          simp only [List.getElem?_cons_succ] at hk2
          have h1 := s2 hl1 ⟨p1, hp1⟩
          have h2 := m2 k2 e2 p2 hk2 hl2 hp2
          omega
      | succ k1 =>
        simp only [List.getElem?_cons_succ] at hk1
        cases k2 with
        | zero => omega
        | succ k2 =>
          simp only [List.getElem?_cons_succ] at hk2
          have := m3 k1 e1 p1 k2 e2 p2 hk1 hl1 hp1 hk2 hl2 hp2 (by omega)
          omega

end RailRouting

namespace RailRouting

/-! ## Stops and plain nodes of the compiled graph -/

theorem postprocessStops_defined (idmap : List (Int × Nat)) (temp : List (String × Int))
    (stops0 stops : List (String × Nat))
    (h : postprocessStops idmap temp stops0 = .ok stops) :
    ∀ p ∈ temp, ∃ i, mapFind idmap p.2 = some i := by
  induction temp generalizing stops0 with
  | nil => intro p hp; simp at hp
  | cons a rest ih =>
    obtain ⟨name, id⟩ := a
    unfold postprocessStops at h
    cases hm : mapFind idmap id with
    | none => rw [hm] at h; simp at h
    | some routeidx =>
      rw [hm] at h
      simp only at h
      intro p hp
      rcases List.mem_cons.1 hp with hp | hp
      · subst hp
        exact ⟨routeidx, hm⟩
      · exact ih _ h p hp

/-- The passes of a compilation that completes, with the connectivity map and the map from
node ids to routing nodes that Prepare builds and drops. -/
theorem parse_passes (geo : GeoMath) (ways : List Way) (nodes : List Node)
    (eng : Engine) (h : Parse geo ways nodes = .ok eng) :
    ∃ created,
      createRouteNodes
        (eng.ways_.foldl countWayStep (eng.nodes_.foldl findStopsStep ([], [])).2)
        eng.nodes_
        { route_nodes := [], id_to_routenode := [],
          route_edge_pool := Engine.init.route_edge_pool_ } = .ok created ∧
      postprocessStops created.id_to_routenode
        (eng.nodes_.foldl findStopsStep ([], [])).1 [] = .ok eng.stops_ ∧
      IdMapOK created.id_to_routenode (routeIds eng.route_nodes_) ∧
      routeIds created.route_nodes = routeIds eng.route_nodes_ ∧
      ∀ p ∈ eng.nodes_, ∃ c,
        mapFind (eng.ways_.foldl countWayStep (eng.nodes_.foldl findStopsStep ([], [])).2) p.1
          = some c ∧
        (p.1 ∈ routeIds eng.route_nodes_ ↔ (c.nways > 1 ∨ c.nedges ≠ 2 ∨ c.isstop = true)) := by
  obtain ⟨hc, -, -, created, hcr, -, hidm, hids⟩ := parse_compiled_idmap geo ways nodes eng h
  refine ⟨created, hcr, ?_, hidm, hids, ?_⟩
  · unfold Parse at h
    obtain ⟨-, -, -, -, -, l6, l7⟩ := loaded_engine ways nodes
    obtain ⟨-, -, -, r4⟩ := waysPass_rest ways Engine.init
    obtain ⟨-, -, -, -, -, n6⟩ := nodesPass_invariant nodes (ways.foldl ProcessWay Engine.init)
      (by rw [(waysPass_rest ways Engine.init).1]; simp [SortedKeys, Engine.init])
      (by rw [(waysPass_rest ways Engine.init).1]; intro p hp; simp [Engine.init] at hp)
    generalize nodes.foldl ProcessNode (ways.foldl ProcessWay Engine.init) = E at *
    obtain ⟨created2, rn, stops, hc2, hs2, hp2, heq⟩ := Prepare_ok geo E eng h
    subst heq
    simp only at hcr ⊢
    rw [l7] at hc2
    rw [n6, r4] at hc2
    rw [l6] at hp2
    rw [hcr] at hc2
    injection hc2 with hc2
    subst hc2
    exact hp2
  · have hinit : CreateInv
        (eng.ways_.foldl countWayStep (eng.nodes_.foldl findStopsStep ([], [])).2)
        { route_nodes := [], id_to_routenode := [],
          route_edge_pool := Engine.init.route_edge_pool_ } := by
      constructor
      · intro id i; simp [mapFind, routeIds]
      · intro u e he; simp [edgesOf] at he
      · intro r hr; simp at hr
    have hdist : eng.nodes_.Pairwise (fun a b => a.1 ≠ b.1) :=
      List.Pairwise.imp (fun hab => by omega) hc.nodes_sorted
    obtain ⟨-, -, -, c4⟩ := createRouteNodes_spec _ _ _ _ hinit hdist
      (by intro p _; simp [routeIds]) hcr
    intro p hp
    obtain ⟨c, h1, h2⟩ := c4 p hp
    rw [hids] at h2
    exact ⟨c, h1, h2⟩

theorem stop_indexed (geo : GeoMath) (ways : List Way) (nodes : List Node)
    (eng : Engine) (h : Parse geo ways nodes = .ok eng) (name : String) (a : Int)
    (hs : IsStopOf eng.nodes_ name a) :
    ∃ s, (name, s) ∈ eng.stops_ ∧ (routeIds eng.route_nodes_)[s]? = some a := by
  have hc := parse_compiled geo ways nodes eng h
  obtain ⟨created, -, hpost, hidm, -, -⟩ := parse_passes geo ways nodes eng h
  obtain ⟨node, h1, h2, h3⟩ := hs
  have hmem := mem_of_mapFind_eq_some _ _ _ h1
  have hkey : node.id_ = a := hc.nodes_keyed (a, node) hmem
  have htemp : (name, a) ∈ (eng.nodes_.foldl findStopsStep ([], [])).1 := by
    rw [findStops_fst]
    right
    exact ⟨(a, node), hmem, h2, hkey.symm, h3⟩
  obtain ⟨i, hi⟩ := postprocessStops_defined _ _ _ _ hpost _ htemp
  refine ⟨i, ?_, (hidm a i).1 hi⟩
  rw [postprocessStops_spec _ _ _ _ hpost name i]
  right
  exact ⟨a, htemp, hi⟩

theorem stop_of_index (geo : GeoMath) (eng : Engine) (hc : Compiled geo eng) (name : String)
    (s : Nat) (hs : (name, s) ∈ eng.stops_) :
    ∃ a, (routeIds eng.route_nodes_)[s]? = some a ∧ IsStopOf eng.nodes_ name a := by
  obtain ⟨node, h1, h2, h3⟩ := (hc.stops name s).1 hs
  rw [sourceNode_eq] at h1
  obtain ⟨id, h4, h5⟩ := h1
  exact ⟨id, h4, node, h5, h2, h3⟩

theorem nonrouting_unique (geo : GeoMath) (ways : List Way) (nodes : List Node)
    (eng : Engine) (h : Parse geo ways nodes = .ok eng) (x : Int)
    (hx : x ∉ routeIds eng.route_nodes_) (node : Node) (hxn : mapFind eng.nodes_ x = some node)
    (wid1 : Int) (way1 : Way) (pos1 : Nat) (wid2 : Int) (way2 : Way) (pos2 : Nat)
    (h1 : mapFind eng.ways_ wid1 = some way1) (hl1 : 2 ≤ way1.nodes_.length)
    (hp1 : way1.nodes_[pos1]? = some x)
    (h2 : mapFind eng.ways_ wid2 = some way2) (hl2 : 2 ≤ way2.nodes_.length)
    (hp2 : way2.nodes_[pos2]? = some x) :
    wid1 = wid2 ∧ way1 = way2 ∧ pos1 = pos2 := by
  obtain ⟨created, -, -, -, -, hclass⟩ := parse_passes geo ways nodes eng h
  obtain ⟨c, hc1, hc2⟩ := hclass (x, node) (mem_of_mapFind_eq_some _ _ _ hxn)
  have hle : c.nways ≤ 1 := by
    by_contra hgt
    exact hx (hc2.2 (Or.inl (by omega)))
  have hnw : nwaysOf
      (eng.ways_.foldl countWayStep (eng.nodes_.foldl findStopsStep ([], [])).2) x = c.nways := by
    unfold nwaysOf
    simp only at hc1
    rw [hc1]
  obtain ⟨-, -, m3⟩ := countWays_nways eng.ways_ (eng.nodes_.foldl findStopsStep ([], [])).2 x
  rw [hnw] at m3
  obtain ⟨k1, hk1⟩ := List.mem_iff_getElem?.1 (mem_of_mapFind_eq_some _ _ _ h1)
  by_cases hw : wid1 = wid2
  · subst hw
    rw [h1] at h2
    injection h2 with h2
    subst h2
    refine ⟨rfl, rfl, ?_⟩
    by_contra hne
    rcases Nat.lt_or_gt_of_ne hne with hlt | hgt
    · have := m3 k1 _ pos1 k1 _ pos2 hk1 hl1 hp1 hk1 hl1 hp2 (Or.inr ⟨rfl, hlt⟩)
      omega
    · have := m3 k1 _ pos2 k1 _ pos1 hk1 hl1 hp2 hk1 hl1 hp1 (Or.inr ⟨rfl, hgt⟩)
      omega
  · exfalso
    obtain ⟨k2, hk2⟩ := List.mem_iff_getElem?.1 (mem_of_mapFind_eq_some _ _ _ h2)
    have hne : k1 ≠ k2 := by
      rintro rfl
      rw [hk1] at hk2
      injection hk2 with hk2
      exact hw (congrArg Prod.fst hk2)
    rcases Nat.lt_or_gt_of_ne hne with hlt | hgt
    · have := m3 k1 _ pos1 k2 _ pos2 hk1 hl1 hp1 hk2 hl2 hp2 (Or.inl hlt)
      omega
    · have := m3 k2 _ pos2 k1 _ pos1 hk2 hl2 hp2 hk1 hl1 hp1 (Or.inl hgt)
      omega

end RailRouting

namespace RailRouting

/-! ## Walks of the reference graph -/

theorem referenceEdge_symm (geo : GeoMath) (ws : List Way) (nodes_ : List (Int × Node))
    (a b : Int) (w : Int) (h : ReferenceEdge geo ws nodes_ a b w) :
    ReferenceEdge geo ws nodes_ b a w := by
  obtain ⟨way, hw, i, x, y, nx, ny, h1, h2, h3, h4, h5, h6⟩ := h
  refine ⟨way, hw, i, x, y, nx, ny, h1, h2, h3, h4, h5, ?_⟩
  rcases h6 with ⟨h7, h8⟩ | ⟨h7, h8⟩
  · exact Or.inr ⟨h8, h7⟩
  · exact Or.inl ⟨h8, h7⟩

theorem referenceWalk_append (geo : GeoMath) (ws : List Way) (nodes_ : List (Int × Node))
    (a b c : Int) (l1 l2 : Int) (h1 : ReferenceWalk geo ws nodes_ a b l1)
    (h2 : ReferenceWalk geo ws nodes_ b c l2) : ReferenceWalk geo ws nodes_ a c (l1 + l2) := by
  induction h1 with
  | nil a => simpa using h2
  | cons a b1 c1 w len he _ ih =>
    have := ReferenceWalk.cons a b1 c w (len + l2) he (ih h2)
    have heq : w + len + l2 = w + (len + l2) := by omega
    rw [heq]
    exact this

theorem referenceWalk_single (geo : GeoMath) (ws : List Way) (nodes_ : List (Int × Node))
    (a b : Int) (w : Int) (h : ReferenceEdge geo ws nodes_ a b w) :
    ReferenceWalk geo ws nodes_ a b w := by
  have := ReferenceWalk.cons a b b w 0 h (ReferenceWalk.nil b)
  simpa using this

theorem nodeAt_some (nodes_ : List (Int × Node)) (way : Way) (pos : Nat) (node : Node)
    (h : nodeAt nodes_ way pos = some node) :
    ∃ id, way.nodes_[pos]? = some id ∧ mapFind nodes_ id = some node := by
  unfold nodeAt at h
  cases hw : way.nodes_[pos]? with
  | none => rw [hw] at h; simp at h
  | some id =>
    rw [hw] at h
    exact ⟨id, rfl, h⟩

theorem stepLength_eq (geo : GeoMath) (nodes_ : List (Int × Node)) (way : Way) (i : Nat)
    (x y : Int) (nx ny : Node) (h1 : way.nodes_[i]? = some x)
    (h2 : way.nodes_[i + 1]? = some y) (h3 : mapFind nodes_ x = some nx)
    (h4 : mapFind nodes_ y = some ny) :
    stepLength geo nodes_ way i (i + 1) = geo.Distance nx ny := by
  unfold stepLength
  rw [nodeAt_eq _ _ _ _ _ h1 h3, nodeAt_eq _ _ _ _ _ h2 h4]

theorem stepLength_nonneg (geo : GeoMath) (hgeo : ∀ a b, 0 ≤ geo.Distance a b)
    (nodes_ : List (Int × Node)) (way : Way) (i j : Nat) :
    0 ≤ stepLength geo nodes_ way i j := by
  unfold stepLength
  split
  · exact hgeo _ _
  · exact le_refl _

theorem segmentLength_front (geo : GeoMath) (nodes_ : List (Int × Node)) (way : Way)
    (lo k : Nat) :
    segmentLength geo nodes_ way lo (k + 1) =
      stepLength geo nodes_ way lo (lo + 1) + segmentLength geo nodes_ way (lo + 1) k := by
  induction k with
  | zero => simp [segmentLength]
  | succ j ih =>
    rw [segmentLength, ih, segmentLength]
    have h1 : lo + (j + 1) = lo + 1 + j := by omega
    rw [h1]
    omega

/-- The nodes of a way between two positions that all resolve are joined, in both
directions, by a walk of the reference graph whose length is the sum along the way. -/
theorem segment_referenceWalk (geo : GeoMath) (ws : List Way) (nodes_ : List (Int × Node))
    (way : Way) (hw : way ∈ ws) (lo k : Nat)
    (hres : ∀ pos, lo ≤ pos → pos ≤ lo + k → ∃ node, nodeAt nodes_ way pos = some node) :
    ∃ a b, way.nodes_[lo]? = some a ∧ way.nodes_[lo + k]? = some b ∧
      ReferenceWalk geo ws nodes_ a b (segmentLength geo nodes_ way lo k) ∧
      ReferenceWalk geo ws nodes_ b a (segmentLength geo nodes_ way lo k) := by
  induction k with
  | zero =>
    obtain ⟨node, hn⟩ := hres lo (Nat.le_refl _) (by omega)
    obtain ⟨a, ha, -⟩ := nodeAt_some _ _ _ _ hn
    exact ⟨a, a, ha, ha, ReferenceWalk.nil a, ReferenceWalk.nil a⟩
  | succ j ih =>
    obtain ⟨a, b, ha, hb, w1, w2⟩ := ih (fun pos h1 h2 => hres pos h1 (by omega))
    obtain ⟨nb, hnb⟩ := hres (lo + j) (by omega) (by omega)
    obtain ⟨nc, hnc⟩ := hres (lo + j + 1) (by omega) (by omega)
    obtain ⟨b2, hb2, hmb⟩ := nodeAt_some _ _ _ _ hnb
    obtain ⟨c, hc, hmc⟩ := nodeAt_some _ _ _ _ hnc
    rw [hb] at hb2
    injection hb2 with hb2
    subst hb2
    have hstep := stepLength_eq geo nodes_ way (lo + j) b c nb nc hb hc hmb hmc
    have hedge : ReferenceEdge geo ws nodes_ b c (stepLength geo nodes_ way (lo + j) (lo + j + 1)) :=
      ⟨way, hw, lo + j, b, c, nb, nc, hb, hc, hmb, hmc, hstep, Or.inl ⟨rfl, rfl⟩⟩
    refine ⟨a, c, ha, hc, ?_, ?_⟩
    · rw [segmentLength]
      exact referenceWalk_append _ _ _ _ _ _ _ _ w1 (referenceWalk_single _ _ _ _ _ _ hedge)
    · rw [segmentLength]
      have := ReferenceWalk.cons c b a _ _ (referenceEdge_symm _ _ _ _ _ _ hedge) w2
      rw [Int.add_comm]
      exact this

theorem mem_storedWays (eng : Engine) (wid : Int) (way : Way)
    (h : mapFind eng.ways_ wid = some way) : way ∈ storedWays eng := by
  unfold storedWays
  exact List.mem_map.2 ⟨(wid, way), mem_of_mapFind_eq_some _ _ _ h, rfl⟩

/-- Soundness of the compiled graph: a compiled walk is a walk of the reference graph of
the stored ways, of the same length. -/
theorem walk_referenceWalk (geo : GeoMath) (eng : Engine) (hc : Compiled geo eng)
    (s t : Nat) (d : Int) (hw : Walk eng.route_nodes_ s t d) (a : Int)
    (ha : (routeIds eng.route_nodes_)[s]? = some a) :
    ∃ b, (routeIds eng.route_nodes_)[t]? = some b ∧
      ReferenceWalk geo (storedWays eng) eng.nodes_ a b d := by
  induction hw generalizing a with
  | nil u => exact ⟨a, ha, ReferenceWalk.nil a⟩
  | cons u v w e len he hev _ ih =>
    rcases hc.edges u e he with hemp | ⟨v2, way, hp⟩
    · rw [hemp] at hev
      simp [RouteEdge.empty] at hev
    · have hv : v2 = v := by
        have := hp.node_eq
        rw [hev] at this
        exact (Int.ofNat.inj this).symm
      subst hv
      obtain ⟨ids, hs1, hs2⟩ := hp.start_id
      obtain ⟨ide, he1, he2⟩ := hp.end_id
      rw [ha] at hs2
      injection hs2 with hs2
      subst hs2
      obtain ⟨b, hb, hwalk⟩ := ih ide he2
      refine ⟨b, hb, ?_⟩
      have hmem := mem_storedWays eng _ _ hp.way_found
      have hlen := hp.length_eq
      rcases Nat.lt_or_gt_of_ne hp.pos_ne with hlt | hgt
      · have hmin : min e.start_pos e.end_pos = e.start_pos := Nat.min_eq_left (by omega)
        have hmax : max e.start_pos e.end_pos = e.end_pos := Nat.max_eq_right (by omega)
        obtain ⟨a2, b2, h1, h2, w1, -⟩ := segment_referenceWalk geo (storedWays eng) eng.nodes_
          way hmem e.start_pos (e.end_pos - e.start_pos)
          (fun pos hp1 hp2 => hp.resolves pos (by omega) (by omega))
        have h3 : e.start_pos + (e.end_pos - e.start_pos) = e.end_pos := by omega
        rw [h3] at h2
        rw [hs1] at h1
        rw [he1] at h2
        injection h1 with h1
        injection h2 with h2
        subst h1 h2
        rw [hmin, hmax] at hlen
        rw [hlen]
        exact referenceWalk_append _ _ _ _ _ _ _ _ w1 hwalk
      · have hmin : min e.start_pos e.end_pos = e.end_pos := Nat.min_eq_right (by omega)
        have hmax : max e.start_pos e.end_pos = e.start_pos := Nat.max_eq_left (by omega)
        obtain ⟨a2, b2, h1, h2, -, w2⟩ := segment_referenceWalk geo (storedWays eng) eng.nodes_
          way hmem e.end_pos (e.start_pos - e.end_pos)
          (fun pos hp1 hp2 => hp.resolves pos (by omega) (by omega))
        have h3 : e.end_pos + (e.start_pos - e.end_pos) = e.start_pos := by omega
        rw [h3] at h2
        rw [he1] at h1
        rw [hs1] at h2
        injection h1 with h1
        injection h2 with h2
        subst h1 h2
        rw [hmin, hmax] at hlen
        rw [hlen]
        exact referenceWalk_append _ _ _ _ _ _ _ _ w2 hwalk

end RailRouting

namespace RailRouting

/-! ## Completeness of the compiled graph -/

theorem wellFormed_resolves (eng : Engine) (hwf : WellFormed (storedWays eng) eng.nodes_)
    (wid : Int) (way : Way) (hway : mapFind eng.ways_ wid = some way) :
    2 ≤ way.nodes_.length ∧
      ∀ (i : Nat) (id : Int), way.nodes_[i]? = some id →
        ∃ node, mapFind eng.nodes_ id = some node := by
  obtain ⟨h1, h2⟩ := hwf way (mem_storedWays eng wid way hway)
  refine ⟨h1, ?_⟩
  intro i id hid
  have := h2 id (mem_of_getElem?_eq_some _ _ _ hid)
  exact Option.isSome_iff_exists.1 this

theorem noDirectionTags_allowed (eng : Engine) (htags : NoDirectionTags (storedWays eng))
    (wid : Int) (way : Way) (hway : mapFind eng.ways_ wid = some way) :
    forwardAllowed way = true ∧ backwardAllowed way = true := by
  obtain ⟨h1, h2⟩ := htags way (mem_storedWays eng wid way hway)
  rw [forwardAllowed_iff, backwardAllowed_iff, h1, h2]
  simp

theorem parse_segment_walk (geo : GeoMath) (ways : List Way) (nodes : List Node)
    (eng : Engine) (hparse : Parse geo ways nodes = .ok eng) (wid : Int) (way : Way)
    (hway : mapFind eng.ways_ wid = some way) (h0 : wid ≠ 0)
    (p q u v : Nat) (idp idq : Int) (hpq : p < q)
    (hp : way.nodes_[p]? = some idp) (hu : (routeIds eng.route_nodes_)[u]? = some idp)
    (hq : way.nodes_[q]? = some idq) (hv : (routeIds eng.route_nodes_)[v]? = some idq)
    (hmid : ∀ i, p < i → i < q → ∀ id, way.nodes_[i]? = some id →
      id ∉ routeIds eng.route_nodes_)
    (hres : ∀ i, i ≤ q → ∀ id, way.nodes_[i]? = some id →
      ∃ node, mapFind eng.nodes_ id = some node) :
    (forwardAllowed way = true → ∃ e ∈ edgesOf eng.route_nodes_ u,
        e.node = Int.ofNat v ∧ e.length = segmentLength geo eng.nodes_ way p (q - p)) ∧
      (backwardAllowed way = true → ∃ e ∈ edgesOf eng.route_nodes_ v,
        e.node = Int.ofNat u ∧ e.length = segmentLength geo eng.nodes_ way p (q - p)) := by
  have hc := parse_compiled geo ways nodes eng hparse
  obtain ⟨c1, c2⟩ := parse_segment_edges geo ways nodes eng hparse wid way hway h0 p q u v
    idp idq hpq hp hu hq hv hmid hres
  have key : ∀ (n : Nat) (e : RouteEdge), e ∈ edgesOf eng.route_nodes_ n → e.osmid = wid →
      e.length = segmentLength geo eng.nodes_ way (min e.start_pos e.end_pos)
        (max e.start_pos e.end_pos - min e.start_pos e.end_pos) := by
    intro n e he hid
    rcases hc.edges n e he with hemp | ⟨v2, way2, hprov⟩
    · rw [hemp] at hid
      exact absurd hid.symm h0
    · have h1 := hprov.way_found
      rw [hid, hway] at h1
      injection h1 with h1
      subst h1
      exact hprov.length_eq
  constructor
  · intro hf
    obtain ⟨e, he, h1, h2, h3, h4⟩ := c1 hf
    refine ⟨e, he, h4, ?_⟩
    rw [key u e he h1, h2, h3, Nat.min_eq_left (by omega), Nat.max_eq_right (by omega)]
  · intro hb
    obtain ⟨e, he, h1, h2, h3, h4⟩ := c2 hb
    refine ⟨e, he, h4, ?_⟩
    rw [key v e he h1, h2, h3, Nat.min_eq_right (by omega), Nat.max_eq_left (by omega)]

/-- A compiled walk to the routing node at position `r` of a way, continued along the way
to position `px` without meeting a routing node in between, covers the node there. -/
theorem covered_arrive (geo : GeoMath) (ways : List Way) (nodes : List Node)
    (eng : Engine) (hparse : Parse geo ways nodes = .ok eng)
    (hwf : WellFormed (storedWays eng) eng.nodes_)
    (htags : NoDirectionTags (storedWays eng))
    (wid : Int) (way : Way) (hway : mapFind eng.ways_ wid = some way) (h0 : wid ≠ 0)
    (s v r px : Nat) (idr x : Int) (d len : Int)
    (hr : way.nodes_[r]? = some idr) (hv : (routeIds eng.route_nodes_)[v]? = some idr)
    (hw : Walk eng.route_nodes_ s v d) (hx : way.nodes_[px]? = some x)
    (hmid : ∀ i, min r px < i → i < max r px → ∀ id, way.nodes_[i]? = some id →
      id ∉ routeIds eng.route_nodes_)
    (hlen : d + segmentLength geo eng.nodes_ way (min r px) (max r px - min r px) ≤ len) :
    Covered geo eng s x len := by
  have hc := parse_compiled geo ways nodes eng hparse
  obtain ⟨-, hres⟩ := wellFormed_resolves eng hwf wid way hway
  obtain ⟨hf, hb⟩ := noDirectionTags_allowed eng htags wid way hway
  by_cases hxi : x ∈ routeIds eng.route_nodes_
  · obtain ⟨vx, hvx⟩ := List.mem_iff_getElem?.1 hxi
    left
    rcases Nat.lt_trichotomy r px with hlt | heq | hgt
    · rw [Nat.min_eq_left (by omega), Nat.max_eq_right (by omega)] at hmid hlen
      obtain ⟨e, he, h1, h2⟩ := (parse_segment_walk geo ways nodes eng hparse wid way hway h0
        r px v vx idr x hlt hr hv hx hvx hmid (fun i _ => hres i)).1 hf
      refine ⟨vx, d + e.length, hvx, Walk.snoc _ _ _ _ _ _ hw he h1, ?_⟩
      rw [h2]
      exact hlen
    · subst heq
      rw [hr] at hx
      injection hx with hx
      subst hx
      refine ⟨v, d, hv, hw, ?_⟩
      simpa [segmentLength] using hlen
    · rw [Nat.min_eq_right (by omega), Nat.max_eq_left (by omega)] at hmid hlen
      obtain ⟨e, he, h1, h2⟩ := (parse_segment_walk geo ways nodes eng hparse wid way hway h0
        px r vx v x idr hgt hx hvx hr hv hmid (fun i _ => hres i)).2 hb
      refine ⟨vx, d + e.length, hvx, Walk.snoc _ _ _ _ _ _ hw he h1, ?_⟩
      rw [h2]
      exact hlen
  · right
    exact ⟨hxi, wid, way, r, px, idr, v, d, hway, hx, hr, hv, hw, hmid, hlen⟩

end RailRouting

namespace RailRouting

/-- One edge of the reference graph keeps the cover: the compiled graph follows the edge,
or has gone ahead to the routing node at the end of the segment. -/
theorem covered_step (geo : GeoMath) (ways : List Way) (nodes : List Node)
    (eng : Engine) (hparse : Parse geo ways nodes = .ok eng)
    (hgeo : ∀ a b, 0 ≤ geo.Distance a b)
    (hwf : WellFormed (storedWays eng) eng.nodes_)
    (htags : NoDirectionTags (storedWays eng))
    (hzero : ∀ way ∈ storedWays eng, way.id_ ≠ 0)
    (s : Nat) (y x : Int) (len w : Int) (hcov : Covered geo eng s y len)
    (hedge : ReferenceEdge geo (storedWays eng) eng.nodes_ y x w) :
    Covered geo eng s x (len + w) := by
  have hc := parse_compiled geo ways nodes eng hparse
  obtain ⟨way2, hw2, i, a, b, na, nb, h1, h2, h3, h4, h5, h6⟩ := hedge
  have hmem2 := hw2
  unfold storedWays at hmem2
  obtain ⟨⟨wid2, way3⟩, hmem, heq⟩ := List.mem_map.1 hmem2
  simp only at heq
  subst heq
  have hway2 : mapFind eng.ways_ wid2 = some way3 :=
    mapFind_eq_some_of_mem _ _ _ hc.ways_sorted hmem
  have h02 : wid2 ≠ 0 := by
    have hk : way3.id_ = wid2 := hc.ways_keyed (wid2, way3) hmem
    rw [← hk]
    exact hzero way3 hw2
  have hstep := stepLength_eq geo eng.nodes_ way3 i a b na nb h1 h2 h3 h4
  have hw0 : 0 ≤ w := by rw [h5]; exact hgeo _ _
  have hpos : ∃ py px ny, way3.nodes_[py]? = some y ∧ way3.nodes_[px]? = some x ∧
      mapFind eng.nodes_ y = some ny ∧
      ((px = py + 1 ∧ w = stepLength geo eng.nodes_ way3 py (py + 1)) ∨
        (py = px + 1 ∧ w = stepLength geo eng.nodes_ way3 px (px + 1))) := by
    rcases h6 with ⟨h7, h8⟩ | ⟨h7, h8⟩
    · subst h7 h8
      exact ⟨i, i + 1, na, h1, h2, h3, Or.inl ⟨rfl, by rw [hstep, h5]⟩⟩
    · subst h7 h8
      exact ⟨i + 1, i, nb, h2, h1, h4, Or.inr ⟨rfl, by rw [hstep, h5]⟩⟩
  obtain ⟨py, px, ny, hpy, hpx, hny, hadj⟩ := hpos
  rcases hcov with ⟨v, d, hv, hwalk, hd⟩ | ⟨hyn, wid, way, r, pos, idr, v, d, hway, hp, hr, hv,
    hwalk, hmid, hbound⟩
  · refine covered_arrive geo ways nodes eng hparse hwf htags wid2 way3 hway2 h02 s v py px y x
      d (len + w) hpy hv hwalk hpx ?_ ?_
    · intro j hj1 hj2
      rcases hadj with ⟨h7, -⟩ | ⟨h7, -⟩ <;> omega
    · rcases hadj with ⟨h7, h8⟩ | ⟨h7, h8⟩
      · have e1 : min py px = py := Nat.min_eq_left (by omega)
        have e2 : max py px - min py px = 1 := by omega
        rw [e2, e1]
        simp only [segmentLength, Nat.add_zero]
        omega
      · have e1 : min py px = px := Nat.min_eq_right (by omega)
        have e2 : max py px - min py px = 1 := by omega
        rw [e2, e1]
        simp only [segmentLength, Nat.add_zero]
        omega
  · obtain ⟨hl, -⟩ := wellFormed_resolves eng hwf wid way hway
    obtain ⟨hl2, -⟩ := wellFormed_resolves eng hwf wid2 way3 hway2
    obtain ⟨u1, u2, u3⟩ := nonrouting_unique geo ways nodes eng hparse y hyn ny hny wid way pos
      wid2 way3 py hway hl hp hway2 hl2 hpy
    subst u1 u2 u3
    have hrp : r ≠ pos := by
      rintro rfl
      rw [hr] at hp
      injection hp with hp
      subst hp
      exact hyn (mem_of_getElem?_eq_some _ _ _ hv)
    have hyid : ∀ id, way.nodes_[pos]? = some id → id ∉ routeIds eng.route_nodes_ := by
      intro id hid
      rw [hp] at hid
      injection hid with hid
      rw [← hid]
      exact hyn
    have hs0 : ∀ j, 0 ≤ stepLength geo eng.nodes_ way j (j + 1) :=
      fun j => stepLength_nonneg geo hgeo _ _ _ _
    refine covered_arrive geo ways nodes eng hparse hwf htags wid way hway h02 s v r px idr x
      d (len + w) hr hv hwalk hpx ?_ ?_
    · intro j hj1 hj2 id hid
      by_cases hjp : j = pos
      · subst hjp
        exact hyid id hid
      · refine hmid j ?_ ?_ id hid
        · rcases hadj with ⟨h7, -⟩ | ⟨h7, -⟩ <;> omega
        · rcases hadj with ⟨h7, -⟩ | ⟨h7, -⟩ <;> omega
    · rcases Nat.lt_or_gt_of_ne hrp with hlt | hgt
      · rw [Nat.min_eq_left (by omega), Nat.max_eq_right (by omega)] at hbound
        rcases hadj with ⟨h7, h8⟩ | ⟨h7, h8⟩
        · rw [Nat.min_eq_left (by omega), Nat.max_eq_right (by omega)]
          have e1 : px - r = (pos - r) + 1 := by omega
          have e2 : r + (pos - r) = pos := by omega
          rw [e1, segmentLength, e2]
          omega
        · rw [Nat.min_eq_left (by omega), Nat.max_eq_right (by omega)]
          have e1 : pos - r = (px - r) + 1 := by omega
          have e2 : r + (px - r) = px := by omega
          rw [e1, segmentLength, e2] at hbound
          have := hs0 px
          omega
      · rw [Nat.min_eq_right (by omega), Nat.max_eq_left (by omega)] at hbound
        rcases hadj with ⟨h7, h8⟩ | ⟨h7, h8⟩
        · rw [Nat.min_eq_right (by omega), Nat.max_eq_left (by omega)]
          have e1 : r - pos = (r - px) + 1 := by omega
          rw [e1, segmentLength_front, ← h7] at hbound
          have := hs0 pos
          rw [← h7] at this
          omega
        · rw [Nat.min_eq_right (by omega), Nat.max_eq_left (by omega)]
          have e1 : r - px = (r - pos) + 1 := by omega
          rw [e1, segmentLength_front, ← h7]
          rw [← h7] at h8
          omega

end RailRouting

namespace RailRouting

/-! ## The compiled graph against the reference graph -/

theorem covered_walk (geo : GeoMath) (ways : List Way) (nodes : List Node)
    (eng : Engine) (hparse : Parse geo ways nodes = .ok eng)
    (hgeo : ∀ a b, 0 ≤ geo.Distance a b)
    (hwf : WellFormed (storedWays eng) eng.nodes_)
    (htags : NoDirectionTags (storedWays eng))
    (hzero : ∀ way ∈ storedWays eng, way.id_ ≠ 0)
    (s : Nat) (y x : Int) (l : Int)
    (hwalk : ReferenceWalk geo (storedWays eng) eng.nodes_ y x l) (len : Int)
    (hcov : Covered geo eng s y len) : Covered geo eng s x (len + l) := by
  induction hwalk generalizing len with
  | nil a => simpa using hcov
  | cons a b c w l2 he _ ih =>
    have h1 := covered_step geo ways nodes eng hparse hgeo hwf htags hzero s a b len w hcov he
    have h2 := ih (len + w) h1
    have heq : len + (w + l2) = len + w + l2 := by omega
    rw [heq]
    exact h2

/-- Soundness: a route length of the compiled graph is one of the reference graph of the
stored ways. -/
theorem routeLength_reference (geo : GeoMath) (eng : Engine) (hc : Compiled geo eng)
    (name_a name_b : String) (d : Int) (h : IsRouteLength eng name_a name_b d) :
    IsReferenceRouteLength geo (storedWays eng) eng.nodes_ name_a name_b d := by
  obtain ⟨s, t, hs, ht, hw⟩ := h
  obtain ⟨a, ha1, ha2⟩ := stop_of_index geo eng hc name_a s hs
  obtain ⟨b, hb1, hb2⟩ := stop_of_index geo eng hc name_b t ht
  obtain ⟨b2, hb3, hwalk⟩ := walk_referenceWalk geo eng hc s t d hw a ha1
  rw [hb1] at hb3
  injection hb3 with hb3
  subst hb3
  exact ⟨a, b, ha2, hb2, hwalk⟩

/-- Completeness: for a route length of the reference graph the compiled graph has one
that is not greater. -/
theorem reference_routeLength (geo : GeoMath) (ways : List Way) (nodes : List Node)
    (eng : Engine) (hparse : Parse geo ways nodes = .ok eng)
    (hgeo : ∀ a b, 0 ≤ geo.Distance a b)
    (hwf : WellFormed (storedWays eng) eng.nodes_)
    (htags : NoDirectionTags (storedWays eng))
    (hzero : ∀ way ∈ storedWays eng, way.id_ ≠ 0)
    (name_a name_b : String) (d : Int)
    (h : IsReferenceRouteLength geo (storedWays eng) eng.nodes_ name_a name_b d) :
    ∃ d2, d2 ≤ d ∧ IsRouteLength eng name_a name_b d2 := by
  obtain ⟨a, b, ha, hb, hwalk⟩ := h
  obtain ⟨s, hs1, hs2⟩ := stop_indexed geo ways nodes eng hparse name_a a ha
  obtain ⟨t, ht1, ht2⟩ := stop_indexed geo ways nodes eng hparse name_b b hb
  obtain ⟨created, -, -, hidm, -, -⟩ := parse_passes geo ways nodes eng hparse
  have h0 : Covered geo eng s a 0 := Or.inl ⟨s, 0, hs2, Walk.nil s, le_refl _⟩
  have h1 := covered_walk geo ways nodes eng hparse hgeo hwf htags hzero s a b d hwalk 0 h0
  rcases h1 with ⟨v, d2, hv, hw, hd⟩ | ⟨hn, -⟩
  · have hvt : v = t := by
      have e1 := (hidm b v).2 hv
      have e2 := (hidm b t).2 ht2
      rw [e1] at e2
      injection e2
    subst hvt
    exact ⟨d2, by omega, s, v, hs1, ht1, hw⟩
  · exact absurd (mem_of_getElem?_eq_some _ _ _ ht2) hn

end RailRouting

namespace RailRouting

/-! ## The claim on the refinement of the reference search -/

/-- C6 (counterexample). Two well-formed datasets without direction tags on which FindRoute
returns OK with a distance that is not the shortest distance of the uncompiled graph.
In the first a way has the id 0: its edges into the routing nodes of node 1 and node 3 are
overwritten, the query from B to A returns 40000 (over node 4), and the uncompiled graph
has the walk 3, 2, 1 of length 20000. In the second two ways share the id 10 and only the
first is stored: the query from A to B returns 30000 (over node 5), and the uncompiled
graph has the edge from node 1 to node 3 of the second way, of length 20000. -/
theorem FindRoute_distance_not_reference :
    (Parse exGeo [exWayZero, exWayBack] [exNode1, exNode2Stop, exNode3, exNode4]
        = .ok exEngineDetour ∧
      WellFormed [exWayZero, exWayBack] exEngineDetour.nodes_ ∧
      NoDirectionTags [exWayZero, exWayBack] ∧
      HasStop exEngineDetour "B" ∧ HasStop exEngineDetour "A" ∧
      FindRoute exGeo exEngineDetour 20 "B" "A" exResult5 = .ok (true, exDetourResult) ∧
      exDetourResult.distance = some 40000 ∧
      IsReferenceRouteLength exGeo [exWayZero, exWayBack] exEngineDetour.nodes_ "B" "A" 20000 ∧
      ¬ IsReferenceDistance exGeo [exWayZero, exWayBack] exEngineDetour.nodes_ "B" "A" 40000) ∧
    (Parse exGeo [exWayBend, exWayChord] [exNode1, exNode5, exNode3] = .ok exEngineBend ∧
      WellFormed [exWayBend, exWayChord] exEngineBend.nodes_ ∧
      NoDirectionTags [exWayBend, exWayChord] ∧
      HasStop exEngineBend "A" ∧ HasStop exEngineBend "B" ∧
      FindRoute exGeo exEngineBend 20 "A" "B" exResult5 = .ok (true, exBendResult) ∧
      exBendResult.distance = some 30000 ∧
      IsReferenceRouteLength exGeo [exWayBend, exWayChord] exEngineBend.nodes_ "A" "B" 20000 ∧
      ¬ IsReferenceDistance exGeo [exWayBend, exWayChord] exEngineBend.nodes_ "A" "B" 30000) := by
  have r1 : IsReferenceRouteLength exGeo [exWayZero, exWayBack] exEngineDetour.nodes_
      "B" "A" 20000 := by
    refine ⟨3, 1, ⟨exNode3, by rfl, by decide, by decide⟩, ⟨exNode1, by rfl, by decide, by decide⟩, ?_⟩
    have e1 : ReferenceEdge exGeo [exWayZero, exWayBack] exEngineDetour.nodes_ 3 2 10000 :=
      ⟨exWayZero, by decide, 1, 2, 3, exNode2Stop, exNode3, by rfl, by rfl, by rfl, by rfl,
        by decide, Or.inr ⟨rfl, rfl⟩⟩
    have e2 : ReferenceEdge exGeo [exWayZero, exWayBack] exEngineDetour.nodes_ 2 1 10000 :=
      ⟨exWayZero, by decide, 0, 1, 2, exNode1, exNode2Stop, by rfl, by rfl, by rfl, by rfl,
        by decide, Or.inr ⟨rfl, rfl⟩⟩
    exact ReferenceWalk.cons 3 2 1 10000 10000 e1
      (ReferenceWalk.cons 2 1 1 10000 0 e2 (ReferenceWalk.nil 1))
  have r2 : IsReferenceRouteLength exGeo [exWayBend, exWayChord] exEngineBend.nodes_
      "A" "B" 20000 := by
    refine ⟨1, 3, ⟨exNode1, by rfl, by decide, by decide⟩, ⟨exNode3, by rfl, by decide, by decide⟩, ?_⟩
    have e1 : ReferenceEdge exGeo [exWayBend, exWayChord] exEngineBend.nodes_ 1 3 20000 :=
      ⟨exWayChord, by decide, 0, 1, 3, exNode1, exNode3, by rfl, by rfl, by rfl, by rfl,
        by decide, Or.inl ⟨rfl, rfl⟩⟩
    exact ReferenceWalk.cons 1 3 3 20000 0 e1 (ReferenceWalk.nil 3)
  refine ⟨⟨by rfl, by unfold WellFormed; decide, by unfold NoDirectionTags; decide,
      ⟨2, by decide⟩, ⟨0, by decide⟩, by rfl, by rfl, r1, ?_⟩,
    ⟨by rfl, by unfold WellFormed; decide, by unfold NoDirectionTags; decide,
      ⟨0, by decide⟩, ⟨1, by decide⟩, by rfl, by rfl, r2, ?_⟩⟩
  · intro h
    have := h.2 20000 r1
    omega
  · intro h
    have := h.2 20000 r2
    omega

/-- C6 (amended). After a compilation that completes, if every way of the way map has at
least 2 node references, all resolving in the node map, no `oneway` and no
`designated_direction` tag, and an id other than 0 (Distance being non-negative), then for
every pair of names of the stop index and a fuel of at least `searchFuel` FindRoute
returns, and either it returns OK with a distance that is the multi-source/multi-target
shortest distance of the uncompiled graph of the way map and the node map (one vertex per
node, one edge of weight Distance, usable in both directions, per pair of consecutive
nodes of a stored way, the weights added exactly), or it returns NO_ROUTE_FOUND and that
graph has no walk from a stop of the first name to a stop of the second. -/
theorem FindRoute_distance_refines_reference (geo : GeoMath) (ways : List Way)
    (nodes : List Node) (eng : Engine) (hparse : Parse geo ways nodes = .ok eng)
    (hgeo : ∀ a b, 0 ≤ geo.Distance a b)
    (hwf : WellFormed (storedWays eng) eng.nodes_)
    (htags : NoDirectionTags (storedWays eng))
    (hzero : ∀ way ∈ storedWays eng, way.id_ ≠ 0)
    (name_a name_b : String) (ha : HasStop eng name_a) (hb : HasStop eng name_b)
    (fuel : Nat) (hfuel : searchFuel eng name_a ≤ fuel) (result : FindRouteResult) :
    ∃ ok r, FindRoute geo eng fuel name_a name_b result = .ok (ok, r) ∧
      ((ok = true ∧ r.status = .OK ∧ ∃ d, r.distance = some d ∧
          IsReferenceDistance geo (storedWays eng) eng.nodes_ name_a name_b d) ∨
        (ok = false ∧ r.status = .NO_ROUTE_FOUND ∧
          ∀ d, ¬ IsReferenceRouteLength geo (storedWays eng) eng.nodes_ name_a name_b d)) := by
  have hc := parse_compiled geo ways nodes eng hparse
  rcases FindRoute_compiled geo eng hc (compiled_nonNegLengths geo hgeo eng hc) name_a name_b
    ha hb fuel hfuel result with ⟨hn, h⟩ | ⟨d, s, t, ns, nt, route, h1, -, -, -, -, -, -, -, h⟩
  · refine ⟨false, _, h, Or.inr ⟨rfl, rfl, ?_⟩⟩
    intro d hd
    obtain ⟨d2, -, hd2⟩ := reference_routeLength geo ways nodes eng hparse hgeo hwf htags hzero
      name_a name_b d hd
    exact hn ⟨d2, hd2⟩
  · refine ⟨true, _, h, Or.inl ⟨rfl, rfl, d, rfl, ?_, ?_⟩⟩
    · exact routeLength_reference geo eng hc name_a name_b d h1.1
    · intro d3 hd3
      obtain ⟨d2, hle, hd2⟩ := reference_routeLength geo ways nodes eng hparse hgeo hwf htags
        hzero name_a name_b d3 hd3
      have := h1.2 d2 hd2
      omega

/-- C6 (witness). Scenario S1: the way 10 through the nodes 1, 2 and 3 has no direction
tag and all its nodes are loaded; the query from A to B returns, with the outcome that
the reference graph prescribes. -/
theorem FindRoute_distance_refines_reference_witness :
    ∃ ok r, FindRoute exGeo exEngine 9 "A" "B" exResult5 = .ok (ok, r) ∧
      ((ok = true ∧ r.status = .OK ∧ ∃ d, r.distance = some d ∧
          IsReferenceDistance exGeo (storedWays exEngine) exEngine.nodes_ "A" "B" d) ∨
        (ok = false ∧ r.status = .NO_ROUTE_FOUND ∧
          ∀ d, ¬ IsReferenceRouteLength exGeo (storedWays exEngine) exEngine.nodes_ "A" "B" d)) :=
  FindRoute_distance_refines_reference exGeo [exWay] [exNode1, exNode2, exNode3] exEngine
    (by rfl) (fun _ _ => Int.ofNat_nonneg _) (by unfold WellFormed; decide)
    (by unfold NoDirectionTags; decide) (by decide) "A" "B" ⟨0, by decide⟩ ⟨1, by decide⟩ 9
    (by decide) exResult5

end RailRouting

namespace RailRouting

/-! ## The connectivity map, exactly -/

theorem connGet_connModify (conn : List (Int × ConnectivityInfo)) (id : Int)
    (f : ConnectivityInfo → ConnectivityInfo) (id2 : Int) :
    connGet (connModify conn id f) id2 =
      if id = id2 then f (connGet conn id) else connGet conn id2 := by
  unfold connGet
  rw [mapFind_connModify]
  by_cases h : id = id2
  · rw [if_pos h, if_pos h]; rfl
  · rw [if_neg h, if_neg h]

theorem mapFind_connModify_isSome (conn : List (Int × ConnectivityInfo)) (id : Int)
    (f : ConnectivityInfo → ConnectivityInfo) (id2 : Int) :
    (mapFind (connModify conn id f) id2).isSome =
      (decide (id = id2) || (mapFind conn id2).isSome) := by
  rw [mapFind_connModify]
  by_cases h : id = id2
  · rw [if_pos h]; simp [h]
  · rw [if_neg h]; simp [h]

theorem endsFrom_cons (count : Nat) (x : Int) (i : Nat) (id : Int) (rest : List Int) :
    endsFrom count x i (id :: rest) =
      (if id = x then (if i = 0 ∨ i = count - 1 then 1 else 2) else 0) +
        endsFrom count x (i + 1) rest := rfl

theorem countWayNodes_connGet (count : Nat) (ids : List Int) (i : Nat)
    (conn : List (Int × ConnectivityInfo)) (x : Int) :
    connGet (countWayNodes count i ids conn) x =
      { nedges := (connGet conn x).nedges + endsFrom count x i ids
        nways := (connGet conn x).nways + ids.count x
        isstop := (connGet conn x).isstop } := by
  induction ids generalizing i conn with
  | nil => simp [countWayNodes, endsFrom]
  | cons hd tl ih =>
    unfold countWayNodes
    rw [ih, connGet_connModify, endsFrom_cons]
    by_cases h : hd = x
    · subst h
      simp only [if_true, List.count_cons_self]
      congr 1 <;> omega
    · simp only [if_neg h, Nat.zero_add]
      rw [List.count_cons_of_ne (fun h2 => h h2.symm)]

theorem countWays_connGet (ways : List (Int × Way)) (conn : List (Int × ConnectivityInfo))
    (x : Int) :
    connGet (ways.foldl countWayStep conn) x =
      { nedges := (connGet conn x).nedges + edgeEnds ways x
        nways := (connGet conn x).nways + occurrenceCount ways x
        isstop := (connGet conn x).isstop } := by
  induction ways generalizing conn with
  | nil => simp [edgeEnds, occurrenceCount]
  | cons hd tl ih =>
    rw [List.foldl_cons, ih]
    unfold countWayStep Way.GetNodesCount edgeEnds occurrenceCount
    simp only [List.map_cons, List.sum_cons]
    by_cases hc : hd.2.nodes_.length ≤ 1
    · have h2 : ¬ 2 ≤ hd.2.nodes_.length := by omega
      rw [if_pos hc, if_neg h2, if_neg h2]
      simp only [Nat.zero_add]
    · have h2 : 2 ≤ hd.2.nodes_.length := by omega
      rw [if_neg hc, if_pos h2, if_pos h2, countWayNodes_connGet]
      simp only
      congr 1 <;> omega

theorem addStopName_connGet (id : Int) (names : List String)
    (acc : List (String × Int) × List (Int × ConnectivityInfo)) (x : Int) :
    connGet (names.foldl (addStopName id) acc).2 x =
      if id = x ∧ names ≠ [] then { connGet acc.2 x with isstop := true }
      else connGet acc.2 x := by
  induction names generalizing acc with
  | nil => simp
  | cons n rest ih =>
    rw [List.foldl_cons, ih]
    simp only [addStopName, connGet_connModify]
    by_cases h : id = x
    · subst h
      simp only [true_and, if_true, ne_eq, not_false_eq_true, reduceCtorEq, List.cons_ne_nil]
      by_cases hr : rest = []
      · simp [hr]
      · simp [hr]
    · simp [h]

theorem findStops_connGet (nodes : List (Int × Node))
    (acc : List (String × Int) × List (Int × ConnectivityInfo)) (x : Int) :
    connGet (nodes.foldl findStopsStep acc).2 x =
      if ∃ entry ∈ nodes, entry.2.id_ = x ∧ markedStop entry.2 = true then
        { connGet acc.2 x with isstop := true }
      else connGet acc.2 x := by
  induction nodes generalizing acc with
  | nil => simp
  | cons e rest ih =>
    rw [List.foldl_cons, ih]
    have hstep : connGet (findStopsStep acc e).2 x =
        if e.2.id_ = x ∧ markedStop e.2 = true then { connGet acc.2 x with isstop := true }
        else connGet acc.2 x := by
      unfold findStopsStep markedStop
      by_cases hs : isStopNode e.2 = true
      · rw [if_pos hs, addStopName_connGet]
        simp [hs, List.isEmpty_iff]
      · rw [if_neg hs]
        simp [hs]
    rw [hstep]
    by_cases h1 : ∃ entry ∈ rest, entry.2.id_ = x ∧ markedStop entry.2 = true
    · have h2 : ∃ entry ∈ e :: rest, entry.2.id_ = x ∧ markedStop entry.2 = true := by
        obtain ⟨entry, hm, hp⟩ := h1
        exact ⟨entry, List.mem_cons_of_mem _ hm, hp⟩
      rw [if_pos h1, if_pos h2]
      by_cases h3 : e.2.id_ = x ∧ markedStop e.2 = true
      · rw [if_pos h3]
      · rw [if_neg h3]
    · rw [if_neg h1]
      by_cases h3 : e.2.id_ = x ∧ markedStop e.2 = true
      · have h2 : ∃ entry ∈ e :: rest, entry.2.id_ = x ∧ markedStop entry.2 = true :=
          ⟨e, List.mem_cons_self _ _, h3⟩
        rw [if_pos h3, if_pos h2]
      · have h2 : ¬ ∃ entry ∈ e :: rest, entry.2.id_ = x ∧ markedStop entry.2 = true := by
          rintro ⟨entry, hm, hp⟩
          rcases List.mem_cons.1 hm with hm | hm
          · subst hm; exact h3 hp
          · exact h1 ⟨entry, hm, hp⟩
        rw [if_neg h3, if_neg h2]

end RailRouting

namespace RailRouting

/-! ## The size of the edge arrays -/

theorem walkWay_lengths (geo : GeoMath) (nodes_ : List (Int × Node)) (idmap : List (Int × Nat))
    (way_id : Int) (way : Way) (rest : List Int) (node_pos : Nat) (walk : WayWalk)
    (rn rn1 : List RouteNode)
    (h : walkWay geo nodes_ idmap way_id way node_pos rest walk rn = .ok rn1) :
    ∀ u, (edgesOf rn1 u).length = (edgesOf rn u).length := by
  induction rest generalizing node_pos walk rn with
  | nil =>
    unfold walkWay at h
    simp only [Except.ok.injEq] at h
    subst h
    exact fun u => rfl
  | cons id rest ih =>
    unfold walkWay at h
    cases hn : mapFind nodes_ id with
    | none =>
      rw [hn] at h
      simp only [Except.ok.injEq] at h
      subst h
      exact fun u => rfl
    | some this_node =>
      rw [hn] at h
      simp only at h
      generalize (if node_pos = 1 then some this_node else walk.second_node) = sec at h
      by_cases h1 : node_pos = way.GetNodesCount - 1 ∧ mapFind idmap id = none
      · rw [if_pos h1] at h; simp at h
      rw [if_neg h1] at h
      by_cases h2 : ¬ (walk.start_node_pos < 65535 ∧ node_pos < 65535)
      · rw [if_pos h2] at h; simp at h
      rw [if_neg h2] at h
      cases hr : mapFind idmap id with
      | some trn =>
        rw [hr] at h
        simp only at h
        cases hc : commitEdges geo way_id way walk this_node sec
            (walk.dist + geo.Distance walk.prev_node this_node) trn node_pos rn with
        | error err => rw [hc] at h; simp at h
        | ok rn2 =>
          rw [hc] at h
          simp only at h
          obtain ⟨-, -, -, -, c5, -, -⟩ := commitEdges_spec _ _ _ _ _ _ _ _ _ _ _ hc
          intro u
          rw [ih _ _ _ h u, c5 u]
      | none =>
        rw [hr] at h
        simp only at h
        exact ih _ _ _ h

theorem splitWay_lengths (geo : GeoMath) (nodes_ : List (Int × Node))
    (idmap : List (Int × Nat)) (entry : Int × Way) (rn rn1 : List RouteNode)
    (h : splitWay geo nodes_ idmap rn entry = .ok rn1) :
    ∀ u, (edgesOf rn1 u).length = (edgesOf rn u).length := by
  unfold splitWay at h
  by_cases hc : entry.2.GetNodesCount < 2
  · rw [if_pos hc] at h
    simp only [Except.ok.injEq] at h
    subst h
    exact fun u => rfl
  · rw [if_neg hc] at h
    cases hl : entry.2.nodes_ with
    | nil =>
      rw [hl] at h
      simp only [Except.ok.injEq] at h
      subst h
      exact fun u => rfl
    | cons first rest =>
      rw [hl] at h
      simp only at h
      cases hf : mapFind nodes_ first with
      | none =>
        rw [hf] at h
        simp only [Except.ok.injEq] at h
        subst h
        exact fun u => rfl
      | some start_node =>
        rw [hf] at h
        simp only at h
        cases hi : mapFind idmap first with
        | none => rw [hi] at h; simp at h
        | some srn =>
          rw [hi] at h
          simp only at h
          exact walkWay_lengths _ _ _ _ _ _ _ _ _ _ h

theorem splitWays_lengths (geo : GeoMath) (nodes_ : List (Int × Node))
    (idmap : List (Int × Nat)) (ways : List (Int × Way)) (rn rn1 : List RouteNode)
    (h : splitWays geo nodes_ idmap ways rn = .ok rn1) :
    ∀ u, (edgesOf rn1 u).length = (edgesOf rn u).length := by
  induction ways generalizing rn with
  | nil =>
    unfold splitWays at h
    simp only [Except.ok.injEq] at h
    subst h
    exact fun u => rfl
  | cons entry rest ih =>
    unfold splitWays at h
    cases hs : splitWay geo nodes_ idmap rn entry with
    | error err => rw [hs] at h; simp at h
    | ok rn2 =>
      rw [hs] at h
      simp only at h
      intro u
      rw [ih _ h u, splitWay_lengths _ _ _ _ _ _ hs u]

/-- The state after the loop "create route nodes" of a compilation that completes. -/
theorem parse_created (geo : GeoMath) (ways : List Way) (nodes : List Node)
    (eng : Engine) (h : Parse geo ways nodes = .ok eng) :
    ∃ created,
      CreateInv (eng.ways_.foldl countWayStep (eng.nodes_.foldl findStopsStep ([], [])).2)
        created ∧
      splitWays geo eng.nodes_ created.id_to_routenode eng.ways_ created.route_nodes
        = .ok eng.route_nodes_ ∧
      IdMapOK created.id_to_routenode (routeIds eng.route_nodes_) ∧
      routeIds created.route_nodes = routeIds eng.route_nodes_ := by
  obtain ⟨hc, -, -, created, hcr, hsw, hidm, hids⟩ := parse_compiled_idmap geo ways nodes eng h
  have hinit : CreateInv
      (eng.ways_.foldl countWayStep (eng.nodes_.foldl findStopsStep ([], [])).2)
      { route_nodes := [], id_to_routenode := [],
        route_edge_pool := Engine.init.route_edge_pool_ } := by
    constructor
    · intro id i; simp [mapFind, routeIds]
    · intro u e he; simp [edgesOf] at he
    · intro r hr; simp at hr
  have hdist : eng.nodes_.Pairwise (fun a b => a.1 ≠ b.1) :=
    List.Pairwise.imp (fun hab => by omega) hc.nodes_sorted
  obtain ⟨c1, -, -, -⟩ := createRouteNodes_spec _ _ _ _ hinit hdist
    (by intro p _; simp [routeIds]) hcr
  exact ⟨created, c1, hsw, hidm, hids⟩

theorem connGet_initial (eng : Engine) (hs : SortedKeys eng.nodes_)
    (hk : KeyedById (fun n : Node => n.id_) eng.nodes_) (x : Int) :
    (connGet (eng.ways_.foldl countWayStep (eng.nodes_.foldl findStopsStep ([], [])).2) x).nedges
        = edgeEnds eng.ways_ x ∧
      (connGet (eng.ways_.foldl countWayStep (eng.nodes_.foldl findStopsStep ([], [])).2) x).nways
        = occurrenceCount eng.ways_ x ∧
      ∀ node, mapFind eng.nodes_ x = some node →
        (connGet (eng.ways_.foldl countWayStep
          (eng.nodes_.foldl findStopsStep ([], [])).2) x).isstop = markedStop node := by
  rw [countWays_connGet, findStops_connGet]
  have hempty : connGet ([] : List (Int × ConnectivityInfo)) x = ConnectivityInfo.empty := rfl
  simp only [hempty]
  refine ⟨?_, ?_, ?_⟩
  · split <;> simp [ConnectivityInfo.empty]
  · split <;> simp [ConnectivityInfo.empty]
  · intro node hn
    by_cases hm : markedStop node = true
    · have hex : ∃ entry ∈ eng.nodes_, entry.2.id_ = x ∧ markedStop entry.2 = true :=
        ⟨(x, node), mem_of_mapFind_eq_some _ _ _ hn,
          hk (x, node) (mem_of_mapFind_eq_some _ _ _ hn), hm⟩
      rw [if_pos hex, hm]
    · have hex : ¬ ∃ entry ∈ eng.nodes_, entry.2.id_ = x ∧ markedStop entry.2 = true := by
        rintro ⟨entry, he1, he2, he3⟩
        have hkey : entry.2.id_ = entry.1 := hk entry he1
        have hfind := mapFind_eq_some_of_mem eng.nodes_ entry.1 entry.2 hs he1
        rw [← hkey, he2, hn] at hfind
        injection hfind with hfind
        rw [hfind] at hm
        exact hm he3
      rw [if_neg hex]
      simp only [ConnectivityInfo.empty]
      cases h2 : markedStop node with
      | true => exact absurd h2 hm
      | false => rfl

theorem compiled_classification (geo : GeoMath) (ways : List Way) (nodes : List Node)
    (eng : Engine) (h : Parse geo ways nodes = .ok eng) (x : Int) (node : Node)
    (hn : mapFind eng.nodes_ x = some node) :
    x ∈ routeIds eng.route_nodes_ ↔
      (occurrenceCount eng.ways_ x > 1 ∨ edgeEnds eng.ways_ x ≠ 2 ∨ markedStop node = true) := by
  have hc := parse_compiled geo ways nodes eng h
  obtain ⟨created, -, -, -, -, hclass⟩ := parse_passes geo ways nodes eng h
  obtain ⟨c, hc1, hc2⟩ := hclass (x, node) (mem_of_mapFind_eq_some _ _ _ hn)
  obtain ⟨e1, e2, e3⟩ := connGet_initial eng hc.nodes_sorted hc.nodes_keyed x
  have hget : connGet (eng.ways_.foldl countWayStep
      (eng.nodes_.foldl findStopsStep ([], [])).2) x = c := by
    unfold connGet
    simp only at hc1
    rw [hc1]
    rfl
  rw [hget] at e1 e2 e3
  rw [hc2, e1, e2, e3 node hn]

theorem compiled_edgeCount (geo : GeoMath) (ways : List Way) (nodes : List Node)
    (eng : Engine) (h : Parse geo ways nodes = .ok eng) (r : RouteNode)
    (hr : r ∈ eng.route_nodes_) : r.edges.length = edgeEnds eng.ways_ r.osmid := by
  have hc := parse_compiled geo ways nodes eng h
  obtain ⟨created, hinv, hsw, -, hids⟩ := parse_created geo ways nodes eng h
  obtain ⟨u, hu⟩ := List.mem_iff_getElem?.1 hr
  have hlen := splitWays_lengths _ _ _ _ _ _ hsw u
  have hid : (routeIds created.route_nodes)[u]? = some r.osmid := by
    rw [hids]
    unfold routeIds
    rw [List.getElem?_map, hu]
    rfl
  unfold routeIds at hid
  rw [List.getElem?_map] at hid
  cases h0 : created.route_nodes[u]? with
  | none => rw [h0] at hid; simp at hid
  | some r0 =>
    rw [h0] at hid
    simp only [Option.map_some', Option.some.injEq] at hid
    obtain ⟨c, c1, c2, -⟩ := hinv.counted r0 (mem_of_getElem?_eq_some _ _ _ h0)
    obtain ⟨e1, -, -⟩ := connGet_initial eng hc.nodes_sorted hc.nodes_keyed r0.osmid
    have hget : connGet (eng.ways_.foldl countWayStep
        (eng.nodes_.foldl findStopsStep ([], [])).2) r0.osmid = c := by
      unfold connGet
      rw [c1]
      rfl
    rw [hget] at e1
    unfold edgesOf at hlen
    rw [hu, h0] at hlen
    simp only at hlen
    rw [hlen, c2, e1, hid]

end RailRouting

namespace RailRouting

/-! ## Free edge slots -/

theorem fillSlot_free (edges : List RouteEdge) (e : RouteEdge) (edges1 : List RouteEdge)
    (he : e.osmid ≠ 0) (h : fillSlot edges e = some edges1) :
    edges.countP (fun x => x.osmid = 0) = edges1.countP (fun x => x.osmid = 0) + 1 := by
  induction edges generalizing edges1 with
  | nil => simp [fillSlot] at h
  | cons slot rest ih =>
    unfold fillSlot at h
    by_cases h0 : slot.osmid = 0
    · rw [if_pos h0] at h
      injection h with h
      subst h
      rw [List.countP_cons_of_pos _ _ (by simpa using h0),
        List.countP_cons_of_neg _ _ (by simpa using he)]
    · rw [if_neg h0] at h
      cases hf : fillSlot rest e with
      | none => rw [hf] at h; simp at h
      | some rest1 =>
        rw [hf] at h
        injection h with h
        subst h
        rw [List.countP_cons_of_neg _ _ (by simpa using h0),
          List.countP_cons_of_neg _ _ (by simpa using h0)]
        exact ih rest1 hf

theorem addEdge_free (rn : List RouteNode) (n : Nat) (e : RouteEdge) (rn1 : List RouteNode)
    (he : e.osmid ≠ 0) (h : addEdge rn n e = .ok rn1) (u : Nat) :
    freeSlots rn u = freeSlots rn1 u + (if u = n then 1 else 0) := by
  unfold addEdge at h
  cases hr : rn[n]? with
  | none => rw [hr] at h; simp at h
  | some r =>
    rw [hr] at h
    simp only at h
    cases hf : fillSlot r.edges e with
    | none => rw [hf] at h; simp at h
    | some edges1 =>
      rw [hf] at h
      simp only [Except.ok.injEq] at h
      subst h
      obtain ⟨hn, -⟩ := List.getElem?_eq_some.1 hr
      unfold freeSlots
      rw [edgesOf_set _ _ _ _ hn]
      by_cases hu : u = n
      · rw [if_pos hu, if_pos hu, hu]
        have hedges : edgesOf rn n = r.edges := by unfold edgesOf; rw [hr]
        rw [hedges]
        exact fillSlot_free _ _ _ he hf
      · rw [if_neg hu, if_neg hu]
        rfl

theorem commitEdges_free (geo : GeoMath) (way_id : Int) (way : Way) (walk : WayWalk)
    (this_node : Node) (second_node : Option Node) (dist : Int) (trn node_pos : Nat)
    (rn rn2 : List RouteNode) (h0 : way_id ≠ 0) (hf : forwardAllowed way = true)
    (hb : backwardAllowed way = true)
    (h : commitEdges geo way_id way walk this_node second_node dist trn node_pos rn = .ok rn2)
    (u : Nat) :
    freeSlots rn u = freeSlots rn2 u + (if u = walk.start_route_node then 1 else 0) +
      (if u = trn then 1 else 0) := by
  rw [commitEdges_eq, if_pos hf] at h
  cases ha : addEdge rn walk.start_route_node
      (forwardEdge geo way_id walk this_node second_node dist trn node_pos) with
  | error err => rw [ha] at h; simp at h
  | ok rn1 =>
    rw [ha] at h
    simp only at h
    rw [if_pos hb] at h
    have e1 := addEdge_free _ _ _ _ (by simpa [forwardEdge] using h0) ha u
    have e2 := addEdge_free _ _ _ _ (by simpa [backwardEdge] using h0) h u
    omega

theorem walkWay_free (geo : GeoMath) (nodes_ : List (Int × Node)) (idmap : List (Int × Nat))
    (ids : List Int) (hid : IdMapOK idmap ids) (way_id : Int) (way : Way) (h0 : way_id ≠ 0)
    (hf : forwardAllowed way = true) (hb : backwardAllowed way = true)
    (u : Nat) (x : Int) (hu : ids[u]? = some x)
    (rest : List Int) (node_pos : Nat) (walk : WayWalk) (rn rn1 : List RouteNode)
    (hcount : node_pos + rest.length = way.GetNodesCount)
    (hres : ∀ id ∈ rest, ∃ node, mapFind nodes_ id = some node)
    (hs : walk.start_node_pos < node_pos)
    (hlast : rest = [] → walk.start_node_pos = way.GetNodesCount - 1)
    (h : walkWay geo nodes_ idmap way_id way node_pos rest walk rn = .ok rn1) :
    freeSlots rn u = freeSlots rn1 u +
      (if walk.start_node_pos < way.GetNodesCount - 1 ∧ u = walk.start_route_node then 1
        else 0) +
      endsFrom way.GetNodesCount x node_pos rest := by
  induction rest generalizing node_pos walk rn with
  | nil =>
    unfold walkWay at h
    simp only [Except.ok.injEq] at h
    subst h
    have := hlast rfl
    have hn : ¬ (walk.start_node_pos < way.GetNodesCount - 1 ∧ u = walk.start_route_node) := by
      rintro ⟨h1, -⟩; omega
    rw [if_neg hn]
    simp [endsFrom]
  | cons id rest ih =>
    obtain ⟨this_node, hn⟩ := hres id (List.mem_cons_self _ _)
    have hres2 : ∀ id ∈ rest, ∃ node, mapFind nodes_ id = some node :=
      fun i hi => hres i (List.mem_cons_of_mem _ hi)
    simp only [List.length_cons] at hcount
    unfold walkWay at h
    rw [hn] at h
    simp only at h
    generalize (if node_pos = 1 then some this_node else walk.second_node) = sec at h
    by_cases h1 : node_pos = way.GetNodesCount - 1 ∧ mapFind idmap id = none
    · rw [if_pos h1] at h; simp at h
    rw [if_neg h1] at h
    by_cases h2 : ¬ (walk.start_node_pos < 65535 ∧ node_pos < 65535)
    · rw [if_pos h2] at h; simp at h
    rw [if_neg h2] at h
    have hstart : walk.start_node_pos < way.GetNodesCount - 1 := by omega
    rw [endsFrom_cons]
    have hnp : ¬ (node_pos = 0 ∨ node_pos = way.GetNodesCount - 1) ↔ rest ≠ [] := by
      constructor
      · intro hh hr
        rw [hr] at hcount
        simp only [List.length_nil] at hcount
        exact hh (Or.inr (by omega))
      · intro hh hr
        have hl : 0 < rest.length := List.length_pos.2 hh
        omega
    cases hr : mapFind idmap id with
    | some trn =>
      rw [hr] at h
      simp only at h
      cases hc : commitEdges geo way_id way walk this_node sec
          (walk.dist + geo.Distance walk.prev_node this_node) trn node_pos rn with
      | error err => rw [hc] at h; simp at h
      | ok rn2 =>
        rw [hc] at h
        simp only at h
        have e1 := commitEdges_free geo way_id way walk this_node sec _ trn node_pos rn rn2 h0
          hf hb hc u
        have e2 := ih (node_pos + 1) _ rn2 (by omega) hres2 (by simp)
          (by
            intro hr2
            rw [hr2] at hcount
            simp only [List.length_nil] at hcount
            simp only
            omega) h
        simp only at e2
        have hiff : u = trn ↔ id = x := by
          have h3 := (hid id trn).1 hr
          constructor
          · intro h4
            rw [← h4, hu] at h3
            injection h3 with h3
            exact h3.symm
          · intro h4
            have h5 := (hid x u).2 hu
            rw [← h4, hr] at h5
            injection h5 with h5
            exact h5.symm
        by_cases hx : id = x
        · have hut : u = trn := hiff.2 hx
          rw [if_pos hx]
          rw [if_pos hut] at e1
          by_cases hrest : rest = []
          · have hpos : node_pos = 0 ∨ node_pos = way.GetNodesCount - 1 := by
              by_contra hh
              exact (hnp.1 hh) hrest
            have hnl : ¬ (node_pos < way.GetNodesCount - 1 ∧ u = trn) := by
              rintro ⟨h5, -⟩
              rw [hrest] at hcount
              simp only [List.length_nil] at hcount
              omega
            rw [if_pos hpos]
            rw [if_neg hnl] at e2
            by_cases hus : u = walk.start_route_node
            · rw [if_pos ⟨hstart, hus⟩]
              rw [if_pos hus] at e1
              omega
            · rw [if_neg (fun hh => hus hh.2)]
              rw [if_neg hus] at e1
              omega
          · have hpos : ¬ (node_pos = 0 ∨ node_pos = way.GetNodesCount - 1) := hnp.2 hrest
            have hl : 0 < rest.length := List.length_pos.2 hrest
            have hnl : node_pos < way.GetNodesCount - 1 ∧ u = trn := ⟨by omega, hut⟩
            rw [if_neg hpos]
            rw [if_pos hnl] at e2
            by_cases hus : u = walk.start_route_node
            · rw [if_pos ⟨hstart, hus⟩]
              rw [if_pos hus] at e1
              omega
            · rw [if_neg (fun hh => hus hh.2)]
              rw [if_neg hus] at e1
              omega
        · have hut : ¬ u = trn := fun hh => hx (hiff.1 hh)
          rw [if_neg hx]
          rw [if_neg hut] at e1
          rw [if_neg (fun hh => hut hh.2)] at e2
          by_cases hus : u = walk.start_route_node
          · rw [if_pos ⟨hstart, hus⟩]
            rw [if_pos hus] at e1
            omega
          · rw [if_neg (fun hh => hus hh.2)]
            rw [if_neg hus] at e1
            omega
    | none =>
      rw [hr] at h
      simp only at h
      have hx : ¬ id = x := by
        intro hh
        have h5 := (hid x u).2 hu
        rw [← hh, hr] at h5
        simp at h5
      have hne : rest ≠ [] := by
        intro hr2
        rw [hr2] at hcount
        simp only [List.length_nil] at hcount
        exact h1 ⟨by omega, hr⟩
      have e2 := ih (node_pos + 1) _ rn (by omega) hres2 (by simp only; omega)
        (fun hh => absurd hh hne) h
      simp only at e2
      rw [if_neg hx]
      omega

end RailRouting

namespace RailRouting

theorem splitWay_free (geo : GeoMath) (nodes_ : List (Int × Node)) (idmap : List (Int × Nat))
    (ids : List Int) (hid : IdMapOK idmap ids) (entry : Int × Way) (h0 : entry.1 ≠ 0)
    (hf : forwardAllowed entry.2 = true) (hb : backwardAllowed entry.2 = true)
    (hres : ∀ id ∈ entry.2.nodes_, ∃ node, mapFind nodes_ id = some node)
    (u : Nat) (x : Int) (hu : ids[u]? = some x) (rn rn1 : List RouteNode)
    (h : splitWay geo nodes_ idmap rn entry = .ok rn1) :
    freeSlots rn u = freeSlots rn1 u +
      (if 2 ≤ entry.2.nodes_.length then endsFrom entry.2.nodes_.length x 0 entry.2.nodes_
        else 0) := by
  unfold splitWay at h
  by_cases hc : entry.2.GetNodesCount < 2
  · rw [if_pos hc] at h
    simp only [Except.ok.injEq] at h
    subst h
    unfold Way.GetNodesCount at hc
    rw [if_neg (by omega)]
    rfl
  · rw [if_neg hc] at h
    have hc2 : 2 ≤ entry.2.nodes_.length := by
      unfold Way.GetNodesCount at hc
      omega
    rw [if_pos hc2]
    cases hl : entry.2.nodes_ with
    | nil => rw [hl] at hc2; simp at hc2
    | cons first rest =>
      rw [hl] at h
      simp only at h
      obtain ⟨start_node, hfn⟩ := hres first (by rw [hl]; exact List.mem_cons_self _ _)
      rw [hfn] at h
      simp only at h
      cases hi : mapFind idmap first with
      | none => rw [hi] at h; simp at h
      | some srn =>
        rw [hi] at h
        simp only at h
        have hcnt : entry.2.GetNodesCount = rest.length + 1 := by
          unfold Way.GetNodesCount
          rw [hl]
          rfl
        have hrl : 0 < rest.length := by
          rw [hl] at hc2
          simp only [List.length_cons] at hc2
          omega
        have hw := walkWay_free geo nodes_ idmap ids hid entry.1 entry.2 h0 hf hb u x hu rest 1
          _ rn rn1 (by rw [hcnt]; omega)
          (fun id hm => hres id (by rw [hl]; exact List.mem_cons_of_mem _ hm))
          (by simp) (fun hh => by rw [hh] at hrl; simp at hrl) h
        simp only at hw
        rw [hcnt] at hw
        rw [endsFrom_cons]
        simp only [List.length_cons, Nat.zero_add]
        have hiff : u = srn ↔ first = x := by
          have h3 := (hid first srn).1 hi
          constructor
          · intro h4
            rw [← h4, hu] at h3
            injection h3 with h3
            exact h3.symm
          · intro h4
            have h5 := (hid x u).2 hu
            rw [← h4, hi] at h5
            injection h5 with h5
            exact h5.symm
        by_cases hx : first = x
        · rw [if_pos hx, if_pos (Or.inl trivial)]
          rw [if_pos ⟨by omega, hiff.2 hx⟩] at hw
          omega
        · rw [if_neg hx]
          rw [if_neg (fun hh => hx (hiff.1 hh.2))] at hw
          omega

theorem splitWays_free (geo : GeoMath) (nodes_ : List (Int × Node))
    (idmap : List (Int × Nat)) (ids : List Int) (hid : IdMapOK idmap ids)
    (ways : List (Int × Way))
    (hall : ∀ entry ∈ ways, entry.1 ≠ 0 ∧ forwardAllowed entry.2 = true ∧
      backwardAllowed entry.2 = true ∧
      ∀ id ∈ entry.2.nodes_, ∃ node, mapFind nodes_ id = some node)
    (u : Nat) (x : Int) (hu : ids[u]? = some x) (rn rn1 : List RouteNode)
    (h : splitWays geo nodes_ idmap ways rn = .ok rn1) :
    freeSlots rn u = freeSlots rn1 u + edgeEnds ways x := by
  induction ways generalizing rn with
  | nil =>
    unfold splitWays at h
    simp only [Except.ok.injEq] at h
    subst h
    simp [edgeEnds]
  | cons entry rest ih =>
    unfold splitWays at h
    cases hs : splitWay geo nodes_ idmap rn entry with
    | error err => rw [hs] at h; simp at h
    | ok rn2 =>
      rw [hs] at h
      simp only at h
      obtain ⟨a1, a2, a3, a4⟩ := hall entry (List.mem_cons_self _ _)
      have e1 := splitWay_free geo nodes_ idmap ids hid entry a1 a2 a3 a4 u x hu rn rn2 hs
      have e2 := ih (fun e he => hall e (List.mem_cons_of_mem _ he)) rn2 h
      unfold edgeEnds at e2 ⊢
      simp only [List.map_cons, List.sum_cons]
      omega

/-- On well-formed input without one of the four direction tag values that suppress an
edge and without a way of id 0, the split of the ways leaves no free edge slot. -/
theorem compiled_no_free_slot (geo : GeoMath) (ways : List Way) (nodes : List Node)
    (eng : Engine) (hparse : Parse geo ways nodes = .ok eng)
    (hwf : WellFormed (storedWays eng) eng.nodes_)
    (htags : NoDirectionLimit (storedWays eng))
    (hzero : ∀ way ∈ storedWays eng, way.id_ ≠ 0) (u : Nat) :
    freeSlots eng.route_nodes_ u = 0 := by
  have hc := parse_compiled geo ways nodes eng hparse
  obtain ⟨created, hinv, hsw, hidm, hids⟩ := parse_created geo ways nodes eng hparse
  cases hr : eng.route_nodes_[u]? with
  | none =>
    unfold freeSlots edgesOf
    rw [hr]
    rfl
  | some r =>
    have hx : (routeIds eng.route_nodes_)[u]? = some r.osmid := by
      unfold routeIds
      rw [List.getElem?_map, hr]
      rfl
    have hall : ∀ entry ∈ eng.ways_, entry.1 ≠ 0 ∧ forwardAllowed entry.2 = true ∧
        backwardAllowed entry.2 = true ∧
        ∀ id ∈ entry.2.nodes_, ∃ node, mapFind eng.nodes_ id = some node := by
      intro entry he
      have hway : mapFind eng.ways_ entry.1 = some entry.2 :=
        mapFind_eq_some_of_mem _ _ _ hc.ways_sorted he
      obtain ⟨t1, t2, t3, t4⟩ := htags entry.2 (mem_storedWays eng entry.1 entry.2 hway)
      have hf : forwardAllowed entry.2 = true := (forwardAllowed_iff entry.2).2 ⟨t1, t3⟩
      have hb : backwardAllowed entry.2 = true := (backwardAllowed_iff entry.2).2 ⟨t2, t4⟩
      obtain ⟨-, hres⟩ := wellFormed_resolves eng hwf entry.1 entry.2 hway
      refine ⟨?_, hf, hb, ?_⟩
      · have hk : entry.2.id_ = entry.1 := hc.ways_keyed entry he
        rw [← hk]
        exact hzero entry.2 (mem_storedWays eng entry.1 entry.2 hway)
      · intro id hm
        obtain ⟨i, hi⟩ := List.mem_iff_getElem?.1 hm
        exact hres i id hi
    have hfree := splitWays_free geo eng.nodes_ created.id_to_routenode
      (routeIds eng.route_nodes_) hidm eng.ways_ hall u r.osmid hx created.route_nodes
      eng.route_nodes_ hsw
    have hlen := splitWays_lengths _ _ _ _ _ _ hsw u
    have hcount := compiled_edgeCount geo ways nodes eng hparse r
      (mem_of_getElem?_eq_some _ _ _ hr)
    have hfull : freeSlots created.route_nodes u = (edgesOf created.route_nodes u).length := by
      unfold freeSlots
      rw [List.countP_eq_length]
      intro e he
      rw [hinv.empty u e he]
      simp [RouteEdge.empty]
    have hfin : (edgesOf eng.route_nodes_ u).length = r.edges.length := by
      unfold edgesOf
      rw [hr]
    omega

end RailRouting

namespace RailRouting

/-! ## Claims on the compiled graph -/

/-- C14 (the code at the failing input). With the rail way 20 = [9] of a single node
reference in the input next to scenario S1, node 9 is loaded, gets no entry in the
connectivity map, and the compilation stops at `assert(connectivity != end)` of the loop
"create route nodes"; without that way the same nodes compile to the engine of S1. -/
theorem Prepare_single_node_way_asserts :
    Parse exGeo [exWay, exWaySingle] [exNode1, exNode2, exNode3, exNode9]
        = .error .assertConnectivity ∧
      Parse exGeo [exWay] [exNode1, exNode2, exNode3, exNode9] = .ok exEngine := by
  exact ⟨by rfl, by rfl⟩

/-- C15 (counterexample). Compilations of well-formed input that leave an edge slot with
the way id 0. In scenario S2 the way has `oneway=yes`: the slot of routing node 1 (node 3)
that was counted for the backward edge stays as constructed. With the way id 0 every slot
has the way id 0, written or not. The same scenario with `designated_direction=forward`
leaves the slot of routing node 1 free, and with `oneway=-1` or with
`designated_direction=backward` the slot of routing node 0 that was counted for the
forward edge. -/
theorem Prepare_leaves_free_slot :
    (Parse exGeo [exWayOneway] [exNode1, exNode2, exNode3] = .ok exEngineOneway ∧
      WellFormed [exWayOneway] exEngineOneway.nodes_ ∧
      ∃ r ∈ exEngineOneway.route_nodes_, ∃ e ∈ r.edges, e.osmid = 0) ∧
    (Parse exGeo [exWayZero] [exNode1, exNode2Stop, exNode3] = .ok exEngineZero ∧
      WellFormed [exWayZero] exEngineZero.nodes_ ∧
      NoDirectionTags [exWayZero] ∧
      ∃ r ∈ exEngineZero.route_nodes_, ∃ e ∈ r.edges, e.osmid = 0) ∧
    (Parse exGeo [exWayDirForward] [exNode1, exNode2, exNode3]
        = .ok (exEngineForwardOnly exWayDirForward) ∧
      WellFormed [exWayDirForward] (exEngineForwardOnly exWayDirForward).nodes_ ∧
      ∃ r ∈ (exEngineForwardOnly exWayDirForward).route_nodes_, ∃ e ∈ r.edges, e.osmid = 0) ∧
    (Parse exGeo [exWayOnewayMinus] [exNode1, exNode2, exNode3]
        = .ok (exEngineBackOnly exWayOnewayMinus) ∧
      WellFormed [exWayOnewayMinus] (exEngineBackOnly exWayOnewayMinus).nodes_ ∧
      ∃ r ∈ (exEngineBackOnly exWayOnewayMinus).route_nodes_, ∃ e ∈ r.edges, e.osmid = 0) ∧
    (Parse exGeo [exWayDirBackward] [exNode1, exNode2, exNode3]
        = .ok (exEngineBackOnly exWayDirBackward) ∧
      WellFormed [exWayDirBackward] (exEngineBackOnly exWayDirBackward).nodes_ ∧
      ∃ r ∈ (exEngineBackOnly exWayDirBackward).route_nodes_, ∃ e ∈ r.edges, e.osmid = 0) := by
  refine ⟨⟨by rfl, by unfold WellFormed; decide, ?_⟩,
    ⟨by rfl, by unfold WellFormed; decide, by unfold NoDirectionTags; decide, ?_⟩,
    ⟨by rfl, by unfold WellFormed; decide, ?_⟩,
    ⟨by rfl, by unfold WellFormed; decide, ?_⟩,
    ⟨by rfl, by unfold WellFormed; decide, ?_⟩⟩
  · exact ⟨⟨3, [RouteEdge.empty]⟩, by decide, RouteEdge.empty, by decide, rfl⟩
  · exact ⟨⟨1, [⟨0, 0, 1, 1, 0, 10000⟩]⟩, by decide, ⟨0, 0, 1, 1, 0, 10000⟩, by decide, rfl⟩
  · exact ⟨⟨3, [RouteEdge.empty]⟩, by decide, RouteEdge.empty, by decide, rfl⟩
  · exact ⟨⟨1, [RouteEdge.empty]⟩, by decide, RouteEdge.empty, by decide, rfl⟩
  · exact ⟨⟨1, [RouteEdge.empty]⟩, by decide, RouteEdge.empty, by decide, rfl⟩

/-- C15 (amended). After a compilation that completes, if every way of the way map has at
least 2 node references, all resolving in the node map, none of the tag values
`oneway=-1`, `oneway=yes`, `designated_direction=backward` and
`designated_direction=forward` that the tests of lines 176 and 193 look for, and an id
other than 0, then every edge slot of every routing node is populated (its way id is not
0), and the number of populated slots of each routing node equals its `nedges`, which is
the incident-edge-ends count of its node. -/
theorem Prepare_slots_populated (geo : GeoMath) (ways : List Way) (nodes : List Node)
    (eng : Engine) (hparse : Parse geo ways nodes = .ok eng)
    (hwf : WellFormed (storedWays eng) eng.nodes_)
    (htags : NoDirectionLimit (storedWays eng))
    (hzero : ∀ way ∈ storedWays eng, way.id_ ≠ 0) :
    ∀ r ∈ eng.route_nodes_, (∀ e ∈ r.edges, e.osmid ≠ 0) ∧
      r.edges.countP (fun e => e.osmid ≠ 0) = r.nedges ∧
      r.nedges = edgeEnds eng.ways_ r.osmid := by
  intro r hr
  obtain ⟨u, hu⟩ := List.mem_iff_getElem?.1 hr
  have hfree := compiled_no_free_slot geo ways nodes eng hparse hwf htags hzero u
  unfold freeSlots edgesOf at hfree
  rw [hu] at hfree
  simp only at hfree
  have hall : ∀ e ∈ r.edges, e.osmid ≠ 0 := by
    intro e he h0
    have hpos : 0 < List.countP (fun e => decide (e.osmid = 0)) r.edges :=
      List.countP_pos_iff.2 ⟨e, he, by simpa using h0⟩
    omega
  refine ⟨hall, ?_, compiled_edgeCount geo ways nodes eng hparse r hr⟩
  unfold RouteNode.nedges
  rw [List.countP_eq_length]
  intro e he
  simpa using hall e he

/-- C15 (witness). Scenario S1 with the tag `oneway=no` on its way: the input is well
formed, the way has a direction tag but none of the four values, and its id is not 0; the
single slot of routing node 0 is populated. -/
theorem Prepare_slots_populated_witness :
    Parse exGeo [exWayOnewayNo] [exNode1, exNode2, exNode3] = .ok exEngineOnewayNo ∧
      exWayOnewayNo.tags.GetTag "oneway" = some "no" ∧
      (∀ e ∈ (⟨1, [⟨10, 0, 2, 1, 0, 20000⟩]⟩ : RouteNode).edges, e.osmid ≠ 0) ∧
      (⟨1, [⟨10, 0, 2, 1, 0, 20000⟩]⟩ : RouteNode).edges.countP (fun e => e.osmid ≠ 0) =
        (⟨1, [⟨10, 0, 2, 1, 0, 20000⟩]⟩ : RouteNode).nedges ∧
      (⟨1, [⟨10, 0, 2, 1, 0, 20000⟩]⟩ : RouteNode).nedges =
        edgeEnds exEngineOnewayNo.ways_ (⟨1, [⟨10, 0, 2, 1, 0, 20000⟩]⟩ : RouteNode).osmid :=
  ⟨by rfl, by rfl,
    Prepare_slots_populated exGeo [exWayOnewayNo] [exNode1, exNode2, exNode3] exEngineOnewayNo
      (by rfl) (by unfold WellFormed; decide) (by unfold NoDirectionLimit; decide) (by decide)
      ⟨1, [⟨10, 0, 2, 1, 0, 20000⟩]⟩ (by decide)⟩

/-- C16. After a compilation that completes, every populated edge `e` (its `node` is not
-1) of a routing node `u` leads to a routing node `s`; its way id resolves in the way map;
`start_pos` and `end_pos` are distinct positions of the node list of that way; the node
reference at `start_pos` is the osmid of `u` and the one at `end_pos` the osmid of `s`, and
they resolve to the source nodes of `u` and of `s`; and no node reference strictly between
the two positions is the osmid of a routing node. -/
theorem Prepare_edge_geometry (geo : GeoMath) (ways : List Way) (nodes : List Node)
    (eng : Engine) (hparse : Parse geo ways nodes = .ok eng) (u : Nat) (e : RouteEdge)
    (he : e ∈ edgesOf eng.route_nodes_ u) (hne : e.node ≠ -1) :
    ∃ s way ru rs nu ns, e.node = Int.ofNat s ∧ mapFind eng.ways_ e.osmid = some way ∧
      e.start_pos < way.nodes_.length ∧ e.end_pos < way.nodes_.length ∧
      e.start_pos ≠ e.end_pos ∧
      eng.route_nodes_[u]? = some ru ∧ eng.route_nodes_[s]? = some rs ∧
      way.nodes_[e.start_pos]? = some ru.osmid ∧ way.nodes_[e.end_pos]? = some rs.osmid ∧
      sourceNode eng u = some nu ∧ nodeAt eng.nodes_ way e.start_pos = some nu ∧
      sourceNode eng s = some ns ∧ nodeAt eng.nodes_ way e.end_pos = some ns ∧
      ∀ pos, min e.start_pos e.end_pos < pos → pos < max e.start_pos e.end_pos →
        ∀ id, way.nodes_[pos]? = some id → ∀ r ∈ eng.route_nodes_, r.osmid ≠ id := by
  have hc := parse_compiled geo ways nodes eng hparse
  rcases hc.edges u e he with hemp | ⟨s, way, hp⟩
  · rw [hemp] at hne
    exact absurd rfl hne
  · obtain ⟨ids, hs1, hs2⟩ := hp.start_id
    obtain ⟨ide, he1, he2⟩ := hp.end_id
    have hget : ∀ (i : Nat) (id : Int), (routeIds eng.route_nodes_)[i]? = some id →
        ∃ r, eng.route_nodes_[i]? = some r ∧ r.osmid = id := by
      intro i id hi
      unfold routeIds at hi
      rw [List.getElem?_map] at hi
      cases hr : eng.route_nodes_[i]? with
      | none => rw [hr] at hi; simp at hi
      | some r =>
        rw [hr] at hi
        simp only [Option.map_some', Option.some.injEq] at hi
        exact ⟨r, rfl, hi⟩
    obtain ⟨ru, hru, hru2⟩ := hget u ids hs2
    obtain ⟨rs, hrs, hrs2⟩ := hget s ide he2
    obtain ⟨nu, hnu⟩ := hp.resolves e.start_pos (Nat.min_le_left _ _) (Nat.le_max_left _ _)
    obtain ⟨ns, hns⟩ := hp.resolves e.end_pos (Nat.min_le_right _ _) (Nat.le_max_right _ _)
    have hsrc : ∀ (i : Nat) (r : RouteNode) (pos : Nat) (n : Node),
        eng.route_nodes_[i]? = some r → way.nodes_[pos]? = some r.osmid →
        nodeAt eng.nodes_ way pos = some n → sourceNode eng i = some n := by
      intro i r pos n h1 h2 h3
      unfold sourceNode
      rw [h1]
      unfold nodeAt at h3
      rw [h2] at h3
      exact h3
    refine ⟨s, way, ru, rs, nu, ns, hp.node_eq, hp.way_found,
      (List.getElem?_eq_some.1 hs1).1, (List.getElem?_eq_some.1 he1).1, hp.pos_ne, hru, hrs,
      by rw [hru2]; exact hs1, by rw [hrs2]; exact he1,
      hsrc u ru _ nu hru (by rw [hru2]; exact hs1) hnu, hnu,
      hsrc s rs _ ns hrs (by rw [hrs2]; exact he1) hns, hns, ?_⟩
    intro pos h1 h2 id hid r hr hrid
    apply hp.interior pos h1 h2 id hid
    unfold routeIds
    exact List.mem_map.2 ⟨r, hr, hrid⟩

/-- C16 (witness). Scenario S1: the edge of routing node 0 runs along the way 10 from
position 0 (node 1) to position 2 (node 3, routing node 1). -/
theorem Prepare_edge_geometry_witness :
    ∃ s way ru rs nu ns, (⟨10, 0, 2, 1, 0, 20000⟩ : RouteEdge).node = Int.ofNat s ∧
      mapFind exEngine.ways_ (⟨10, 0, 2, 1, 0, 20000⟩ : RouteEdge).osmid = some way ∧
      (⟨10, 0, 2, 1, 0, 20000⟩ : RouteEdge).start_pos < way.nodes_.length ∧
      (⟨10, 0, 2, 1, 0, 20000⟩ : RouteEdge).end_pos < way.nodes_.length ∧
      (⟨10, 0, 2, 1, 0, 20000⟩ : RouteEdge).start_pos ≠
        (⟨10, 0, 2, 1, 0, 20000⟩ : RouteEdge).end_pos ∧
      exEngine.route_nodes_[0]? = some ru ∧ exEngine.route_nodes_[s]? = some rs ∧
      way.nodes_[(⟨10, 0, 2, 1, 0, 20000⟩ : RouteEdge).start_pos]? = some ru.osmid ∧
      way.nodes_[(⟨10, 0, 2, 1, 0, 20000⟩ : RouteEdge).end_pos]? = some rs.osmid ∧
      sourceNode exEngine 0 = some nu ∧
      nodeAt exEngine.nodes_ way (⟨10, 0, 2, 1, 0, 20000⟩ : RouteEdge).start_pos = some nu ∧
      sourceNode exEngine s = some ns ∧
      nodeAt exEngine.nodes_ way (⟨10, 0, 2, 1, 0, 20000⟩ : RouteEdge).end_pos = some ns ∧
      ∀ pos, min (⟨10, 0, 2, 1, 0, 20000⟩ : RouteEdge).start_pos
            (⟨10, 0, 2, 1, 0, 20000⟩ : RouteEdge).end_pos < pos →
        pos < max (⟨10, 0, 2, 1, 0, 20000⟩ : RouteEdge).start_pos
            (⟨10, 0, 2, 1, 0, 20000⟩ : RouteEdge).end_pos →
        ∀ id, way.nodes_[pos]? = some id → ∀ r ∈ exEngine.route_nodes_, r.osmid ≠ id :=
  Prepare_edge_geometry exGeo [exWay] [exNode1, exNode2, exNode3] exEngine (by rfl) 0
    ⟨10, 0, 2, 1, 0, 20000⟩ (by decide) (by decide)

end RailRouting

namespace RailRouting

/-! ## Claims on stops and junctions -/

theorem markedStop_iff (node : Node) :
    markedStop node = true ↔ (StopPredicate node ∧ ∃ name, CarriesName node name) := by
  unfold markedStop
  rw [Bool.and_eq_true, isStopNode_iff]
  constructor
  · rintro ⟨h1, h2⟩
    refine ⟨h1, ?_⟩
    cases hs : stopNames node with
    | nil => rw [hs] at h2; simp at h2
    | cons n rest =>
      exact ⟨n, (mem_stopNames_iff node n).1 (by rw [hs]; exact List.mem_cons_self _ _)⟩
  · rintro ⟨h1, name, h2⟩
    refine ⟨h1, ?_⟩
    have hm := (mem_stopNames_iff node name).2 h2
    cases hs : stopNames node with
    | nil => rw [hs] at hm; simp at hm
    | cons n rest => rfl

theorem mem_routeIds_iff (rn : List RouteNode) (id : Int) :
    id ∈ routeIds rn ↔ ∃ r ∈ rn, r.osmid = id := by
  unfold routeIds
  exact List.mem_map

/-- C17 (counterexample). In scenario S1 with node 2 a station that has none of the three
name tags, the compilation completes, node 2 is in the node map and satisfies the stop
predicate, and no routing node has node 2 as its source node. -/
theorem Prepare_unnamed_stop_not_routing :
    Parse exGeo [exWay] [exNode1, exNode2Unnamed, exNode3] = .ok exEngineUnnamed ∧
      mapFind exEngineUnnamed.nodes_ 2 = some exNode2Unnamed ∧
      StopPredicate exNode2Unnamed ∧
      ¬ ∃ r ∈ exEngineUnnamed.route_nodes_, r.osmid = 2 := by
  refine ⟨by rfl, by rfl, Or.inl (by rfl), by decide⟩

/-- C17 (amended). After a compilation that completes, every node of the node map that
satisfies the stop predicate of the rail selector and has at least one of the tags `name`,
`alt_name`, `official_name` is a routing node: some routing node has its id as osmid and
the node as its source node. -/
theorem Prepare_named_stop_routing (geo : GeoMath) (ways : List Way) (nodes : List Node)
    (eng : Engine) (hparse : Parse geo ways nodes = .ok eng) (id : Int) (node : Node)
    (hn : mapFind eng.nodes_ id = some node) (hs : StopPredicate node)
    (hname : ∃ name, CarriesName node name) :
    ∃ i r, eng.route_nodes_[i]? = some r ∧ r.osmid = id ∧ sourceNode eng i = some node := by
  obtain ⟨name, hcarry⟩ := hname
  have hstop : IsStopOf eng.nodes_ name id :=
    ⟨node, hn, (isStopNode_iff node).2 hs, (mem_stopNames_iff node name).2 hcarry⟩
  obtain ⟨i, -, hi⟩ := stop_indexed geo ways nodes eng hparse name id hstop
  have hsrc : sourceNode eng i = some node := (sourceNode_eq eng i node).2 ⟨id, hi, hn⟩
  obtain ⟨r, hr, -⟩ := sourceNode_some eng i node hsrc
  refine ⟨i, r, hr, ?_, hsrc⟩
  unfold routeIds at hi
  rw [List.getElem?_map, hr] at hi
  simpa using hi

/-- C17 (witness). Scenario S1: node 1 is the station A, and routing node 0 has it as its
source node. -/
theorem Prepare_named_stop_routing_witness :
    ∃ i r, exEngine.route_nodes_[i]? = some r ∧ r.osmid = 1 ∧
      sourceNode exEngine i = some exNode1 :=
  Prepare_named_stop_routing exGeo [exWay] [exNode1, exNode2, exNode3] exEngine (by rfl) 1
    exNode1 (by rfl) (Or.inl (by rfl)) ⟨"A", Or.inl (by rfl)⟩

/-- C19 (amended). After a compilation that completes, for every way of the way map with at
least 2 node references and every position whose node reference resolves in the node map, the
node there is a routing node if and only if its occurrence count over the ways of the way
map with at least 2 references is greater than 1, or its incident-edge-ends count (1 per
occurrence at an endpoint, 2 per interior occurrence) differs from 2, or it was marked as
a stop (it satisfies the stop predicate and has one of the three name tags); and the
number of edge slots of every routing node is the incident-edge-ends count of its node. -/
theorem Prepare_junction_classification (geo : GeoMath) (ways : List Way) (nodes : List Node)
    (eng : Engine) (hparse : Parse geo ways nodes = .ok eng) :
    (∀ (wid : Int) (way : Way) (p : Nat) (id : Int) (node : Node),
      mapFind eng.ways_ wid = some way → 2 ≤ way.nodes_.length →
      way.nodes_[p]? = some id → mapFind eng.nodes_ id = some node →
      ((∃ r ∈ eng.route_nodes_, r.osmid = id) ↔
        (occurrenceCount eng.ways_ id > 1 ∨ edgeEnds eng.ways_ id ≠ 2 ∨
          (StopPredicate node ∧ ∃ name, CarriesName node name)))) ∧
      ∀ r ∈ eng.route_nodes_, r.nedges = edgeEnds eng.ways_ r.osmid := by
  constructor
  · intro wid way p id node _ _ _ hn
    rw [← mem_routeIds_iff, ← markedStop_iff]
    exact compiled_classification geo ways nodes eng hparse id node hn
  · intro r hr
    exact compiled_edgeCount geo ways nodes eng hparse r hr

/-- C19 (witness). Scenario S1: node 2 at position 1 of the way 10 occurs once, has the
incident-edge-ends count 2 and is no stop, and it is not a routing node; node 1 at
position 0 has the count 1 and is a routing node. -/
theorem Prepare_junction_classification_witness :
    ((∃ r ∈ exEngine.route_nodes_, r.osmid = 2) ↔
        (occurrenceCount exEngine.ways_ 2 > 1 ∨ edgeEnds exEngine.ways_ 2 ≠ 2 ∨
          (StopPredicate exNode2 ∧ ∃ name, CarriesName exNode2 name))) ∧
      ((∃ r ∈ exEngine.route_nodes_, r.osmid = 1) ↔
        (occurrenceCount exEngine.ways_ 1 > 1 ∨ edgeEnds exEngine.ways_ 1 ≠ 2 ∨
          (StopPredicate exNode1 ∧ ∃ name, CarriesName exNode1 name))) :=
  ⟨(Prepare_junction_classification exGeo [exWay] [exNode1, exNode2, exNode3] exEngine
      (by rfl)).1 10 exWay 1 2 exNode2 (by rfl) (by decide) (by rfl) (by rfl),
    (Prepare_junction_classification exGeo [exWay] [exNode1, exNode2, exNode3] exEngine
      (by rfl)).1 10 exWay 0 1 exNode1 (by rfl) (by decide) (by rfl) (by rfl)⟩

end RailRouting

namespace RailRouting

/-! ## The number of entries of the stop index -/

theorem multimapInsert_countP {β : Type} (P : String × β → Bool) (m : List (String × β))
    (k : String) (v : β) :
    (multimapInsert m k v).countP P = m.countP P + (if P (k, v) = true then 1 else 0) := by
  induction m with
  | nil =>
    unfold multimapInsert
    by_cases h : P (k, v) = true
    · simp [h]
    · simp [h]
  | cons a rest ih =>
    obtain ⟨k1, v1⟩ := a
    unfold multimapInsert
    by_cases hlt : strLt k k1 = true
    · rw [if_pos hlt]
      by_cases h : P (k, v) = true
      · rw [List.countP_cons_of_pos _ _ h, if_pos h]
      · rw [List.countP_cons_of_neg _ _ h, if_neg h]
        rfl
    · rw [if_neg hlt]
      by_cases h1 : P (k1, v1) = true
      · rw [List.countP_cons_of_pos _ _ h1, List.countP_cons_of_pos _ _ h1, ih]
        omega
      · rw [List.countP_cons_of_neg _ _ h1, List.countP_cons_of_neg _ _ h1, ih]

theorem postprocessStops_countP (idmap : List (Int × Nat)) (temp : List (String × Int))
    (stops0 stops : List (String × Nat)) (P : String × Nat → Bool)
    (h : postprocessStops idmap temp stops0 = .ok stops) :
    stops.countP P = stops0.countP P +
      temp.countP (fun p =>
        match mapFind idmap p.2 with
        | some i => P (p.1, i)
        | none => false) := by
  induction temp generalizing stops0 with
  | nil =>
    unfold postprocessStops at h
    simp only [Except.ok.injEq] at h
    subst h
    simp
  | cons a rest ih =>
    obtain ⟨name, id⟩ := a
    unfold postprocessStops at h
    cases hm : mapFind idmap id with
    | none => rw [hm] at h; simp at h
    | some routeidx =>
      rw [hm] at h
      simp only at h
      rw [ih _ h, multimapInsert_countP]
      by_cases hp : P (name, routeidx) = true
      · rw [List.countP_cons_of_pos _ _ (by simp only [hm]; exact hp), if_pos hp]
        omega
      · rw [List.countP_cons_of_neg _ _ (by simp only [hm]; exact hp), if_neg hp]
        omega

theorem addStopName_countP (id : Int) (names : List String)
    (acc : List (String × Int) × List (Int × ConnectivityInfo)) (Q : String × Int → Bool) :
    (names.foldl (addStopName id) acc).1.countP Q =
      acc.1.countP Q + names.countP (fun n => Q (n, id)) := by
  induction names generalizing acc with
  | nil => simp
  | cons n rest ih =>
    rw [List.foldl_cons, ih]
    simp only [addStopName, multimapInsert_countP]
    rw [List.countP_cons]
    omega

theorem mapFind_cons {β : Type} (k : Int) (v : β) (rest : List (Int × β)) (x : Int) :
    mapFind ((k, v) :: rest) x = if k = x then some v else mapFind rest x := rfl

theorem findStops_countP (nodes : List (Int × Node))
    (hd : nodes.Pairwise (fun a b => a.1 ≠ b.1))
    (hk : KeyedById (fun n : Node => n.id_) nodes)
    (acc : List (String × Int) × List (Int × ConnectivityInfo)) (x : Int)
    (f : String → Bool) :
    (nodes.foldl findStopsStep acc).1.countP (fun p => decide (p.2 = x) && f p.1) =
      acc.1.countP (fun p => decide (p.2 = x) && f p.1) +
        (match mapFind nodes x with
          | some node => if isStopNode node = true then (stopNames node).countP f else 0
          | none => 0) := by
  induction nodes generalizing acc with
  | nil => simp [mapFind]
  | cons e rest ih =>
    rw [List.pairwise_cons] at hd
    have hk2 : KeyedById (fun n : Node => n.id_) rest :=
      fun p hp => hk p (List.mem_cons_of_mem _ hp)
    have hkey : e.2.id_ = e.1 := hk e (List.mem_cons_self _ _)
    rw [List.foldl_cons, ih hd.2 hk2]
    have hstep : (findStopsStep acc e).1.countP (fun p => decide (p.2 = x) && f p.1) =
        acc.1.countP (fun p => decide (p.2 = x) && f p.1) +
          (if e.1 = x then (if isStopNode e.2 = true then (stopNames e.2).countP f else 0)
            else 0) := by
      unfold findStopsStep
      by_cases hs : isStopNode e.2 = true
      · rw [if_pos hs, addStopName_countP, hkey, if_pos hs]
        by_cases hx : e.1 = x
        · rw [if_pos hx]
          simp [hx]
        · rw [if_neg hx]
          simp [hx]
      · rw [if_neg hs, if_neg hs]
        simp
    rw [hstep]
    obtain ⟨k, v⟩ := e
    simp only at hkey hstep ⊢
    rw [mapFind_cons]
    by_cases hx : k = x
    · rw [if_pos hx, if_pos hx]
      have hnone : mapFind rest x = none := by
        rw [mapFind_eq_none_iff]
        intro v2 hv2
        exact hd.1 (x, v2) hv2 hx
      rw [hnone]
      simp only [Nat.add_zero]
    · rw [if_neg hx, if_neg hx]
      omega

/-- The entries of the stop index that refer to routing node `i`, counted under a test on
the name, are as many as the name tags of its source node that pass the test. -/
theorem stops_countP (geo : GeoMath) (ways : List Way) (nodes : List Node)
    (eng : Engine) (hparse : Parse geo ways nodes = .ok eng) (i : Nat) (node : Node)
    (hsrc : sourceNode eng i = some node) (hstop : isStopNode node = true)
    (f : String → Bool) :
    eng.stops_.countP (fun p => decide (p.2 = i) && f p.1) = (stopNames node).countP f := by
  have hc := parse_compiled geo ways nodes eng hparse
  obtain ⟨created, -, hpost, hidm, -, -⟩ := parse_passes geo ways nodes eng hparse
  obtain ⟨x, hx, hn⟩ := (sourceNode_eq eng i node).1 hsrc
  rw [postprocessStops_countP _ _ _ _ _ hpost]
  simp only [List.countP_nil, Nat.zero_add]
  have hfun : (fun p : String × Int =>
      match mapFind created.id_to_routenode p.2 with
      | some j => decide (j = i) && f p.1
      | none => false) = (fun p => decide (p.2 = x) && f p.1) := by
    funext p
    cases hm : mapFind created.id_to_routenode p.2 with
    | none =>
      simp only
      have hne : ¬ p.2 = x := by
        intro hh
        have := (hidm x i).2 hx
        rw [← hh, hm] at this
        simp at this
      simp [hne]
    | some j =>
      simp only
      have hiff : j = i ↔ p.2 = x := by
        have h3 := (hidm p.2 j).1 hm
        constructor
        · intro h4
          rw [h4, hx] at h3
          injection h3 with h3
          exact h3.symm
        · intro h4
          have h5 := (hidm x i).2 hx
          rw [← h4, hm] at h5
          injection h5
      by_cases hji : j = i
      · simp [hji, hiff.1 hji]
      · have : ¬ p.2 = x := fun hh => hji (hiff.2 hh)
        simp [hji, this]
  rw [hfun]
  have hdist : eng.nodes_.Pairwise (fun a b => a.1 ≠ b.1) :=
    List.Pairwise.imp (fun hab => by omega) hc.nodes_sorted
  rw [findStops_countP eng.nodes_ hdist hc.nodes_keyed ([], []) x f, hn]
  simp [hstop]

end RailRouting

namespace RailRouting

theorem FindRoute_counts (geo : GeoMath) (eng : Engine) (fuel : Nat) (name_a name_b : String)
    (result : FindRouteResult) (ok : Bool) (r : FindRouteResult)
    (h : FindRoute geo eng fuel name_a name_b result = .ok (ok, r)) :
    r.start_count = (equalRange eng.stops_ name_a).length ∧
      r.end_count = (equalRange eng.stops_ name_b).length := by
  rw [FindRoute_unfold] at h
  simp only [] at h
  generalize (equalRange eng.stops_ name_a).foldl nodeSetInsert [] = sn at h
  generalize hfn : (equalRange eng.stops_ name_b).foldl nodeSetInsert [] = fn at h
  cases sn with
  | nil =>
    cases fn with
    | nil =>
      simp only [Except.ok.injEq, Prod.mk.injEq] at h
      obtain ⟨-, rfl⟩ := h
      exact ⟨rfl, rfl⟩
    | cons f fr =>
      simp only [Except.ok.injEq, Prod.mk.injEq] at h
      obtain ⟨-, rfl⟩ := h
      exact ⟨rfl, rfl⟩
  | cons s sr =>
    cases fn with
    | nil =>
      simp only [Except.ok.injEq, Prod.mk.injEq] at h
      obtain ⟨-, rfl⟩ := h
      exact ⟨rfl, rfl⟩
    | cons f fr =>
      simp only [] at h
      generalize dijkstraLoop eng.route_nodes_ (f :: fr) fuel _ = d at h
      cases d with
      | none => simp at h
      | some st =>
        simp only [] at h
        generalize closestFin st.lengths fr f (st.lengths.getD f none) = cf at h
        rcases cf with ⟨bf, _ | bl⟩
        · simp only [Except.ok.injEq, Prod.mk.injEq] at h
          obtain ⟨-, rfl⟩ := h
          exact ⟨rfl, rfl⟩
        · simp only [] at h
          generalize eng.route_nodes_[(st.starts.getD bf (-1)).toNat]? = x at h
          generalize eng.route_nodes_[bf]? = y at h
          cases x with
          | none => simp at h
          | some srn =>
            cases y with
            | none => simp at h
            | some ern =>
              simp only [] at h
              cases hsn : mapFind eng.nodes_ srn.osmid with
              | none => rw [hsn] at h; simp at h
              | some sn =>
                rw [hsn] at h
                simp only [] at h
                cases hen : mapFind eng.nodes_ ern.osmid with
                | none => rw [hen] at h; simp at h
                | some en =>
                  rw [hen] at h
                  simp only [] at h
                  cases hrec : recoverRoute eng st.prevs fuel bf (st.prevs.getD bf (-1)) [] with
                  | error e => rw [hrec] at h; simp at h
                  | ok t =>
                    rw [hrec] at h
                    simp only [Except.ok.injEq, Prod.mk.injEq] at h
                    obtain ⟨-, rfl⟩ := h
                    exact ⟨rfl, rfl⟩

theorem equalRange_count (m : List (String × Nat)) (name : String) (i : Nat) :
    (equalRange m name).count i = m.countP (fun p => decide (p.2 = i) && (p.1 == name)) := by
  unfold equalRange
  induction m with
  | nil => rfl
  | cons a rest ih =>
    obtain ⟨k, v⟩ := a
    rw [List.countP_cons, ← ih]
    by_cases hk : k = name
    · subst hk
      simp only [List.filter_cons, beq_self_eq_true, if_true, List.map_cons, List.count_cons,
        Bool.and_true, decide_eq_true_eq, beq_iff_eq]
    · have hb : (k == name) = false := by simpa using hk
      simp [List.filter_cons, hb]

/-- C18 (counterexample). In scenario S1 with node 1 carrying the value A in both its
`name` and its `alt_name` tag, the tags have one distinct value, the stop index holds two
entries that refer to routing node 0, and the query from A to B counts 2 start entries for
the one stop node. -/
theorem stop_index_duplicate_entry :
    Parse exGeo [exWay] [exNode1Twice, exNode2, exNode3] = .ok exEngineTwice ∧
      sourceNode exEngineTwice 0 = some exNode1Twice ∧
      StopPredicate exNode1Twice ∧
      (stopNames exNode1Twice).dedup.length = 1 ∧
      exEngineTwice.stops_.countP (fun p => p.2 = 0) = 2 ∧
      FindRoute exGeo exEngineTwice 9 "A" "B" exResult5 = .ok (true, exTwiceResult) ∧
      exTwiceResult.start_count = 2 := by
  refine ⟨by rfl, by rfl, Or.inl (by rfl), by decide, by decide, by rfl, by rfl⟩

/-- C18 (amended). After a compilation that completes, for every routing node whose
source node satisfies the stop predicate, the number of stop-index entries that refer to
it equals the number of the tags `name`, `alt_name`, `official_name` the node has (a value
shared by two of these tags is indexed twice); the entry (name, i) is in the index as
often as the name is the value of one of these tags; and every call of FindRoute that
returns sets `start_count` and `end_count` to the numbers of entries under the two names,
a stop node counting once per tag that carries the name. -/
theorem stop_index_entry_count (geo : GeoMath) (ways : List Way) (nodes : List Node)
    (eng : Engine) (hparse : Parse geo ways nodes = .ok eng) (i : Nat) (node : Node)
    (hsrc : sourceNode eng i = some node) (hstop : StopPredicate node) :
    eng.stops_.countP (fun p => p.2 = i) = (stopNames node).length ∧
      (∀ name, eng.stops_.count (name, i) = (stopNames node).count name) ∧
      (∀ name, (equalRange eng.stops_ name).count i = (stopNames node).count name) ∧
      ∀ fuel name_a name_b result ok r,
        FindRoute geo eng fuel name_a name_b result = .ok (ok, r) →
        r.start_count = (equalRange eng.stops_ name_a).length ∧
          r.end_count = (equalRange eng.stops_ name_b).length := by
  have hs : isStopNode node = true := (isStopNode_iff node).2 hstop
  have key := stops_countP geo ways nodes eng hparse i node hsrc hs
  refine ⟨?_, ?_, ?_, ?_⟩
  · have := key (fun _ => true)
    simp only [Bool.and_true, List.countP_true] at this
    exact this
  · intro name
    have := key (fun n => n == name)
    rw [List.count_eq_countP, List.count_eq_countP]
    rw [← this]
    congr 1
    funext p
    obtain ⟨n, j⟩ := p
    simp only [beq_iff_eq, Prod.mk.injEq]
    by_cases h1 : j = i <;> by_cases h2 : n = name <;> simp [h1, h2]
  · intro name
    rw [equalRange_count]
    have := key (fun n => n == name)
    rw [this, List.count_eq_countP]
  · intro fuel name_a name_b result ok r h
    exact FindRoute_counts geo eng fuel name_a name_b result ok r h

/-- C18 (witness). Scenario S1: routing node 0 has the station A as its source node, with
the one tag `name`, and one entry of the stop index refers to it. -/
theorem stop_index_entry_count_witness :
    exEngine.stops_.countP (fun p => p.2 = 0) = (stopNames exNode1).length ∧
      (∀ name, exEngine.stops_.count (name, 0) = (stopNames exNode1).count name) ∧
      (∀ name, (equalRange exEngine.stops_ name).count 0 = (stopNames exNode1).count name) ∧
      ∀ fuel name_a name_b result ok r,
        FindRoute exGeo exEngine fuel name_a name_b result = .ok (ok, r) →
        r.start_count = (equalRange exEngine.stops_ name_a).length ∧
          r.end_count = (equalRange exEngine.stops_ name_b).length :=
  stop_index_entry_count exGeo [exWay] [exNode1, exNode2, exNode3] exEngine (by rfl) 0 exNode1
    (by rfl) (Or.inl (by rfl))

end RailRouting

namespace RailRouting

/-! ## lazyinit_array -/

theorem pageBit_eq_testBit (b k : Nat) : pageBit b k = b.testBit k := by
  unfold pageBit
  rw [Nat.one_shiftLeft]
  by_cases h : b.testBit k = true
  · rw [h]
    simp only [bne_iff_ne, ne_eq]
    intro h0
    have := congrArg (fun x => Nat.testBit x k) h0
    simp [Nat.testBit_and, Nat.testBit_two_pow_self, h] at this
  · have hf : b.testBit k = false := by simpa using h
    rw [hf]
    simp only [bne_eq_false_iff_eq]
    apply Nat.eq_of_testBit_eq
    intro i
    rw [Nat.testBit_and, Nat.testBit_two_pow, Nat.zero_testBit]
    by_cases hki : k = i
    · subst hki; simp [hf]
    · simp [hki]

theorem pageBit_setPageBit (b k j : Nat) (hj : j < 8) :
    pageBit (setPageBit b k) j = (pageBit b j || decide (k = j)) := by
  rw [pageBit_eq_testBit, pageBit_eq_testBit]
  unfold setPageBit
  have h256 : (256 : Nat) = 2 ^ 8 := by norm_num
  rw [h256, Nat.testBit_mod_two_pow, Nat.testBit_or, Nat.one_shiftLeft, Nat.testBit_two_pow]
  simp [hj]

theorem fillCells_length {α : Type} (lo hi : Nat) (v : α) (i : Nat) (l : List α) :
    (fillCells lo hi v i l).length = l.length := by
  induction l generalizing i with
  | nil => rfl
  | cons x rest ih => simp [fillCells, ih]

theorem fillCells_getElem? {α : Type} (lo hi : Nat) (v : α) (i : Nat) (l : List α) (j : Nat) :
    (fillCells lo hi v i l)[j]? =
      (l[j]?).map (fun x => if lo ≤ i + j ∧ i + j < hi then v else x) := by
  induction l generalizing i j with
  | nil => simp [fillCells]
  | cons x rest ih =>
    unfold fillCells
    cases j with
    | zero => simp
    | succ j =>
      simp only [List.getElem?_cons_succ]
      rw [ih]
      have : i + 1 + j = i + (j + 1) := by omega
      rw [this]

theorem bitmap_index_lt (epp size n : Nat) (hepp : 0 < epp) (hn : n < size) :
    n / epp / 8 < GetBitmapSize epp size := by
  unfold GetBitmapSize
  have h1 : n / epp < (size + epp - 1) / epp := by
    rw [Nat.div_lt_iff_lt_mul hepp]
    have h3 := Nat.div_add_mod (size + epp - 1) epp
    have h4 := Nat.mod_lt (size + epp - 1) hepp
    rw [Nat.mul_comm] at h3
    omega
  omega

theorem page_range_iff (epp n m : Nat) (hepp : 0 < epp) :
    (n / epp * epp ≤ m ∧ m < n / epp * epp + epp) ↔ m / epp = n / epp := by
  constructor
  · rintro ⟨h1, h2⟩
    apply Nat.div_eq_of_lt_le
    · rw [Nat.mul_comm] at h1; rw [Nat.mul_comm]; exact h1
    · have : (n / epp + 1) * epp = n / epp * epp + epp := by ring
      rw [this]
      exact h2
  · intro h
    rw [← h]
    have h3 := Nat.div_add_mod m epp
    have h4 := Nat.mod_lt m hepp
    rw [Nat.mul_comm] at h3
    omega

theorem pageInit_of_byte {α : Type} (epp : Nat) (a : LazyArray α) (n : Nat) (byte : Nat)
    (h : a.page_initialized_[n / epp / 8]? = some byte) :
    a.pageInit epp n = pageBit byte (n / epp % 8) := by
  unfold LazyArray.pageInit
  rw [h]

end RailRouting

namespace RailRouting

theorem pageInit_congr {α : Type} (epp : Nat) (a : LazyArray α) (m n : Nat)
    (h : m / epp = n / epp) : a.pageInit epp m = a.pageInit epp n := by
  unfold LazyArray.pageInit
  rw [h]

theorem pageInit_set {α : Type} (epp : Nat) (a : LazyArray α) (n : Nat) (byte : Nat)
    (hb : a.page_initialized_[n / epp / 8]? = some byte) (data1 : List α) (m : Nat) :
    ({ a with
        data_ := data1
        page_initialized_ :=
          a.page_initialized_.set (n / epp / 8) (setPageBit byte (n / epp % 8)) } :
        LazyArray α).pageInit epp m =
      (a.pageInit epp m || decide (m / epp = n / epp)) := by
  have hlt : n / epp / 8 < a.page_initialized_.length := (List.getElem?_eq_some.1 hb).1
  by_cases hsame : m / epp / 8 = n / epp / 8
  · have h1 : (a.page_initialized_.set (n / epp / 8) (setPageBit byte (n / epp % 8)))[
        m / epp / 8]? = some (setPageBit byte (n / epp % 8)) := by
      rw [hsame, List.getElem?_set_self hlt]
    have h2 : a.page_initialized_[m / epp / 8]? = some byte := by rw [hsame]; exact hb
    unfold LazyArray.pageInit
    simp only
    rw [h1, h2]
    simp only
    rw [pageBit_setPageBit _ _ _ (Nat.mod_lt _ (by norm_num))]
    congr 1
    have : (n / epp % 8 = m / epp % 8) ↔ (m / epp = n / epp) := by omega
    simp [this]
  · have h1 : (a.page_initialized_.set (n / epp / 8) (setPageBit byte (n / epp % 8)))[
        m / epp / 8]? = a.page_initialized_[m / epp / 8]? := by
      rw [List.getElem?_set_ne (fun h => hsame h.symm)]
    unfold LazyArray.pageInit
    simp only
    rw [h1]
    have : ¬ m / epp = n / epp := fun h => hsame (by rw [h])
    simp [this]

/-- The non-const `operator[]` at an index in range: it is defined, marks the page of the
index and keeps the plain array that the lazy array represents. -/
theorem touch_spec {α : Type} (epp : Nat) (hepp : 0 < epp) (a : LazyArray α)
    (cells : List α) (hrep : LazyRep epp a cells) (n : Nat) (hn : n < a.size_) :
    ∃ a1, a.touch epp n = some a1 ∧ LazyRep epp a1 cells ∧ a1.pageInit epp n = true ∧
      a1.default_ = a.default_ ∧ a1.size_ = a.size_ := by
  have hlt : n / epp / 8 < a.page_initialized_.length := by
    rw [hrep.bitmap_len]
    exact bitmap_index_lt epp a.size_ n hepp hn
  have hb : a.page_initialized_[n / epp / 8]? = some a.page_initialized_[n / epp / 8] :=
    List.getElem?_eq_getElem hlt
  generalize a.page_initialized_[n / epp / 8] = byte at hb
  unfold LazyArray.touch
  rw [if_neg (by omega)]
  simp only [hb]
  by_cases hbit : pageBit byte (n / epp % 8) = false
  · rw [if_pos hbit]
    refine ⟨_, rfl, ?_, ?_, rfl, rfl⟩
    · have hpi := pageInit_set epp a n byte hb
        (fillCells (n / epp * epp) (min (n / epp * epp + epp) a.size_) a.default_ 0 a.data_)
      have hnpage : a.pageInit epp n = false := by
        rw [pageInit_of_byte epp a n byte hb]
        exact hbit
      constructor
      · exact hrep.size_eq
      · simp only
        rw [fillCells_length]
        exact hrep.data_len
      · simp only
        rw [List.length_set]
        exact hrep.bitmap_len
      · intro m hm hinit
        simp only at hm
        rw [hpi m] at hinit
        simp only
        rw [fillCells_getElem?]
        have hlen : m < a.data_.length := by rw [hrep.data_len]; exact hm
        have hdm : a.data_[m]? = some a.data_[m] := List.getElem?_eq_getElem hlen
        by_cases hpage : m / epp = n / epp
        · have hr := (page_range_iff epp n m hepp).2 hpage
          have hin : n / epp * epp ≤ 0 + m ∧ 0 + m < min (n / epp * epp + epp) a.size_ := by
            rw [Nat.zero_add]
            exact ⟨hr.1, Nat.lt_min.2 ⟨hr.2, hm⟩⟩
          rw [hdm]
          simp only [Option.map_some', if_pos hin]
          have hlazy : a.pageInit epp m = false := by
            rw [pageInit_congr epp a m n hpage]
            exact hnpage
          exact (hrep.lazy_cell m hm hlazy).symm
        · have hout : ¬ (n / epp * epp ≤ 0 + m ∧ 0 + m < min (n / epp * epp + epp) a.size_) := by
            rw [Nat.zero_add]
            rintro ⟨h1, h2⟩
            exact hpage ((page_range_iff epp n m hepp).1 ⟨h1, (Nat.lt_min.1 h2).1⟩)
          rw [hdm]
          simp only [Option.map_some', if_neg hout]
          rw [← hdm]
          apply hrep.init_cell m hm
          simpa [hpage] using hinit
      · intro m hm hinit
        simp only at hm
        rw [hpi m] at hinit
        simp only
        apply hrep.lazy_cell m hm
        rw [Bool.or_eq_false_iff] at hinit
        exact hinit.1
    · rw [pageInit_set epp a n byte hb]
      simp
  · rw [if_neg hbit]
    refine ⟨a, rfl, hrep, ?_, rfl, rfl⟩
    rw [pageInit_of_byte epp a n byte hb]
    simpa using hbit

theorem write_spec {α : Type} (epp : Nat) (hepp : 0 < epp) (a : LazyArray α)
    (cells : List α) (hrep : LazyRep epp a cells) (n : Nat) (hn : n < a.size_) (v : α) :
    ∃ a2, a.write epp n v = some a2 ∧ LazyRep epp a2 (cells.set n v) ∧
      a2.default_ = a.default_ ∧ a2.size_ = a.size_ := by
  obtain ⟨a1, h1, hrep1, hinit, hd, hs⟩ := touch_spec epp hepp a cells hrep n hn
  unfold LazyArray.write
  rw [h1]
  refine ⟨_, rfl, ?_, hd, hs⟩
  have hpi : ∀ m, ({ a1 with data_ := a1.data_.set n v } : LazyArray α).pageInit epp m =
      a1.pageInit epp m := fun m => rfl
  constructor
  · simp only [List.length_set]
    exact hrep1.size_eq
  · simp only [List.length_set]
    exact hrep1.data_len
  · exact hrep1.bitmap_len
  · intro m hm hin
    rw [hpi m] at hin
    simp only at hm ⊢
    by_cases hmn : n = m
    · subst hmn
      rw [List.getElem?_set_self (by rw [hrep1.data_len]; exact hm),
        List.getElem?_set_self (by rw [← hrep1.size_eq]; exact hm)]
    · rw [List.getElem?_set_ne hmn, List.getElem?_set_ne hmn]
      exact hrep1.init_cell m hm hin
  · intro m hm hin
    rw [hpi m] at hin
    simp only at hm ⊢
    have hmn : n ≠ m := by
      rintro rfl
      rw [hinit] at hin
      exact absurd hin (by simp)
    rw [List.getElem?_set_ne hmn]
    exact hrep1.lazy_cell m hm hin

theorem readConst_spec {α : Type} (epp : Nat) (hepp : 0 < epp) (a : LazyArray α)
    (cells : List α) (hrep : LazyRep epp a cells) (n : Nat) (hn : n < a.size_) :
    a.readConst epp n = cells[n]? := by
  have hlt : n / epp / 8 < a.page_initialized_.length := by
    rw [hrep.bitmap_len]
    exact bitmap_index_lt epp a.size_ n hepp hn
  have hb : a.page_initialized_[n / epp / 8]? = some a.page_initialized_[n / epp / 8] :=
    List.getElem?_eq_getElem hlt
  generalize a.page_initialized_[n / epp / 8] = byte at hb
  unfold LazyArray.readConst
  rw [if_neg (by omega)]
  simp only [hb]
  by_cases hbit : pageBit byte (n / epp % 8) = false
  · rw [if_pos hbit]
    refine (hrep.lazy_cell n hn ?_).symm
    rw [pageInit_of_byte epp a n byte hb]
    exact hbit
  · rw [if_neg hbit]
    apply hrep.init_cell n hn
    rw [pageInit_of_byte epp a n byte hb]
    simpa using hbit

theorem read_spec {α : Type} (epp : Nat) (hepp : 0 < epp) (a : LazyArray α)
    (cells : List α) (hrep : LazyRep epp a cells) (n : Nat) (hn : n < a.size_) :
    ∃ a1 v, a.read epp n = some (a1, v) ∧ cells[n]? = some v ∧ LazyRep epp a1 cells := by
  obtain ⟨a1, h1, hrep1, hinit, -, hs⟩ := touch_spec epp hepp a cells hrep n hn
  have hn1 : n < a1.size_ := by rw [hs]; exact hn
  have hcell := hrep1.init_cell n hn1 hinit
  have hlen : n < a1.data_.length := by rw [hrep1.data_len]; exact hn1
  have hdm : a1.data_[n]? = some a1.data_[n] := List.getElem?_eq_getElem hlen
  unfold LazyArray.read
  rw [h1]
  simp only [hdm]
  exact ⟨a1, _, rfl, by rw [← hcell, hdm], hrep1⟩

theorem create_rep {α : Type} (epp size : Nat) (d : α) (raw : Nat → α) :
    LazyRep epp (LazyArray.create epp size d raw) (List.replicate size d) := by
  have hpi : ∀ n, (LazyArray.create epp size d raw).pageInit epp n = false := by
    intro n
    unfold LazyArray.pageInit LazyArray.create
    simp only
    cases h : (List.replicate (GetBitmapSize epp size) 0)[n / epp / 8]? with
    | none => rfl
    | some byte =>
      simp only
      have hm := mem_of_getElem?_eq_some _ _ _ h
      rw [List.mem_replicate] at hm
      rw [hm.2]
      simp [pageBit]
  constructor
  · simp [LazyArray.create]
  · simp [LazyArray.create]
  · simp [LazyArray.create]
  · intro n _ hin
    rw [hpi n] at hin
    exact absurd hin (by simp)
  · intro n hn _
    simp only [LazyArray.create] at hn ⊢
    rw [List.getElem?_replicate]
    simp [hn]

theorem writes_spec {α : Type} (epp : Nat) (hepp : 0 < epp) (ws : List (Nat × α))
    (a : LazyArray α) (cells : List α) (hrep : LazyRep epp a cells)
    (hws : ∀ w ∈ ws, w.1 < a.size_) :
    ∃ a2, LazyArray.writes epp ws a = some a2 ∧ LazyRep epp a2 (plainWrites ws cells) ∧
      a2.size_ = a.size_ := by
  induction ws generalizing a cells with
  | nil => exact ⟨a, rfl, hrep, rfl⟩
  | cons w rest ih =>
    obtain ⟨i, v⟩ := w
    have hi : i < a.size_ := hws (i, v) (List.mem_cons_self _ _)
    obtain ⟨a1, h1, hrep1, -, hs1⟩ := write_spec epp hepp a cells hrep i hi v
    obtain ⟨a2, h2, hrep2, hs2⟩ := ih a1 (cells.set i v) hrep1
      (fun w hw => by rw [hs1]; exact hws w (List.mem_cons_of_mem _ hw))
    refine ⟨a2, ?_, hrep2, by rw [hs2, hs1]⟩
    unfold LazyArray.writes
    rw [h1]
    exact h2

theorem plainWrites_length {α : Type} (ws : List (Nat × α)) (cells : List α) :
    (plainWrites ws cells).length = cells.length := by
  induction ws generalizing cells with
  | nil => rfl
  | cons w rest ih =>
    unfold plainWrites at ih ⊢
    rw [List.foldl_cons, ih]
    simp

theorem plainWrites_getElem? {α : Type} (ws : List (Nat × α)) (cells : List α) (j : Nat)
    (cur : α) (hj : cells[j]? = some cur) :
    (plainWrites ws cells)[j]? = some (lastWritten ws j cur) := by
  induction ws generalizing cells cur with
  | nil => exact hj
  | cons w rest ih =>
    obtain ⟨i, v⟩ := w
    unfold plainWrites at ih ⊢
    rw [List.foldl_cons]
    unfold lastWritten
    apply ih
    simp only
    have hlt : j < cells.length := (List.getElem?_eq_some.1 hj).1
    by_cases hij : i = j
    · subst hij
      rw [List.getElem?_set_self hlt, if_pos rfl]
    · rw [List.getElem?_set_ne hij, if_neg hij]
      exact hj

end RailRouting

namespace RailRouting

/-- C20. For every page size `EltPerPage > 0`, size, default value `d`, content of the
fresh allocation and sequence of assignments `a[i] = v` at indices in range: the
assignments are defined, and afterwards a read of any index `j` in range, through the
const or the non-const `operator[]`, returns the last value assigned to `j`, or `d` when
`j` was never assigned, which is the cell `j` of a plain array pre-filled with `d` after
the same assignments; and a further assignment to another index `i` does not change the
value read at `j`. -/
theorem lazyinit_array_refines_plain {α : Type} (epp : Nat) (hepp : 0 < epp) (size : Nat)
    (d : α) (raw : Nat → α) (ws : List (Nat × α)) (hws : ∀ w ∈ ws, w.1 < size) :
    ∃ a, LazyArray.writes epp ws (LazyArray.create epp size d raw) = some a ∧
      ∀ j, j < size →
        a.readConst epp j = some (lastWritten ws j d) ∧
        (∃ a1, a.read epp j = some (a1, lastWritten ws j d)) ∧
        (plainWrites ws (List.replicate size d))[j]? = some (lastWritten ws j d) ∧
        ∀ i v, i < size → i ≠ j →
          ∃ a2, a.write epp i v = some a2 ∧ a2.readConst epp j = a.readConst epp j := by
  have hrep0 := create_rep epp size d raw
  obtain ⟨a, h1, hrep, hs⟩ := writes_spec epp hepp ws _ _ hrep0 hws
  have hsize : a.size_ = size := by rw [hs]; rfl
  refine ⟨a, h1, ?_⟩
  intro j hj
  have hplain : (plainWrites ws (List.replicate size d))[j]? = some (lastWritten ws j d) :=
    plainWrites_getElem? ws _ j d (by rw [List.getElem?_replicate]; simp [hj])
  have hja : j < a.size_ := by rw [hsize]; exact hj
  have hrc := readConst_spec epp hepp a _ hrep j hja
  refine ⟨by rw [hrc, hplain], ?_, hplain, ?_⟩
  · obtain ⟨a1, v, h2, h3, -⟩ := read_spec epp hepp a _ hrep j hja
    rw [hplain] at h3
    injection h3 with h3
    exact ⟨a1, by rw [h2, h3]⟩
  · intro i v hi hij
    obtain ⟨a2, h2, hrep2, -, hs2⟩ := write_spec epp hepp a _ hrep i (by rw [hsize]; exact hi) v
    refine ⟨a2, h2, ?_⟩
    rw [hrc, readConst_spec epp hepp a2 _ hrep2 j (by rw [hs2]; exact hja),
      List.getElem?_set_ne hij]

/-- C20 (witness). An array of 40 cells in pages of 16 with the default -1, after the
assignments a[3] = 7, a[20] = 9, a[3] = 8. -/
theorem lazyinit_array_refines_plain_witness :
    ∃ a, LazyArray.writes 16 [(3, (7 : Int)), (20, 9), (3, 8)]
        (LazyArray.create 16 40 (-1) (fun _ => 99)) = some a ∧
      ∀ j, j < 40 →
        a.readConst 16 j = some (lastWritten [(3, (7 : Int)), (20, 9), (3, 8)] j (-1)) ∧
        (∃ a1, a.read 16 j = some (a1, lastWritten [(3, (7 : Int)), (20, 9), (3, 8)] j (-1))) ∧
        (plainWrites [(3, (7 : Int)), (20, 9), (3, 8)] (List.replicate 40 (-1)))[j]? =
          some (lastWritten [(3, (7 : Int)), (20, 9), (3, 8)] j (-1)) ∧
        ∀ i v, i < 40 → i ≠ j →
          ∃ a2, a.write 16 i v = some a2 ∧ a2.readConst 16 j = a.readConst 16 j :=
  lazyinit_array_refines_plain 16 (by decide) 40 (-1) (fun _ => 99) [(3, 7), (20, 9), (3, 8)]
    (by decide)

end RailRouting

namespace RailRouting

/-! ## ParseInt on decimal texts -/

theorem wrapInt_of_fits (x : Int) (h1 : -2147483648 ≤ x) (h2 : x ≤ 2147483647) :
    wrapInt x = x := by
  unfold wrapInt
  omega

theorem wrapInt_digit (V : Nat) (v : Int) (c : Nat) (hv : v = wrapInt (Int.ofNat V))
    (h1 : 48 ≤ c) :
    wrapInt (wrapInt (wrapInt (v * 10) + Int.ofNat c) - 48) =
      wrapInt (Int.ofNat (V * 10 + (c - 48))) := by
  rw [hv]
  unfold wrapInt
  simp only [Int.ofNat_eq_coe]
  push_cast
  omega

theorem wrapInt_mul_ten (V : Int) : wrapInt (wrapInt V * 10) = wrapInt (V * 10) := by
  unfold wrapInt
  omega

theorem wrapInt_neg (V : Int) : wrapInt (-wrapInt V) = wrapInt (-V) := by
  unfold wrapInt
  omega

theorem padValue_wrap (count : Nat) (V : Int) :
    padValue count (wrapInt V) = wrapInt (V * 10 ^ count) := by
  induction count generalizing V with
  | zero => simp [padValue]
  | succ k ih =>
    unfold padValue
    rw [wrapInt_mul_ten, ih]
    congr 1
    rw [pow_succ]
    ring

theorem foldl_digits (ds : List Char) (a : Nat) :
    ds.foldl (fun acc c => acc * 10 + (c.toNat - 48)) a =
      a * 10 ^ ds.length + decimalValue ds := by
  unfold decimalValue
  induction ds generalizing a with
  | nil => simp
  | cons c rest ih =>
    rw [List.foldl_cons, List.foldl_cons, ih, ih (0 * 10 + (c.toNat - 48))]
    simp only [List.length_cons, pow_succ]
    ring

theorem decimalValue_cons (c : Char) (ds : List Char) :
    decimalValue (c :: ds) = (c.toNat - 48) * 10 ^ ds.length + decimalValue ds := by
  have := foldl_digits ds (0 * 10 + (c.toNat - 48))
  unfold decimalValue at this ⊢
  rw [List.foldl_cons, this]
  simp

theorem decimalValue_append (ds es : List Char) :
    decimalValue (ds ++ es) = decimalValue ds * 10 ^ es.length + decimalValue es := by
  have := foldl_digits es (decimalValue ds)
  unfold decimalValue at this ⊢
  rw [List.foldl_append, this]

theorem parseIntLoop_nil (I : Nat) (st : ParseIntState) :
    parseIntLoop I [] st = .ok st := rfl

theorem parseIntLoop_cons (I : Nat) (c : Char) (rest : List Char) (st : ParseIntState) :
    parseIntLoop I (c :: rest) st =
      if c.toNat = 0 then .ok st
      else if 48 ≤ c.toNat ∧ c.toNat ≤ 57 then
        if st.haddot ≠ 0 then
          if st.fracdig + 1 = I then
            .ok { st with
                  value := wrapInt (wrapInt (wrapInt (st.value * 10) + Int.ofNat c.toNat) - 48)
                  fracdig := st.fracdig + 1 }
          else
            parseIntLoop I rest
              { st with
                value := wrapInt (wrapInt (wrapInt (st.value * 10) + Int.ofNat c.toNat) - 48)
                fracdig := st.fracdig + 1 }
        else
          parseIntLoop I rest
            { st with
              value := wrapInt (wrapInt (wrapInt (st.value * 10) + Int.ofNat c.toNat) - 48) }
      else if c = '.' then parseIntLoop I rest { st with haddot := st.haddot + 1 }
      else .error .unexpectedSymbol := rfl

/-- The loop over the digits before the dot. -/
theorem parseIntLoop_digits (I : Nat) (D rest : List Char) (hD : AllDigits D)
    (st : ParseIntState) (V : Nat) (hv : st.value = wrapInt (Int.ofNat V))
    (hdot : st.haddot = 0) :
    parseIntLoop I (D ++ rest) st =
      parseIntLoop I rest
        { st with value := wrapInt (Int.ofNat (V * 10 ^ D.length + decimalValue D)) } := by
  induction D generalizing st V with
  | nil =>
    simp only [List.nil_append, List.length_nil, pow_zero, Nat.mul_one]
    have : decimalValue [] = 0 := rfl
    rw [this, Nat.add_zero, ← hv]
  | cons c D ih =>
    obtain ⟨h1, h2⟩ := hD c (List.mem_cons_self _ _)
    have hD2 : AllDigits D := fun x hx => hD x (List.mem_cons_of_mem _ hx)
    rw [List.cons_append, parseIntLoop_cons]
    rw [if_neg (by omega), if_pos ⟨h1, h2⟩, if_neg (by simp [hdot])]
    rw [ih hD2
      { st with value := wrapInt (wrapInt (wrapInt (st.value * 10) + Int.ofNat c.toNat) - 48) }
      (V * 10 + (c.toNat - 48)) (wrapInt_digit V st.value c.toNat hv h1) hdot]
    have e1 : (V * 10 + (c.toNat - 48)) * 10 ^ D.length + decimalValue D =
        V * 10 ^ (c :: D).length + decimalValue (c :: D) := by
      rw [decimalValue_cons]
      simp only [List.length_cons, pow_succ]
      ring
    rw [e1]

/-- The loop over the digits after the dot, to the end of the text or to the `break`. -/
theorem parseIntLoop_fraction (I : Nat) (F : List Char) (hF : AllDigits F)
    (st : ParseIntState) (V : Nat) (hv : st.value = wrapInt (Int.ofNat V))
    (hdot : st.haddot ≠ 0) (hfd : st.fracdig < I) :
    parseIntLoop I F st =
      .ok { value := wrapInt (Int.ofNat
              (V * 10 ^ (min F.length (I - st.fracdig)) +
                decimalValue (F.take (I - st.fracdig))))
            fracdig := st.fracdig + min F.length (I - st.fracdig)
            haddot := st.haddot } := by
  induction F generalizing st V with
  | nil =>
    rw [parseIntLoop_nil]
    simp only [List.length_nil, Nat.zero_min, pow_zero, Nat.mul_one, List.take_nil,
      Nat.add_zero]
    have : decimalValue [] = 0 := rfl
    rw [this, Nat.add_zero, ← hv]
  | cons c F ih =>
    obtain ⟨h1, h2⟩ := hF c (List.mem_cons_self _ _)
    have hF2 : AllDigits F := fun x hx => hF x (List.mem_cons_of_mem _ hx)
    rw [parseIntLoop_cons]
    rw [if_neg (by omega), if_pos ⟨h1, h2⟩, if_pos hdot]
    have hstep := wrapInt_digit V st.value c.toNat hv h1
    obtain ⟨k, hk⟩ : ∃ k, I - st.fracdig = k + 1 := ⟨I - st.fracdig - 1, by omega⟩
    by_cases hbr : st.fracdig + 1 = I
    · rw [if_pos hbr]
      have hk0 : k = 0 := by omega
      subst hk0
      rw [hk, hstep]
      simp only [List.length_cons, Nat.zero_add, List.take_succ_cons, List.take_zero]
      have hmin : min (F.length + 1) 1 = 1 := by omega
      rw [hmin, decimalValue_cons]
      simp only [List.length_nil, pow_zero, Nat.mul_one, pow_one]
      have : decimalValue [] = 0 := rfl
      rw [this]
      rfl
    · rw [if_neg hbr]
      rw [ih hF2
        { st with
          value := wrapInt (wrapInt (wrapInt (st.value * 10) + Int.ofNat c.toNat) - 48)
          fracdig := st.fracdig + 1 }
        (V * 10 + (c.toNat - 48)) hstep hdot (by simp only; omega)]
      simp only
      have hk2 : I - (st.fracdig + 1) = k := by omega
      rw [hk, hk2]
      simp only [List.length_cons, List.take_succ_cons]
      have hmin : min (F.length + 1) (k + 1) = min F.length k + 1 := by omega
      rw [hmin, decimalValue_cons]
      have hlen : (List.take k F).length = min F.length k := by
        rw [List.length_take]
        omega
      rw [hlen]
      have e1 : (V * 10 + (c.toNat - 48)) * 10 ^ (min F.length k) + decimalValue (List.take k F) =
          V * 10 ^ (min F.length k + 1) +
            ((c.toNat - 48) * 10 ^ (min F.length k) + decimalValue (List.take k F)) := by
        rw [pow_succ]
        ring
      have e2 : st.fracdig + 1 + min F.length k = st.fracdig + (min F.length k + 1) := by
        omega
      rw [e1, e2]

end RailRouting

namespace RailRouting

/-- The scan of ParseInt over digits alone. -/
theorem parseIntLoop_plain (I : Nat) (D : List Char) (hD : AllDigits D) :
    parseIntLoop I D { value := 0, fracdig := 0, haddot := 0 } =
      .ok { value := wrapInt (Int.ofNat (decimalValue D)), fracdig := 0, haddot := 0 } := by
  have h := parseIntLoop_digits I D [] hD { value := 0, fracdig := 0, haddot := 0 } 0 rfl rfl
  rw [List.append_nil, parseIntLoop_nil] at h
  rw [h]
  simp

/-- The scan of ParseInt over digits, a dot and digits. -/
theorem parseIntLoop_dotted (I : Nat) (hI : 0 < I) (D F : List Char) (hD : AllDigits D)
    (hF : AllDigits F) :
    parseIntLoop I (D ++ '.' :: F) { value := 0, fracdig := 0, haddot := 0 } =
      .ok { value := wrapInt (Int.ofNat
              (decimalValue D * 10 ^ (min F.length I) + decimalValue (F.take I)))
            fracdig := min F.length I
            haddot := 1 } := by
  rw [parseIntLoop_digits I D ('.' :: F) hD { value := 0, fracdig := 0, haddot := 0 } 0 rfl rfl]
  rw [parseIntLoop_cons, if_neg (by decide), if_neg (by decide), if_pos rfl]
  rw [parseIntLoop_fraction I F hF
    { value := wrapInt (Int.ofNat (0 * 10 ^ D.length + decimalValue D)), fracdig := 0,
      haddot := 0 + 1 }
    (0 * 10 ^ D.length + decimalValue D) rfl (Nat.succ_ne_zero 0) hI]
  simp

theorem head_not_minus (D rest : List Char) (hD : AllDigits D)
    (hrest : rest.head? ≠ some '-') : (D ++ rest).head? ≠ some '-' := by
  cases D with
  | nil => simpa using hrest
  | cons c D =>
    have h := (hD c (List.mem_cons_self _ _)).1
    simp only [List.cons_append, List.head?_cons, ne_eq, Option.some.injEq]
    intro hc
    rw [hc] at h
    exact absurd h (by decide)

/-- ParseInt on digits alone, with or without a leading minus. -/
theorem ParseInt_plain (I : Nat) (neg : Bool) (D : List Char) (hD : AllDigits D) :
    ParseInt I ((if neg then ['-'] else []) ++ D) =
      .ok (wrapInt ((if neg then -1 else 1) * Int.ofNat (decimalValue D * 10 ^ I))) := by
  cases neg with
  | true =>
    simp only [if_true, List.singleton_append]
    unfold ParseInt
    simp only [List.head?_cons, List.tail_cons, if_true, parseIntLoop_plain I D hD]
    rw [if_neg (by decide), Nat.sub_zero, padValue_wrap, wrapInt_neg]
    congr 2
    simp only [Int.ofNat_eq_coe]
    push_cast
    ring
  | false =>
    simp only [Bool.false_eq_true, if_false, List.nil_append]
    have hh : D.head? ≠ some '-' := by
      have := head_not_minus D [] hD (by simp)
      rwa [List.append_nil] at this
    unfold ParseInt
    simp only [hh, if_false, parseIntLoop_plain I D hD]
    rw [if_neg (by decide), Nat.sub_zero, padValue_wrap]
    congr 2
    simp only [Int.ofNat_eq_coe]
    push_cast
    ring

theorem pow_split (a b : Nat) (x y : Int) (h : a ≤ b) :
    (x * 10 ^ a + y) * 10 ^ (b - a) = x * 10 ^ b + y * 10 ^ (b - a) := by
  have : (10 : Int) ^ b = 10 ^ a * 10 ^ (b - a) := by
    rw [← pow_add]
    congr 1
    omega
  rw [this]
  ring

/-- ParseInt on digits, a dot and digits, with or without a leading minus. -/
theorem ParseInt_dotted (I : Nat) (hI : 0 < I) (neg : Bool) (D F : List Char)
    (hD : AllDigits D) (hF : AllDigits F) :
    ParseInt I ((if neg then ['-'] else []) ++ (D ++ '.' :: F)) =
      .ok (wrapInt ((if neg then -1 else 1) *
        Int.ofNat (decimalValue D * 10 ^ I +
          decimalValue (F.take I) * 10 ^ (I - min F.length I)))) := by
  have hsplit := pow_split (min F.length I) I (Int.ofNat (decimalValue D))
    (Int.ofNat (decimalValue (F.take I))) (Nat.min_le_right _ _)
  cases neg with
  | true =>
    simp only [if_true, List.singleton_append]
    unfold ParseInt
    simp only [List.head?_cons, List.tail_cons, if_true, parseIntLoop_dotted I hI D F hD hF]
    rw [if_neg (by decide), padValue_wrap, wrapInt_neg]
    congr 2
    simp only [Int.ofNat_eq_coe] at hsplit ⊢
    push_cast
    rw [hsplit]
    ring
  | false =>
    simp only [Bool.false_eq_true, if_false, List.nil_append]
    have hh : (D ++ '.' :: F).head? ≠ some '-' := head_not_minus D _ hD (by simp)
    unfold ParseInt
    simp only [hh, if_false, parseIntLoop_dotted I hI D F hD hF]
    rw [if_neg (by decide), padValue_wrap]
    congr 2
    simp only [Int.ofNat_eq_coe] at hsplit ⊢
    push_cast
    rw [hsplit]
    ring

end RailRouting

namespace RailRouting

/-! ## C12, C13: what ParseInt returns -/

/-- ParseInt on a text `[-]D[.F]`, in wrapping 32-bit arithmetic. -/
theorem ParseInt_decimalText (neg : Bool) (D : List Char) (frac : Option (List Char))
    (hD : AllDigits D) (hF : AllDigits (frac.getD [])) :
    ParseInt 7 (decimalText neg D frac) = .ok (wrapInt (fixedPointValue neg D frac)) := by
  cases frac with
  | none =>
    have h := ParseInt_plain 7 neg D hD
    unfold decimalText fixedPointValue
    simp only [Option.getD_none, List.length_nil, Nat.zero_min, List.take_zero]
    have h0 : decimalValue [] = 0 := rfl
    rw [h, h0, Nat.zero_mul, Nat.add_zero]
  | some F =>
    have h := ParseInt_dotted 7 (by decide) neg D F hD hF
    unfold decimalText fixedPointValue
    simp only [Option.getD_some]
    rw [h]
    have ht : List.take (min F.length 7) F = List.take 7 F := by
      by_cases hl : F.length ≤ 7
      · rw [Nat.min_eq_left hl, List.take_of_length_le hl, List.take_of_length_le (le_refl _)]
      · rw [Nat.min_eq_right (by omega)]
    rw [ht]

/-- C13 (failing input): the text `0.1234567.8` has two dots, and ParseInt<7> returns
1234567 for it without an error: the scan leaves the loop at the seventh digit after the
first dot and the second dot is never read, so `haddot` is 1 at the test for multiple
dots. A second dot that the scan reaches is reported: `1..5` gives the error. -/
theorem ParseInt_second_dot_unread :
    ParseInt 7 "0.1234567.8".data = .ok 1234567 ∧
      ParseInt 7 "1..5".data = .error .multipleDots := by
  constructor
  · simp [ParseInt, parseIntLoop, padValue, wrapInt]
  · rfl

/-- C12: for every text of the form `[-]D[.F]` with `D` and `F` sequences of decimal digits
whose fixed-point value (the sign applied to `D * 10^7 + F1 * 10^(7 - k)`, `F1` the number
of the first `k = min |F| 7` digits of `F`) is within 32 bits, ParseInt<7> returns that
value: missing fractional digits count as zeros and the digits from the eighth on are
dropped without rounding. -/
theorem ParseInt_fixed_point (neg : Bool) (D : List Char) (frac : Option (List Char))
    (hD : AllDigits D) (hF : AllDigits (frac.getD []))
    (hlow : -2147483648 ≤ fixedPointValue neg D frac)
    (hhigh : fixedPointValue neg D frac ≤ 2147483647) :
    ParseInt 7 (decimalText neg D frac) = .ok (fixedPointValue neg D frac) := by
  rw [ParseInt_decimalText neg D frac hD hF, wrapInt_of_fits _ hlow hhigh]

/-- C12 at the texts `-123.45` (padded on the right to -1234500000). -/
theorem ParseInt_fixed_point_witness :
    AllDigits "123".data ∧ AllDigits "45".data ∧
      decimalText true "123".data (some "45".data) = "-123.45".data ∧
      fixedPointValue true "123".data (some "45".data) = -1234500000 ∧
      ParseInt 7 "-123.45".data = .ok (-1234500000) :=
  ⟨by unfold AllDigits; decide, by unfold AllDigits; decide, by rfl, by rfl,
    ParseInt_fixed_point true "123".data (some "45".data)
      (by unfold AllDigits; decide) (by unfold AllDigits; decide) (by decide) (by decide)⟩

end RailRouting

namespace RailRouting

/-! ## The text of DumpCoord -/

theorem digitChar_toNat (d : Nat) (h : d < 10) : (digitChar d).toNat = 48 + d := by
  have : d = 0 ∨ d = 1 ∨ d = 2 ∨ d = 3 ∨ d = 4 ∨ d = 5 ∨ d = 6 ∨ d = 7 ∨ d = 8 ∨ d = 9 := by
    omega
  rcases this with h | h | h | h | h | h | h | h | h | h <;> subst h <;> rfl

theorem allDigits_append (xs ys : List Char) (hx : AllDigits xs) (hy : AllDigits ys) :
    AllDigits (xs ++ ys) := by
  intro c hc
  rcases List.mem_append.1 hc with h | h
  · exact hx c h
  · exact hy c h

theorem allDigits_single (d : Nat) (h : d < 10) : AllDigits [digitChar d] := by
  intro c hc
  rw [List.mem_singleton] at hc
  subst hc
  rw [digitChar_toNat d h]
  omega

theorem decimalValue_single (d : Nat) (h : d < 10) : decimalValue [digitChar d] = d := by
  rw [decimalValue_cons, digitChar_toNat d h]
  have : decimalValue [] = 0 := rfl
  rw [this]
  simp

theorem natDigits_allDigits (fuel n : Nat) : AllDigits (natDigits fuel n) := by
  induction fuel generalizing n with
  | zero =>
    intro c hc
    simp [natDigits] at hc
  | succ fuel ih =>
    unfold natDigits
    by_cases h : n < 10
    · rw [if_pos h]
      exact allDigits_single n h
    · rw [if_neg h]
      exact allDigits_append _ _ (ih _) (allDigits_single _ (Nat.mod_lt _ (by decide)))

theorem natDigits_value (fuel n : Nat) (h : n < 10 ^ fuel) :
    decimalValue (natDigits fuel n) = n := by
  induction fuel generalizing n with
  | zero =>
    simp only [pow_zero, Nat.lt_one_iff] at h
    subst h
    rfl
  | succ fuel ih =>
    unfold natDigits
    by_cases h10 : n < 10
    · rw [if_pos h10]
      exact decimalValue_single n h10
    · rw [if_neg h10, decimalValue_append, decimalValue_single _ (Nat.mod_lt _ (by decide))]
      have hlt : n / 10 < 10 ^ fuel := by
        apply Nat.div_lt_of_lt_mul
        rw [pow_succ] at h
        omega
      rw [ih _ hlt]
      simp only [List.length_singleton, pow_one]
      omega

theorem natDigits_length (fuel n m : Nat) (h : n < 10 ^ (m + 1)) :
    (natDigits fuel n).length ≤ m + 1 := by
  induction fuel generalizing n m with
  | zero => simp [natDigits]
  | succ fuel ih =>
    unfold natDigits
    by_cases h10 : n < 10
    · rw [if_pos h10]
      simp
    · rw [if_neg h10]
      cases m with
      | zero =>
        simp only [Nat.zero_add, pow_one] at h
        omega
      | succ m =>
        have hlt : n / 10 < 10 ^ (m + 1) := by
          apply Nat.div_lt_of_lt_mul
          rw [pow_succ] at h
          omega
        have := ih (n / 10) m hlt
        simp only [List.length_append, List.length_singleton]
        omega

theorem decimalValue_zeros (k : Nat) (ds : List Char) :
    decimalValue (List.replicate k '0' ++ ds) = decimalValue ds := by
  induction k with
  | zero => rfl
  | succ k ih =>
    rw [List.replicate_succ, List.cons_append, decimalValue_cons, ih]
    have : '0'.toNat - 48 = 0 := by decide
    rw [this]
    simp

theorem allDigits_zeros (k : Nat) : AllDigits (List.replicate k '0') := by
  intro c hc
  rw [List.mem_replicate] at hc
  rw [hc.2]
  decide

theorem showInt_natCast (n : Nat) : showInt (Int.ofNat n) = natDigits (n + 1) n := by
  unfold showInt
  rw [if_neg (by simp)]
  rfl

/-- The loop over the trailing zeros of a positive `lo`: it ends with `lo = l * 10^j`,
`l` not a multiple of 10, and `w` advanced by `j`. -/
theorem stripZeros_spec (fuel L w : Nat) (hpos : 0 < L) (hlt : L < 10 ^ fuel) :
    ∃ l j : Nat, stripZeros fuel (Int.ofNat L) w = (Int.ofNat l, w + j) ∧
      L = l * 10 ^ j ∧ l % 10 ≠ 0 := by
  induction fuel generalizing L w with
  | zero =>
    simp only [pow_zero] at hlt
    omega
  | succ fuel ih =>
    unfold stripZeros
    have hmod : Int.tmod (Int.ofNat L) 10 = Int.ofNat (L % 10) := (Int.ofNat_tmod L 10).symm
    have hdiv : Int.tdiv (Int.ofNat L) 10 = Int.ofNat (L / 10) := (Int.ofNat_tdiv L 10).symm
    by_cases h0 : L % 10 = 0
    · have hm0 : Int.tmod (Int.ofNat L) 10 = 0 := by
        rw [hmod, h0]
        rfl
      rw [if_pos hm0, hdiv]
      have hlt2 : L / 10 < 10 ^ fuel := by
        apply Nat.div_lt_of_lt_mul
        rw [pow_succ] at hlt
        omega
      obtain ⟨l, j, he, hL, hl⟩ := ih (L / 10) (w + 1) (by omega) hlt2
      refine ⟨l, j + 1, ?_, ?_, hl⟩
      · rw [he]
        congr 1
        omega
      · rw [pow_succ, ← Nat.mul_assoc, ← hL]
        omega
    · have hm0 : ¬ Int.tmod (Int.ofNat L) 10 = 0 := by
        rw [hmod]
        intro hc
        exact h0 (Int.ofNat.inj hc)
      rw [if_neg hm0]
      exact ⟨L, 0, rfl, by simp, h0⟩

end RailRouting

namespace RailRouting

/-- The text of DumpCoord for a value of the nominal range, by the integer part `H` and
the fractional part `L` of its absolute value. -/
theorem DumpCoord_text (v : Int) (h1 : -1800000000 ≤ v) (h2 : v ≤ 1800000000) :
    ∃ frac : Option (List Char),
      DumpCoord v =
        decimalText (decide (v < 0))
          (natDigits (v.natAbs / 10000000 + 1) (v.natAbs / 10000000)) frac ∧
      AllDigits (frac.getD []) ∧ (frac.getD []).length ≤ 7 ∧
      decimalValue (frac.getD []) * 10 ^ (7 - (frac.getD []).length) =
        v.natAbs % 10000000 := by
  have hn : v.natAbs ≤ 1800000000 := by omega
  have hval : (if v < 0 then wrapInt (-v) else v) = Int.ofNat v.natAbs := by
    simp only [Int.ofNat_eq_coe]
    by_cases hv : v < 0
    · rw [if_pos hv, wrapInt_of_fits _ (by omega) (by omega)]
      omega
    · rw [if_neg hv]
      omega
  have hhi : Int.tdiv (Int.ofNat v.natAbs) shift_ = Int.ofNat (v.natAbs / 10000000) :=
    (Int.ofNat_tdiv v.natAbs 10000000).symm
  have hlo : wrapInt (Int.ofNat v.natAbs -
      wrapInt (Int.ofNat (v.natAbs / 10000000) * shift_)) =
      Int.ofNat (v.natAbs % 10000000) := by
    unfold wrapInt shift_
    simp only [Int.ofNat_eq_coe]
    omega
  have hsign : (if decide (v < 0) = true then ['-'] else ([] : List Char)) =
      (if v < 0 then ['-'] else []) := by
    by_cases hv : v < 0 <;> simp [hv]
  unfold DumpCoord
  simp only [hval, hhi, hlo, showInt_natCast]
  by_cases hL : v.natAbs % 10000000 = 0
  · refine ⟨none, ?_, ?_, ?_, ?_⟩
    · have hz : Int.ofNat (v.natAbs % 10000000) = 0 := by
        rw [hL]
        rfl
      simp only [hz, if_true, ne_eq, not_true_eq_false, if_false]
      rfl
    · intro c hc
      simp at hc
    · simp
    · rw [hL]
      rfl
  · have hz : ¬ Int.ofNat (v.natAbs % 10000000) = 0 := by
      intro hc
      exact hL (Int.ofNat.inj hc)
    obtain ⟨l, j, he, hLl, hl⟩ :=
      stripZeros_spec 32 (v.natAbs % 10000000) 0 (by omega)
        (lt_of_lt_of_le (Nat.mod_lt _ (by decide)) (by decide))
    have hl0 : ¬ Int.ofNat l = 0 := by
      intro hc
      have : l = 0 := Int.ofNat.inj hc
      omega
    have hl1 : 1 ≤ l := by omega
    have hLlt : l * 10 ^ j < 10000000 := by
      rw [← hLl]
      exact Nat.mod_lt _ (by decide)
    have hj : j < 7 := by
      by_contra hc
      have h7 : 10 ^ 7 ≤ 10 ^ j := Nat.pow_le_pow_right (by decide) (by omega)
      have : 10 ^ j ≤ l * 10 ^ j := Nat.le_mul_of_pos_left _ hl1
      omega
    have hllt : l < 10 ^ (7 - j - 1 + 1) := by
      have hsum : 7 - j - 1 + 1 + j = 7 := by omega
      have hsplit : (10 : Nat) ^ 7 = 10 ^ (7 - j - 1 + 1) * 10 ^ j := by
        rw [← pow_add, hsum]
      have : l * 10 ^ j < 10 ^ (7 - j - 1 + 1) * 10 ^ j := by
        rw [← hsplit]
        exact hLlt
      exact Nat.lt_of_mul_lt_mul_right this
    have hlen := natDigits_length (l + 1) l (7 - j - 1) hllt
    refine ⟨some (padLeft (7 - j) '0' (natDigits (l + 1) l)), ?_, ?_, ?_, ?_⟩
    · simp only [hz, if_false, he, Nat.zero_add, ne_eq, hl0, not_false_eq_true, if_true,
        showInt_natCast]
      unfold decimalText
      simp only [hsign, List.append_assoc, List.singleton_append]
    · simp only [Option.getD_some]
      unfold padLeft
      exact allDigits_append _ _ (allDigits_zeros _) (natDigits_allDigits _ _)
    · simp only [Option.getD_some]
      unfold padLeft
      rw [List.length_append, List.length_replicate]
      omega
    · simp only [Option.getD_some]
      unfold padLeft
      rw [decimalValue_zeros, List.length_append, List.length_replicate,
        natDigits_value (l + 1) l (lt_trans (Nat.lt_pow_self (by decide) l)
          (Nat.pow_lt_pow_right (by decide) (Nat.lt_succ_self l)))]
      have e : 7 - (7 - j - (natDigits (l + 1) l).length + (natDigits (l + 1) l).length) = j := by
        omega
      rw [e, ← hLl]

end RailRouting

namespace RailRouting

/-! ## C11: writing a coordinate and reading it back -/

/-- C11: for every integer `v` with -1,800,000,000 <= v <= 1,800,000,000, ParseInt<7> of
the text that LonLat::DumpCoord writes for `v` returns `v`. -/
theorem DumpCoord_ParseInt_roundtrip (v : Int) (h1 : -1800000000 ≤ v)
    (h2 : v ≤ 1800000000) : ParseInt 7 (DumpCoord v) = .ok v := by
  obtain ⟨frac, ht, hF, hlen, hval⟩ := DumpCoord_text v h1 h2
  rw [ht, ParseInt_decimalText _ _ frac (natDigits_allDigits _ _) hF]
  have hH : decimalValue (natDigits (v.natAbs / 10000000 + 1) (v.natAbs / 10000000)) =
      v.natAbs / 10000000 :=
    natDigits_value _ _ (lt_trans (Nat.lt_pow_self (by decide) _)
      (Nat.pow_lt_pow_right (by decide) (Nat.lt_succ_self _)))
  have hfv : fixedPointValue (decide (v < 0))
      (natDigits (v.natAbs / 10000000 + 1) (v.natAbs / 10000000)) frac = v := by
    unfold fixedPointValue
    simp only
    rw [Nat.min_eq_left hlen, List.take_of_length_le (le_refl _), hval, hH]
    have e : v.natAbs / 10000000 * 10 ^ 7 + v.natAbs % 10000000 = v.natAbs := by
      have : (10 : Nat) ^ 7 = 10000000 := by decide
      rw [this]
      omega
    rw [e]
    simp only [Int.ofNat_eq_coe]
    by_cases hv : v < 0
    · simp only [hv, decide_True, if_true]
      omega
    · simp only [hv, decide_False, Bool.false_eq_true, if_false]
      omega
  rw [hfv, wrapInt_of_fits v (by omega) (by omega)]

/-- C11 at -1234500000, written as `-123.45`. -/
theorem DumpCoord_ParseInt_roundtrip_witness :
    DumpCoord (-1234500000) = "-123.45".data ∧
      ParseInt 7 (DumpCoord (-1234500000)) = .ok (-1234500000) :=
  ⟨by decide, DumpCoord_ParseInt_roundtrip (-1234500000) (by decide) (by decide)⟩

end RailRouting

namespace RailRouting

/-! ## C21: copies of a lazyinit_array -/

/-- The bitmap of a copy is the content of its own fresh allocation, whatever the bitmap
of the source holds. -/
theorem copy_bitmap_raw {α : Type} (epp : Nat) (a : LazyArray α) (rawBitmap : Nat → Nat) :
    (LazyArray.copy epp a rawBitmap).page_initialized_ =
        (List.range (GetBitmapSize epp a.size_)).map (fun i => rawBitmap i % 256) ∧
      (LazyArray.assign epp (LazyArray.copy epp a rawBitmap) a rawBitmap).page_initialized_ =
        (List.range (GetBitmapSize epp a.size_)).map (fun i => rawBitmap i % 256) :=
  ⟨rfl, rfl⟩

/-- C21 (failing input): the array `a` of 40 cells with the default -1 after `a[3] = 7`
reads 7 at index 3 and has the bitmap byte 1. Its copy, built by the copy constructor or
by `operator=` in fresh memory that holds zeros, has the bitmap byte 0 and reads the
default -1 at index 3: the second `std::copy` takes the bitmap from `page_initialized_`
of the new array, not from `other`. In fresh memory that holds the byte 255 the copy of a
never written array reads the raw cell 99 where the source reads the default. -/
theorem lazyinit_array_copy_loses_bitmap :
    ∃ a, LazyArray.writes 16 [(3, (7 : Int))] (LazyArray.create 16 40 (-1) (fun _ => 99)) =
        some a ∧
      a.readConst 16 3 = some 7 ∧ a.page_initialized_ = [1] ∧
      (LazyArray.copy 16 a (fun _ => 0)).page_initialized_ = [0] ∧
      (LazyArray.copy 16 a (fun _ => 0)).readConst 16 3 = some (-1) ∧
      (LazyArray.assign 16 (LazyArray.create 16 8 0 (fun _ => 0)) a (fun _ => 0)).readConst
        16 3 = some (-1) ∧
      (LazyArray.create 16 40 (-1) (fun _ => (99 : Int))).readConst 16 3 = some (-1) ∧
      (LazyArray.copy 16 (LazyArray.create 16 40 (-1) (fun _ => (99 : Int)))
        (fun _ => 255)).readConst 16 3 = some 99 :=
  ⟨_, rfl, by decide, by decide, by decide, by decide, by decide, by decide, by decide⟩

/-! ## C22: the length error of the pool -/

/-- The result of `Pool.alloc` is that of `Pool.allocState` without the members after a
failed call. -/
theorem alloc_eq_allocState (p : Pool) (count : Nat) :
    p.alloc count =
      match p.allocState count with
      | (_, .error err) => .error err
      | (p2, .ok place) => .ok (p2, place) := by
  unfold Pool.alloc Pool.allocState Pool.GetFreeSpace
  by_cases h1 : count > p.chunk_size_
  · simp only [h1, if_true]
  · simp only [h1, if_false]
    by_cases h2 : p.last_chunk_free_ < count
    · simp only [h2, if_true]
      by_cases h3 : p.chunk_size_ = 0
      · simp [h3]
      · simp [h3]
    · simp only [h2, if_false]
      by_cases h3 : p.chunks_ = 0
      · simp [h3]
      · by_cases h4 : p.last_chunk_free_ = 0
        · simp [h3, h4]
        · simp [h3, h4]

/-- C22: for every pool with chunk size `N` and every count, `alloc(count)` ends with the
length error if and only if `count > N`, and then the members of the pool (the chunks and
the free count of the last chunk) are what they were before the call. -/
theorem pool_alloc_length_error (p : Pool) (count : Nat) :
    ((p.allocState count).2 = .error .lengthError ↔ count > p.chunk_size_) ∧
      (p.alloc count = .error .lengthError ↔ count > p.chunk_size_) ∧
      ((p.allocState count).2 = .error .lengthError → (p.allocState count).1 = p) := by
  have key : (p.allocState count).2 = .error .lengthError ↔ count > p.chunk_size_ := by
    unfold Pool.allocState Pool.GetFreeSpace
    by_cases h1 : count > p.chunk_size_
    · simp [h1]
    · simp only [h1, if_false, iff_false]
      by_cases h2 : p.last_chunk_free_ < count
      · simp only [h2, if_true]
        by_cases h3 : p.chunk_size_ = 0
        · simp [h3]
        · simp [h3]
      · simp only [h2, if_false]
        by_cases h3 : p.chunks_ = 0
        · simp [h3]
        · by_cases h4 : p.last_chunk_free_ = 0
          · simp [h3, h4]
          · simp [h3, h4]
  have hstate : count > p.chunk_size_ → (p.allocState count).1 = p := by
    intro h1
    unfold Pool.allocState Pool.GetFreeSpace
    simp [h1]
  refine ⟨key, ?_, fun h => hstate (key.1 h)⟩
  rw [alloc_eq_allocState, ← key]
  rcases h : p.allocState count with ⟨p2, _ | _⟩ <;> simp

/-- C22 (witness). A pool of chunk size 4 with one chunk and 2 free slots: `alloc(5)` ends
with the length error and leaves the members as they were, `alloc(2)` does not. -/
theorem pool_alloc_length_error_witness :
    (({ chunks_ := 1, last_chunk_free_ := 2, chunk_size_ := 4 } : Pool).allocState 5).2 =
        .error .lengthError ∧
      (({ chunks_ := 1, last_chunk_free_ := 2, chunk_size_ := 4 } : Pool).allocState 5).1 =
        { chunks_ := 1, last_chunk_free_ := 2, chunk_size_ := 4 } ∧
      ¬ (({ chunks_ := 1, last_chunk_free_ := 2, chunk_size_ := 4 } : Pool).allocState 2).2 =
        .error .lengthError :=
  ⟨(pool_alloc_length_error ⟨1, 2, 4⟩ 5).1.2 (by decide),
    (pool_alloc_length_error ⟨1, 2, 4⟩ 5).2.2
      ((pool_alloc_length_error ⟨1, 2, 4⟩ 5).1.2 (by decide)),
    fun h => absurd ((pool_alloc_length_error ⟨1, 2, 4⟩ 2).1.1 h) (by decide)⟩

/-! ## C25: the id of an entity -/

/-- C25 (failing input): the 64-bit id 4294967301 (2^32 + 5) passed to the constructors of
Node, Way and Relation is stored as 5, the id of another entity: the constructors take
the id as the 32-bit `osmint_t`. -/
theorem constructor_truncates_id :
    (Node.create 4294967301 0 0).GetId = 5 ∧ (Node.create 5 0 0).GetId = 5 ∧
      (Way.create 4294967301).GetId = 5 ∧ (Way.create 5).GetId = 5 ∧
      (Relation.create 4294967301).GetId = 5 ∧ (Relation.create 5).GetId = 5 := by
  decide

end RailRouting

namespace RailRouting

/-! ## C23: the spans of the pool -/

theorem alloc_spec (p : Pool) (hv : p.Valid) (count : Nat) (p1 : Pool) (chunk offset : Nat)
    (h : p.alloc count = .ok (p1, chunk, offset)) :
    p1.Valid ∧ p1.chunk_size_ = p.chunk_size_ ∧ chunk + 1 = p1.chunks_ ∧
      offset + count + p1.last_chunk_free_ = p.chunk_size_ ∧
      ((p1.chunks_ = p.chunks_ ∧ p1.last_chunk_free_ + count = p.last_chunk_free_) ∨
        (p1.chunks_ = p.chunks_ + 1 ∧ offset = 0)) := by
  obtain ⟨hv1, hv2⟩ := hv
  unfold Pool.alloc at h
  by_cases h1 : count > p.chunk_size_
  · simp [h1] at h
  · simp only [h1, if_false] at h
    by_cases h2 : p.last_chunk_free_ < count
    · simp only [h2, if_true] at h
      by_cases h3 : p.chunk_size_ = 0
      · simp [h3] at h
      · simp only [h3, if_false, Nat.add_eq_zero, one_ne_zero, and_false, Except.ok.injEq,
          Prod.mk.injEq] at h
        obtain ⟨hp, hc, ho⟩ := h
        subst hp
        simp only [Nat.add_sub_cancel, Nat.sub_self] at hc ho
        refine ⟨⟨?_, ?_⟩, rfl, ?_, ?_, Or.inr ⟨rfl, ho.symm⟩⟩
        · simp only
          omega
        · simp only
          intro hc0
          omega
        · simp only
          omega
        · simp only
          omega
    · simp only [h2, if_false] at h
      by_cases h3 : p.chunks_ = 0
      · simp [h3] at h
      · by_cases h4 : p.last_chunk_free_ = 0
        · simp [h3, h4] at h
        · simp only [h3, h4, if_false, Except.ok.injEq, Prod.mk.injEq] at h
          obtain ⟨hp, hc, ho⟩ := h
          subst hp
          refine ⟨⟨?_, ?_⟩, rfl, ?_, ?_, Or.inl ⟨rfl, ?_⟩⟩
          · simp only
            omega
          · simp only
            intro hc0
            omega
          · simp only
            omega
          · simp only
            omega
          · simp only
            omega

theorem alloc_defined (p : Pool) (hv : p.Valid) (count : Nat) (h1 : 1 ≤ count)
    (h2 : count ≤ p.chunk_size_) : ∃ r, p.alloc count = .ok r := by
  obtain ⟨hv1, hv2⟩ := hv
  unfold Pool.alloc
  rw [if_neg (by omega)]
  by_cases h3 : p.last_chunk_free_ < count
  · simp only [h3, if_true]
    rw [if_neg (by omega), if_neg (by omega)]
    exact ⟨_, rfl⟩
  · simp only [h3, if_false]
    have hc : p.chunks_ ≠ 0 := by
      intro hc
      have := hv2 hc
      omega
    rw [if_neg hc, if_neg (by omega)]
    exact ⟨_, rfl⟩

theorem allocs_cons (p : Pool) (count : Nat) (rest : List Nat) :
    Pool.allocs p (count :: rest) =
      match p.alloc count with
      | .error err => .error err
      | .ok (p1, chunk, offset) =>
        match Pool.allocs p1 rest with
        | .error err => .error err
        | .ok (p2, spans) =>
          .ok (p2, { chunk := chunk, offset := offset, count := count } :: spans) := rfl

/-- The spans of a sequence of calls that runs without an error: each has the count asked
for and lies inside a chunk of the pool, at or after the free part of the last chunk the
pool had before, and no two of them share a slot. -/
theorem allocs_spec (counts : List Nat) (p : Pool) (hv : p.Valid) (p2 : Pool)
    (spans : List Span) (h : Pool.allocs p counts = .ok (p2, spans)) :
    p2.Valid ∧ p2.chunk_size_ = p.chunk_size_ ∧ p.chunks_ ≤ p2.chunks_ ∧
      spans.map (fun s => s.count) = counts ∧
      (∀ s ∈ spans, s.chunk < p2.chunks_ ∧ s.offset + s.count ≤ p.chunk_size_ ∧
        p.chunks_ ≤ s.chunk + 1 ∧
        (s.chunk + 1 = p.chunks_ → p.chunk_size_ ≤ s.offset + p.last_chunk_free_)) ∧
      spans.Pairwise Span.Disjoint := by
  induction counts generalizing p spans with
  | nil =>
    simp only [Pool.allocs, Except.ok.injEq, Prod.mk.injEq] at h
    obtain ⟨h1, h2⟩ := h
    subst h1 h2
    exact ⟨hv, rfl, le_refl _, rfl, by simp, List.Pairwise.nil⟩
  | cons c rest ih =>
    rw [allocs_cons] at h
    rcases ha : p.alloc c with err | ⟨p1, chunk, offset⟩
    · rw [ha] at h
      simp at h
    · rw [ha] at h
      simp only at h
      rcases hr : Pool.allocs p1 rest with err | ⟨p3, spans1⟩
      · rw [hr] at h
        simp at h
      · rw [hr] at h
        simp only [Except.ok.injEq, Prod.mk.injEq] at h
        obtain ⟨h1, h2⟩ := h
        subst h1 h2
        obtain ⟨a1, a2, a3, a4, a5⟩ := alloc_spec p hv c p1 chunk offset ha
        obtain ⟨b1, b2, b3, b4, b5, b6⟩ := ih p1 a1 spans1 hr
        refine ⟨b1, by rw [b2, a2], by omega, by simp [b4], ?_, ?_⟩
        · intro s hs
          rcases List.mem_cons.1 hs with hs | hs
          · subst hs
            simp only
            refine ⟨by omega, by omega, by omega, ?_⟩
            intro hch
            omega
          · obtain ⟨c1, c2, c3, c4⟩ := b5 s hs
            rw [a2] at c2 c4
            refine ⟨c1, c2, by omega, ?_⟩
            intro hch
            have := c4 (by omega)
            omega
        · refine List.Pairwise.cons ?_ b6
          intro s hs
          obtain ⟨c1, c2, c3, c4⟩ := b5 s hs
          rw [a2] at c2 c4
          unfold Span.Disjoint
          simp only
          by_cases hch : chunk = s.chunk
          · right
            left
            have := c4 (by omega)
            omega
          · exact Or.inl hch

/-- A sequence of calls with every count between 1 and the chunk size runs without an
error. -/
theorem allocs_defined (counts : List Nat) (p : Pool) (hv : p.Valid)
    (hc : ∀ c ∈ counts, 1 ≤ c ∧ c ≤ p.chunk_size_) : ∃ r, Pool.allocs p counts = .ok r := by
  induction counts generalizing p with
  | nil => exact ⟨_, rfl⟩
  | cons c rest ih =>
    obtain ⟨h1, h2⟩ := hc c (List.mem_cons_self _ _)
    obtain ⟨⟨p1, chunk, offset⟩, ha⟩ := alloc_defined p hv c h1 h2
    obtain ⟨a1, a2, -, -, -⟩ := alloc_spec p hv c p1 chunk offset ha
    obtain ⟨⟨p2, spans⟩, hr⟩ := ih p1 a1
      (fun c2 hc2 => by rw [a2]; exact hc c2 (List.mem_cons_of_mem _ hc2))
    refine ⟨(p2, { chunk := chunk, offset := offset, count := c } :: spans), ?_⟩
    rw [allocs_cons, ha]
    simp only [hr]

/-- The spans of the pool for counts between 1 and the chunk size, on a pool that starts
empty: every call returns a span of the count asked for inside one chunk of the pool, and
no two spans share a slot. -/
theorem allocs_positive_counts (n : Nat) (counts : List Nat)
    (hc : ∀ c ∈ counts, 1 ≤ c ∧ c ≤ n) :
    ∃ p2 spans, Pool.allocs (Pool.empty n) counts = .ok (p2, spans) ∧
      spans.map (fun s => s.count) = counts ∧
      (∀ s ∈ spans, s.chunk < p2.chunks_ ∧ s.offset + s.count ≤ n) ∧
      spans.Pairwise Span.Disjoint := by
  have hv : (Pool.empty n).Valid := ⟨Nat.zero_le _, fun _ => rfl⟩
  obtain ⟨⟨p2, spans⟩, hr⟩ := allocs_defined counts (Pool.empty n) hv hc
  obtain ⟨-, -, -, b4, b5, b6⟩ := allocs_spec counts (Pool.empty n) hv p2 spans hr
  exact ⟨p2, spans, hr, b4, fun s hs => ⟨(b5 s hs).1, (b5 s hs).2.1⟩, b6⟩

/-- C23 (failing input): `alloc(0)` as the first call on an empty pool is undefined
(`chunks_.back()` of an empty vector), and so is `alloc(0)` when the last chunk is full
(the placement `new` builds a `T` one past the end of the chunk). Prepare makes the first
of these calls for the data set of the one-node rail way 20 and its node 9, a named
station: node 9 becomes the first routing node with `nedges` 0. -/
theorem pool_alloc_zero_undefined :
    Pool.allocs (Pool.empty 1024) [0] = .error .poolUndefined ∧
      Pool.allocs (Pool.empty 4) [4, 0] = .error .poolUndefined ∧
      Parse exGeo [exWaySingle] [exNode9Stop] = .error .poolUndefined := by
  refine ⟨by rfl, by rfl, by rfl⟩

end RailRouting

namespace RailRouting

/-! ## C24: AddTag -/

theorem strLt_irrefl (a : String) : strLt a a = false := by
  unfold strLt
  simp

theorem strLt_trans (a b c : String) (h1 : strLt a b = true) (h2 : strLt b c = true) :
    strLt a c = true := by
  unfold strLt at *
  simp only [decide_eq_true_eq] at *
  exact lt_trans h1 h2

theorem strLt_total (a b : String) (h1 : strLt a b = false) (h2 : a ≠ b) :
    strLt b a = true := by
  unfold strLt at *
  simp only [decide_eq_true_eq, decide_eq_false_iff_not] at *
  have hne : b.data ≠ a.data := fun h => h2 (String.ext h.symm)
  exact lt_of_le_of_ne (not_lt.1 h1) hne

theorem tagMapInsert_nil (k v : String) : tagMapInsert [] k v = ([(k, v)], true) := rfl

theorem tagMapInsert_cons (k1 v1 : String) (rest : List (String × String)) (k v : String) :
    tagMapInsert ((k1, v1) :: rest) k v =
      if strLt k k1 then ((k, v) :: (k1, v1) :: rest, true)
      else if k = k1 then ((k1, v1) :: rest, false)
      else ((k1, v1) :: (tagMapInsert rest k v).1, (tagMapInsert rest k v).2) := rfl

theorem lookup_cons_eq (k k1 v1 : String) (rest : List (String × String)) :
    List.lookup k ((k1, v1) :: rest) = if k = k1 then some v1 else List.lookup k rest := by
  rw [List.lookup_cons]
  by_cases h : k = k1
  · simp [h]
  · have : (k == k1) = false := by simpa using h
    simp [h, this]

/-- The insertion fails exactly on a key that is there, and then nothing changes. -/
theorem tagMapInsert_false (m : List (String × String)) (k v : String)
    (h : (tagMapInsert m k v).2 = false) :
    (tagMapInsert m k v).1 = m ∧ ∃ v0, List.lookup k m = some v0 := by
  induction m with
  | nil => simp [tagMapInsert_nil] at h
  | cons a rest ih =>
    obtain ⟨k1, v1⟩ := a
    rw [tagMapInsert_cons] at h ⊢
    rw [lookup_cons_eq]
    by_cases h1 : strLt k k1 = true
    · rw [if_pos h1] at h
      simp at h
    · rw [if_neg h1] at h ⊢
      by_cases h2 : k = k1
      · rw [if_pos h2]
        exact ⟨rfl, v1, by rw [if_pos h2]⟩
      · rw [if_neg h2] at h ⊢
        obtain ⟨e1, v0, e2⟩ := ih h
        exact ⟨by simp only; rw [e1], v0, by rw [if_neg h2]; exact e2⟩

/-- After a successful insertion the key has the value, and the insertion changes the
value of no other key. -/
theorem tagMapInsert_lookup (m : List (String × String)) (k v : String) :
    ((tagMapInsert m k v).2 = true → List.lookup k (tagMapInsert m k v).1 = some v) ∧
      ∀ k2, k2 ≠ k → List.lookup k2 (tagMapInsert m k v).1 = List.lookup k2 m := by
  induction m with
  | nil =>
    rw [tagMapInsert_nil]
    refine ⟨fun _ => by rw [lookup_cons_eq, if_pos rfl], ?_⟩
    intro k2 h2
    rw [lookup_cons_eq, if_neg h2]
  | cons a rest ih =>
    obtain ⟨k1, v1⟩ := a
    rw [tagMapInsert_cons]
    by_cases h1 : strLt k k1 = true
    · rw [if_pos h1]
      refine ⟨fun _ => by rw [lookup_cons_eq, if_pos rfl], ?_⟩
      intro k2 h2
      simp only
      rw [lookup_cons_eq, if_neg h2]
    · rw [if_neg h1]
      by_cases h2 : k = k1
      · rw [if_pos h2]
        exact ⟨fun h => by simp at h, fun _ _ => rfl⟩
      · rw [if_neg h2]
        simp only
        refine ⟨?_, ?_⟩
        · intro h
          rw [lookup_cons_eq, if_neg h2]
          exact ih.1 h
        · intro k3 h3
          rw [lookup_cons_eq, lookup_cons_eq, ih.2 k3 h3]

/-- In a map with increasing keys the insertion succeeds only for a key that is not there. -/
theorem tagMapInsert_true (m : List (String × String)) (k v : String)
    (hs : m.Pairwise (fun a b => strLt a.1 b.1 = true))
    (h : (tagMapInsert m k v).2 = true) : List.lookup k m = none := by
  induction m with
  | nil => rfl
  | cons a rest ih =>
    obtain ⟨k1, v1⟩ := a
    rw [tagMapInsert_cons] at h
    rw [lookup_cons_eq]
    obtain ⟨hs1, hs2⟩ := List.pairwise_cons.1 hs
    by_cases h1 : strLt k k1 = true
    · have hne : k ≠ k1 := by
        intro hc
        rw [hc, strLt_irrefl] at h1
        simp at h1
      rw [if_neg hne]
      -- every later key is greater than `k`
      cases hl : List.lookup k rest with
      | none => rfl
      | some v0 =>
        exfalso
        have hmem : (k, v0) ∈ rest := by
          clear ih hs hs1 hs2 h
          induction rest with
          | nil => simp at hl
          | cons b rest2 ih2 =>
            obtain ⟨k2, v2⟩ := b
            rw [lookup_cons_eq] at hl
            by_cases hk : k = k2
            · rw [if_pos hk] at hl
              injection hl with hl
              rw [hk, hl]
              exact List.mem_cons_self _ _
            · rw [if_neg hk] at hl
              exact List.mem_cons_of_mem _ (ih2 hl)
        have h3 := hs1 (k, v0) hmem
        simp only at h3
        have h4 := strLt_trans k k1 k h1 h3
        rw [strLt_irrefl] at h4
        simp at h4
    · rw [if_neg h1] at h
      by_cases h2 : k = k1
      · rw [if_pos h2] at h
        simp at h
      · rw [if_neg h2] at h ⊢
        exact ih hs2 h

/-- The insertion keeps the keys increasing. -/
theorem tagMapInsert_sorted (m : List (String × String)) (k v : String)
    (hs : m.Pairwise (fun a b => strLt a.1 b.1 = true)) :
    (tagMapInsert m k v).1.Pairwise (fun a b => strLt a.1 b.1 = true) ∧
      ∀ p ∈ (tagMapInsert m k v).1, p ∈ m ∨ p = (k, v) := by
  induction m with
  | nil =>
    rw [tagMapInsert_nil]
    exact ⟨List.pairwise_singleton _ _, fun p hp => Or.inr (List.mem_singleton.1 hp)⟩
  | cons a rest ih =>
    obtain ⟨k1, v1⟩ := a
    obtain ⟨hs1, hs2⟩ := List.pairwise_cons.1 hs
    rw [tagMapInsert_cons]
    by_cases h1 : strLt k k1 = true
    · rw [if_pos h1]
      refine ⟨List.Pairwise.cons ?_ hs, ?_⟩
      · intro p hp
        rcases List.mem_cons.1 hp with hp | hp
        · rw [hp]
          exact h1
        · exact strLt_trans _ _ _ h1 (hs1 p hp)
      · intro p hp
        rcases List.mem_cons.1 hp with hp | hp
        · exact Or.inr hp
        · exact Or.inl hp
    · rw [if_neg h1]
      by_cases h2 : k = k1
      · rw [if_pos h2]
        exact ⟨hs, fun p hp => Or.inl hp⟩
      · rw [if_neg h2]
        obtain ⟨i1, i2⟩ := ih hs2
        simp only
        refine ⟨List.Pairwise.cons ?_ i1, ?_⟩
        · intro p hp
          rcases i2 p hp with hp | hp
          · exact hs1 p hp
          · rw [hp]
            exact strLt_total k k1 (by simpa using h1) h2
        · intro p hp
          rcases List.mem_cons.1 hp with hp | hp
          · exact Or.inl (by rw [hp]; exact List.mem_cons_self _ _)
          · rcases i2 p hp with hp | hp
            · exact Or.inl (List.mem_cons_of_mem _ hp)
            · exact Or.inr hp

/-- C24: for every tag container (a `std::map`, its keys increasing), key `k` and value
`v`, AddTag(k, v) returns true if and only if `k` was absent; when it returns true,
GetTag(k) is `v` afterwards and every other key keeps its value, and when it returns
false the container is unchanged; the keys are increasing afterwards. -/
theorem AddTag_spec (t : TagContainer) (hs : t.Sorted) (key value : String) :
    ((t.AddTag key value).2 = true ↔ t.GetTag key = none) ∧
      ((t.AddTag key value).2 = true →
        (t.AddTag key value).1.GetTag key = some value ∧
          ∀ k2, k2 ≠ key → (t.AddTag key value).1.GetTag k2 = t.GetTag k2) ∧
      ((t.AddTag key value).2 = false → (t.AddTag key value).1 = t) ∧
      (t.AddTag key value).1.Sorted := by
  unfold TagContainer.AddTag TagContainer.GetTag TagContainer.Sorted
  simp only
  refine ⟨⟨tagMapInsert_true _ _ _ hs, ?_⟩, ?_, ?_, (tagMapInsert_sorted _ _ _ hs).1⟩
  · intro hnone
    cases hb : (tagMapInsert t.tags_ key value).2 with
    | true => rfl
    | false =>
      obtain ⟨-, v0, hv0⟩ := tagMapInsert_false _ _ _ hb
      rw [hnone] at hv0
      simp at hv0
  · intro h
    exact ⟨(tagMapInsert_lookup _ _ _).1 h, (tagMapInsert_lookup _ _ _).2⟩
  · intro h
    rw [(tagMapInsert_false _ _ _ h).1]

/-- C24 at the tags of station A: the key `alt_name` is added, the key `name` is refused. -/
theorem AddTag_spec_witness :
    exNode1.tags.Sorted ∧
      ((exNode1.tags.AddTag "alt_name" "Alpha").2 = true ↔
        exNode1.tags.GetTag "alt_name" = none) ∧
      ((exNode1.tags.AddTag "alt_name" "Alpha").2 = true →
        (exNode1.tags.AddTag "alt_name" "Alpha").1.GetTag "alt_name" = some "Alpha" ∧
          ∀ k2, k2 ≠ "alt_name" →
            (exNode1.tags.AddTag "alt_name" "Alpha").1.GetTag k2 = exNode1.tags.GetTag k2) ∧
      ((exNode1.tags.AddTag "alt_name" "Alpha").2 = false →
        (exNode1.tags.AddTag "alt_name" "Alpha").1 = exNode1.tags) ∧
      (exNode1.tags.AddTag "alt_name" "Alpha").1.Sorted ∧
      (exNode1.tags.AddTag "alt_name" "Alpha").2 = true ∧
      (exNode1.tags.AddTag "name" "Alpha") = (exNode1.tags, false) :=
  ⟨by unfold TagContainer.Sorted; decide,
    (AddTag_spec exNode1.tags (by unfold TagContainer.Sorted; decide) "alt_name" "Alpha").1,
    (AddTag_spec exNode1.tags (by unfold TagContainer.Sorted; decide) "alt_name" "Alpha").2.1,
    (AddTag_spec exNode1.tags (by unfold TagContainer.Sorted; decide) "alt_name" "Alpha").2.2.1,
    (AddTag_spec exNode1.tags (by unfold TagContainer.Sorted; decide) "alt_name" "Alpha").2.2.2,
    by decide, by decide⟩

end RailRouting

namespace RailRouting

/-! ## C26: attribute values written and read back -/

theorem entity_data :
    "&amp;".data = ['&', 'a', 'm', 'p', ';'] ∧ "&lt;".data = ['&', 'l', 't', ';'] ∧
    "&gt;".data = ['&', 'g', 't', ';'] ∧ "&quot;".data = ['&', 'q', 'u', 'o', 't', ';'] ∧
    "&apos;".data = ['&', 'a', 'p', 'o', 's', ';'] ∧ "&#x9;".data = ['&', '#', 'x', '9', ';'] ∧
    "&#xA;".data = ['&', '#', 'x', 'A', ';'] ∧ "&#xD;".data = ['&', '#', 'x', 'D', ';'] :=
  ⟨rfl, rfl, rfl, rfl, rfl, rfl, rfl, rfl⟩

theorem char_of_toNat (c : Char) (n : Nat) (h : c.toNat = n) : c = Char.ofNat n := by
  rw [← h, Char.ofNat_toNat]

/-- What the `switch` appends: the entity of the character, or the character itself when
it is none of the eight. -/
theorem encodeChar_spec (c : Char) :
    (∃ e ∈ entityTable, e.2 = c ∧ encodeChar c = e.1) ∨
      (¬ IsRawSpecial c ∧ c ≠ '&' ∧ encodeChar c = [c]) := by
  unfold encodeChar
  by_cases h1 : c = '&'
  · left
    rw [if_pos h1]
    exact ⟨("&amp;".data, '&'), by simp [entityTable], h1.symm, rfl⟩
  rw [if_neg h1]
  by_cases h2 : c = '<'
  · left
    rw [if_pos h2]
    exact ⟨("&lt;".data, '<'), by simp [entityTable], h2.symm, rfl⟩
  rw [if_neg h2]
  by_cases h3 : c = '>'
  · left
    rw [if_pos h3]
    exact ⟨("&gt;".data, '>'), by simp [entityTable], h3.symm, rfl⟩
  rw [if_neg h3]
  by_cases h4 : c.toNat = 34
  · left
    rw [if_pos h4]
    exact ⟨("&quot;".data, Char.ofNat 34), by simp [entityTable],
      (char_of_toNat c 34 h4).symm, rfl⟩
  rw [if_neg h4]
  by_cases h5 : c.toNat = 39
  · left
    rw [if_pos h5]
    exact ⟨("&apos;".data, Char.ofNat 39), by simp [entityTable],
      (char_of_toNat c 39 h5).symm, rfl⟩
  rw [if_neg h5]
  by_cases h6 : c.toNat = 9
  · left
    rw [if_pos h6]
    exact ⟨("&#x9;".data, Char.ofNat 9), by simp [entityTable],
      (char_of_toNat c 9 h6).symm, rfl⟩
  rw [if_neg h6]
  by_cases h7 : c.toNat = 10
  · left
    rw [if_pos h7]
    exact ⟨("&#xA;".data, Char.ofNat 10), by simp [entityTable],
      (char_of_toNat c 10 h7).symm, rfl⟩
  rw [if_neg h7]
  by_cases h8 : c.toNat = 13
  · left
    rw [if_pos h8]
    exact ⟨("&#xD;".data, Char.ofNat 13), by simp [entityTable],
      (char_of_toNat c 13 h8).symm, rfl⟩
  rw [if_neg h8]
  right
  refine ⟨?_, h1, rfl⟩
  unfold IsRawSpecial
  tauto

theorem mem_entityTable (e : List Char × Char) (he : e ∈ entityTable) :
    e = (['&', 'a', 'm', 'p', ';'], '&') ∨ e = (['&', 'l', 't', ';'], '<') ∨
      e = (['&', 'g', 't', ';'], '>') ∨ e = (['&', 'q', 'u', 'o', 't', ';'], Char.ofNat 34) ∨
      e = (['&', 'a', 'p', 'o', 's', ';'], Char.ofNat 39) ∨
      e = (['&', '#', 'x', '9', ';'], Char.ofNat 9) ∨
      e = (['&', '#', 'x', 'A', ';'], Char.ofNat 10) ∨
      e = (['&', '#', 'x', 'D', ';'], Char.ofNat 13) := by
  obtain ⟨e1, e2, e3, e4, e5, e6, e7, e8⟩ := entity_data
  unfold entityTable at he
  simp only [e1, e2, e3, e4, e5, e6, e7, e8, List.mem_cons, List.mem_singleton,
    List.mem_nil_iff, or_false] at he
  exact he

/-- The decoder recognises an entity of the table at the head of a text. -/
theorem matchEntity_entity (e : List Char × Char) (he : e ∈ entityTable) (tail : List Char) :
    matchEntity (e.1 ++ tail) = some (e.2, tail) := by
  obtain ⟨e1, e2, e3, e4, e5, e6, e7, e8⟩ := entity_data
  rcases mem_entityTable e he with h | h | h | h | h | h | h | h <;> subst h <;>
    unfold matchEntity entityTable <;>
    simp [e1, e2, e3, e4, e5, e6, e7, e8, List.findSome?_cons, stripLeading]

theorem matchEntity_plain (c : Char) (tail : List Char) (h : c ≠ '&') :
    matchEntity (c :: tail) = none := by
  obtain ⟨e1, e2, e3, e4, e5, e6, e7, e8⟩ := entity_data
  have h2 : ¬ '&' = c := fun hc => h hc.symm
  unfold matchEntity entityTable
  simp [e1, e2, e3, e4, e5, e6, e7, e8, List.findSome?_cons, stripLeading, h2]

theorem entity_shape (e : List Char × Char) (he : e ∈ entityTable) :
    (∃ body, e.1 = '&' :: body ∧ '&' ∉ body) ∧ (∀ x ∈ e.1, ¬ IsRawSpecial x) := by
  rcases mem_entityTable e he with h | h | h | h | h | h | h | h <;> subst h <;>
    refine ⟨⟨_, rfl, by decide⟩, ?_⟩ <;> unfold IsRawSpecial <;> decide

theorem decodeEntities_cons (fuel : Nat) (c : Char) (rest : List Char) :
    decodeEntities (fuel + 1) (c :: rest) =
      match matchEntity (c :: rest) with
      | some (ch, remaining) => ch :: decodeEntities fuel remaining
      | none => c :: decodeEntities fuel rest := rfl

theorem foldl_encode (v : List Char) (acc : List Char) :
    v.foldl (fun temp c => temp ++ encodeChar c) acc =
      acc ++ v.foldl (fun temp c => temp ++ encodeChar c) [] := by
  induction v generalizing acc with
  | nil => simp
  | cons c rest ih =>
    rw [List.foldl_cons, List.foldl_cons, ih, ih ([] ++ encodeChar c)]
    simp

theorem XMLEncodeAttr_cons (c : Char) (v : List Char) :
    XMLEncodeAttr (c :: v) = encodeChar c ++ XMLEncodeAttr v := by
  unfold XMLEncodeAttr
  rw [List.foldl_cons, foldl_encode]
  simp

/-- The decoder reads the text of XMLEncodeAttr back, given a step per character. -/
theorem decodeEntities_encode (v : List Char) (fuel : Nat)
    (hfuel : (XMLEncodeAttr v).length ≤ fuel) :
    decodeEntities fuel (XMLEncodeAttr v) = v := by
  induction v generalizing fuel with
  | nil =>
    cases fuel with
    | zero => rfl
    | succ f => rfl
  | cons c v ih =>
    rw [XMLEncodeAttr_cons] at hfuel ⊢
    rw [List.length_append] at hfuel
    rcases encodeChar_spec c with ⟨e, he, hec, henc⟩ | ⟨-, hamp, henc⟩
    · obtain ⟨⟨body, hbody, -⟩, -⟩ := entity_shape e he
      have hlen : 1 ≤ e.1.length := by rw [hbody]; simp
      rw [henc] at hfuel ⊢
      obtain ⟨f, hf⟩ : ∃ f, fuel = f + 1 := ⟨fuel - 1, by omega⟩
      subst hf
      have hm := matchEntity_entity e he (XMLEncodeAttr v)
      rw [hbody, List.cons_append] at hm ⊢
      rw [decodeEntities_cons, hm]
      simp only
      rw [ih f (by omega), hec]
    · rw [henc] at hfuel ⊢
      simp only [List.length_singleton] at hfuel
      obtain ⟨f, hf⟩ : ∃ f, fuel = f + 1 := ⟨fuel - 1, by omega⟩
      subst hf
      rw [List.singleton_append, decodeEntities_cons, matchEntity_plain c _ hamp]
      simp only
      rw [ih f (by omega)]

/-- No raw special character is in the text of XMLEncodeAttr. -/
theorem encode_no_raw (v : List Char) : ∀ x ∈ XMLEncodeAttr v, ¬ IsRawSpecial x := by
  induction v with
  | nil =>
    intro x hx
    simp [XMLEncodeAttr] at hx
  | cons c v ih =>
    intro x hx
    rw [XMLEncodeAttr_cons] at hx
    rcases List.mem_append.1 hx with hx | hx
    · rcases encodeChar_spec c with ⟨e, he, -, henc⟩ | ⟨hraw, -, henc⟩
      · rw [henc] at hx
        exact (entity_shape e he).2 x hx
      · rw [henc, List.mem_singleton] at hx
        rw [hx]
        exact hraw
    · exact ih x hx

theorem suffix_append_cases (l tail suffix : List Char) (hs : suffix <:+ l ++ tail) :
    (∃ x l2, (x :: l2) <:+ l ∧ suffix = x :: l2 ++ tail) ∨ suffix <:+ tail := by
  induction l with
  | nil => exact Or.inr (by simpa using hs)
  | cons a l ih =>
    rw [List.cons_append, List.suffix_cons_iff] at hs
    rcases hs with h | h
    · exact Or.inl ⟨a, l, List.suffix_refl _, by rw [h]; rfl⟩
    · rcases ih h with ⟨x, l2, h1, h2⟩ | h1
      · exact Or.inl ⟨x, l2, List.suffix_cons_iff.2 (Or.inr h1), h2⟩
      · exact Or.inr h1

/-- Every `&` in the text of XMLEncodeAttr begins an entity of the table. -/
theorem encode_ampersand (v : List Char) (suffix : List Char)
    (hs : suffix <:+ XMLEncodeAttr v) (hh : suffix.head? = some '&') :
    ∃ e ∈ entityTable, ∃ rest, suffix = e.1 ++ rest := by
  induction v with
  | nil =>
    have : suffix = [] := by
      unfold XMLEncodeAttr at hs
      simpa using hs
    rw [this] at hh
    simp at hh
  | cons c v ih =>
    rw [XMLEncodeAttr_cons] at hs
    rcases suffix_append_cases _ _ _ hs with ⟨x, l2, h1, h2⟩ | h1
    · rw [h2] at hh
      simp only [List.cons_append, List.head?_cons, Option.some.injEq] at hh
      subst hh
      rcases encodeChar_spec c with ⟨e, he, -, henc⟩ | ⟨-, hamp, henc⟩
      · obtain ⟨⟨body, hbody, hnot⟩, -⟩ := entity_shape e he
        rw [henc, hbody, List.suffix_cons_iff] at h1
        rcases h1 with h | h
        · refine ⟨e, he, XMLEncodeAttr v, ?_⟩
          rw [h2, hbody, h]
        · exact absurd (h.subset (List.mem_cons_self _ _)) hnot
      · rw [henc, List.suffix_cons_iff] at h1
        rcases h1 with h | h
        · injection h with h3 h4
          exact absurd h3.symm hamp
        · simp at h
    · exact ih h1

/-- C26: for every string `v`, the decoder of the eight entities `&amp;` `&lt;` `&gt;`
`&quot;` `&apos;` `&#x9;` `&#xA;` `&#xD;` applied to XMLEncodeAttr(v) yields `v`; the
encoded string holds none of the raw characters `<` `>` `"` apostrophe TAB LF CR, and
every `&` in it begins one of those entities. -/
theorem XMLEncodeAttr_roundtrip (v : List Char) :
    XMLDecodeAttr (XMLEncodeAttr v) = v ∧
      (∀ x ∈ XMLEncodeAttr v, ¬ IsRawSpecial x) ∧
      ∀ suffix, suffix <:+ XMLEncodeAttr v → suffix.head? = some '&' →
        ∃ e ∈ entityTable, ∃ rest, suffix = e.1 ++ rest :=
  ⟨decodeEntities_encode v _ (le_refl _), encode_no_raw v, encode_ampersand v⟩

/-- C26 (witness). The value `a<b&` is written as `a&lt;b&amp;` and read back. -/
theorem XMLEncodeAttr_roundtrip_witness :
    XMLEncodeAttr "a<b&".data = "a&lt;b&amp;".data ∧
      XMLDecodeAttr (XMLEncodeAttr "a<b&".data) = "a<b&".data ∧
      (∀ x ∈ XMLEncodeAttr "a<b&".data, ¬ IsRawSpecial x) ∧
      ∀ suffix, suffix <:+ XMLEncodeAttr "a<b&".data → suffix.head? = some '&' →
        ∃ e ∈ entityTable, ∃ rest, suffix = e.1 ++ rest :=
  ⟨by decide, (XMLEncodeAttr_roundtrip "a<b&".data).1,
    (XMLEncodeAttr_roundtrip "a<b&".data).2.1, (XMLEncodeAttr_roundtrip "a<b&".data).2.2⟩

end RailRouting

namespace RailRouting

/-! ## C29: the length of an edge -/

theorem pathLength_cons (geo : GeoMath) (a b : Node) (rest : List Node) :
    pathLength geo (a :: b :: rest) = geo.Distance a b + pathLength geo (b :: rest) := rfl

theorem pathLength_snoc (geo : GeoMath) (ns : List Node) (a b : Node)
    (h : ns.getLast? = some a) :
    pathLength geo (ns ++ [b]) = pathLength geo ns + geo.Distance a b := by
  induction ns with
  | nil => simp at h
  | cons x rest ih =>
    cases rest with
    | nil =>
      simp only [List.getLast?_singleton, Option.some.injEq] at h
      subst h
      simp [pathLength]
    | cons y rest2 =>
      rw [List.getLast?_cons_cons] at h
      rw [List.cons_append, List.cons_append, pathLength_cons, pathLength_cons]
      have := ih h
      rw [List.cons_append] at this
      rw [this]
      omega

theorem pathLength_reverse (geo : GeoMath) (hsym : ∀ a b, geo.Distance a b = geo.Distance b a)
    (ns : List Node) : pathLength geo ns.reverse = pathLength geo ns := by
  induction ns with
  | nil => rfl
  | cons x rest ih =>
    cases rest with
    | nil => rfl
    | cons y rest2 =>
      rw [List.reverse_cons, pathLength_cons]
      have hl : (y :: rest2).reverse.getLast? = some y := by
        rw [List.getLast?_reverse]
        rfl
      rw [pathLength_snoc geo _ y x hl, ih, hsym y x]
      omega

/-- The nodes of a way over a range of positions that all resolve, and the length of the
segment as the sum of Distance over their consecutive pairs. -/
theorem segment_nodes (geo : GeoMath) (nodes_ : List (Int × Node)) (way : Way) (k lo : Nat)
    (hres : ∀ pos, lo ≤ pos → pos ≤ lo + k → ∃ node, nodeAt nodes_ way pos = some node) :
    ∃ ns, NodesAt nodes_ way (List.range' lo (k + 1)) ns ∧
      segmentLength geo nodes_ way lo k = pathLength geo ns := by
  induction k generalizing lo with
  | zero =>
    obtain ⟨a, ha⟩ := hres lo (le_refl _) (by omega)
    refine ⟨[a], ?_, rfl⟩
    simp only [Nat.zero_add, List.range'_one, NodesAt]
    exact ⟨ha, trivial⟩
  | succ k ih =>
    obtain ⟨a, ha⟩ := hres lo (le_refl _) (by omega)
    obtain ⟨ns, hns, hlen⟩ := ih (lo + 1) (fun pos h1 h2 => hres pos (by omega) (by omega))
    rw [List.range'_succ] at hns
    cases ns with
    | nil => simp [NodesAt] at hns
    | cons b rest =>
      have hb : nodeAt nodes_ way (lo + 1) = some b := by
        simp only [NodesAt] at hns
        exact hns.1
      refine ⟨a :: b :: rest, ?_, ?_⟩
      · rw [List.range'_succ, List.range'_succ]
        simp only [NodesAt]
        simp only [NodesAt] at hns
        exact ⟨ha, hns⟩
      · rw [segmentLength_front, hlen, pathLength_cons]
        unfold stepLength
        rw [ha, hb]

/-- The length of a populated edge of a compiled engine. -/
theorem compiled_edge_length (geo : GeoMath) (eng : Engine) (hc : Compiled geo eng) (u : Nat)
    (e : RouteEdge) (he : e ∈ edgesOf eng.route_nodes_ u) (hpop : e.node ≠ -1) :
    ∃ way ns, mapFind eng.ways_ e.osmid = some way ∧
      NodesAt eng.nodes_ way
        (List.range' (min e.start_pos e.end_pos)
          (max e.start_pos e.end_pos - min e.start_pos e.end_pos + 1)) ns ∧
      e.length = pathLength geo ns ∧
      ((∀ a b, geo.Distance a b = geo.Distance b a) → e.length = pathLength geo ns.reverse) ∧
      ∀ u2, ∀ e2 ∈ edgesOf eng.route_nodes_ u2, e2.osmid = e.osmid →
        e2.start_pos = e.end_pos → e2.end_pos = e.start_pos → e2.length = e.length := by
  rcases hc.edges u e he with hemp | ⟨v, way, hp⟩
  · rw [hemp] at hpop
    exact absurd rfl hpop
  · obtain ⟨ns, hns, hlen⟩ := segment_nodes geo eng.nodes_ way
      (max e.start_pos e.end_pos - min e.start_pos e.end_pos) (min e.start_pos e.end_pos)
      (fun pos h1 h2 => hp.resolves pos h1 (by omega))
    refine ⟨way, ns, hp.way_found, hns, by rw [hp.length_eq, hlen], ?_, ?_⟩
    · intro hsym
      rw [pathLength_reverse geo hsym, hp.length_eq, hlen]
    · intro u2 e2 he2 hid hs2 he3
      rcases hc.edges u2 e2 he2 with hemp | ⟨v2, way2, hp2⟩
      · exfalso
        rw [hemp] at hs2 he3
        have := hp.pos_ne
        simp only [RouteEdge.empty] at hs2 he3
        omega
      · have hw := hp2.way_found
        rw [hid, hp.way_found] at hw
        injection hw with hw
        subst hw
        rw [hp2.length_eq, hp.length_eq, hs2, he3, Nat.min_comm, Nat.max_comm]

/-- C29: after a compilation that completes, the length of every populated edge (its
`node` is not -1) is the sum of Distance over the consecutive node pairs of its way
between the positions `start_pos` and `end_pos`, taken in the order of the way, and with a
symmetric Distance also in the opposite order; the edge of another routing node along the
same way with the two positions exchanged (the backward edge of the segment for the
forward one, and the other way round) carries the same length. -/
theorem Prepare_edge_length (geo : GeoMath) (ways : List Way) (nodes : List Node)
    (eng : Engine) (h : Parse geo ways nodes = .ok eng) (u : Nat) (e : RouteEdge)
    (he : e ∈ edgesOf eng.route_nodes_ u) (hpop : e.node ≠ -1) :
    ∃ way ns, mapFind eng.ways_ e.osmid = some way ∧
      NodesAt eng.nodes_ way
        (List.range' (min e.start_pos e.end_pos)
          (max e.start_pos e.end_pos - min e.start_pos e.end_pos + 1)) ns ∧
      e.length = pathLength geo ns ∧
      ((∀ a b, geo.Distance a b = geo.Distance b a) → e.length = pathLength geo ns.reverse) ∧
      ∀ u2, ∀ e2 ∈ edgesOf eng.route_nodes_ u2, e2.osmid = e.osmid →
        e2.start_pos = e.end_pos → e2.end_pos = e.start_pos → e2.length = e.length :=
  compiled_edge_length geo eng (parse_compiled geo ways nodes eng h) u e he hpop

/-- C29 (witness). Scenario S1: the edge of routing node 0 along the way 10 from position 0
to position 2 has the length of the nodes 1, 2, 3. -/
theorem Prepare_edge_length_witness :
    ∃ way ns, mapFind exEngine.ways_ (⟨10, 0, 2, 1, 0, 20000⟩ : RouteEdge).osmid = some way ∧
      NodesAt exEngine.nodes_ way
        (List.range' (min (⟨10, 0, 2, 1, 0, 20000⟩ : RouteEdge).start_pos
            (⟨10, 0, 2, 1, 0, 20000⟩ : RouteEdge).end_pos)
          (max (⟨10, 0, 2, 1, 0, 20000⟩ : RouteEdge).start_pos
              (⟨10, 0, 2, 1, 0, 20000⟩ : RouteEdge).end_pos -
            min (⟨10, 0, 2, 1, 0, 20000⟩ : RouteEdge).start_pos
              (⟨10, 0, 2, 1, 0, 20000⟩ : RouteEdge).end_pos + 1)) ns ∧
      (⟨10, 0, 2, 1, 0, 20000⟩ : RouteEdge).length = pathLength exGeo ns ∧
      ((∀ a b, exGeo.Distance a b = exGeo.Distance b a) →
        (⟨10, 0, 2, 1, 0, 20000⟩ : RouteEdge).length = pathLength exGeo ns.reverse) ∧
      ∀ u2, ∀ e2 ∈ edgesOf exEngine.route_nodes_ u2,
        e2.osmid = (⟨10, 0, 2, 1, 0, 20000⟩ : RouteEdge).osmid →
        e2.start_pos = (⟨10, 0, 2, 1, 0, 20000⟩ : RouteEdge).end_pos →
        e2.end_pos = (⟨10, 0, 2, 1, 0, 20000⟩ : RouteEdge).start_pos →
        e2.length = (⟨10, 0, 2, 1, 0, 20000⟩ : RouteEdge).length :=
  Prepare_edge_length exGeo [exWay] [exNode1, exNode2, exNode3] exEngine (by rfl) 0
    ⟨10, 0, 2, 1, 0, 20000⟩ (by decide) (by decide)

end RailRouting

namespace RailRouting

/-! ## C30: the ends of a way are routing nodes -/

theorem endsFrom_le (count : Nat) (x : Int) (ids : List Int) (i : Nat) :
    endsFrom count x i ids ≤ 2 * ids.count x := by
  induction ids generalizing i with
  | nil => simp [endsFrom]
  | cons id rest ih =>
    rw [endsFrom_cons]
    have := ih (i + 1)
    by_cases h : id = x
    · subst h
      rw [if_pos rfl, List.count_cons_self]
      split <;> omega
    · rw [if_neg h, List.count_cons_of_ne (fun hc => h hc.symm)]
      omega

/-- An occurrence at the first or the last position of the way counts 1, not 2. -/
theorem endsFrom_endpoint (count : Nat) (x : Int) (ids : List Int) (i k : Nat)
    (hk : ids[k]? = some x) (hend : i + k = 0 ∨ i + k = count - 1) :
    endsFrom count x i ids + 1 ≤ 2 * ids.count x := by
  induction ids generalizing i k with
  | nil => simp at hk
  | cons id rest ih =>
    rw [endsFrom_cons]
    cases k with
    | zero =>
      simp only [List.getElem?_cons_zero, Option.some.injEq] at hk
      subst hk
      have := endsFrom_le count id rest (i + 1)
      rw [if_pos rfl, List.count_cons_self, if_pos (by simpa using hend)]
      omega
    | succ k =>
      rw [List.getElem?_cons_succ] at hk
      have := ih (i + 1) k hk (by omega)
      by_cases h : id = x
      · subst h
        rw [if_pos rfl, List.count_cons_self]
        split <;> omega
      · rw [if_neg h, List.count_cons_of_ne (fun hc => h hc.symm)]
        omega

theorem edgeEnds_le (ways : List (Int × Way)) (x : Int) :
    edgeEnds ways x ≤ 2 * occurrenceCount ways x := by
  unfold edgeEnds occurrenceCount
  induction ways with
  | nil => simp
  | cons entry rest ih =>
    simp only [List.map_cons, List.sum_cons]
    have := endsFrom_le entry.2.nodes_.length x entry.2.nodes_ 0
    split <;> omega

/-- A node at the first or the last position of a way with at least 2 node references
occurs more than once or has an incident-edge-ends count other than 2. -/
theorem endpoint_counts (ways : List (Int × Way)) (entry : Int × Way) (he : entry ∈ ways)
    (hl : 2 ≤ entry.2.nodes_.length) (x : Int) (k : Nat) (hk : entry.2.nodes_[k]? = some x)
    (hend : k = 0 ∨ k = entry.2.nodes_.length - 1) :
    occurrenceCount ways x > 1 ∨ edgeEnds ways x ≠ 2 := by
  have key : edgeEnds ways x + 1 ≤ 2 * occurrenceCount ways x := by
    unfold edgeEnds occurrenceCount
    induction ways with
    | nil => simp at he
    | cons hd rest ih =>
      simp only [List.map_cons, List.sum_cons]
      rcases List.mem_cons.1 he with h | h
      · subst h
        have h1 := endsFrom_endpoint entry.2.nodes_.length x entry.2.nodes_ 0 k hk
          (by omega)
        have h2 := edgeEnds_le rest x
        unfold edgeEnds occurrenceCount at h2
        rw [if_pos hl, if_pos hl]
        omega
      · have h1 := ih h
        have h2 := endsFrom_le hd.2.nodes_.length x hd.2.nodes_ 0
        split <;> omega
  omega

theorem addEdge_error (route_nodes : List RouteNode) (n : Nat) (e : RouteEdge)
    (err : PrepareError) (h : addEdge route_nodes n e = .error err) :
    err = .assertEdgeSlot := by
  unfold addEdge at h
  cases h1 : route_nodes[n]? with
  | none =>
    rw [h1] at h
    simp only [Except.error.injEq] at h
    exact h.symm
  | some r =>
    rw [h1] at h
    simp only at h
    cases h2 : fillSlot r.edges e with
    | none =>
      rw [h2] at h
      simp only [Except.error.injEq] at h
      exact h.symm
    | some edges1 =>
      rw [h2] at h
      simp at h

theorem commitEdges_error (geo : GeoMath) (way_id : Int) (way : Way) (walk : WayWalk)
    (this_node : Node) (second_node : Option Node) (dist : Int) (trn node_pos : Nat)
    (route_nodes : List RouteNode) (err : PrepareError)
    (h : commitEdges geo way_id way walk this_node second_node dist trn node_pos route_nodes
      = .error err) : err = .assertEdgeSlot := by
  unfold commitEdges at h
  simp only at h
  by_cases hf : forwardAllowed way = true
  · rw [if_pos hf] at h
    rcases h1 : addEdge route_nodes walk.start_route_node
        { osmid := way_id, start_pos := walk.start_node_pos, end_pos := node_pos,
          node := Int.ofNat trn,
          direction := geo.Bearing walk.start_node (second_node.getD this_node),
          length := dist } with e1 | rn1
    · rw [h1] at h
      simp only [Except.error.injEq] at h
      rw [← h]
      exact addEdge_error _ _ _ _ h1
    · rw [h1] at h
      simp only at h
      by_cases hb : backwardAllowed way = true
      · rw [if_pos hb] at h
        exact addEdge_error _ _ _ _ h
      · rw [if_neg hb] at h
        simp at h
  · rw [if_neg hf] at h
    simp only at h
    by_cases hb : backwardAllowed way = true
    · rw [if_pos hb] at h
      exact addEdge_error _ _ _ _ h
    · rw [if_neg hb] at h
      simp at h

/-- The walk along a way fails on the check of the last node only when the last node
resolves and is no routing node. -/
theorem walkWay_error (geo : GeoMath) (nodes_ : List (Int × Node))
    (idmap : List (Int × Nat)) (way_id : Int) (way : Way)
    (hlast : ∀ id node, way.nodes_[way.nodes_.length - 1]? = some id →
      mapFind nodes_ id = some node → ∃ i, mapFind idmap id = some i)
    (ids : List Int) (node_pos : Nat) (walk : WayWalk) (rn : List RouteNode)
    (hids : ∀ k id, ids[k]? = some id → way.nodes_[node_pos + k]? = some id)
    (err : PrepareError)
    (h : walkWay geo nodes_ idmap way_id way node_pos ids walk rn = .error err) :
    err = .assertPositions ∨ err = .assertEdgeSlot := by
  induction ids generalizing node_pos walk rn with
  | nil => simp [walkWay] at h
  | cons id rest ih =>
    have hrest : ∀ k id2, rest[k]? = some id2 → way.nodes_[node_pos + 1 + k]? = some id2 := by
      intro k id2 hk
      have := hids (k + 1) id2 (by rw [List.getElem?_cons_succ]; exact hk)
      rw [← this]
      congr 1
      omega
    unfold walkWay at h
    cases hn : mapFind nodes_ id with
    | none =>
      rw [hn] at h
      simp at h
    | some this_node =>
      rw [hn] at h
      simp only at h
      by_cases h1 : node_pos = way.GetNodesCount - 1 ∧ mapFind idmap id = none
      · exfalso
        obtain ⟨h2, h3⟩ := h1
        have h4 := hids 0 id (by simp)
        rw [Nat.add_zero, h2] at h4
        obtain ⟨i, hi⟩ := hlast id this_node h4 hn
        rw [hi] at h3
        simp at h3
      · rw [if_neg h1] at h
        by_cases h2 : ¬ (walk.start_node_pos < 65535 ∧ node_pos < 65535)
        · rw [if_pos h2] at h
          simp only [Except.error.injEq] at h
          exact Or.inl h.symm
        · rw [if_neg h2] at h
          cases hm : mapFind idmap id with
          | none =>
            rw [hm] at h
            simp only at h
            exact ih _ _ _ hrest h
          | some trn =>
            rw [hm] at h
            simp only at h
            rcases hce : commitEdges geo way_id way walk this_node
                (if node_pos = 1 then some this_node else walk.second_node)
                (walk.dist + geo.Distance walk.prev_node this_node) trn node_pos rn
              with e1 | rn1
            · rw [hce] at h
              simp only [Except.error.injEq] at h
              rw [← h]
              exact Or.inr (commitEdges_error _ _ _ _ _ _ _ _ _ _ _ hce)
            · rw [hce] at h
              simp only at h
              exact ih _ _ _ hrest h

theorem splitWay_error (geo : GeoMath) (nodes_ : List (Int × Node))
    (idmap : List (Int × Nat)) (rn : List RouteNode) (entry : Int × Way)
    (hends : 2 ≤ entry.2.nodes_.length → ∀ k id node, entry.2.nodes_[k]? = some id →
      (k = 0 ∨ k = entry.2.nodes_.length - 1) →
      mapFind nodes_ id = some node → ∃ i, mapFind idmap id = some i)
    (err : PrepareError) (h : splitWay geo nodes_ idmap rn entry = .error err) :
    err = .assertPositions ∨ err = .assertEdgeSlot := by
  unfold splitWay at h
  by_cases h1 : entry.2.GetNodesCount < 2
  · rw [if_pos h1] at h
    simp at h
  · rw [if_neg h1] at h
    have hl : 2 ≤ entry.2.nodes_.length := by
      unfold Way.GetNodesCount at h1
      omega
    cases hn : entry.2.nodes_ with
    | nil =>
      rw [hn] at hl
      simp at hl
    | cons first rest =>
      rw [hn] at h
      simp only at h
      cases hf : mapFind nodes_ first with
      | none =>
        rw [hf] at h
        simp at h
      | some start_node =>
        rw [hf] at h
        simp only at h
        obtain ⟨i, hi⟩ := hends hl 0 first start_node (by rw [hn]; simp) (Or.inl rfl) hf
        rw [hi] at h
        simp only at h
        refine walkWay_error geo nodes_ idmap entry.1 entry.2 ?_ rest 1 _ rn ?_ err h
        · intro id node h2 h3
          exact hends hl _ id node h2 (Or.inr rfl) h3
        · intro k id hk
          rw [hn, Nat.add_comm, List.getElem?_cons_succ]
          exact hk

theorem splitWays_error (geo : GeoMath) (nodes_ : List (Int × Node))
    (idmap : List (Int × Nat)) (ways : List (Int × Way)) (rn : List RouteNode)
    (hends : ∀ entry ∈ ways, 2 ≤ entry.2.nodes_.length →
      ∀ k id node, entry.2.nodes_[k]? = some id →
      (k = 0 ∨ k = entry.2.nodes_.length - 1) →
      mapFind nodes_ id = some node → ∃ i, mapFind idmap id = some i)
    (err : PrepareError) (h : splitWays geo nodes_ idmap ways rn = .error err) :
    err = .assertPositions ∨ err = .assertEdgeSlot := by
  induction ways generalizing rn with
  | nil => simp [splitWays] at h
  | cons entry rest ih =>
    unfold splitWays at h
    rcases hs : splitWay geo nodes_ idmap rn entry with e1 | rn1
    · rw [hs] at h
      simp only [Except.error.injEq] at h
      rw [← h]
      exact splitWay_error geo nodes_ idmap rn entry
        (hends entry (List.mem_cons_self _ _)) e1 hs
    · rw [hs] at h
      simp only at h
      exact ih rn1 (fun e he => hends e (List.mem_cons_of_mem _ he)) h

theorem alloc_error (p : Pool) (count : Nat) (err : PrepareError)
    (h : p.alloc count = .error err) : err = .lengthError ∨ err = .poolUndefined := by
  unfold Pool.alloc at h
  by_cases h1 : count > p.chunk_size_
  · rw [if_pos h1] at h
    simp only [Except.error.injEq] at h
    exact Or.inl h.symm
  · rw [if_neg h1] at h
    simp only at h
    by_cases h2 : (if p.last_chunk_free_ < count then
        ({ p with chunks_ := p.chunks_ + 1, last_chunk_free_ := p.chunk_size_ } : Pool)
        else p).chunks_ = 0
    · rw [if_pos h2] at h
      simp only [Except.error.injEq] at h
      exact Or.inr h.symm
    · rw [if_neg h2] at h
      by_cases h3 : (if p.last_chunk_free_ < count then
          ({ p with chunks_ := p.chunks_ + 1, last_chunk_free_ := p.chunk_size_ } : Pool)
          else p).last_chunk_free_ = 0
      · rw [if_pos h3] at h
        simp only [Except.error.injEq] at h
        exact Or.inr h.symm
      · rw [if_neg h3] at h
        simp at h

theorem createRouteNodes_error (conn : List (Int × ConnectivityInfo))
    (nodes : List (Int × Node)) (st : RouteNodesState) (err : PrepareError)
    (h : createRouteNodes conn nodes st = .error err) :
    err = .assertConnectivity ∨ err = .lengthError ∨ err = .poolUndefined := by
  induction nodes generalizing st with
  | nil => simp [createRouteNodes] at h
  | cons p rest ih =>
    obtain ⟨id, node⟩ := p
    unfold createRouteNodes at h
    cases hc : mapFind conn id with
    | none =>
      rw [hc] at h
      simp only [Except.error.injEq] at h
      exact Or.inl h.symm
    | some c =>
      rw [hc] at h
      simp only at h
      by_cases hcl : c.nways > 1 ∨ c.nedges ≠ 2 ∨ c.isstop = true
      · rw [if_pos hcl] at h
        rcases ha : st.route_edge_pool.alloc c.nedges with e1 | ⟨pool1, place⟩
        · rw [ha] at h
          simp only [Except.error.injEq] at h
          rw [← h]
          exact Or.inr (alloc_error _ _ _ ha)
        · rw [ha] at h
          simp only at h
          exact ih _ h
      · rw [if_neg hcl] at h
        exact ih _ h

theorem postprocessStops_error (idmap : List (Int × Nat)) (temp : List (String × Int))
    (stops : List (String × Nat)) (err : PrepareError)
    (h : postprocessStops idmap temp stops = .error err) : err = .assertStop := by
  induction temp generalizing stops with
  | nil => simp [postprocessStops] at h
  | cons a rest ih =>
    obtain ⟨name, id⟩ := a
    unfold postprocessStops at h
    cases hm : mapFind idmap id with
    | none =>
      rw [hm] at h
      simp only [Except.error.injEq] at h
      exact h.symm
    | some i =>
      rw [hm] at h
      simp only at h
      exact ih _ h

end RailRouting

namespace RailRouting

/-- The errors that Prepare can end with on the engine that the first two passes load: the
checks of the first and of the last node of a way (lines 137 and 166) are not among them. -/
theorem parse_error_cases (geo : GeoMath) (ways : List Way) (nodes : List Node)
    (err : PrepareError) (h : Parse geo ways nodes = .error err) :
    err = .assertConnectivity ∨ err = .lengthError ∨ err = .poolUndefined ∨
      err = .assertPositions ∨ err = .assertEdgeSlot ∨ err = .assertStop := by
  unfold Parse at h
  obtain ⟨l1, l2, l3, l4, l5, l6, l7⟩ := loaded_engine ways nodes
  generalize nodes.foldl ProcessNode (ways.foldl ProcessWay Engine.init) = E at *
  unfold Prepare at h
  simp only at h
  rw [l7] at h
  cases hc : createRouteNodes
      (E.ways_.foldl countWayStep (E.nodes_.foldl findStopsStep ([], [])).2)
      E.nodes_
      { route_nodes := [], id_to_routenode := [],
        route_edge_pool := E.route_edge_pool_ } with
  | error e1 =>
    rw [hc] at h
    simp only [Except.error.injEq] at h
    rw [← h]
    rcases createRouteNodes_error _ _ _ _ hc with g | g | g
    · exact Or.inl g
    · exact Or.inr (Or.inl g)
    · exact Or.inr (Or.inr (Or.inl g))
  | ok created =>
    rw [hc] at h
    simp only at h
    have hinit : CreateInv
        (E.ways_.foldl countWayStep (E.nodes_.foldl findStopsStep ([], [])).2)
        { route_nodes := [], id_to_routenode := [],
          route_edge_pool := E.route_edge_pool_ } := by
      constructor
      · intro id i; simp [mapFind, routeIds]
      · intro u e he; simp [edgesOf] at he
      · intro r hr; simp at hr
    have hdist : E.nodes_.Pairwise (fun a b => a.1 ≠ b.1) :=
      List.Pairwise.imp (fun hab => by omega) l1
    obtain ⟨c1, -, -, c4⟩ := createRouteNodes_spec _ _ _ _ hinit hdist
      (by intro p _; simp [routeIds]) hc
    have hends : ∀ entry ∈ E.ways_, 2 ≤ entry.2.nodes_.length →
        ∀ k id node, entry.2.nodes_[k]? = some id →
        (k = 0 ∨ k = entry.2.nodes_.length - 1) →
        mapFind E.nodes_ id = some node →
        ∃ i, mapFind created.id_to_routenode id = some i := by
      intro entry he hl k id node hk hend hn
      obtain ⟨c, hc1, hc2⟩ := c4 (id, node) (mem_of_mapFind_eq_some _ _ _ hn)
      obtain ⟨e1, e2, -⟩ := connGet_initial E l1 l2 id
      have hget : connGet (E.ways_.foldl countWayStep
          (E.nodes_.foldl findStopsStep ([], [])).2) id = c := by
        unfold connGet
        simp only at hc1
        rw [hc1]
        rfl
      rw [hget] at e1 e2
      have hcls : c.nways > 1 ∨ c.nedges ≠ 2 ∨ c.isstop = true := by
        rcases endpoint_counts E.ways_ entry he hl id k hk hend with g | g
        · exact Or.inl (by rw [e2]; exact g)
        · exact Or.inr (Or.inl (by rw [e1]; exact g))
      have hmem := hc2.2 hcls
      simp only at hmem
      obtain ⟨i, hi⟩ := List.mem_iff_getElem?.1 hmem
      exact ⟨i, (c1.idmap id i).2 hi⟩
    cases hs : splitWays geo E.nodes_ created.id_to_routenode E.ways_ created.route_nodes with
    | error e1 =>
      rw [hs] at h
      simp only [Except.error.injEq] at h
      rw [← h]
      rcases splitWays_error geo _ _ _ _ hends e1 hs with g | g
      · exact Or.inr (Or.inr (Or.inr (Or.inl g)))
      · exact Or.inr (Or.inr (Or.inr (Or.inr (Or.inl g))))
    | ok rn =>
      rw [hs] at h
      simp only at h
      cases hp : postprocessStops created.id_to_routenode
          (E.nodes_.foldl findStopsStep ([], [])).1 E.stops_ with
      | error e1 =>
        rw [hp] at h
        simp only [Except.error.injEq] at h
        rw [← h]
        exact Or.inr (Or.inr (Or.inr (Or.inr (Or.inr (postprocessStops_error _ _ _ _ hp)))))
      | ok stops =>
        rw [hp] at h
        simp at h

/-- The first and the last node of a way of a compiled engine are routing nodes. -/
theorem compiled_way_ends (geo : GeoMath) (ways : List Way) (nodes : List Node)
    (eng : Engine) (h : Parse geo ways nodes = .ok eng) (wid : Int) (way : Way)
    (hw : mapFind eng.ways_ wid = some way) (hl : 2 ≤ way.nodes_.length) (k : Nat) (id : Int)
    (node : Node) (hk : way.nodes_[k]? = some id) (hend : k = 0 ∨ k = way.nodes_.length - 1)
    (hn : mapFind eng.nodes_ id = some node) : ∃ r ∈ eng.route_nodes_, r.osmid = id := by
  have hcl := (compiled_classification geo ways nodes eng h id node hn).2
    (by
      rcases endpoint_counts eng.ways_ (wid, way) (mem_of_mapFind_eq_some _ _ _ hw) hl id k hk
          hend with g | g
      · exact Or.inl g
      · exact Or.inr (Or.inl g))
  unfold routeIds at hcl
  obtain ⟨r, hr, hrid⟩ := List.mem_map.1 hcl
  exact ⟨r, hr, hrid⟩

/-- C30 (amended): for every rail way of the way map with at least 2 node references, its
first node and its last node, whenever they resolve in the node map, are routing nodes after a
compilation that completes; and no compilation ends in the assertion on the routing node
of the first node of a way (line 137) or in the one on the last node (line 166),
whatever else stops it. -/
theorem Prepare_way_ends_routing (geo : GeoMath) (ways : List Way) (nodes : List Node) :
    Parse geo ways nodes ≠ .error .assertFirstRouteNode ∧
      Parse geo ways nodes ≠ .error .assertLastRouteNode ∧
      ∀ eng, Parse geo ways nodes = .ok eng →
        ∀ wid way, mapFind eng.ways_ wid = some way → 2 ≤ way.nodes_.length →
        ∀ k id node, way.nodes_[k]? = some id →
          (k = 0 ∨ k = way.nodes_.length - 1) → mapFind eng.nodes_ id = some node →
          ∃ r ∈ eng.route_nodes_, r.osmid = id := by
  refine ⟨?_, ?_, ?_⟩
  · intro h
    have := parse_error_cases geo ways nodes _ h
    simp at this
  · intro h
    have := parse_error_cases geo ways nodes _ h
    simp at this
  · intro eng h wid way hw hl k id node hk hend hn
    exact compiled_way_ends geo ways nodes eng h wid way hw hl k id node hk hend hn

/-- C30 (witness). Scenario S1: node 3, at the last position of the way 10, is a routing
node of the compiled engine. -/
theorem Prepare_way_ends_routing_witness :
    Parse exGeo [exWay] [exNode1, exNode2, exNode3] = .ok exEngine ∧
      mapFind exEngine.ways_ 10 = some exWay ∧ exWay.nodes_[2]? = some 3 ∧
      mapFind exEngine.nodes_ 3 = some exNode3 ∧
      ∃ r ∈ exEngine.route_nodes_, r.osmid = 3 :=
  ⟨by rfl, by rfl, by rfl, by rfl,
    (Prepare_way_ends_routing exGeo [exWay] [exNode1, exNode2, exNode3]).2.2 exEngine (by rfl)
      10 exWay (by rfl) (by decide) 2 3 exNode3 (by rfl) (Or.inr (by rfl)) (by rfl)⟩

end RailRouting

namespace RailRouting

/-! ## The search without the early exit -/

theorem scanEdgesNoBreak_spec (rn : List RouteNode) (S F : List Nat) (u : Nat) (x : Int)
    (hn : NonNegLengths rn) (hr : EdgesInRange rn) (edges : List RouteEdge) (st : SearchState)
    (hs : ScanInv rn S F u x st) (hsub : ∀ e ∈ edges, e ∈ edgesOf rn u) :
    ScanInv rn S F u x (scanEdgesNoBreak u edges st) ∧
      searchMeasure rn (scanEdgesNoBreak u edges st) ≤ searchMeasure rn st + edges.length ∧
      (∀ z y, st.len z = some y → ∃ y2, (scanEdgesNoBreak u edges st).len z = some y2 ∧ y2 ≤ y) ∧
      (scanEdgesNoBreak u edges st).shortest_length = st.shortest_length ∧
      (st.shortest_length = none → ∀ e ∈ edges, ∀ t, e.node = Int.ofNat t →
        ∃ y, (scanEdgesNoBreak u edges st).len t = some y ∧ y ≤ x + e.length) := by
  induction edges generalizing st with
  | nil =>
    refine ⟨hs, by simp [scanEdgesNoBreak], fun z y h => ⟨y, h, le_refl _⟩, rfl, ?_⟩
    intro _ e he
    simp at he
  | cons e rest ih =>
    have he : e ∈ edgesOf rn u := hsub e (List.mem_cons_self _ _)
    have hrest : ∀ e2 ∈ rest, e2 ∈ edgesOf rn u := fun e2 h => hsub e2 (List.mem_cons_of_mem _ h)
    have hw := edgesOf_nonneg rn hn u e he
    have hcur : st.lengths.getD u none = some x := hs.cur_len
    unfold scanEdgesNoBreak
    simp only [hcur, ELen.addLen]
    by_cases hsent : e.node = -1
    · rw [if_pos hsent]
      obtain ⟨h1, h2, h3, h4, h5⟩ := ih st hs hrest
      refine ⟨h1, by simp only [List.length_cons]; omega, h3, h4, ?_⟩
      intro hnone e2 he2 t ht
      rcases List.mem_cons.1 he2 with h | h
      · subst h
        rw [hsent] at ht
        have : (0 : Int) ≤ Int.ofNat t := Int.ofNat_nonneg t
        omega
      · exact h5 hnone e2 h t ht
    · rw [if_neg hsent]
      rcases edgesOf_inRange rn hr u e he with h | ⟨v, hvn, hev⟩
      · exact absurd h hsent
      · have htoNat : e.node.toNat = v := by rw [hev]; rfl
        rw [htoNat]
        have hlen : st.lengths.getD v none = st.len v := rfl
        rw [hlen]
        by_cases himp : ELen.lt (some (x + e.length)) (st.len v) = true
        · rw [if_pos himp]
          have hs1 := scanInv_relax rn S F st u v x e hs he hev hvn hw himp
          have hm1 := searchMeasure_relax rn S F st u v x e hs hvn hw himp
          have hvl : v < st.lengths.length := by rw [hs.core.len_lengths]; exact hvn
          obtain ⟨h1, h2, h3, h4, h5⟩ := ih _ hs1 hrest
          refine ⟨h1, by simp only [List.length_cons]; omega, ?_, by rw [h4]; rfl, ?_⟩
          · intro z y hz
            by_cases hzv : z = v
            · obtain ⟨y2, hy2, hle⟩ := h3 z (x + e.length)
                (by rw [relax_len _ _ _ _ _ hvl, if_pos hzv])
              refine ⟨y2, hy2, ?_⟩
              rcases improvement_cases st v _ himp with h6 | ⟨y6, h6, hy6⟩
              · rw [hzv, h6] at hz; simp at hz
              · rw [hzv, h6] at hz; injection hz with hz; omega
            · exact h3 z y (by rw [relax_len _ _ _ _ _ hvl, if_neg hzv]; exact hz)
          · intro hnone e2 he2 t ht
            rcases List.mem_cons.1 he2 with h | h
            · subst h
              have htv : t = v := by
                rw [hev] at ht
                exact (Int.ofNat_inj.1 ht).symm
              subst htv
              obtain ⟨y2, hy2, hle⟩ := h3 t (x + e2.length)
                (by rw [relax_len _ _ _ _ _ hvl, if_pos rfl])
              exact ⟨y2, hy2, hle⟩
            · exact h5 hnone e2 h t ht
        · rw [if_neg himp]
          obtain ⟨h1, h2, h3, h4, h5⟩ := ih st hs hrest
          refine ⟨h1, by simp only [List.length_cons]; omega, h3, h4, ?_⟩
          intro hnone e2 he2 t ht
          rcases List.mem_cons.1 he2 with h | h
          · subst h
            have htv : t = v := by
              rw [hev] at ht
              exact (Int.ofNat_inj.1 ht).symm
            subst htv
            cases hl : st.len t with
            | none => rw [hl] at himp; exact absurd (ELen.lt_some_none _) himp
            | some y =>
              rw [hl, ELen.lt_some_some] at himp
              obtain ⟨y2, hy2, hle⟩ := h3 t y hl
              exact ⟨y2, hy2, by omega⟩
          · exact h5 hnone e2 h t ht


theorem dijkstraLoopNoBreak_spec (rn : List RouteNode) (S F : List Nat) (hn : NonNegLengths rn)
    (hr : EdgesInRange rn) (fuel : Nat) (st : SearchState) (hs : SearchInv rn S F st)
    (hfuel : searchMeasure rn st ≤ fuel) :
    ∃ st2, dijkstraLoopNoBreak rn F fuel st = some st2 ∧ SearchInv rn S F st2 ∧ st2.queue = [] := by
  induction fuel generalizing st with
  | zero =>
    have hq : st.queue = [] := by
      unfold searchMeasure at hfuel
      exact List.length_eq_zero.1 (by omega)
    refine ⟨st, ?_, hs, hq⟩
    unfold dijkstraLoopNoBreak
    rw [hq]
  | succ fuel ih =>
    cases hq : st.queue with
    | nil =>
      refine ⟨st, ?_, hs, hq⟩
      unfold dijkstraLoopNoBreak
      rw [hq]
    | cons p rest =>
      obtain ⟨k, u⟩ := p
      have hhead : ((k, u) : ELen × Nat) ∈ st.queue := by rw [hq]; exact List.mem_cons_self _ _
      obtain ⟨hun, kx, y, hk, hy, hyk⟩ := hs.core.queue_ok _ hhead
      simp only at hk hy hun
      subst hk
      unfold dijkstraLoopNoBreak
      simp only [hq]
      have hlen : st.lengths.getD u none = some y := hy
      by_cases hstale : ELen.lt (some y) (some kx) = true
      · simp only [hlen, if_pos hstale]
        apply ih
        · exact searchInv_pop_stale rn S F st (some kx) u rest hs hq (by rw [hy]; exact hstale)
        · have := searchMeasure_pop rn st (some kx) u rest st.shortest_length hq
          have heq : ({ st with queue := rest, shortest_length := st.shortest_length }
              : SearchState) = { st with queue := rest } := rfl
          rw [heq] at this
          omega
      · simp only [hlen, if_neg hstale]
        rw [ELen.lt_some_some] at hstale
        have hyx : y = kx := by omega
        subst hyx
        have hpop := popState_eq st F u rest
        simp only [hlen] at hpop
        rw [hpop]
        have hsc := scanInv_of_pop rn S F st y u rest hs hq hy
        rw [hy] at hsc
        obtain ⟨h1, h2, h3, h4, h5⟩ :=
          scanEdgesNoBreak_spec rn S F u y hn hr (edgesOf rn u) _ hsc (fun e he => he)
        rw [hy]
        apply ih
        · apply searchInv_of_scan rn S F _ y u h1
          intro hnone
          rw [h4] at hnone
          intro e he t ht
          exact h5 hnone e he t ht
        · have := searchMeasure_pop rn st (some y) u rest
            (if u ∈ F then ELen.min st.shortest_length (some y) else st.shortest_length) hq
          rw [hy, if_pos rfl] at this
          omega


/-- FindRouteNoBreak, with the look-up of the two names and the search laid out step by
step. -/
theorem FindRouteNoBreak_unfold (geo : GeoMath) (eng : Engine) (fuel : Nat) (name_a name_b : String)
    (result : FindRouteResult) :
    FindRouteNoBreak geo eng fuel name_a name_b result =
      (let A := equalRange eng.stops_ name_a
       let B := equalRange eng.stops_ name_b
       let size := eng.route_nodes_.length
       let st0 : SearchState :=
        { queue := [], starts := List.replicate size (-1), prevs := List.replicate size (-1),
          lengths := List.replicate size none, shortest_length := none }
       let st1 := (initStarts A [] st0 0).2.1
       let res1 : FindRouteResult :=
         { result with start_count := A.length, end_count := B.length }
       match A.foldl nodeSetInsert [], B.foldl nodeSetInsert [] with
       | [], [] => .ok (false, { res1 with status := .BOTH_STATIONS_NOT_FOUND })
       | [], _ :: _ => .ok (false, { res1 with status := .START_STATION_NOT_FOUND })
       | _ :: _, [] => .ok (false, { res1 with status := .END_STATION_NOT_FOUND })
       | _ :: _, first_fin :: more_fins =>
        match dijkstraLoopNoBreak eng.route_nodes_ (B.foldl nodeSetInsert []) fuel st1 with
        | none => .error .outOfFuel
        | some st =>
          match closestFin st.lengths more_fins first_fin (st.lengths.getD first_fin none) with
          | (_, none) => .ok (false, { res1 with status := .NO_ROUTE_FOUND })
          | (best_fin, some best_length) =>
            match eng.route_nodes_[(st.starts.getD best_fin (-1)).toNat]?,
                eng.route_nodes_[best_fin]? with
            | some start_rn, some end_rn =>
              match mapFind eng.nodes_ start_rn.osmid with
              | none => .error .assertStartNode
              | some start_node =>
                match mapFind eng.nodes_ end_rn.osmid with
                | none => .error .assertEndNode
                | some end_node =>
                  match recoverRoute eng st.prevs fuel best_fin (st.prevs.getD best_fin (-1))
                      [] with
                  | .error err => .error err
                  | .ok temp_nodes =>
                    .ok (true,
                      { status := .OK, start_count := A.length, end_count := B.length,
                        start_node := some start_node, end_node := some end_node,
                        distance := some best_length,
                        route_nodes := (temp_nodes ++ [start_node]).reverse,
                        sharp_turns :=
                          findSharpTurns geo (temp_nodes ++ [start_node]).reverse })
            | _, _ => .error .outOfRange) := by
  unfold FindRouteNoBreak
  simp only []
  rcases hA : initStarts (equalRange eng.stops_ name_a) []
      { queue := [], starts := List.replicate eng.route_nodes_.length (-1),
        prevs := List.replicate eng.route_nodes_.length (-1),
        lengths := List.replicate eng.route_nodes_.length none, shortest_length := none } 0
    with ⟨sn, st1, sc⟩
  rcases hB : initFins (equalRange eng.stops_ name_b) [] 0 with ⟨fn, ec⟩
  have h1 := initStarts_fst (equalRange eng.stops_ name_a) []
      { queue := [], starts := List.replicate eng.route_nodes_.length (-1),
        prevs := List.replicate eng.route_nodes_.length (-1),
        lengths := List.replicate eng.route_nodes_.length none, shortest_length := none } 0
  have h2 := initStarts_count (equalRange eng.stops_ name_a) []
      { queue := [], starts := List.replicate eng.route_nodes_.length (-1),
        prevs := List.replicate eng.route_nodes_.length (-1),
        lengths := List.replicate eng.route_nodes_.length none, shortest_length := none } 0
  have h3 := initFins_fst (equalRange eng.stops_ name_b) [] 0
  have h4 := initFins_count (equalRange eng.stops_ name_b) [] 0
  rw [hA] at h1 h2
  rw [hB] at h3 h4
  simp only [Nat.zero_add] at h1 h2 h3 h4
  subst h1 h2 h3 h4
  rfl


/-- The outcome of FindRouteNoBreak on a compiled engine with non-negative edge lengths, for two
names of the stop index and enough fuel: either no end node can be reached and the call
fails with NO_ROUTE_FOUND, or it succeeds with the shortest length and a linked route. -/
theorem FindRouteNoBreak_compiled (geo : GeoMath) (eng : Engine) (hc : Compiled geo eng)
    (hnn : NonNegLengths eng.route_nodes_) (name_a name_b : String)
    (ha : HasStop eng name_a) (hb : HasStop eng name_b) (fuel : Nat)
    (hfuel : searchFuel eng name_a ≤ fuel) (result : FindRouteResult) :
    (¬ Reachable eng name_a name_b ∧
        FindRouteNoBreak geo eng fuel name_a name_b result =
          .ok (false,
            { result with
              start_count := (equalRange eng.stops_ name_a).length
              end_count := (equalRange eng.stops_ name_b).length
              status := .NO_ROUTE_FOUND })) ∨
      ∃ d s t ns nt route,
        IsShortestRouteLength eng name_a name_b d ∧
          (name_a, s) ∈ eng.stops_ ∧ (name_b, t) ∈ eng.stops_ ∧
          sourceNode eng s = some ns ∧ sourceNode eng t = some nt ∧
          route.head? = some ns ∧ route.getLast? = some nt ∧
          Linked (Adjacent eng) route ∧
          FindRouteNoBreak geo eng fuel name_a name_b result =
            .ok (true,
              { status := .OK
                start_count := (equalRange eng.stops_ name_a).length
                end_count := (equalRange eng.stops_ name_b).length
                start_node := some ns, end_node := some nt, distance := some d
                route_nodes := route, sharp_turns := findSharpTurns geo route }) := by
  have hrange := compiled_edgesInRange geo eng hc
  have hstops := compiled_stopsInRange geo eng hc
  have hA : ∀ s, s ∈ equalRange eng.stops_ name_a ↔ (name_a, s) ∈ eng.stops_ :=
    fun s => mem_equalRange _ _ _
  have hB : ∀ t, t ∈ (equalRange eng.stops_ name_b).foldl nodeSetInsert [] ↔
      (name_b, t) ∈ eng.stops_ := by
    intro t
    rw [mem_foldl_nodeSetInsert, mem_equalRange]
    simp
  have hAlt : ∀ s ∈ equalRange eng.stops_ name_a, s < eng.route_nodes_.length :=
    fun s hs => hstops _ ((hA s).1 hs)
  rw [FindRouteNoBreak_unfold]
  simp only []
  have hAne := startNodes_eq_nil_iff eng name_a
  have hBne := startNodes_eq_nil_iff eng name_b
  cases hsn : (equalRange eng.stops_ name_a).foldl nodeSetInsert [] with
  | nil => exact absurd ha (hAne.1 hsn)
  | cons s0 sr =>
    cases hfn : (equalRange eng.stops_ name_b).foldl nodeSetInsert [] with
    | nil => exact absurd hb (hBne.1 hfn)
    | cons first more =>
      simp only []
      rw [hfn] at hB
      -- the search
      have hinit := initStarts_inv eng.route_nodes_ (equalRange eng.stops_ name_a) [] []
        { queue := [], starts := List.replicate eng.route_nodes_.length (-1),
          prevs := List.replicate eng.route_nodes_.length (-1),
          lengths := List.replicate eng.route_nodes_.length none, shortest_length := none } 0
        hAlt (initInv_empty eng.route_nodes_)
      simp only [List.nil_append] at hinit
      have hs1 := searchInv_of_initInv eng.route_nodes_ (equalRange eng.stops_ name_a)
        (first :: more) _ hinit hAlt
      have hm := searchMeasure_le eng.route_nodes_
        (initStarts (equalRange eng.stops_ name_a) []
          { queue := [], starts := List.replicate eng.route_nodes_.length (-1),
            prevs := List.replicate eng.route_nodes_.length (-1),
            lengths := List.replicate eng.route_nodes_.length none,
            shortest_length := none } 0).2.1
      rw [hinit.count] at hm
      have hfuel2 : eng.route_nodes_.length ≤ fuel := by
        unfold searchFuel at hfuel; omega
      obtain ⟨st, hd, hs2, hq⟩ := dijkstraLoopNoBreak_spec eng.route_nodes_
        (equalRange eng.stops_ name_a) (first :: more) hnn hrange fuel _ hs1
        (by unfold searchFuel at hfuel; omega)
      rw [hd]
      simp only []
      have hres := search_result eng.route_nodes_ (equalRange eng.stops_ name_a) first more st
        hnn hs2 hq
      rcases hcf : closestFin st.lengths more first (st.lengths.getD first none) with ⟨bf, bl⟩
      rw [hcf] at hres
      cases bl with
      | none =>
        simp only at hres ⊢
        left
        refine ⟨?_, trivial⟩
        rintro ⟨d, s, t, h1, h2, h3⟩
        exact hres s ((hA s).2 h1) t ((hB t).2 h2) d h3
      | some d =>
        simp only at hres ⊢
        right
        obtain ⟨r1, r2, ⟨s, hsA, hwalk⟩, r4⟩ := hres
        have hbf : bf < eng.route_nodes_.length := hstops _ ((hB bf).1 r1)
        obtain ⟨-, nt, -, -, hsrc⟩ := sourceNode_of_lt geo eng hc bf hbf
        obtain ⟨rank, hrank⟩ := hs2.core.rank
        obtain ⟨out, root, ndr, q1, q2, q3, q4, q5⟩ := recoverRoute_spec geo eng hc _ _ st hs2
          rank hrank fuel bf [] [] nt d r2 hsrc List.nodup_nil (by simp)
          (by simp only [List.length_nil]; omega)
        obtain ⟨s2, hs2A, hs2eq⟩ := hs2.core.origin bf d r2
        have hroot : root = s2 := by
          rw [q2] at hs2eq
          exact Int.ofNat_inj.1 hs2eq
        subst hroot
        obtain ⟨rs, hrs1, hrs2⟩ := sourceNode_some eng root ndr q3
        obtain ⟨rt, hrt1, hrt2⟩ := sourceNode_some eng bf nt hsrc
        have htn : (st.starts.getD bf (-1)).toNat = root := by rw [q2]; rfl
        rw [htn, hrs1, hrt1]
        simp only [hrs2, hrt2, q1, List.nil_append]
        refine ⟨d, root, bf, ndr, nt, (out ++ [ndr]).reverse, ?_, (hA root).1 hs2A,
          (hB bf).1 r1, q3, hsrc, ?_, ?_, ?_, rfl⟩
        · refine ⟨⟨s, bf, (hA s).1 hsA, (hB bf).1 r1, hwalk⟩, ?_⟩
          rintro d2 ⟨s3, t3, h1, h2, h3⟩
          exact r4 s3 ((hA s3).2 h1) t3 ((hB t3).2 h2) d2 h3
        · rw [List.head?_reverse]; simp
        · rw [List.getLast?_reverse]; exact q5
        · exact linked_reverse _ (adjacent_symm eng) _ q4


end RailRouting

namespace RailRouting

/-! ## C27: the early exit from the edge scan -/

/-- When one of the names has no stop the two variants return the same. -/
theorem FindRoute_lookup_eq (geo : GeoMath) (eng : Engine) (fuel : Nat)
    (name_a name_b : String) (result : FindRouteResult)
    (h : ¬ HasStop eng name_a ∨ ¬ HasStop eng name_b) :
    FindRouteNoBreak geo eng fuel name_a name_b result =
        FindRoute geo eng fuel name_a name_b result ∧
      ∃ r, FindRoute geo eng fuel name_a name_b result = .ok (false, r) := by
  have hA := startNodes_eq_nil_iff eng name_a
  have hB := startNodes_eq_nil_iff eng name_b
  rw [FindRoute_unfold, FindRouteNoBreak_unfold]
  simp only []
  generalize (equalRange eng.stops_ name_a).foldl nodeSetInsert [] = sn at hA
  generalize (equalRange eng.stops_ name_b).foldl nodeSetInsert [] = fn at hB
  cases sn with
  | nil =>
    cases fn with
    | nil => exact ⟨rfl, _, rfl⟩
    | cons f fr => exact ⟨rfl, _, rfl⟩
  | cons s sr =>
    cases fn with
    | nil => exact ⟨rfl, _, rfl⟩
    | cons f fr =>
      exfalso
      have ha : HasStop eng name_a := by
        by_contra hc
        have := hA.2 hc
        simp at this
      have hb : HasStop eng name_b := by
        by_contra hc
        have := hB.2 hc
        simp at this
      rcases h with h | h
      · exact h ha
      · exact h hb

/-- The two variants on a compiled engine with non-negative edge lengths. -/
theorem early_exit_same_result (geo : GeoMath) (eng : Engine) (hc : Compiled geo eng)
    (hnn : NonNegLengths eng.route_nodes_) (name_a name_b : String) (fuel : Nat)
    (hfuel : searchFuel eng name_a ≤ fuel) (result : FindRouteResult) :
    ∃ ok r r2, FindRoute geo eng fuel name_a name_b result = .ok (ok, r) ∧
      FindRouteNoBreak geo eng fuel name_a name_b result = .ok (ok, r2) ∧
      r.status = r2.status ∧ r.distance = r2.distance := by
  by_cases ha : HasStop eng name_a
  · by_cases hb : HasStop eng name_b
    · rcases FindRoute_compiled geo eng hc hnn name_a name_b ha hb fuel hfuel result with
        ⟨hn, h⟩ | ⟨d, s, t, ns, nt, route, h1, -, -, -, -, -, -, -, h⟩
      · rcases FindRouteNoBreak_compiled geo eng hc hnn name_a name_b ha hb fuel hfuel result
          with ⟨-, h2⟩ | ⟨d2, s2, t2, ns2, nt2, route2, g1, -, -, -, -, -, -, -, h2⟩
        · exact ⟨false, _, _, h, h2, rfl, rfl⟩
        · exact absurd ⟨d2, g1.1⟩ hn
      · rcases FindRouteNoBreak_compiled geo eng hc hnn name_a name_b ha hb fuel hfuel result
          with ⟨hn2, h2⟩ | ⟨d2, s2, t2, ns2, nt2, route2, g1, -, -, -, -, -, -, -, h2⟩
        · exact absurd ⟨d, h1.1⟩ hn2
        · have e1 := h1.2 d2 g1.1
          have e2 := g1.2 d h1.1
          have hd : d = d2 := by omega
          subst hd
          exact ⟨true, _, _, h, h2, rfl, rfl⟩
    · obtain ⟨e1, r, e2⟩ := FindRoute_lookup_eq geo eng fuel name_a name_b result (Or.inr hb)
      exact ⟨false, r, r, e2, by rw [e1, e2], rfl, rfl⟩
  · obtain ⟨e1, r, e2⟩ := FindRoute_lookup_eq geo eng fuel name_a name_b result (Or.inl ha)
    exact ⟨false, r, r, e2, by rw [e1, e2], rfl, rfl⟩

/-- C27: on every graph compiled by `Parse` whose edge lengths are non-negative, for every
pair of names and a fuel of at least `searchFuel`, FindRoute and the variant without the
early exit from the edge scan both return, with the same `bool`, the same status and the
same distance. -/
theorem FindRoute_early_exit_harmless (geo : GeoMath) (ways : List Way) (nodes : List Node)
    (eng : Engine) (hparse : Parse geo ways nodes = .ok eng)
    (hnn : NonNegLengths eng.route_nodes_) (name_a name_b : String) (fuel : Nat)
    (hfuel : searchFuel eng name_a ≤ fuel) (result : FindRouteResult) :
    ∃ ok r r2, FindRoute geo eng fuel name_a name_b result = .ok (ok, r) ∧
      FindRouteNoBreak geo eng fuel name_a name_b result = .ok (ok, r2) ∧
      r.status = r2.status ∧ r.distance = r2.distance :=
  early_exit_same_result geo eng (parse_compiled geo ways nodes eng hparse) hnn name_a name_b
    fuel hfuel result

/-- C27 (witness). Scenario S1: the query from A to B on the compiled engine. -/
theorem FindRoute_early_exit_harmless_witness :
    ∃ ok r r2, FindRoute exGeo exEngine 9 "A" "B" exResult5 = .ok (ok, r) ∧
      FindRouteNoBreak exGeo exEngine 9 "A" "B" exResult5 = .ok (ok, r2) ∧
      r.status = r2.status ∧ r.distance = r2.distance :=
  FindRoute_early_exit_harmless exGeo [exWay] [exNode1, exNode2, exNode3] exEngine (by rfl)
    (by
      intro r hr e he
      simp only [exEngine, List.mem_cons, List.mem_singleton, List.not_mem_nil, or_false] at hr
      rcases hr with rfl | rfl <;>
      · simp only [List.mem_singleton] at he
        subst he
        decide)
    "A" "B" 9 (by decide) exResult5

end RailRouting

namespace RailRouting

/-! ## C28: the route and its distance -/

/-- C28 (failing input): the stations A (node 1) and B (node 3) joined by the way 10 over
node 5, of length 30000, and by the way 11, of length 20000. The query from A to B
returns OK with the distance 20000 and the route over node 5, whose consecutive
Distances sum to 30000: the route recovery takes the first edge of the previous routing
node that leads to the current one, which is the edge of the way 10, not the edge that
gave the label. -/
theorem FindRoute_route_not_of_distance :
    Parse exGeo [exWayBend, exWayDirect] [exNode1, exNode3, exNode5] = .ok exEngineParallel ∧
      FindRoute exGeo exEngineParallel (searchFuel exEngineParallel "A") "A" "B" exResult5 =
        .ok (true, exParallelResult) ∧
      exParallelResult.distance = some 20000 ∧
      pathLength exGeo exParallelResult.route_nodes = 30000 := by
  refine ⟨by rfl, by rfl, by rfl, by decide⟩

end RailRouting


namespace RailRouting

/-! ## C36: ChangeTag -/

theorem tagMapInsertPos_cons (k1 v1 : String) (rest : List (String × String)) (k : String) :
    tagMapInsertPos ((k1, v1) :: rest) k =
      if strLt k k1 then 0 else if k = k1 then 0 else tagMapInsertPos rest k + 1 := rfl

/-- The iterator returned by `insert` points to a pair with the key; to the inserted pair
when the insertion took place. -/
theorem tagMapInsert_pos (m : List (String × String)) (k v : String) :
    (∃ v0, (tagMapInsert m k v).1[tagMapInsertPos m k]? = some (k, v0)) ∧
      ((tagMapInsert m k v).2 = true →
        (tagMapInsert m k v).1[tagMapInsertPos m k]? = some (k, v)) := by
  induction m with
  | nil => exact ⟨⟨v, by simp [tagMapInsert_nil, tagMapInsertPos]⟩,
      fun _ => by simp [tagMapInsert_nil, tagMapInsertPos]⟩
  | cons p rest ih =>
    obtain ⟨k1, v1⟩ := p
    rw [tagMapInsert_cons, tagMapInsertPos_cons]
    by_cases h1 : strLt k k1 = true
    · rw [if_pos h1, if_pos h1]
      exact ⟨⟨v, by simp⟩, fun _ => by simp⟩
    · rw [if_neg h1, if_neg h1]
      by_cases h2 : k = k1
      · rw [if_pos h2, if_pos h2]
        refine ⟨⟨v1, ?_⟩, ?_⟩
        · rw [h2]
          simp
        · intro h
          simp at h
      · rw [if_neg h2, if_neg h2]
        simp only [List.getElem?_cons_succ]
        exact ih

theorem set_of_getElem? {α : Type} (l : List α) (i : Nat) (a : α) (h : l[i]? = some a) :
    l.set i a = l := by
  induction l generalizing i with
  | nil => rfl
  | cons x xs ih =>
    cases i with
    | zero =>
      simp only [List.getElem?_cons_zero, Option.some.injEq] at h
      rw [h]
      rfl
    | succ j =>
      simp only [List.getElem?_cons_succ] at h
      simp only [List.set_cons_succ]
      rw [ih j h]

/-- The assignment `res.first->second = value` after a successful insertion writes the
value that the insertion has just stored. -/
theorem tagMapAssign_inserted (m : List (String × String)) (k v : String)
    (h : (tagMapInsert m k v).2 = true) :
    tagMapAssign (tagMapInsert m k v).1 (tagMapInsertPos m k) v = (tagMapInsert m k v).1 := by
  have hp := (tagMapInsert_pos m k v).2 h
  unfold tagMapAssign
  rw [hp]
  simp only
  exact set_of_getElem? _ _ _ hp

theorem ChangeTag_eq (t : TagContainer) (key value : String) :
    t.ChangeTag key value = t.AddTag key value := by
  unfold TagContainer.ChangeTag TagContainer.AddTag
  simp only
  cases hb : (tagMapInsert t.tags_ key value).2 with
  | false => simp
  | true =>
    simp only [Bool.true_eq_false, if_false]
    rw [tagMapAssign_inserted _ _ _ hb]

/-- C36: for every tag container, key and value, ChangeTag gives the container and the
return value of AddTag; on a container with increasing keys (a `std::map`) it returns true
exactly for an absent key, it then stores the pair and leaves every other key alone, and
for a key that is present it returns false and the container, so the stored value too, is
unchanged. -/
theorem ChangeTag_is_AddTag (t : TagContainer) (key value : String) :
    t.ChangeTag key value = t.AddTag key value ∧
      (t.Sorted →
        ((t.ChangeTag key value).2 = true ↔ t.GetTag key = none) ∧
        (t.GetTag key = none →
          (t.ChangeTag key value).2 = true ∧
            (t.ChangeTag key value).1.GetTag key = some value ∧
            ∀ k2, k2 ≠ key → (t.ChangeTag key value).1.GetTag k2 = t.GetTag k2) ∧
        (∀ v0, t.GetTag key = some v0 →
          (t.ChangeTag key value).2 = false ∧ (t.ChangeTag key value).1 = t ∧
            (t.ChangeTag key value).1.GetTag key = some v0)) := by
  refine ⟨ChangeTag_eq t key value, ?_⟩
  intro hs
  rw [ChangeTag_eq]
  unfold TagContainer.AddTag TagContainer.GetTag
  unfold TagContainer.Sorted at hs
  simp only
  have hiff : (tagMapInsert t.tags_ key value).2 = true ↔ List.lookup key t.tags_ = none := by
    refine ⟨tagMapInsert_true _ _ _ hs, ?_⟩
    intro hnone
    cases hb : (tagMapInsert t.tags_ key value).2 with
    | true => rfl
    | false =>
      obtain ⟨-, v0, hv0⟩ := tagMapInsert_false _ _ _ hb
      rw [hnone] at hv0
      simp at hv0
  refine ⟨hiff, ?_, ?_⟩
  · intro hnone
    have hb := hiff.2 hnone
    exact ⟨hb, (tagMapInsert_lookup _ _ _).1 hb, (tagMapInsert_lookup _ _ _).2⟩
  · intro v0 hv0
    have hb : (tagMapInsert t.tags_ key value).2 = false := by
      cases hb : (tagMapInsert t.tags_ key value).2 with
      | false => rfl
      | true =>
        have := hiff.1 hb
        rw [hv0] at this
        simp at this
    refine ⟨hb, ?_, ?_⟩
    · rw [(tagMapInsert_false _ _ _ hb).1]
    · rw [(tagMapInsert_false _ _ _ hb).1]
      exact hv0

/-- C36 at the tags of station A: ChangeTag of the key `name`, which is there, returns
false and changes nothing. -/
theorem ChangeTag_is_AddTag_witness :
    exNode1.tags.Sorted ∧
      exNode1.tags.ChangeTag "name" "Z" = exNode1.tags.AddTag "name" "Z" ∧
      (exNode1.tags.ChangeTag "name" "Z").2 = false ∧
      (exNode1.tags.ChangeTag "name" "Z").1 = exNode1.tags ∧
      (exNode1.tags.ChangeTag "name" "Z").1.GetTag "name" = some "A" :=
  have hs : exNode1.tags.Sorted := by
    unfold TagContainer.Sorted
    decide
  ⟨hs, (ChangeTag_is_AddTag exNode1.tags "name" "Z").1,
    ((ChangeTag_is_AddTag exNode1.tags "name" "Z").2 hs).2.2 "A" rfl⟩

end RailRouting


namespace RailRouting

/-! ## C34: sharp turns -/

theorem M_PI_pos : 0 < M_PI := by decide

theorem M_PI_2_double : 2 * M_PI_2 = M_PI := by decide

/-- The literal of `M_PI` is the double 884279719003555 * 2^-48 in units of 2^-1074. -/
theorem M_PI_value : M_PI = 884279719003555 * 2 ^ 1026 := by
  norm_num [M_PI]

/-- The literal of `M_PI_2` is the double 884279719003555 * 2^-49 in units of 2^-1074. -/
theorem M_PI_2_value : M_PI_2 = 884279719003555 * 2 ^ 1025 := by
  norm_num [M_PI_2]

/-- The literal of `exBearingSteep` is the double 101 * 2^-6 in units of 2^-1074. -/
theorem exBearingSteep_value : exBearingSteep = 101 * 2 ^ 1068 := by
  norm_num [exBearingSteep]

/-- The literal of `dblOne` is 2^1074. -/
theorem dblOne_value : dblOne = 2 ^ 1074 := by
  norm_num [dblOne]

theorem dblOne_pos : 0 < dblOne := by decide

/-! ### The rounding to the nearest double -/

theorem shiftRight_eq_zero_iff (t n : Nat) : t >>> n = 0 ↔ t < 2 ^ n := by
  rw [Nat.shiftRight_eq_div_pow]
  exact Nat.div_eq_zero_iff (by positivity)

theorem leadStep_spec (t acc j : Nat) (h1 : 2 ^ acc ≤ t) (h2 : t < 2 ^ (acc + j + j)) :
    2 ^ (leadStep t acc j) ≤ t ∧ t < 2 ^ (leadStep t acc j + j) := by
  unfold leadStep
  by_cases h : t >>> (acc + j) = 0
  · rw [if_pos h]
    exact ⟨h1, (shiftRight_eq_zero_iff _ _).1 h⟩
  · rw [if_neg h]
    have hn : ¬ t < 2 ^ (acc + j) := fun hlt => h ((shiftRight_eq_zero_iff _ _).2 hlt)
    exact ⟨le_of_not_lt hn, h2⟩

theorem leadStep_next (t acc j j2 : Nat) (hj : j2 + j2 = j) (h1 : 2 ^ acc ≤ t)
    (h2 : t < 2 ^ (acc + j)) :
    2 ^ (leadStep t acc j2) ≤ t ∧ t < 2 ^ (leadStep t acc j2 + j2) := by
  apply leadStep_spec t acc j2 h1
  rw [Nat.add_assoc, hj]
  exact h2

theorem lt_pow_4096 (t : Nat) (h : t >>> 4096 = 0) : t < 2 ^ (0 + 4096) := by
  rw [Nat.zero_add]
  exact (shiftRight_eq_zero_iff t 4096).1 h

/-- The bisection finds the leading binary digit. -/
theorem leadingBit_spec (t : Nat) (h0 : 0 < t) (h : t >>> 4096 = 0) :
    2 ^ leadingBit t ≤ t ∧ t < 2 ^ (leadingBit t + 1) := by
  have hlt := lt_pow_4096 t h
  have h1 : 2 ^ 0 ≤ t := by
    rw [Nat.pow_zero]
    exact h0
  have s1 := leadStep_next t 0 4096 2048 rfl h1 hlt
  have s2 := leadStep_next t _ 2048 1024 rfl s1.1 s1.2
  have s3 := leadStep_next t _ 1024 512 rfl s2.1 s2.2
  have s4 := leadStep_next t _ 512 256 rfl s3.1 s3.2
  have s5 := leadStep_next t _ 256 128 rfl s4.1 s4.2
  have s6 := leadStep_next t _ 128 64 rfl s5.1 s5.2
  have s7 := leadStep_next t _ 64 32 rfl s6.1 s6.2
  have s8 := leadStep_next t _ 32 16 rfl s7.1 s7.2
  have s9 := leadStep_next t _ 16 8 rfl s8.1 s8.2
  have s10 := leadStep_next t _ 8 4 rfl s9.1 s9.2
  have s11 := leadStep_next t _ 4 2 rfl s10.1 s10.2
  have s12 := leadStep_next t _ 2 1 rfl s11.1 s11.2
  unfold leadingBit
  exact s12

theorem roundMag_zero (d : Nat) (hd : 0 < d) : roundMag 0 d = 0 := by
  unfold roundMag
  simp only [Nat.zero_div, if_true, Nat.zero_sub, Nat.shiftLeft_zero, Nat.zero_mod,
    Nat.mul_zero, hd, Nat.zero_shiftLeft]

/-- The rounding does not pass a double: when the quotient `n / d` is at most `c`, a number
with a significand of at most 53 binary digits, so is the double nearest to it. -/
theorem roundMag_le (n d c m j : Nat) (hd : 0 < d) (hm : m < 2 ^ 53) (hc : c = m * 2 ^ j)
    (hc2 : c >>> 4096 = 0) (h : n ≤ c * d) : roundMag n d ≤ c := by
  have htc : n / d ≤ c := Nat.div_le_of_le_mul (by rw [Nat.mul_comm]; exact h)
  have ht4 : (n / d) >>> 4096 = 0 := by
    rw [shiftRight_eq_zero_iff] at hc2 ⊢
    exact lt_of_le_of_lt htc hc2
  unfold roundMag
  simp only []
  generalize hk : (if n / d = 0 then 0 else leadingBit (n / d) + 1) - 53 = k
  have hdiv : 2 ^ k ∣ c := by
    by_cases hk0 : k = 0
    · rw [hk0, Nat.pow_zero]
      exact one_dvd c
    · have ht0 : n / d ≠ 0 := by
        intro h0
        rw [if_pos h0] at hk
        exact hk0 (by omega)
      rw [if_neg ht0] at hk
      have hlb := (leadingBit_spec (n / d) (Nat.pos_of_ne_zero ht0) ht4).1
      have hL : leadingBit (n / d) = k + 52 := by omega
      rw [hL] at hlb
      by_cases hjk : k ≤ j
      · rw [hc]
        exact Dvd.dvd.mul_left (pow_dvd_pow 2 hjk) m
      · exfalso
        have h1 : c < 2 ^ (k + 52) := by
          calc c = m * 2 ^ j := hc
            _ < 2 ^ 53 * 2 ^ j := Nat.mul_lt_mul_of_pos_right hm (by positivity)
            _ = 2 ^ (53 + j) := by rw [pow_add]
            _ ≤ 2 ^ (k + 52) := Nat.pow_le_pow_right (by norm_num) (by omega)
        omega
  obtain ⟨c1, hc1⟩ := hdiv
  rw [Nat.shiftLeft_eq, Nat.shiftLeft_eq]
  have hsp : 0 < d * 2 ^ k := by positivity
  have hn : n ≤ c1 * (d * 2 ^ k) := by
    calc n ≤ c * d := h
      _ = c1 * (d * 2 ^ k) := by rw [hc1]; ring
  have hq : n / (d * 2 ^ k) ≤ c1 := Nat.div_le_of_le_mul (by rw [Nat.mul_comm]; exact hn)
  have hq1 : 0 < n % (d * 2 ^ k) → n / (d * 2 ^ k) + 1 ≤ c1 := by
    intro hr
    by_contra hcon
    have h1 : c1 ≤ n / (d * 2 ^ k) := by omega
    have h2 : c1 * (d * 2 ^ k) ≤ n / (d * 2 ^ k) * (d * 2 ^ k) := Nat.mul_le_mul_right _ h1
    have h3 := Nat.div_add_mod n (d * 2 ^ k)
    have h4 : n / (d * 2 ^ k) * (d * 2 ^ k) = d * 2 ^ k * (n / (d * 2 ^ k)) := Nat.mul_comm _ _
    omega
  have hle : ∀ x, x ≤ c1 → x * 2 ^ k ≤ c := by
    intro x hx
    rw [hc1, Nat.mul_comm (2 ^ k) c1]
    exact Nat.mul_le_mul_right _ hx
  by_cases hA : 2 * (n % (d * 2 ^ k)) < d * 2 ^ k
  · rw [if_pos hA]
    exact hle _ hq
  · rw [if_neg hA]
    have hr : 0 < n % (d * 2 ^ k) := by omega
    by_cases hB : d * 2 ^ k < 2 * (n % (d * 2 ^ k))
    · rw [if_pos hB]
      exact hle _ (hq1 hr)
    · rw [if_neg hB]
      by_cases hC : n / (d * 2 ^ k) % 2 = 0
      · rw [if_pos hC]
        exact hle _ hq
      · rw [if_neg hC]
        exact hle _ (hq1 hr)

theorem roundDouble_natAbs (num den : Int) :
    (roundDouble num den).natAbs = roundMag num.natAbs den.natAbs := by
  unfold roundDouble
  split
  · exact Int.natAbs_ofNat _
  · rw [Int.natAbs_neg]
    exact Int.natAbs_ofNat _

theorem shift_zero_of_double (m j n : Nat) (hm : m < 2 ^ 53) (hj : j + 53 ≤ n) :
    (m * 2 ^ j) >>> n = 0 := by
  rw [shiftRight_eq_zero_iff]
  calc m * 2 ^ j < 2 ^ 53 * 2 ^ j := Nat.mul_lt_mul_of_pos_right hm (by positivity)
    _ = 2 ^ (53 + j) := by rw [pow_add]
    _ ≤ 2 ^ n := Nat.pow_le_pow_right (by norm_num) (by omega)

/-- The rounding does not pass a double, in absolute value: with `c` a non-negative double,
`|num / den| <= c` gives `|roundDouble num den| <= c`. -/
theorem roundDouble_abs_le (num den c : Int) (m j : Nat) (hden : den ≠ 0) (hm : m < 2 ^ 53)
    (hj : j + 53 ≤ 4096) (hc : c = Int.ofNat (m <<< j)) (h : |num| ≤ c * |den|) :
    |roundDouble num den| ≤ c := by
  have hcn : c.natAbs = m * 2 ^ j := by
    rw [hc, ← Nat.shiftLeft_eq]
    rfl
  have hc0 : (c.natAbs : Int) = c := by
    rw [hc]
    rfl
  have hc4 : c.natAbs >>> 4096 = 0 := by
    rw [hcn]
    exact shift_zero_of_double m j 4096 hm hj
  have hd : 0 < den.natAbs := Int.natAbs_pos.2 hden
  have hn : num.natAbs ≤ c.natAbs * den.natAbs := by
    have h1 : ((num.natAbs : Nat) : Int) ≤ ((c.natAbs * den.natAbs : Nat) : Int) := by
      rw [Nat.cast_mul, hc0, Int.natCast_natAbs, Int.natCast_natAbs]
      exact h
    exact_mod_cast h1
  have hr := roundMag_le num.natAbs den.natAbs c.natAbs m j hd hm hcn hc4 hn
  rw [← roundDouble_natAbs] at hr
  rw [← Int.natCast_natAbs, ← hc0]
  exact_mod_cast hr

theorem double_two_pi : 2 * M_PI = Int.ofNat (884279719003555 <<< 1027) := by decide

theorem double_two : 2 * dblOne = Int.ofNat (1 <<< 1075) := by decide

theorem double_180 : 180 * dblOne = Int.ofNat (45 <<< 1076) := by decide

theorem double_360 : 360 * dblOne = Int.ofNat (45 <<< 1077) := by decide

/-- The grid of the rounding: with `k` the exponent that `roundMag` takes for `n / d`, the
quotient `q` of `n` by `d * 2^k` has at most 53 binary digits, and exactly 53 when `k` is
not 0. -/
theorem roundMag_grid (n d : Nat) (h4 : (n / d) >>> 4096 = 0) (k : Nat)
    (hk : (if n / d = 0 then 0 else leadingBit (n / d) + 1) - 53 = k) :
    n / (d * 2 ^ k) < 2 ^ 53 ∧ (0 < k → 2 ^ 52 ≤ n / (d * 2 ^ k)) := by
  have hq : n / (d * 2 ^ k) = n / d / 2 ^ k := (Nat.div_div_eq_div_mul n d (2 ^ k)).symm
  rw [hq]
  by_cases ht0 : n / d = 0
  · rw [if_pos ht0] at hk
    have hk0 : k = 0 := by omega
    rw [ht0, hk0]
    simp
  · rw [if_neg ht0] at hk
    obtain ⟨hlo, hhi⟩ := leadingBit_spec (n / d) (Nat.pos_of_ne_zero ht0) h4
    constructor
    · apply Nat.div_lt_of_lt_mul
      calc n / d < 2 ^ (leadingBit (n / d) + 1) := hhi
        _ ≤ 2 ^ (k + 53) := Nat.pow_le_pow_right (by norm_num) (by omega)
        _ = 2 ^ k * 2 ^ 53 := by rw [pow_add]
    · intro hkpos
      rw [Nat.le_div_iff_mul_le (by positivity)]
      calc 2 ^ 52 * 2 ^ k = 2 ^ (52 + k) := by rw [pow_add]
        _ ≤ 2 ^ leadingBit (n / d) := Nat.pow_le_pow_right (by norm_num) (by omega)
        _ ≤ n / d := hlo

/-- No double lies strictly between two neighbours of the grid. -/
theorem no_double_between (q k c m j : Nat) (hm : m < 2 ^ 53) (hc : c = m * 2 ^ j)
    (hq : 0 < k → 2 ^ 52 ≤ q) : c ≤ q * 2 ^ k ∨ (q + 1) * 2 ^ k ≤ c := by
  by_cases hjk : k ≤ j
  · obtain ⟨e, he⟩ : 2 ^ k ∣ c := by
      rw [hc]
      exact Dvd.dvd.mul_left (pow_dvd_pow 2 hjk) m
    rw [he, Nat.mul_comm (2 ^ k) e]
    by_cases hle : e ≤ q
    · exact Or.inl (Nat.mul_le_mul_right _ hle)
    · exact Or.inr (Nat.mul_le_mul_right _ (by omega))
  · left
    have hkpos : 0 < k := by omega
    calc c = m * 2 ^ j := hc
      _ ≤ 2 ^ 53 * 2 ^ j := Nat.mul_le_mul_right _ (le_of_lt hm)
      _ = 2 ^ (53 + j) := by rw [pow_add]
      _ ≤ 2 ^ (52 + k) := Nat.pow_le_pow_right (by norm_num) (by omega)
      _ = 2 ^ 52 * 2 ^ k := by rw [pow_add]
      _ ≤ q * 2 ^ k := Nat.mul_le_mul_right _ (hq hkpos)

theorem dist_below (c d q S rem n : Nat) (x : Nat) (hS : S = d * x) (hn : S * q + rem = n)
    (hc : c ≤ q * x) : |((c * d : Nat) : Int) - (n : Int)| = (n : Int) - ((c * d : Nat) : Int) ∧
      (rem : Int) ≤ (n : Int) - ((c * d : Nat) : Int) := by
  have h1 : c * d ≤ S * q := by
    calc c * d ≤ q * x * d := Nat.mul_le_mul_right _ hc
      _ = S * q := by rw [hS]; ring
  have h2 : ((c * d : Nat) : Int) ≤ ((S * q : Nat) : Int) := by exact_mod_cast h1
  have h3 : ((S * q : Nat) : Int) + (rem : Int) = (n : Int) := by exact_mod_cast hn
  constructor
  · rw [abs_of_nonpos (by linarith)]
    ring
  · linarith

theorem dist_above (c d q S rem n : Nat) (x : Nat) (hS : S = d * x) (hn : S * q + rem = n)
    (hrem : rem < S) (hc : (q + 1) * x ≤ c) :
    |((c * d : Nat) : Int) - (n : Int)| = ((c * d : Nat) : Int) - (n : Int) ∧
      (S : Int) - (rem : Int) ≤ ((c * d : Nat) : Int) - (n : Int) := by
  have h1 : S * q + S ≤ c * d := by
    calc S * q + S = (q + 1) * x * d := by rw [hS]; ring
      _ ≤ c * d := Nat.mul_le_mul_right _ hc
  have h2 : ((S * q : Nat) : Int) + (S : Int) ≤ ((c * d : Nat) : Int) := by exact_mod_cast h1
  have h3 : ((S * q : Nat) : Int) + (rem : Int) = (n : Int) := by exact_mod_cast hn
  have h4 : (rem : Int) < (S : Int) := by exact_mod_cast hrem
  constructor
  · rw [abs_of_nonneg (by linarith)]
  · linarith

/-- The rounding gives a nearest double: the result has a significand of at most 53 binary
digits, and no number with such a significand is nearer to the quotient `n / d`. -/
theorem roundMag_nearest (n d : Nat) (hd : 0 < d) (h4 : (n / d) >>> 4096 = 0) :
    (∃ m j, m < 2 ^ 53 ∧ roundMag n d = m * 2 ^ j) ∧
      ∀ c m j, m < 2 ^ 53 → c = m * 2 ^ j →
        |((roundMag n d * d : Nat) : Int) - (n : Int)| ≤ |((c * d : Nat) : Int) - (n : Int)| := by
  unfold roundMag
  simp only []
  generalize hk : (if n / d = 0 then 0 else leadingBit (n / d) + 1) - 53 = k
  obtain ⟨hq53, hq52⟩ := roundMag_grid n d h4 k hk
  rw [Nat.shiftLeft_eq, Nat.shiftLeft_eq]
  have hS : 0 < d * 2 ^ k := by positivity
  have hn := Nat.div_add_mod n (d * 2 ^ k)
  have hrem := Nat.mod_lt n hS
  generalize hqdef : n / (d * 2 ^ k) = q at *
  generalize hremdef : n % (d * 2 ^ k) = rem at *
  have hrep : ∀ x, (x = q ∨ x = q + 1) → ∃ m j, m < 2 ^ 53 ∧ x * 2 ^ k = m * 2 ^ j := by
    intro x hx
    by_cases hx53 : x < 2 ^ 53
    · exact ⟨x, k, hx53, rfl⟩
    · have hxe : x = 2 ^ 53 := by omega
      refine ⟨2 ^ 52, k + 1, by norm_num, ?_⟩
      rw [hxe, pow_succ]
      ring
  have hlo : ∀ c m j, m < 2 ^ 53 → c = m * 2 ^ j → 2 * rem ≤ d * 2 ^ k →
      |((q * 2 ^ k * d : Nat) : Int) - (n : Int)| ≤ |((c * d : Nat) : Int) - (n : Int)| := by
    intro c m j hm hc h2
    obtain ⟨e1, e2⟩ := dist_below (q * 2 ^ k) d q (d * 2 ^ k) rem n (2 ^ k) rfl hn (le_refl _)
    have e3 : ((d * 2 ^ k * q : Nat) : Int) + (rem : Int) = (n : Int) := by exact_mod_cast hn
    have e4 : ((q * 2 ^ k * d : Nat) : Int) = ((d * 2 ^ k * q : Nat) : Int) := by
      congr 1
      ring
    have h2i : 2 * (rem : Int) ≤ ((d * 2 ^ k : Nat) : Int) := by exact_mod_cast h2
    rw [e1]
    rcases no_double_between q k c m j hm hc hq52 with hb | ha
    · obtain ⟨f1, f2⟩ := dist_below c d q (d * 2 ^ k) rem n (2 ^ k) rfl hn hb
      rw [f1]
      linarith
    · obtain ⟨f1, f2⟩ := dist_above c d q (d * 2 ^ k) rem n (2 ^ k) rfl hn hrem ha
      rw [f1]
      linarith
  have hhi : ∀ c m j, m < 2 ^ 53 → c = m * 2 ^ j → d * 2 ^ k ≤ 2 * rem →
      |(((q + 1) * 2 ^ k * d : Nat) : Int) - (n : Int)| ≤
        |((c * d : Nat) : Int) - (n : Int)| := by
    intro c m j hm hc h2
    obtain ⟨e1, e2⟩ := dist_above ((q + 1) * 2 ^ k) d q (d * 2 ^ k) rem n (2 ^ k) rfl hn hrem
      (le_refl _)
    have e3 : ((d * 2 ^ k * q : Nat) : Int) + (rem : Int) = (n : Int) := by exact_mod_cast hn
    have e4 : (((q + 1) * 2 ^ k * d : Nat) : Int) =
        ((d * 2 ^ k * q : Nat) : Int) + ((d * 2 ^ k : Nat) : Int) := by
      rw [← Nat.cast_add]
      congr 1
      ring
    have h2i : ((d * 2 ^ k : Nat) : Int) ≤ 2 * (rem : Int) := by exact_mod_cast h2
    rw [e1]
    rcases no_double_between q k c m j hm hc hq52 with hb | ha
    · obtain ⟨f1, f2⟩ := dist_below c d q (d * 2 ^ k) rem n (2 ^ k) rfl hn hb
      rw [f1]
      linarith
    · obtain ⟨f1, f2⟩ := dist_above c d q (d * 2 ^ k) rem n (2 ^ k) rfl hn hrem ha
      rw [f1]
      linarith
  by_cases hA : 2 * rem < d * 2 ^ k
  · rw [if_pos hA]
    exact ⟨hrep q (Or.inl rfl), fun c m j hm hc => hlo c m j hm hc (le_of_lt hA)⟩
  · rw [if_neg hA]
    by_cases hB : d * 2 ^ k < 2 * rem
    · rw [if_pos hB]
      exact ⟨hrep (q + 1) (Or.inr rfl), fun c m j hm hc => hhi c m j hm hc (le_of_lt hB)⟩
    · rw [if_neg hB]
      by_cases hC : q % 2 = 0
      · rw [if_pos hC]
        exact ⟨hrep q (Or.inl rfl), fun c m j hm hc => hlo c m j hm hc (by omega)⟩
      · rw [if_neg hC]
        exact ⟨hrep (q + 1) (Or.inr rfl), fun c m j hm hc => hhi c m j hm hc (by omega)⟩

/-- The two candidates of the rounding and the choice between them. -/
theorem roundMag_shape (n d : Nat) (hd : 0 < d) (h4 : (n / d) >>> 4096 = 0) :
    ∃ k q rem, d * 2 ^ k * q + rem = n ∧ rem < d * 2 ^ k ∧ (0 < k → 2 ^ 52 ≤ q) ∧
      ((roundMag n d = q * 2 ^ k ∧ (2 * rem < d * 2 ^ k ∨ (2 * rem = d * 2 ^ k ∧ q % 2 = 0))) ∨
        (roundMag n d = (q + 1) * 2 ^ k ∧
          (d * 2 ^ k < 2 * rem ∨ (2 * rem = d * 2 ^ k ∧ q % 2 = 1)))) := by
  unfold roundMag
  simp only []
  generalize hk : (if n / d = 0 then 0 else leadingBit (n / d) + 1) - 53 = k
  obtain ⟨-, hq52⟩ := roundMag_grid n d h4 k hk
  rw [Nat.shiftLeft_eq, Nat.shiftLeft_eq]
  have hS : 0 < d * 2 ^ k := by positivity
  refine ⟨k, n / (d * 2 ^ k), n % (d * 2 ^ k), Nat.div_add_mod n (d * 2 ^ k),
    Nat.mod_lt n hS, hq52, ?_⟩
  by_cases hA : 2 * (n % (d * 2 ^ k)) < d * 2 ^ k
  · rw [if_pos hA]
    exact Or.inl ⟨rfl, Or.inl hA⟩
  · rw [if_neg hA]
    by_cases hB : d * 2 ^ k < 2 * (n % (d * 2 ^ k))
    · rw [if_pos hB]
      exact Or.inr ⟨rfl, Or.inl hB⟩
    · rw [if_neg hB]
      by_cases hC : n / (d * 2 ^ k) % 2 = 0
      · rw [if_pos hC]
        exact Or.inl ⟨rfl, Or.inr ⟨by omega, hC⟩⟩
      · rw [if_neg hC]
        exact Or.inr ⟨rfl, Or.inr ⟨by omega, by omega⟩⟩

/-- Ties go to the even significand: when another double is as near to the quotient as the
result, the result is an even multiple of the distance between the two. -/
theorem roundMag_ties_even (n d : Nat) (hd : 0 < d) (h4 : (n / d) >>> 4096 = 0)
    (c m j : Nat) (hm : m < 2 ^ 53) (hc : c = m * 2 ^ j) (hne : c ≠ roundMag n d)
    (heq : |((c * d : Nat) : Int) - (n : Int)| =
      |((roundMag n d * d : Nat) : Int) - (n : Int)|) :
    ∃ e, roundMag n d = 2 * e * ((c - roundMag n d) + (roundMag n d - c)) := by
  obtain ⟨k, q, rem, hn, hrem, hq52, hshape⟩ := roundMag_shape n d hd h4
  have hni : ((d * 2 ^ k * q : Nat) : Int) + (rem : Int) = (n : Int) := by exact_mod_cast hn
  have hremi : (rem : Int) < ((d * 2 ^ k : Nat) : Int) := by exact_mod_cast hrem
  have cancel : ∀ x y : Nat, ((x * d : Nat) : Int) = ((y * d : Nat) : Int) → x = y := by
    intro x y hxy
    have : x * d = y * d := by exact_mod_cast hxy
    exact Nat.eq_of_mul_eq_mul_right hd this
  have elo : ((q * 2 ^ k * d : Nat) : Int) = ((d * 2 ^ k * q : Nat) : Int) := by
    congr 1
    ring
  have ehi : (((q + 1) * 2 ^ k * d : Nat) : Int) =
      ((d * 2 ^ k * q : Nat) : Int) + ((d * 2 ^ k : Nat) : Int) := by
    rw [← Nat.cast_add]
    congr 1
    ring
  rcases hshape with ⟨hr, hch⟩ | ⟨hr, hch⟩
  · -- the result is the lower neighbour
    rw [hr] at hne heq ⊢
    obtain ⟨e1, -⟩ := dist_below (q * 2 ^ k) d q (d * 2 ^ k) rem n (2 ^ k) rfl hn (le_refl _)
    rw [e1] at heq
    rcases no_double_between q k c m j hm hc hq52 with hb | ha
    · obtain ⟨f1, -⟩ := dist_below c d q (d * 2 ^ k) rem n (2 ^ k) rfl hn hb
      rw [f1] at heq
      exact absurd (cancel c (q * 2 ^ k) (by linarith)) hne
    · obtain ⟨f1, f2⟩ := dist_above c d q (d * 2 ^ k) rem n (2 ^ k) rfl hn hrem ha
      rw [f1] at heq
      rcases hch with hlt | ⟨htie, heven⟩
      · have hlti : 2 * (rem : Int) < ((d * 2 ^ k : Nat) : Int) := by exact_mod_cast hlt
        linarith
      · have htiei : 2 * (rem : Int) = ((d * 2 ^ k : Nat) : Int) := by exact_mod_cast htie
        have hce : c = (q + 1) * 2 ^ k := cancel c ((q + 1) * 2 ^ k) (by linarith)
        refine ⟨q / 2, ?_⟩
        have h1 : c - q * 2 ^ k = 2 ^ k := by
          rw [hce, Nat.add_mul, Nat.one_mul, Nat.add_sub_cancel_left]
        have h2 : q * 2 ^ k - c = 0 := by
          rw [hce]
          exact Nat.sub_eq_zero_of_le (Nat.mul_le_mul_right _ (Nat.le_succ q))
        rw [h1, h2, Nat.add_zero]
        have h3 : 2 * (q / 2) = q := by omega
        rw [h3]
  · -- the result is the upper neighbour
    rw [hr] at hne heq ⊢
    obtain ⟨e1, -⟩ := dist_above ((q + 1) * 2 ^ k) d q (d * 2 ^ k) rem n (2 ^ k) rfl hn hrem
      (le_refl _)
    rw [e1] at heq
    rcases no_double_between q k c m j hm hc hq52 with hb | ha
    · obtain ⟨f1, f2⟩ := dist_below c d q (d * 2 ^ k) rem n (2 ^ k) rfl hn hb
      rw [f1] at heq
      rcases hch with hlt | ⟨htie, hodd⟩
      · have hlti : ((d * 2 ^ k : Nat) : Int) < 2 * (rem : Int) := by exact_mod_cast hlt
        linarith
      · have htiei : 2 * (rem : Int) = ((d * 2 ^ k : Nat) : Int) := by exact_mod_cast htie
        have hce : c = q * 2 ^ k := cancel c (q * 2 ^ k) (by linarith)
        refine ⟨(q + 1) / 2, ?_⟩
        have h1 : (q + 1) * 2 ^ k - c = 2 ^ k := by
          rw [hce, Nat.add_mul, Nat.one_mul, Nat.add_sub_cancel_left]
        have h2 : c - (q + 1) * 2 ^ k = 0 := by
          rw [hce]
          exact Nat.sub_eq_zero_of_le (Nat.mul_le_mul_right _ (Nat.le_succ q))
        rw [h1, h2, Nat.zero_add]
        have h3 : 2 * ((q + 1) / 2) = q + 1 := by omega
        rw [h3]
    · obtain ⟨f1, -⟩ := dist_above c d q (d * 2 ^ k) rem n (2 ^ k) rfl hn hrem ha
      rw [f1] at heq
      exact absurd (cancel c ((q + 1) * 2 ^ k) (by linarith)) hne

theorem roundDouble_dist (num den : Int) :
    |roundDouble num den * den - num| =
      |((roundMag num.natAbs den.natAbs * den.natAbs : Nat) : Int) - (num.natAbs : Int)| := by
  rw [Nat.cast_mul, Int.natCast_natAbs, Int.natCast_natAbs]
  unfold roundDouble
  generalize roundMag num.natAbs den.natAbs = R
  by_cases hn : num < 0
  · by_cases hd : den < 0
    · rw [if_pos (by simp [hn, hd]), abs_of_neg hn, abs_of_neg hd]
      rw [← abs_neg]
      congr 1
      simp only [Int.ofNat_eq_coe]
      ring
    · rw [if_neg (by simp [hn, hd]), abs_of_neg hn, abs_of_nonneg (le_of_not_lt hd)]
      rw [← abs_neg]
      congr 1
      simp only [Int.ofNat_eq_coe]
      ring
  · by_cases hd : den < 0
    · rw [if_neg (by simp [hn, hd]), abs_of_nonneg (le_of_not_lt hn), abs_of_neg hd]
      congr 1
      simp only [Int.ofNat_eq_coe]
      ring
    · rw [if_pos (by simp [hn, hd]), abs_of_nonneg (le_of_not_lt hn),
        abs_of_nonneg (le_of_not_lt hd)]
      simp only [Int.ofNat_eq_coe]

/-- The rounding of the model is the rounding to nearest of IEEE 754 binary64: the result
is a double, and no double is nearer to the quotient `num / den`. -/
theorem roundDouble_nearest (num den : Int) (hden : den ≠ 0)
    (h4 : (num.natAbs / den.natAbs) >>> 4096 = 0) :
    IsDouble (roundDouble num den) ∧
      ∀ c, IsDouble c → |roundDouble num den * den - num| ≤ |c * den - num| := by
  have hd : 0 < den.natAbs := Int.natAbs_pos.2 hden
  obtain ⟨⟨m, j, hm, hr⟩, hnear⟩ := roundMag_nearest num.natAbs den.natAbs hd h4
  constructor
  · exact ⟨m, j, hm, by rw [roundDouble_natAbs]; exact hr⟩
  · rintro c ⟨m2, j2, hm2, hc2⟩
    rw [roundDouble_dist]
    refine le_trans (hnear c.natAbs m2 j2 hm2 hc2) ?_
    rw [Nat.cast_mul, Int.natCast_natAbs, Int.natCast_natAbs, Int.natCast_natAbs, ← abs_mul]
    exact abs_abs_sub_abs_le (c * den) num

/-! ### The turn between two bearings -/

/-- The difference of two bearings of the range of `atan2`, converted to degrees in
doubles, lies between -360 and 360. -/
theorem turnDegrees_abs (p b : Int) (hp1 : -M_PI ≤ p) (hp2 : p ≤ M_PI) (hb1 : -M_PI ≤ b)
    (hb2 : b ≤ M_PI) : |turnDegrees p b| ≤ 360 * dblOne := by
  unfold turnDegrees dmul ddiv dsub
  have hU := dblOne_pos
  have hM := M_PI_pos
  have h0 : |roundDouble (b - p) 1| ≤ 2 * M_PI :=
    roundDouble_abs_le (b - p) 1 (2 * M_PI) 884279719003555 1027 one_ne_zero (by norm_num)
      (by norm_num) double_two_pi
      (by rw [abs_one, mul_one, abs_le]; constructor <;> linarith)
  have h1 : |roundDouble (roundDouble (b - p) 1 * dblOne) M_PI| ≤ 2 * dblOne :=
    roundDouble_abs_le _ M_PI (2 * dblOne) 1 1075 (ne_of_gt hM) (by norm_num) (by norm_num)
      double_two
      (by
        rw [abs_mul, abs_of_pos hU, abs_of_pos hM]
        have := mul_le_mul_of_nonneg_right h0 (le_of_lt hU)
        linarith)
  exact roundDouble_abs_le _ dblOne (360 * dblOne) 45 1077 (ne_of_gt hU) (by norm_num)
    (by norm_num) double_360
    (by
      rw [abs_mul, abs_of_pos hU, abs_of_pos (by linarith : (0 : Int) < 180 * dblOne)]
      have := mul_le_mul_of_nonneg_right h1 (by linarith : (0 : Int) ≤ 180 * dblOne)
      nlinarith)

/-- The normalisation brings a number of degrees between -360 and 360 to one between -180
and 180. -/
theorem normalizeDegrees_abs (d : Int) (h : |d| ≤ 360 * dblOne) :
    |normalizeDegrees d| ≤ 180 * dblOne := by
  unfold normalizeDegrees
  simp only []
  have hU := dblOne_pos
  obtain ⟨hlo, hhi⟩ := abs_le.1 h
  by_cases h1 : d > 180 * dblOne
  · rw [if_pos h1]
    have h3 : |dsub d (360 * dblOne)| ≤ 180 * dblOne := by
      unfold dsub
      exact roundDouble_abs_le _ 1 (180 * dblOne) 45 1076 one_ne_zero (by norm_num)
        (by norm_num) double_180
        (by rw [abs_one, mul_one, abs_le]; constructor <;> linarith)
    have h4 : ¬ dsub d (360 * dblOne) < -(180 * dblOne) := by
      have := (abs_le.1 h3).1
      linarith
    rw [if_neg h4]
    exact h3
  · rw [if_neg h1]
    by_cases h2 : d < -(180 * dblOne)
    · rw [if_pos h2]
      unfold dadd
      exact roundDouble_abs_le _ 1 (180 * dblOne) 45 1076 one_ne_zero (by norm_num)
        (by norm_num) double_180
        (by rw [abs_one, mul_one, abs_le]; constructor <;> linarith)
    · rw [if_neg h2]
      rw [abs_le]
      constructor <;> linarith

/-- The turn between two bearings of the range of `atan2` lies between 0 and 180 degrees. -/
theorem turnAngle_range (p b : Int) (hp1 : -M_PI ≤ p) (hp2 : p ≤ M_PI) (hb1 : -M_PI ≤ b)
    (hb2 : b ≤ M_PI) : 0 ≤ turnAngle p b ∧ turnAngle p b ≤ 180 * dblOne := by
  have h := normalizeDegrees_abs _ (turnDegrees_abs p b hp1 hp2 hb1 hb2)
  obtain ⟨hlo, hhi⟩ := abs_le.1 h
  unfold turnAngle
  simp only []
  by_cases hneg : normalizeDegrees (turnDegrees p b) < 0
  · rw [if_pos hneg]
    constructor <;> linarith
  · rw [if_neg hneg]
    constructor <;> linarith

/-- The test of the source is the test "turn greater than 90 degrees". -/
theorem isSharpTurn_eq (p b : Int) :
    isSharpTurn p b = decide (turnAngle p b > 90 * dblOne) := by
  unfold isSharpTurn turnAngle normalizeDegrees turnDegrees
  simp only []

theorem routeTriples_cons (a b c : Node) (rest : List Node) :
    routeTriples (a :: b :: c :: rest) = (a, b, c) :: routeTriples (b :: c :: rest) := rfl

theorem routeTriples_short (a b : Node) : routeTriples [a, b] = [] := rfl

/-- The triples are the windows of three consecutive nodes. -/
theorem routeTriples_getElem? (route : List Node) (i : Nat) (a b c : Node) :
    (routeTriples route)[i]? = some (a, b, c) ↔
      route[i]? = some a ∧ route[i + 1]? = some b ∧ route[i + 2]? = some c := by
  induction route generalizing i with
  | nil => simp [routeTriples]
  | cons x rest ih =>
    cases rest with
    | nil => simp [routeTriples]
    | cons y rest2 =>
      cases rest2 with
      | nil => simp [routeTriples]
      | cons z rest3 =>
        rw [routeTriples_cons]
        cases i with
        | zero =>
          simp only [List.getElem?_cons_zero, Option.some.injEq, Prod.mk.injEq, zero_add,
            List.getElem?_cons_succ]
        | succ j =>
          simp only [List.getElem?_cons_succ]
          rw [ih j]
          simp only [List.getElem?_cons_succ]

theorem routeTriples_length (route : List Node) :
    (routeTriples route).length = route.length - 2 := by
  unfold routeTriples
  simp only [List.length_zip, List.length_tail]
  omega

theorem sharpTurnsLoop_cons (geo : GeoMath) (prev_bearing : Int) (node next : Node)
    (rest : List Node) :
    sharpTurnsLoop geo prev_bearing (node :: next :: rest) =
      if isSharpTurn prev_bearing (geo.Bearing node next) then
        node :: sharpTurnsLoop geo (geo.Bearing node next) (next :: rest)
      else sharpTurnsLoop geo (geo.Bearing node next) (next :: rest) := rfl

theorem sharpTurnsLoop_single (geo : GeoMath) (prev_bearing : Int) (node : Node) :
    sharpTurnsLoop geo prev_bearing [node] = [] := rfl

theorem sharpTurnsOf_cons (geo : GeoMath) (a b c : Node) (rest : List Node) :
    sharpTurnsOf geo (a :: b :: c :: rest) =
      if turnAngle (geo.Bearing a b) (geo.Bearing b c) > 90 * dblOne then
        b :: sharpTurnsOf geo (b :: c :: rest)
      else sharpTurnsOf geo (b :: c :: rest) := by
  unfold sharpTurnsOf
  rw [routeTriples_cons]
  by_cases h : turnAngle (geo.Bearing a b) (geo.Bearing b c) > 90 * dblOne
  · rw [if_pos h]
    rw [List.filterMap_cons_some]
    simp only
    rw [if_pos h]
  · rw [if_neg h]
    rw [List.filterMap_cons_none]
    simp only
    rw [if_neg h]

theorem sharpTurnsLoop_eq (geo : GeoMath) (rest : List Node) :
    ∀ a b, sharpTurnsLoop geo (geo.Bearing a b) (b :: rest) = sharpTurnsOf geo (a :: b :: rest) := by
  induction rest with
  | nil =>
    intro a b
    rfl
  | cons c rest ih =>
    intro a b
    rw [sharpTurnsLoop_cons, sharpTurnsOf_cons, ih b c, isSharpTurn_eq]
    by_cases h : turnAngle (geo.Bearing a b) (geo.Bearing b c) > 90 * dblOne
    · rw [if_pos h, if_pos (decide_eq_true h)]
    · rw [if_neg h, if_neg (by simpa using h)]

/-- The loop "find sharp turns" computes the list of the specification. -/
theorem findSharpTurns_eq (geo : GeoMath) (route : List Node) :
    findSharpTurns geo route = sharpTurnsOf geo route := by
  unfold findSharpTurns
  cases route with
  | nil => rfl
  | cons a rest =>
    cases rest with
    | nil => rfl
    | cons b rest2 =>
      cases rest2 with
      | nil => rfl
      | cons c rest3 =>
        have hl : (a :: b :: c :: rest3).length > 2 := by
          simp only [List.length_cons]
          omega
        rw [if_pos hl]
        exact sharpTurnsLoop_eq geo (c :: rest3) a b

theorem sharpTurnsOf_short (geo : GeoMath) (route : List Node) (h : route.length ≤ 2) :
    sharpTurnsOf geo route = [] := by
  have h0 : (routeTriples route).length = 0 := by
    rw [routeTriples_length]
    omega
  unfold sharpTurnsOf
  rw [List.length_eq_zero.1 h0]
  rfl

/-- A result with the status OK comes from the last `return true` of FindRoute, and its
sharp turns were computed from its route nodes. -/
theorem FindRoute_ok_sharp (geo : GeoMath) (eng : Engine) (fuel : Nat) (name_a name_b : String)
    (result : FindRouteResult) (ok : Bool) (r : FindRouteResult)
    (h : FindRoute geo eng fuel name_a name_b result = .ok (ok, r)) (hs : r.status = .OK) :
    ok = true ∧ r.sharp_turns = findSharpTurns geo r.route_nodes := by
  rw [FindRoute_unfold] at h
  simp only at h
  split at h
  · simp only [Except.ok.injEq, Prod.mk.injEq] at h
    rw [← h.2] at hs
    simp at hs
  · simp only [Except.ok.injEq, Prod.mk.injEq] at h
    rw [← h.2] at hs
    simp at hs
  · simp only [Except.ok.injEq, Prod.mk.injEq] at h
    rw [← h.2] at hs
    simp at hs
  · split at h
    · simp at h
    · split at h
      · simp only [Except.ok.injEq, Prod.mk.injEq] at h
        rw [← h.2] at hs
        simp at hs
      · split at h
        · split at h
          · simp at h
          · split at h
            · simp at h
            · split at h
              · simp at h
              · simp only [Except.ok.injEq, Prod.mk.injEq] at h
                refine ⟨h.1.symm, ?_⟩
                rw [← h.2]
        · simp at h

theorem turnAngle_right_angle : turnAngle 0 M_PI_2 = 90 * dblOne := by decide

theorem turnAngle_steep :
    90 * dblOne < turnAngle 0 exBearingSteep ∧ turnAngle 0 exBearingSteep < 91 * dblOne := by
  decide

/-- C34: whenever FindRoute leaves the status OK it returned true and `sharp_turns` is
exactly the list, in travel order, of the middle nodes of the triples of consecutive route
nodes at which the difference of the two bearings, converted to degrees and normalised to
an absolute value, is greater than 90, all in the arithmetic of doubles as the source
computes it: every entry is an interior node, a turn of exactly 90 degrees is not in the
list, and the list is empty for a route of at most two nodes. For bearings in the range of
`atan2`, between -M_PI and M_PI, the normalised absolute value lies between 0 and 180. -/
theorem FindRoute_sharp_turns (geo : GeoMath)
    (eng : Engine) (fuel : Nat) (name_a name_b : String) (result : FindRouteResult)
    (ok : Bool) (r : FindRouteResult)
    (h : FindRoute geo eng fuel name_a name_b result = .ok (ok, r)) (hs : r.status = .OK) :
    ok = true ∧
      r.sharp_turns = sharpTurnsOf geo r.route_nodes ∧
      r.sharp_turns =
        (routeTriples r.route_nodes).filterMap (fun t =>
          if turnAngle (geo.Bearing t.1 t.2.1) (geo.Bearing t.2.1 t.2.2) > 90 * dblOne then
            some t.2.1
          else none) ∧
      (∀ i a b c, (routeTriples r.route_nodes)[i]? = some (a, b, c) ↔
        r.route_nodes[i]? = some a ∧ r.route_nodes[i + 1]? = some b ∧
          r.route_nodes[i + 2]? = some c) ∧
      (routeTriples r.route_nodes).length = r.route_nodes.length - 2 ∧
      (∀ p b, isSharpTurn p b = decide (turnAngle p b > 90 * dblOne)) ∧
      (∀ p b, -M_PI ≤ p → p ≤ M_PI → -M_PI ≤ b → b ≤ M_PI →
        0 ≤ turnAngle p b ∧ turnAngle p b ≤ 180 * dblOne) ∧
      (∀ a b c, turnAngle (geo.Bearing a b) (geo.Bearing b c) = 90 * dblOne →
        sharpTurnsOf geo [a, b, c] = []) ∧
      (r.route_nodes.length ≤ 2 → r.sharp_turns = []) := by
  obtain ⟨h1, h2⟩ := FindRoute_ok_sharp geo eng fuel name_a name_b result ok r h hs
  rw [findSharpTurns_eq geo] at h2
  refine ⟨h1, h2, h2, fun i a b c => routeTriples_getElem? _ i a b c, routeTriples_length _,
    isSharpTurn_eq, turnAngle_range, ?_, ?_⟩
  · intro a b c h90
    rw [sharpTurnsOf_cons, if_neg (by rw [h90]; exact lt_irrefl _)]
    rfl
  · intro hl
    rw [h2]
    exact sharpTurnsOf_short geo _ hl

/-- C34 on two ways of three nodes. On the way that turns back at node 2 the search from A
to D reports node 2. On the way that turns to the east at node 2 the turn is a right
angle, 90 degrees exactly, and the search from A to E reports nothing; a turn from the
bearing 0 to the bearing 1.578125, of more than 90 and less than 91 degrees, is sharp.
From the bearing -M_PI_2 to the least positive double the difference is rounded to M_PI_2
and the turn to 90 degrees, which is not sharp. -/
theorem FindRoute_sharp_turns_witness :
    FindRoute exGeoCompass exEngineHairpin 8 "A" "D" exResult5 =
        .ok (true, exHairpinResult) ∧
      exHairpinResult.sharp_turns = sharpTurnsOf exGeoCompass exHairpinResult.route_nodes ∧
      exHairpinResult.sharp_turns = [exNode2] ∧
      FindRoute exGeoCompass exEngineCorner 8 "A" "E" exResult5 =
        .ok (true, exCornerResult) ∧
      exCornerResult.sharp_turns = sharpTurnsOf exGeoCompass exCornerResult.route_nodes ∧
      exCornerResult.sharp_turns = [] ∧
      exGeoCompass.Bearing exNode1 exNode2 = 0 ∧ exGeoCompass.Bearing exNode2 exNode7 = M_PI_2 ∧
      turnAngle 0 M_PI_2 = 90 * dblOne ∧
      isSharpTurn 0 M_PI_2 = false ∧
      90 * dblOne < turnAngle 0 exBearingSteep ∧ turnAngle 0 exBearingSteep < 91 * dblOne ∧
      isSharpTurn 0 exBearingSteep = true ∧
      turnAngle (-M_PI_2) 1 = 90 * dblOne ∧ isSharpTurn (-M_PI_2) 1 = false :=
  ⟨by rfl,
    (FindRoute_sharp_turns exGeoCompass exEngineHairpin 8 "A" "D" exResult5 true
      exHairpinResult (by rfl) rfl).2.1, rfl, by rfl,
    (FindRoute_sharp_turns exGeoCompass exEngineCorner 8 "A" "E" exResult5 true
      exCornerResult (by rfl) rfl).2.1, rfl, by rfl, by rfl, turnAngle_right_angle,
    by decide, turnAngle_steep.1, turnAngle_steep.2, by decide, by decide, by decide⟩

end RailRouting


namespace RailRouting

/-! ## C31: every committed edge finds a free slot -/

/-- The slot search succeeds when a slot is free, and uses up at most one free slot. -/
theorem fillSlot_ok (edges : List RouteEdge) (e : RouteEdge)
    (h : 0 < edges.countP (fun x => x.osmid = 0)) :
    ∃ edges1, fillSlot edges e = some edges1 ∧
      edges.countP (fun x => x.osmid = 0) ≤ edges1.countP (fun x => x.osmid = 0) + 1 := by
  induction edges with
  | nil => simp at h
  | cons slot rest ih =>
    unfold fillSlot
    by_cases h0 : slot.osmid = 0
    · rw [if_pos h0]
      refine ⟨e :: rest, rfl, ?_⟩
      rw [List.countP_cons_of_pos _ _ (by simpa using h0)]
      rw [List.countP_cons]
      omega
    · rw [if_neg h0]
      rw [List.countP_cons_of_neg _ _ (by simpa using h0)] at h
      obtain ⟨rest1, hr, hle⟩ := ih h
      rw [hr]
      refine ⟨slot :: rest1, rfl, ?_⟩
      rw [List.countP_cons_of_neg _ _ (by simpa using h0),
        List.countP_cons_of_neg _ _ (by simpa using h0)]
      exact hle

theorem addEdge_ok (rn : List RouteNode) (n : Nat) (e : RouteEdge)
    (h : 0 < freeSlots rn n) :
    ∃ rn1, addEdge rn n e = .ok rn1 ∧
      ∀ u, freeSlots rn u ≤ freeSlots rn1 u + (if u = n then 1 else 0) := by
  unfold addEdge
  cases hr : rn[n]? with
  | none =>
    unfold freeSlots edgesOf at h
    rw [hr] at h
    simp at h
  | some r =>
    simp only
    have hedges : edgesOf rn n = r.edges := by unfold edgesOf; rw [hr]
    unfold freeSlots at h
    rw [hedges] at h
    obtain ⟨edges1, hf, hle⟩ := fillSlot_ok r.edges e h
    rw [hf]
    refine ⟨_, rfl, ?_⟩
    intro u
    obtain ⟨hn, -⟩ := List.getElem?_eq_some.1 hr
    unfold freeSlots
    rw [edgesOf_set _ _ _ _ hn]
    by_cases hu : u = n
    · rw [if_pos hu, if_pos hu, hu, hedges]
      exact hle
    · rw [if_neg hu, if_neg hu]
      exact Nat.le_refl _

/-- The two commits of a routing node of the walk succeed when the start routing node and
this routing node have the free slots for them. -/
theorem commitEdges_ok (geo : GeoMath) (way_id : Int) (way : Way) (walk : WayWalk)
    (this_node : Node) (second_node : Option Node) (dist : Int) (trn node_pos : Nat)
    (rn : List RouteNode) (hs : 0 < freeSlots rn walk.start_route_node)
    (ht : (if trn = walk.start_route_node then 1 else 0) < freeSlots rn trn) :
    ∃ rn2, commitEdges geo way_id way walk this_node second_node dist trn node_pos rn = .ok rn2 ∧
      ∀ u, freeSlots rn u ≤ freeSlots rn2 u + (if u = walk.start_route_node then 1 else 0) +
        (if u = trn then 1 else 0) := by
  rw [commitEdges_eq]
  by_cases hf : forwardAllowed way = true
  · rw [if_pos hf]
    obtain ⟨rn1, h1, hle1⟩ := addEdge_ok rn walk.start_route_node
      (forwardEdge geo way_id walk this_node second_node dist trn node_pos) hs
    rw [h1]
    simp only
    by_cases hb : backwardAllowed way = true
    · rw [if_pos hb]
      have ht1 : 0 < freeSlots rn1 trn := by
        have := hle1 trn
        omega
      obtain ⟨rn2, h2, hle2⟩ := addEdge_ok rn1 trn
        (backwardEdge geo way_id walk this_node dist node_pos) ht1
      refine ⟨rn2, h2, ?_⟩
      intro u
      have a := hle1 u
      have b := hle2 u
      omega
    · rw [if_neg hb]
      refine ⟨rn1, rfl, ?_⟩
      intro u
      have a := hle1 u
      omega
  · rw [if_neg hf]
    simp only
    by_cases hb : backwardAllowed way = true
    · rw [if_pos hb]
      have ht1 : 0 < freeSlots rn trn := by omega
      obtain ⟨rn2, h2, hle2⟩ := addEdge_ok rn trn
        (backwardEdge geo way_id walk this_node dist node_pos) ht1
      refine ⟨rn2, h2, ?_⟩
      intro u
      have b := hle2 u
      omega
    · rw [if_neg hb]
      refine ⟨rn, rfl, ?_⟩
      intro u
      omega

theorem idMap_index_iff (idmap : List (Int × Nat)) (ids : List Int) (hid : IdMapOK idmap ids)
    (id : Int) (trn : Nat) (hr : mapFind idmap id = some trn) (u : Nat) (x : Int)
    (hu : ids[u]? = some x) : u = trn ↔ id = x := by
  have h3 := (hid id trn).1 hr
  constructor
  · intro h4
    rw [← h4, hu] at h3
    injection h3 with h3
    exact h3.symm
  · intro h4
    have h5 := (hid x u).2 hu
    rw [← h4, hr] at h5
    injection h5 with h5
    exact h5.symm

/-- The walk along a way from `node_pos` on: when every routing node has the free slots
for the edge ends that the rest of the way counts for it, for the forward edge that the
start routing node is waiting for, and `extra` more, then no slot search of the walk
fails, and the `extra` slots are free afterwards, wherever the walk stops. -/
theorem walkWay_slots (geo : GeoMath) (nodes_ : List (Int × Node)) (idmap : List (Int × Nat))
    (ids : List Int) (hid : IdMapOK idmap ids) (way_id : Int) (way : Way) (extra : Int → Nat)
    (rest : List Int) (node_pos : Nat) (walk : WayWalk) (rn : List RouteNode)
    (hcount : node_pos + rest.length = way.GetNodesCount) (hpos : 0 < node_pos)
    (hstart : ∃ xs, ids[walk.start_route_node]? = some xs)
    (hfree : ∀ u x, ids[u]? = some x →
      (if rest ≠ [] ∧ u = walk.start_route_node then 1 else 0) +
        endsFrom way.GetNodesCount x node_pos rest + extra x ≤ freeSlots rn u) :
    (∃ rn1, walkWay geo nodes_ idmap way_id way node_pos rest walk rn = .ok rn1 ∧
        ∀ u x, ids[u]? = some x → extra x ≤ freeSlots rn1 u) ∨
      (∃ err, walkWay geo nodes_ idmap way_id way node_pos rest walk rn = .error err ∧
        err ≠ .assertEdgeSlot) := by
  induction rest generalizing node_pos walk rn with
  | nil =>
    left
    refine ⟨rn, by unfold walkWay; rfl, ?_⟩
    intro u x hu
    have := hfree u x hu
    omega
  | cons id rest ih =>
    simp only [List.length_cons] at hcount
    unfold walkWay
    cases hn : mapFind nodes_ id with
    | none =>
      left
      refine ⟨rn, rfl, ?_⟩
      intro u x hu
      have := hfree u x hu
      omega
    | some this_node =>
      simp only
      generalize (if node_pos = 1 then some this_node else walk.second_node) = sec
      by_cases h1 : node_pos = way.GetNodesCount - 1 ∧ mapFind idmap id = none
      · rw [if_pos h1]
        right
        exact ⟨_, rfl, by simp⟩
      rw [if_neg h1]
      by_cases h2 : ¬ (walk.start_node_pos < 65535 ∧ node_pos < 65535)
      · rw [if_pos h2]
        right
        exact ⟨_, rfl, by simp⟩
      rw [if_neg h2]
      have hne : id :: rest ≠ [] := by simp
      have hlast : rest = [] ↔ (node_pos = 0 ∨ node_pos = way.GetNodesCount - 1) := by
        constructor
        · intro hr
          rw [hr] at hcount
          simp only [List.length_nil] at hcount
          right
          omega
        · intro hh
          have : rest.length = 0 := by omega
          exact List.length_eq_zero.1 this
      cases hr : mapFind idmap id with
      | some trn =>
        simp only
        have htid : ids[trn]? = some id := (hid id trn).1 hr
        obtain ⟨xs, hxs⟩ := hstart
        have fs := hfree walk.start_route_node xs hxs
        rw [if_pos ⟨hne, rfl⟩] at fs
        have ft := hfree trn id htid
        rw [endsFrom_cons, if_pos rfl] at ft
        have hc1 : 0 < freeSlots rn walk.start_route_node := by omega
        have hc2 : (if trn = walk.start_route_node then 1 else 0) < freeSlots rn trn := by
          by_cases hts : trn = walk.start_route_node
          · rw [if_pos ⟨hne, hts⟩] at ft
            rw [if_pos hts]
            split_ifs at ft <;> omega
          · rw [if_neg hts]
            split_ifs at ft <;> omega
        obtain ⟨rn2, hc, hle⟩ := commitEdges_ok geo way_id way walk this_node sec
          (walk.dist + geo.Distance walk.prev_node this_node) trn node_pos rn hc1 hc2
        rw [hc]
        simp only
        apply ih (node_pos + 1) _ rn2 (by omega) (by omega) ⟨id, htid⟩
        intro u x hu
        simp only
        have fu := hfree u x hu
        rw [endsFrom_cons] at fu
        have lu := hle u
        have hiff := idMap_index_iff idmap ids hid id trn hr u x hu
        by_cases hx : id = x
        · have hut : u = trn := hiff.2 hx
          rw [if_pos hx] at fu
          rw [if_pos hut] at lu
          by_cases hrest : rest = []
          · have hp := hlast.1 hrest
            rw [if_pos hp] at fu
            rw [if_neg (fun hh => hh.1 hrest)]
            by_cases hus : u = walk.start_route_node
            · rw [if_pos ⟨hne, hus⟩] at fu
              rw [if_pos hus] at lu
              omega
            · rw [if_neg (fun hh => hus hh.2)] at fu
              rw [if_neg hus] at lu
              omega
          · have hp : ¬ (node_pos = 0 ∨ node_pos = way.GetNodesCount - 1) :=
              fun hh => hrest (hlast.2 hh)
            rw [if_neg hp] at fu
            rw [if_pos ⟨hrest, hut⟩]
            by_cases hus : u = walk.start_route_node
            · rw [if_pos ⟨hne, hus⟩] at fu
              rw [if_pos hus] at lu
              omega
            · rw [if_neg (fun hh => hus hh.2)] at fu
              rw [if_neg hus] at lu
              omega
        · have hut : ¬ u = trn := fun hh => hx (hiff.1 hh)
          rw [if_neg hx] at fu
          rw [if_neg hut] at lu
          rw [if_neg (fun hh => hut hh.2)]
          by_cases hus : u = walk.start_route_node
          · rw [if_pos ⟨hne, hus⟩] at fu
            rw [if_pos hus] at lu
            omega
          · rw [if_neg (fun hh => hus hh.2)] at fu
            rw [if_neg hus] at lu
            omega
      | none =>
        simp only
        refine ih (node_pos + 1) _ rn (by omega) (by omega) ?_ ?_
        · exact hstart
        intro u x hu
        simp only
        have fu := hfree u x hu
        rw [endsFrom_cons] at fu
        have hx : ¬ id = x := by
          intro hh
          have h5 := (hid x u).2 hu
          rw [← hh, hr] at h5
          simp at h5
        rw [if_neg hx] at fu
        by_cases hus : u = walk.start_route_node
        · rw [if_pos ⟨hne, hus⟩] at fu
          split_ifs <;> omega
        · rw [if_neg (fun hh => hus hh.2)] at fu
          rw [if_neg (fun hh => hus hh.2)]
          omega

theorem splitWay_slots (geo : GeoMath) (nodes_ : List (Int × Node)) (idmap : List (Int × Nat))
    (ids : List Int) (hid : IdMapOK idmap ids) (entry : Int × Way) (extra : Int → Nat)
    (rn : List RouteNode)
    (hfree : ∀ u x, ids[u]? = some x →
      (if 2 ≤ entry.2.nodes_.length then endsFrom entry.2.nodes_.length x 0 entry.2.nodes_
        else 0) + extra x ≤ freeSlots rn u) :
    (∃ rn1, splitWay geo nodes_ idmap rn entry = .ok rn1 ∧
        ∀ u x, ids[u]? = some x → extra x ≤ freeSlots rn1 u) ∨
      (∃ err, splitWay geo nodes_ idmap rn entry = .error err ∧ err ≠ .assertEdgeSlot) := by
  have hkeep : ∀ u x, ids[u]? = some x → extra x ≤ freeSlots rn u := by
    intro u x hu
    have := hfree u x hu
    omega
  unfold splitWay
  by_cases hc : entry.2.GetNodesCount < 2
  · rw [if_pos hc]
    exact Or.inl ⟨rn, rfl, hkeep⟩
  · rw [if_neg hc]
    have hc2 : 2 ≤ entry.2.nodes_.length := by
      unfold Way.GetNodesCount at hc
      omega
    cases hl : entry.2.nodes_ with
    | nil => rw [hl] at hc2; simp at hc2
    | cons first rest =>
      simp only
      cases hfn : mapFind nodes_ first with
      | none => exact Or.inl ⟨rn, rfl, hkeep⟩
      | some start_node =>
        simp only
        cases hi : mapFind idmap first with
        | none => exact Or.inr ⟨_, rfl, by simp⟩
        | some srn =>
          simp only
          have hcnt : entry.2.GetNodesCount = rest.length + 1 := by
            unfold Way.GetNodesCount
            rw [hl]
            rfl
          have hrl : rest ≠ [] := by
            intro hh
            rw [hl, hh] at hc2
            simp at hc2
          apply walkWay_slots geo nodes_ idmap ids hid entry.1 entry.2 extra rest 1 _ rn
            (by rw [hcnt]; omega) (by omega) ⟨first, (hid first srn).1 hi⟩
          intro u x hu
          simp only
          have fu := hfree u x hu
          rw [if_pos hc2, hl, endsFrom_cons, if_pos (Or.inl rfl)] at fu
          simp only [List.length_cons, Nat.zero_add] at fu
          rw [hcnt]
          have hiff := idMap_index_iff idmap ids hid first srn hi u x hu
          by_cases hx : first = x
          · rw [if_pos hx] at fu
            rw [if_pos ⟨hrl, hiff.2 hx⟩]
            omega
          · rw [if_neg hx] at fu
            rw [if_neg (fun hh => hx (hiff.1 hh.2))]
            omega

/-- The loop "split real edges to route edges": when every routing node has as many free
slots as the ways count edge ends for it, no slot search fails. -/
theorem splitWays_slots (geo : GeoMath) (nodes_ : List (Int × Node))
    (idmap : List (Int × Nat)) (ids : List Int) (hid : IdMapOK idmap ids)
    (ways : List (Int × Way)) (extra : Int → Nat) (rn : List RouteNode)
    (hfree : ∀ u x, ids[u]? = some x → edgeEnds ways x + extra x ≤ freeSlots rn u) :
    (∃ rn1, splitWays geo nodes_ idmap ways rn = .ok rn1 ∧
        ∀ u x, ids[u]? = some x → extra x ≤ freeSlots rn1 u) ∨
      (∃ err, splitWays geo nodes_ idmap ways rn = .error err ∧ err ≠ .assertEdgeSlot) := by
  induction ways generalizing rn with
  | nil =>
    left
    refine ⟨rn, rfl, ?_⟩
    intro u x hu
    have := hfree u x hu
    omega
  | cons entry rest ih =>
    unfold splitWays
    have hstep := splitWay_slots geo nodes_ idmap ids hid entry
      (fun x => edgeEnds rest x + extra x) rn
      (by
        intro u x hu
        have := hfree u x hu
        unfold edgeEnds at this ⊢
        simp only [List.map_cons, List.sum_cons] at this ⊢
        omega)
    rcases hstep with ⟨rn1, h1, hf1⟩ | ⟨err, h1, he⟩
    · rw [h1]
      simp only
      exact ih rn1 hf1
    · rw [h1]
      exact Or.inr ⟨err, rfl, he⟩

end RailRouting


namespace RailRouting

/-- After the loop "create route nodes" every routing node has as many free edge slots as
the ways count edge ends for its node. -/
theorem created_free_slots (E : Engine) (hs : SortedKeys E.nodes_)
    (hk : KeyedById (fun n : Node => n.id_) E.nodes_) (created : RouteNodesState)
    (hinv : CreateInv (E.ways_.foldl countWayStep (E.nodes_.foldl findStopsStep ([], [])).2)
      created)
    (u : Nat) (x : Int) (hu : (routeIds created.route_nodes)[u]? = some x) :
    edgeEnds E.ways_ x = freeSlots created.route_nodes u := by
  unfold routeIds at hu
  rw [List.getElem?_map] at hu
  cases h0 : created.route_nodes[u]? with
  | none => rw [h0] at hu; simp at hu
  | some r0 =>
    rw [h0] at hu
    simp only [Option.map_some', Option.some.injEq] at hu
    obtain ⟨c, c1, c2, -⟩ := hinv.counted r0 (mem_of_getElem?_eq_some _ _ _ h0)
    obtain ⟨e1, -, -⟩ := connGet_initial E hs hk r0.osmid
    have hget : connGet (E.ways_.foldl countWayStep
        (E.nodes_.foldl findStopsStep ([], [])).2) r0.osmid = c := by
      unfold connGet
      rw [c1]
      rfl
    rw [hget] at e1
    have hfull : freeSlots created.route_nodes u = (edgesOf created.route_nodes u).length := by
      unfold freeSlots
      rw [List.countP_eq_length]
      intro e he
      rw [hinv.empty u e he]
      simp [RouteEdge.empty]
    have hedges : edgesOf created.route_nodes u = r0.edges := by
      unfold edgesOf
      rw [h0]
    rw [hfull, hedges, c2, e1, hu]

/-- No compilation ends in the assertion `edge_pos != nedges` of a slot search. -/
theorem parse_slots_suffice (geo : GeoMath) (ways : List Way) (nodes : List Node) :
    Parse geo ways nodes ≠ .error .assertEdgeSlot := by
  intro h
  unfold Parse at h
  obtain ⟨l1, l2, l3, l4, l5, l6, l7⟩ := loaded_engine ways nodes
  generalize nodes.foldl ProcessNode (ways.foldl ProcessWay Engine.init) = E at *
  unfold Prepare at h
  simp only at h
  rw [l7] at h
  cases hc : createRouteNodes
      (E.ways_.foldl countWayStep (E.nodes_.foldl findStopsStep ([], [])).2)
      E.nodes_
      { route_nodes := [], id_to_routenode := [],
        route_edge_pool := E.route_edge_pool_ } with
  | error e1 =>
    rw [hc] at h
    simp only [Except.error.injEq] at h
    rcases createRouteNodes_error _ _ _ _ hc with g | g | g <;>
    · rw [g] at h
      simp at h
  | ok created =>
    rw [hc] at h
    simp only at h
    have hinit : CreateInv
        (E.ways_.foldl countWayStep (E.nodes_.foldl findStopsStep ([], [])).2)
        { route_nodes := [], id_to_routenode := [],
          route_edge_pool := E.route_edge_pool_ } := by
      constructor
      · intro id i; simp [mapFind, routeIds]
      · intro u e he; simp [edgesOf] at he
      · intro r hr; simp at hr
    have hdist : E.nodes_.Pairwise (fun a b => a.1 ≠ b.1) :=
      List.Pairwise.imp (fun hab => by omega) l1
    obtain ⟨c1, -, -, -⟩ := createRouteNodes_spec _ _ _ _ hinit hdist
      (by intro p _; simp [routeIds]) hc
    have hslots := splitWays_slots geo E.nodes_ created.id_to_routenode
      (routeIds created.route_nodes) c1.idmap E.ways_ (fun _ => 0) created.route_nodes
      (by
        intro u x hu
        have := created_free_slots E l1 l2 created c1 u x hu
        simp only
        omega)
    rcases hslots with ⟨rn1, h1, -⟩ | ⟨err, h1, he⟩
    · rw [h1] at h
      simp only at h
      cases hp : postprocessStops created.id_to_routenode
          (E.nodes_.foldl findStopsStep ([], [])).1 E.stops_ with
      | error e1 =>
        rw [hp] at h
        simp only [Except.error.injEq] at h
        have := postprocessStops_error _ _ _ _ hp
        rw [this] at h
        simp at h
      | ok stops =>
        rw [hp] at h
        simp at h
    · rw [h1] at h
      simp only [Except.error.injEq] at h
      exact he h

/-- C31: for every dataset, no slot search of the edge synthesis runs to `nedges`: the
compilation never ends in the assertion `edge_pos != nedges`, whatever nodes are missing;
and after a compilation that completes the edge array of every routing node has the
pre-counted size, the edge ends that the ways count for its node, so that the written
slots are not more than that. -/
theorem Prepare_edge_slots_suffice (geo : GeoMath) (ways : List Way) (nodes : List Node) :
    Parse geo ways nodes ≠ .error .assertEdgeSlot ∧
      ∀ eng, Parse geo ways nodes = .ok eng → ∀ r ∈ eng.route_nodes_,
        r.edges.length = edgeEnds eng.ways_ r.osmid ∧
          r.edges.countP (fun e => decide (e.osmid ≠ 0)) ≤ edgeEnds eng.ways_ r.osmid := by
  refine ⟨parse_slots_suffice geo ways nodes, ?_⟩
  intro eng h r hr
  have hlen := compiled_edgeCount geo ways nodes eng h r hr
  refine ⟨hlen, ?_⟩
  rw [← hlen]
  exact List.countP_le_length _

/-- C31 on the way 10 over the nodes 1, 2, 3, 4 with node 2 missing from the input: the
compilation completes, and the routing node of node 3 keeps its 2 pre-counted slots. -/
theorem Prepare_edge_slots_suffice_witness :
    Parse exGeo [exWayGap] [exNode1, exNode3, exNode4] = .ok exEngineGap ∧
      Parse exGeo [exWayGap] [exNode1, exNode3, exNode4] ≠ .error .assertEdgeSlot ∧
      (⟨3, [RouteEdge.empty, RouteEdge.empty]⟩ : RouteNode) ∈ exEngineGap.route_nodes_ ∧
      ([RouteEdge.empty, RouteEdge.empty] : List RouteEdge).length =
        edgeEnds exEngineGap.ways_ 3 :=
  ⟨by rfl, (Prepare_edge_slots_suffice exGeo [exWayGap] [exNode1, exNode3, exNode4]).1,
    by decide,
    ((Prepare_edge_slots_suffice exGeo [exWayGap] [exNode1, exNode3, exNode4]).2 exEngineGap
      (by rfl) ⟨3, [RouteEdge.empty, RouteEdge.empty]⟩ (by decide)).1⟩

end RailRouting


namespace RailRouting

/-! ## C33: the assertions of the route recovery -/

theorem searchEnd_unfold (eng : Engine) (fuel : Nat) (name_a name_b : String) :
    searchEnd eng fuel name_a name_b =
      (let A := equalRange eng.stops_ name_a
       let B := equalRange eng.stops_ name_b
       let size := eng.route_nodes_.length
       let st0 : SearchState :=
        { queue := [], starts := List.replicate size (-1), prevs := List.replicate size (-1),
          lengths := List.replicate size none, shortest_length := none }
       let st1 := (initStarts A [] st0 0).2.1
       match B.foldl nodeSetInsert [] with
       | [] => none
       | first_fin :: more_fins =>
        match dijkstraLoop eng.route_nodes_ (B.foldl nodeSetInsert []) fuel st1 with
        | none => none
        | some st =>
          some (st,
            closestFin st.lengths more_fins first_fin (st.lengths.getD first_fin none))) := by
  unfold searchEnd
  simp only []
  rcases hA : initStarts (equalRange eng.stops_ name_a) []
      { queue := [], starts := List.replicate eng.route_nodes_.length (-1),
        prevs := List.replicate eng.route_nodes_.length (-1),
        lengths := List.replicate eng.route_nodes_.length none, shortest_length := none } 0
    with ⟨sn, st1, sc⟩
  rcases hB : initFins (equalRange eng.stops_ name_b) [] 0 with ⟨fn, ec⟩
  have h3 := initFins_fst (equalRange eng.stops_ name_b) [] 0
  rw [hB] at h3
  simp only at h3
  subst h3
  rfl

theorem getD_set_minus_one (prevs : List Int) (i w : Nat) :
    (prevs.set i (-1)).getD w (-1) = -1 ∨ (prevs.set i (-1)).getD w (-1) = prevs.getD w (-1) := by
  by_cases h : i = w
  · by_cases hl : i < prevs.length
    · left
      rw [← h]
      exact getD_set_self _ _ _ _ hl
    · right
      rw [List.set_eq_of_length_le (by omega)]
  · right
    exact getD_set_other _ _ _ _ _ h

theorem prevEdges_replicate (rn : List RouteNode) (n : Nat) :
    PrevEdges rn (List.replicate n (-1)) := by
  intro w
  left
  exact getD_replicate _ _ _

theorem initStarts_prevEdges (rn : List RouteNode) (stops sn : List Nat) (st : SearchState)
    (c : Nat) (h : PrevEdges rn st.prevs) :
    PrevEdges rn (initStarts stops sn st c).2.1.prevs := by
  induction stops generalizing sn st c with
  | nil => exact h
  | cons s rest ih =>
    unfold initStarts
    apply ih
    intro w
    simp only
    rcases getD_set_minus_one st.prevs s w with g | g
    · exact Or.inl g
    · rw [g]
      exact h w

theorem relax_prevEdges (rn : List RouteNode) (st : SearchState) (u v : Nat) (nl : ELen)
    (e : RouteEdge) (he : e ∈ edgesOf rn u) (hv : e.node = Int.ofNat v)
    (h : PrevEdges rn st.prevs) : PrevEdges rn (relax st u v nl).prevs := by
  intro w
  by_cases hl : v < st.prevs.length
  · rw [relax_prevs st u v w nl hl]
    by_cases hw : w = v
    · rw [if_pos hw]
      right
      exact ⟨u, rfl, e, he, by rw [hw]; exact hv⟩
    · rw [if_neg hw]
      exact h w
  · have hsame : (relax st u v nl).prevs = st.prevs := by
      unfold relax
      simp only
      rw [List.set_eq_of_length_le (by omega)]
    rw [hsame]
    exact h w

theorem scanEdges_prevEdges (rn : List RouteNode) (hr : EdgesInRange rn) (u : Nat)
    (edges : List RouteEdge) (st : SearchState) (hsub : ∀ e ∈ edges, e ∈ edgesOf rn u)
    (h : PrevEdges rn st.prevs) : PrevEdges rn (scanEdges u edges st).prevs := by
  induction edges generalizing st with
  | nil => exact h
  | cons e rest ih =>
    have he : e ∈ edgesOf rn u := hsub e (List.mem_cons_self _ _)
    have hrest : ∀ e2 ∈ rest, e2 ∈ edgesOf rn u :=
      fun e2 h2 => hsub e2 (List.mem_cons_of_mem _ h2)
    unfold scanEdges
    simp only
    by_cases hbreak : ELen.lt st.shortest_length
        (ELen.addLen (st.lengths.getD u none) e.length) = true
    · rw [if_pos hbreak]
      exact h
    · rw [if_neg hbreak]
      by_cases hempty : e.node = -1
      · rw [if_pos hempty]
        exact ih st hrest h
      · rw [if_neg hempty]
        by_cases himp : ELen.lt (ELen.addLen (st.lengths.getD u none) e.length)
            (st.lengths.getD e.node.toNat none) = true
        · rw [if_pos himp]
          apply ih _ hrest
          obtain ⟨r, -, hrm, her⟩ := mem_edgesOf rn u e he
          rcases hr r hrm e her with g | ⟨v, -, hv⟩
          · exact absurd g hempty
          · have hto : e.node.toNat = v := by rw [hv]; rfl
            rw [hto]
            exact relax_prevEdges rn st u v _ e he hv h
        · rw [if_neg himp]
          exact ih st hrest h

theorem dijkstraLoop_prevEdges (rn : List RouteNode) (hr : EdgesInRange rn) (F : List Nat)
    (fuel : Nat) (st st2 : SearchState) (h : PrevEdges rn st.prevs)
    (hd : dijkstraLoop rn F fuel st = some st2) : PrevEdges rn st2.prevs := by
  induction fuel generalizing st with
  | zero =>
    unfold dijkstraLoop at hd
    cases hq : st.queue with
    | nil =>
      rw [hq] at hd
      simp only [Option.some.injEq] at hd
      rw [← hd]
      exact h
    | cons p rest =>
      rw [hq] at hd
      simp at hd
  | succ fuel ih =>
    unfold dijkstraLoop at hd
    cases hq : st.queue with
    | nil =>
      rw [hq] at hd
      simp only [Option.some.injEq] at hd
      rw [← hd]
      exact h
    | cons p rest =>
      obtain ⟨k, u⟩ := p
      rw [hq] at hd
      simp only at hd
      by_cases hstale : ELen.lt (st.lengths.getD u none) k = true
      · rw [if_pos hstale] at hd
        exact ih { st with queue := rest } h hd
      · rw [if_neg hstale] at hd
        refine ih _ ?_ hd
        apply scanEdges_prevEdges rn hr u _ _ (fun e he => he)
        split_ifs <;> exact h

/-- The state that the search ends with records, for every predecessor, an edge of the
predecessor to the node. -/
theorem searchEnd_prevEdges (eng : Engine) (hr : EdgesInRange eng.route_nodes_) (fuel : Nat)
    (name_a name_b : String) (st : SearchState) (bf : Nat) (bl : ELen)
    (h : searchEnd eng fuel name_a name_b = some (st, bf, bl)) :
    PrevEdges eng.route_nodes_ st.prevs := by
  rw [searchEnd_unfold] at h
  simp only [] at h
  cases hfn : (equalRange eng.stops_ name_b).foldl nodeSetInsert [] with
  | nil =>
    rw [hfn] at h
    simp at h
  | cons first more =>
    rw [hfn] at h
    simp only [] at h
    cases hd : dijkstraLoop eng.route_nodes_ (first :: more) fuel
        (initStarts (equalRange eng.stops_ name_a) []
          { queue := [], starts := List.replicate eng.route_nodes_.length (-1),
            prevs := List.replicate eng.route_nodes_.length (-1),
            lengths := List.replicate eng.route_nodes_.length none,
            shortest_length := none } 0).2.1 with
    | none =>
      rw [hd] at h
      simp at h
    | some st2 =>
      rw [hd] at h
      simp only [Option.some.injEq, Prod.mk.injEq] at h
      rw [← h.1]
      exact dijkstraLoop_prevEdges _ hr _ fuel _ st2
        (initStarts_prevEdges _ _ _ _ _ (prevEdges_replicate _ _)) hd

/-- One hop of the route recovery on a compiled engine: when the routing node `p` has an
edge to `cur`, the edge search finds one, its way is in the way map, and every position
between the two ends of the edge names a node of the node map. -/
theorem hop_resolves (geo : GeoMath) (eng : Engine) (hc : Compiled geo eng) (p cur : Nat)
    (e0 : RouteEdge) (he0 : e0 ∈ edgesOf eng.route_nodes_ p) (hn0 : e0.node = Int.ofNat cur) :
    ∃ edge way out,
      (edgesOf eng.route_nodes_ p).find? (fun e => e.node == Int.ofNat cur) = some edge ∧
        edge.node = Int.ofNat cur ∧
        mapFind eng.ways_ edge.osmid = some way ∧
        (∀ pos, min edge.start_pos edge.end_pos ≤ pos → pos ≤ max edge.start_pos edge.end_pos →
          ∃ id node, way.NodeAt pos = some id ∧ mapFind eng.nodes_ id = some node) ∧
        expandPositions eng.nodes_ way (edgePositions edge) = .ok out := by
  cases hf : (edgesOf eng.route_nodes_ p).find? (fun e => e.node == Int.ofNat cur) with
  | none =>
    exfalso
    have := List.find?_eq_none.1 hf e0 he0
    simp [hn0] at this
  | some edge =>
    have hmem := List.mem_of_find?_eq_some hf
    have hnode : edge.node = Int.ofNat cur := by
      have := List.find?_some hf
      simpa using this
    rcases hc.edges p edge hmem with hemp | ⟨v, way, hp⟩
    · exfalso
      rw [hemp] at hnode
      simp only [RouteEdge.empty] at hnode
      have : (0 : Int) ≤ Int.ofNat cur := Int.ofNat_nonneg cur
      omega
    · obtain ⟨-, -, -, s5⟩ := edgePositions_spec edge hp.pos_ne
      obtain ⟨out, ho, -⟩ := expandPositions_ok eng.nodes_ way (edgePositions edge)
        (fun pos hpos => hp.resolves pos (s5 pos hpos).1 (s5 pos hpos).2)
      refine ⟨edge, way, out, rfl, hnode, hp.way_found, ?_, ho⟩
      intro pos h1 h2
      obtain ⟨node, hnd⟩ := hp.resolves pos h1 h2
      unfold nodeAt at hnd
      unfold Way.NodeAt
      cases hw : way.nodes_[pos]? with
      | none => rw [hw] at hnd; simp at hnd
      | some id =>
        rw [hw] at hnd
        exact ⟨id, node, rfl, hnd⟩

/-- The route recovery on a compiled engine can only end for lack of fuel. -/
theorem recoverRoute_error (geo : GeoMath) (eng : Engine) (hc : Compiled geo eng)
    (prevs : List Int) (hp : PrevEdges eng.route_nodes_ prevs) (fuel cur : Nat) (prev : Int)
    (acc : List Node)
    (hprev : prev = -1 ∨
      ∃ p, prev = Int.ofNat p ∧ ∃ e ∈ edgesOf eng.route_nodes_ p, e.node = Int.ofNat cur)
    (err : FRError) (h : recoverRoute eng prevs fuel cur prev acc = .error err) :
    err = .outOfFuel := by
  induction fuel generalizing cur prev acc with
  | zero =>
    unfold recoverRoute at h
    by_cases h1 : prev = -1
    · rw [if_pos h1] at h
      simp at h
    · rw [if_neg h1] at h
      simp only [Except.error.injEq] at h
      exact h.symm
  | succ fuel ih =>
    unfold recoverRoute at h
    by_cases h1 : prev = -1
    · rw [if_pos h1] at h
      simp at h
    · rw [if_neg h1] at h
      rcases hprev with g | ⟨p, hpp, e0, he0, hn0⟩
      · exact absurd g h1
      · have hto : prev.toNat = p := by rw [hpp]; rfl
        simp only [hto] at h
        obtain ⟨edge, way, out, q1, -, q3, -, q5⟩ := hop_resolves geo eng hc p cur e0 he0 hn0
        rw [q1] at h
        simp only at h
        rw [q3] at h
        simp only at h
        rw [q5] at h
        simp only at h
        exact ih p (prevs.getD p (-1)) (acc ++ out) (hp p) h

/-- The errors that FindRoute can end with on a compiled engine: the three assertions of
the route recovery are not among them. -/
theorem FindRoute_error_cases (geo : GeoMath) (eng : Engine) (hc : Compiled geo eng)
    (fuel : Nat) (name_a name_b : String) (result : FindRouteResult) (err : FRError)
    (h : FindRoute geo eng fuel name_a name_b result = .error err) :
    err = .outOfFuel ∨ err = .assertStartNode ∨ err = .assertEndNode ∨ err = .outOfRange := by
  have hrange := compiled_edgesInRange geo eng hc
  rw [FindRoute_unfold] at h
  simp only [] at h
  cases hsn : (equalRange eng.stops_ name_a).foldl nodeSetInsert [] with
  | nil =>
    rw [hsn] at h
    cases hfn : (equalRange eng.stops_ name_b).foldl nodeSetInsert [] with
    | nil => rw [hfn] at h; simp at h
    | cons first more => rw [hfn] at h; simp at h
  | cons s0 sr =>
    rw [hsn] at h
    cases hfn : (equalRange eng.stops_ name_b).foldl nodeSetInsert [] with
    | nil => rw [hfn] at h; simp at h
    | cons first more =>
      rw [hfn] at h
      simp only [] at h
      cases hd : dijkstraLoop eng.route_nodes_ (first :: more) fuel
          (initStarts (equalRange eng.stops_ name_a) []
            { queue := [], starts := List.replicate eng.route_nodes_.length (-1),
              prevs := List.replicate eng.route_nodes_.length (-1),
              lengths := List.replicate eng.route_nodes_.length none,
              shortest_length := none } 0).2.1 with
      | none =>
        rw [hd] at h
        simp only [Except.error.injEq] at h
        exact Or.inl h.symm
      | some st =>
        rw [hd] at h
        simp only [] at h
        have hpe : PrevEdges eng.route_nodes_ st.prevs :=
          dijkstraLoop_prevEdges _ hrange _ fuel _ st
            (initStarts_prevEdges _ _ _ _ _ (prevEdges_replicate _ _)) hd
        rcases hcf : closestFin st.lengths more first (st.lengths.getD first none)
          with ⟨bf, bl⟩
        rw [hcf] at h
        cases bl with
        | none => simp at h
        | some d =>
          simp only [] at h
          cases hs : eng.route_nodes_[(st.starts.getD bf (-1)).toNat]? with
          | none =>
            rw [hs] at h
            simp only [Except.error.injEq] at h
            exact Or.inr (Or.inr (Or.inr h.symm))
          | some start_rn =>
            rw [hs] at h
            cases he : eng.route_nodes_[bf]? with
            | none =>
              rw [he] at h
              simp only [Except.error.injEq] at h
              exact Or.inr (Or.inr (Or.inr h.symm))
            | some end_rn =>
              rw [he] at h
              simp only [] at h
              cases hsn2 : mapFind eng.nodes_ start_rn.osmid with
              | none =>
                rw [hsn2] at h
                simp only [Except.error.injEq] at h
                exact Or.inr (Or.inl h.symm)
              | some start_node =>
                rw [hsn2] at h
                simp only [] at h
                cases hen : mapFind eng.nodes_ end_rn.osmid with
                | none =>
                  rw [hen] at h
                  simp only [Except.error.injEq] at h
                  exact Or.inr (Or.inr (Or.inl h.symm))
                | some end_node =>
                  rw [hen] at h
                  simp only [] at h
                  cases hrr : recoverRoute eng st.prevs fuel bf (st.prevs.getD bf (-1)) [] with
                  | error e1 =>
                    rw [hrr] at h
                    simp only [Except.error.injEq] at h
                    rw [← h]
                    exact Or.inl (recoverRoute_error geo eng hc st.prevs hpe fuel bf _ []
                      (hpe bf) e1 hrr)
                  | ok out =>
                    rw [hrr] at h
                    simp at h

/-- C33: on an engine that Prepare has compiled, whatever the fuel and the two names,
FindRoute never ends in one of the three assertions of the reconstruction loop; and in the
state that the search ends with, for every routing node `cur` with a predecessor `prev`
(so for every hop of the walk back) the edge search over `prev` finds an edge whose other
node is `cur`, the way id of that edge resolves in the way map, every position between its
two ends names a node of the node map, and the inner loops return their nodes. -/
theorem FindRoute_recovery_asserts_hold (geo : GeoMath) (ways : List Way) (nodes : List Node)
    (eng : Engine) (hparse : Parse geo ways nodes = .ok eng) (fuel : Nat)
    (name_a name_b : String) :
    (∀ result,
      FindRoute geo eng fuel name_a name_b result ≠ .error .assertEdge ∧
        FindRoute geo eng fuel name_a name_b result ≠ .error .assertWay ∧
        FindRoute geo eng fuel name_a name_b result ≠ .error .assertNode) ∧
      ∀ st best_fin best_length,
        searchEnd eng fuel name_a name_b = some (st, best_fin, best_length) →
        ∀ cur, st.prevs.getD cur (-1) = -1 ∨
          ∃ prev, st.prevs.getD cur (-1) = Int.ofNat prev ∧
            ∃ edge way out,
              (edgesOf eng.route_nodes_ prev).find? (fun e => e.node == Int.ofNat cur)
                  = some edge ∧
                edge.node = Int.ofNat cur ∧
                mapFind eng.ways_ edge.osmid = some way ∧
                (∀ pos, min edge.start_pos edge.end_pos ≤ pos →
                  pos ≤ max edge.start_pos edge.end_pos →
                  ∃ id node, way.NodeAt pos = some id ∧ mapFind eng.nodes_ id = some node) ∧
                expandPositions eng.nodes_ way (edgePositions edge) = .ok out := by
  have hc := parse_compiled geo ways nodes eng hparse
  refine ⟨?_, ?_⟩
  · intro result
    refine ⟨?_, ?_, ?_⟩ <;>
    · intro h
      have := FindRoute_error_cases geo eng hc fuel name_a name_b result _ h
      simp at this
  · intro st bf bl hse cur
    have hpe := searchEnd_prevEdges eng (compiled_edgesInRange geo eng hc) fuel name_a name_b
      st bf bl hse
    rcases hpe cur with g | ⟨p, hp, e0, he0, hn0⟩
    · exact Or.inl g
    · exact Or.inr ⟨p, hp, hop_resolves geo eng hc p cur e0 he0 hn0⟩

/-- C33 on scenario S1: the walk back from station B has the one hop from routing node 1
to its predecessor 0, and the edge search over routing node 0 finds the edge to 1. -/
theorem FindRoute_recovery_asserts_hold_witness :
    Parse exGeo [exWay] [exNode1, exNode2, exNode3] = .ok exEngine ∧
      searchEnd exEngine 9 "A" "B" = some (exSearchState, 1, some 20000) ∧
      FindRoute exGeo exEngine 9 "A" "B" exResult5 ≠ .error .assertEdge ∧
      (exSearchState.prevs.getD 1 (-1) = -1 ∨
        ∃ prev, exSearchState.prevs.getD 1 (-1) = Int.ofNat prev ∧
          ∃ edge way out,
            (edgesOf exEngine.route_nodes_ prev).find? (fun e => e.node == Int.ofNat 1)
                = some edge ∧
              edge.node = Int.ofNat 1 ∧
              mapFind exEngine.ways_ edge.osmid = some way ∧
              (∀ pos, min edge.start_pos edge.end_pos ≤ pos →
                pos ≤ max edge.start_pos edge.end_pos →
                ∃ id node, way.NodeAt pos = some id ∧
                  mapFind exEngine.nodes_ id = some node) ∧
              expandPositions exEngine.nodes_ way (edgePositions edge) = .ok out) :=
  ⟨by rfl, by rfl,
    ((FindRoute_recovery_asserts_hold exGeo [exWay] [exNode1, exNode2, exNode3] exEngine
      (by rfl) 9 "A" "B").1 exResult5).1,
    (FindRoute_recovery_asserts_hold exGeo [exWay] [exNode1, exNode2, exNode3] exEngine
      (by rfl) 9 "A" "B").2 exSearchState 1 (some 20000) (by rfl) 1⟩

end RailRouting


namespace RailRouting

/-! ## C32: the walk back along `prevs` ends at a start node -/

/-- The state that the search ends with, on a compiled engine with non-negative edge
lengths and enough fuel, when the end name is in the stop index: the loop has returned,
its queue is empty and the invariant of the search holds. -/
theorem searchEnd_spec (geo : GeoMath) (eng : Engine) (hc : Compiled geo eng)
    (hnn : NonNegLengths eng.route_nodes_) (name_a name_b : String)
    (hb : HasStop eng name_b) (fuel : Nat) (hfuel : searchFuel eng name_a ≤ fuel) :
    ∃ st first more,
      (equalRange eng.stops_ name_b).foldl nodeSetInsert [] = first :: more ∧
        searchEnd eng fuel name_a name_b =
          some (st, closestFin st.lengths more first (st.lengths.getD first none)) ∧
        SearchInv eng.route_nodes_ (equalRange eng.stops_ name_a) (first :: more) st ∧
        st.queue = [] ∧
        dijkstraLoop eng.route_nodes_ (first :: more) fuel
          (initStarts (equalRange eng.stops_ name_a) []
            { queue := [], starts := List.replicate eng.route_nodes_.length (-1),
              prevs := List.replicate eng.route_nodes_.length (-1),
              lengths := List.replicate eng.route_nodes_.length none,
              shortest_length := none } 0).2.1 = some st := by
  have hrange := compiled_edgesInRange geo eng hc
  have hstops := compiled_stopsInRange geo eng hc
  have hA : ∀ s, s ∈ equalRange eng.stops_ name_a ↔ (name_a, s) ∈ eng.stops_ :=
    fun s => mem_equalRange _ _ _
  have hAlt : ∀ s ∈ equalRange eng.stops_ name_a, s < eng.route_nodes_.length :=
    fun s hs => hstops _ ((hA s).1 hs)
  rw [searchEnd_unfold]
  simp only []
  have hBne := startNodes_eq_nil_iff eng name_b
  cases hfn : (equalRange eng.stops_ name_b).foldl nodeSetInsert [] with
  | nil => exact absurd hb (hBne.1 hfn)
  | cons first more =>
    simp only []
    have hinit := initStarts_inv eng.route_nodes_ (equalRange eng.stops_ name_a) [] []
      { queue := [], starts := List.replicate eng.route_nodes_.length (-1),
        prevs := List.replicate eng.route_nodes_.length (-1),
        lengths := List.replicate eng.route_nodes_.length none, shortest_length := none } 0
      hAlt (initInv_empty eng.route_nodes_)
    simp only [List.nil_append] at hinit
    have hs1 := searchInv_of_initInv eng.route_nodes_ (equalRange eng.stops_ name_a)
      (first :: more) _ hinit hAlt
    have hm := searchMeasure_le eng.route_nodes_
      (initStarts (equalRange eng.stops_ name_a) []
        { queue := [], starts := List.replicate eng.route_nodes_.length (-1),
          prevs := List.replicate eng.route_nodes_.length (-1),
          lengths := List.replicate eng.route_nodes_.length none,
          shortest_length := none } 0).2.1
    rw [hinit.count] at hm
    obtain ⟨st, hd, hs2, hq⟩ := dijkstraLoop_spec eng.route_nodes_
      (equalRange eng.stops_ name_a) (first :: more) hnn hrange fuel _ hs1
      (by unfold searchFuel at hfuel; omega)
    refine ⟨st, first, more, rfl, ?_, hs2, hq, hd⟩
    rw [hd]

theorem prevWalk_acc (prevs : List Int) (fuel cur : Nat) (prev : Int) (visited : List Nat) :
    prevWalk prevs fuel cur prev visited =
      Option.map (fun c => visited ++ c) (prevWalk prevs fuel cur prev []) := by
  induction fuel generalizing cur prev visited with
  | zero =>
    unfold prevWalk
    by_cases h : prev = -1
    · rw [if_pos h, if_pos h]
      rfl
    · rw [if_neg h, if_neg h]
      rfl
  | succ fuel ih =>
    unfold prevWalk
    by_cases h : prev = -1
    · rw [if_pos h, if_pos h]
      rfl
    · rw [if_neg h, if_neg h]
      rw [ih prev.toNat _ (visited ++ [cur]), ih prev.toNat _ ([] ++ [cur])]
      rw [Option.map_map]
      congr 1
      funext c
      simp

theorem prevWalk_succ (prevs : List Int) (fuel cur : Nat) (prev : Int) (visited : List Nat) :
    prevWalk prevs (fuel + 1) cur prev visited =
      if prev = -1 then some (visited ++ [cur])
      else
        prevWalk prevs fuel prev.toNat (prevs.getD prev.toNat (-1)) (visited ++ [cur]) := rfl

theorem prevWalk_stop (prevs : List Int) (fuel cur : Nat) :
    prevWalk prevs fuel cur (-1) [] = some [cur] := by
  cases fuel <;> simp [prevWalk]

theorem prevWalk_step (prevs : List Int) (fuel cur p : Nat) :
    prevWalk prevs (fuel + 1) cur (Int.ofNat p) [] =
      Option.map (fun c => cur :: c) (prevWalk prevs fuel p (prevs.getD p (-1)) []) := by
  have hne : ¬ (Int.ofNat p = -1) := by
    have : (0 : Int) ≤ Int.ofNat p := Int.ofNat_nonneg p
    omega
  have htn : (Int.ofNat p).toNat = p := rfl
  rw [prevWalk_succ, if_neg hne, htn, prevWalk_acc]
  rfl

/-- The walk back from a labelled node: it returns, every node of it is followed by its
predecessor, the ranks fall, and it ends at the start that `starts` records. -/
theorem prevWalk_spec (rn : List RouteNode) (S F : List Nat) (st : SearchState)
    (hs : SearchInv rn S F st) (rank : Nat → Nat)
    (hrank : ∀ w p, st.prevs.getD w (-1) = Int.ofNat p → rank p < rank w)
    (fuel cur : Nat) (seen : List Nat) (y : Int) (hlen : st.len cur = some y)
    (hnd : seen.Nodup) (hseen : ∀ x ∈ seen, x < rn.length ∧ rank cur < rank x)
    (hfuel : rn.length ≤ fuel + seen.length + 1) :
    ∃ chain root,
      prevWalk st.prevs fuel cur (st.prevs.getD cur (-1)) [] = some chain ∧
        chain.head? = some cur ∧ chain.getLast? = some root ∧
        st.prevs.getD root (-1) = -1 ∧ st.starts.getD cur (-1) = Int.ofNat root ∧
        PrevLinked st.prevs chain ∧ chain.Nodup ∧
        ∀ x ∈ chain, x < rn.length ∧ rank x ≤ rank cur := by
  have hcur : cur < rn.length := by
    have := len_lt_of_some st cur y hlen
    rw [hs.core.len_lengths] at this
    exact this
  induction fuel generalizing cur seen y with
  | zero =>
    rcases hs.prevs_ok cur with h | ⟨p, hp, hpn, -, -⟩
    · refine ⟨[cur], cur, ?_, rfl, rfl, h, hs.core.root cur y hlen h, trivial,
        List.nodup_singleton _, ?_⟩
      · rw [h]
        exact prevWalk_stop _ _ _
      · intro x hx
        simp only [List.mem_singleton] at hx
        subst hx
        exact ⟨hcur, Nat.le_refl _⟩
    · exfalso
      have hr := hrank cur p hp
      have hnd2 : (p :: cur :: seen).Nodup := by
        rw [List.nodup_cons, List.nodup_cons]
        refine ⟨?_, ?_, hnd⟩
        · intro hm
          rcases List.mem_cons.1 hm with hm | hm
          · rw [hm] at hr; omega
          · have := (hseen p hm).2
            omega
        · intro hm
          have := (hseen cur hm).2
          omega
      have := nodup_length_le _ rn.length hnd2 (by
        intro x hx
        rcases List.mem_cons.1 hx with hx | hx
        · omega
        · rcases List.mem_cons.1 hx with hx | hx
          · omega
          · exact (hseen x hx).1)
      simp only [List.length_cons] at this
      omega
  | succ fuel ih =>
    rcases hs.prevs_ok cur with h | ⟨p, hp, hpn, -, yp, hyp, -⟩
    · refine ⟨[cur], cur, ?_, rfl, rfl, h, hs.core.root cur y hlen h, trivial,
        List.nodup_singleton _, ?_⟩
      · rw [h]
        exact prevWalk_stop _ _ _
      · intro x hx
        simp only [List.mem_singleton] at hx
        subst hx
        exact ⟨hcur, Nat.le_refl _⟩
    · have hr := hrank cur p hp
      obtain ⟨chain, root, i1, i2, i3, i4, i5, i6, i7, i8⟩ := ih p (cur :: seen) yp hyp
        (by
          rw [List.nodup_cons]
          refine ⟨?_, hnd⟩
          intro hm
          have := (hseen cur hm).2
          omega)
        (by
          intro x hx
          rcases List.mem_cons.1 hx with hx | hx
          · subst hx; exact ⟨hcur, hr⟩
          · exact ⟨(hseen x hx).1, by have := (hseen x hx).2; omega⟩)
        (by simp only [List.length_cons]; omega) hpn
      refine ⟨cur :: chain, root, ?_, rfl, ?_, i4, ?_, ?_, ?_, ?_⟩
      · rw [hp, prevWalk_step, i1]
        rfl
      · cases chain with
        | nil => simp at i2
        | cons a rest =>
          rw [List.getLast?_cons_cons]
          exact i3
      · rw [hs.core.origin_prev cur p hp]
        exact i5
      · cases chain with
        | nil => simp at i2
        | cons a rest =>
          simp only [List.head?_cons, Option.some.injEq] at i2
          subst i2
          exact ⟨hp, i6⟩
      · rw [List.nodup_cons]
        refine ⟨?_, i7⟩
        intro hm
        have := (i8 cur hm).2
        omega
      · intro x hx
        rcases List.mem_cons.1 hx with hx | hx
        · subst hx
          exact ⟨hcur, Nat.le_refl _⟩
        · exact ⟨(i8 x hx).1, by have := (i8 x hx).2; omega⟩

theorem prevWalk_head (prevs : List Int) (fuel cur : Nat) (prev : Int) (chain : List Nat)
    (h : prevWalk prevs fuel cur prev [] = some chain) : ∃ tail, chain = cur :: tail := by
  cases fuel with
  | zero =>
    unfold prevWalk at h
    by_cases h1 : prev = -1
    · rw [if_pos h1] at h
      simp only [List.nil_append, Option.some.injEq] at h
      exact ⟨[], h.symm⟩
    · rw [if_neg h1] at h
      simp at h
  | succ fuel =>
    rw [prevWalk_succ] at h
    by_cases h1 : prev = -1
    · rw [if_pos h1] at h
      simp only [List.nil_append, Option.some.injEq] at h
      exact ⟨[], h.symm⟩
    · rw [if_neg h1, prevWalk_acc] at h
      cases hw : prevWalk prevs fuel prev.toNat (prevs.getD prev.toNat (-1)) [] with
      | none => rw [hw] at h; simp at h
      | some c =>
        rw [hw] at h
        simp only [List.nil_append, Option.map_some', Option.some.injEq] at h
        exact ⟨c, by rw [← h]; rfl⟩

theorem hopNodes_single (eng : Engine) (cur : Nat) : hopNodes eng [cur] = .ok [] := rfl

theorem hopNodes_cons (eng : Engine) (cur prev : Nat) (rest : List Nat) :
    hopNodes eng (cur :: prev :: rest) =
      match (edgesOf eng.route_nodes_ prev).find? (fun e => e.node == Int.ofNat cur) with
      | none => .error .assertEdge
      | some edge =>
        match mapFind eng.ways_ edge.osmid with
        | none => .error .assertWay
        | some way =>
          match expandPositions eng.nodes_ way (edgePositions edge) with
          | .error err => .error err
          | .ok more =>
            match hopNodes eng (prev :: rest) with
            | .error err => .error err
            | .ok out => .ok (more ++ out) := rfl

theorem recoverRoute_succ (eng : Engine) (prevs : List Int) (fuel cur : Nat) (prev : Int)
    (acc : List Node) :
    recoverRoute eng prevs (fuel + 1) cur prev acc =
      if prev = -1 then .ok acc
      else
        match (edgesOf eng.route_nodes_ prev.toNat).find?
            (fun e => e.node == Int.ofNat cur) with
        | none => .error .assertEdge
        | some edge =>
          match mapFind eng.ways_ edge.osmid with
          | none => .error .assertWay
          | some way =>
            match expandPositions eng.nodes_ way (edgePositions edge) with
            | .error err => .error err
            | .ok more =>
              recoverRoute eng prevs fuel prev.toNat (prevs.getD prev.toNat (-1))
                (acc ++ more) := rfl

/-- The loop of the route recovery runs over the hops of the walk along `prevs`: when the
walk from `cur` returns the routing nodes `chain`, the recovery from `cur` appends to its
buffer the nodes of the hops of `chain`, in this order, or fails where the look-ups for a
hop fail; no hypothesis on `prevs` or the graph is made. -/
theorem recoverRoute_along_prevWalk (eng : Engine) (prevs : List Int) (fuel cur : Nat)
    (prev : Int) (acc : List Node) (chain : List Nat)
    (h : prevWalk prevs fuel cur prev [] = some chain) :
    recoverRoute eng prevs fuel cur prev acc =
      match hopNodes eng chain with
      | .error err => .error err
      | .ok out => .ok (acc ++ out) := by
  induction fuel generalizing cur prev acc chain with
  | zero =>
    unfold prevWalk at h
    unfold recoverRoute
    by_cases h1 : prev = -1
    · rw [if_pos h1] at h
      simp only [List.nil_append, Option.some.injEq] at h
      rw [if_pos h1, ← h, hopNodes_single]
      simp
    · rw [if_neg h1] at h
      simp at h
  | succ fuel ih =>
    rw [prevWalk_succ] at h
    rw [recoverRoute_succ]
    by_cases h1 : prev = -1
    · rw [if_pos h1] at h
      simp only [List.nil_append, Option.some.injEq] at h
      rw [if_pos h1, ← h, hopNodes_single]
      simp
    · rw [if_neg h1, prevWalk_acc] at h
      rw [if_neg h1]
      cases hw : prevWalk prevs fuel prev.toNat (prevs.getD prev.toNat (-1)) [] with
      | none => rw [hw] at h; simp at h
      | some c =>
        rw [hw] at h
        simp only [List.nil_append, Option.map_some', Option.some.injEq] at h
        obtain ⟨tail, htail⟩ := prevWalk_head prevs fuel prev.toNat _ c hw
        have hchain : chain = cur :: prev.toNat :: tail := by
          rw [← h, htail]
          rfl
        rw [hchain, hopNodes_cons]
        cases hf : (edgesOf eng.route_nodes_ prev.toNat).find?
            (fun e => e.node == Int.ofNat cur) with
        | none => rfl
        | some edge =>
          simp only
          cases hm : mapFind eng.ways_ edge.osmid with
          | none => rfl
          | some way =>
            simp only
            cases he : expandPositions eng.nodes_ way (edgePositions edge) with
            | error err => rfl
            | ok more =>
              simp only
              rw [ih prev.toNat _ (acc ++ more) c hw, htail]
              cases hh : hopNodes eng (prev.toNat :: tail) with
              | error err => rfl
              | ok out =>
                simp only
                rw [List.append_assoc]

/-- The walk back from the best end node of a search that ends with a finite length, and
the route that FindRoute returns from it. -/
theorem search_prevWalk (geo : GeoMath) (eng : Engine) (hc : Compiled geo eng)
    (hnn : NonNegLengths eng.route_nodes_) (name_a name_b : String)
    (hb : HasStop eng name_b) (fuel : Nat) (hfuel : searchFuel eng name_a ≤ fuel) :
    ∃ st best_fin best_length,
      searchEnd eng fuel name_a name_b = some (st, best_fin, best_length) ∧
        ∀ d, best_length = some d →
          ∃ chain root out start_node end_node,
            prevWalk st.prevs fuel best_fin (st.prevs.getD best_fin (-1)) [] = some chain ∧
              chain.Nodup ∧ chain.head? = some best_fin ∧ chain.getLast? = some root ∧
              PrevLinked st.prevs chain ∧ chain.length ≤ eng.route_nodes_.length ∧
              st.prevs.getD root (-1) = -1 ∧
              st.starts.getD best_fin (-1) = Int.ofNat root ∧
              (name_a, root) ∈ eng.stops_ ∧ (name_b, best_fin) ∈ eng.stops_ ∧
              hopNodes eng chain = .ok out ∧
              recoverRoute eng st.prevs fuel best_fin (st.prevs.getD best_fin (-1)) []
                = .ok out ∧
              sourceNode eng root = some start_node ∧
              sourceNode eng best_fin = some end_node ∧
              ∀ result, ∃ r,
                FindRoute geo eng fuel name_a name_b result = .ok (true, r) ∧
                  r.route_nodes = (out ++ [start_node]).reverse ∧
                  r.start_node = some start_node ∧ r.end_node = some end_node ∧
                  r.distance = some d := by
  have hstops := compiled_stopsInRange geo eng hc
  obtain ⟨st, first, more, hfn, hse, hs2, hq, hd⟩ :=
    searchEnd_spec geo eng hc hnn name_a name_b hb fuel hfuel
  have hB : ∀ t, t ∈ first :: more ↔ (name_b, t) ∈ eng.stops_ := by
    intro t
    rw [← hfn, mem_foldl_nodeSetInsert, mem_equalRange]
    simp
  have hres := search_result eng.route_nodes_ (equalRange eng.stops_ name_a) first more st
    hnn hs2 hq
  rcases hcf : closestFin st.lengths more first (st.lengths.getD first none) with ⟨bf, bl⟩
  rw [hcf] at hres hse
  refine ⟨st, bf, bl, hse, ?_⟩
  intro d hd2
  subst hd2
  simp only at hres
  obtain ⟨r1, r2, -, -⟩ := hres
  obtain ⟨rank, hrank⟩ := hs2.core.rank
  obtain ⟨chain, root, q1, q2, q3, q4, q5, q6, q7, q8⟩ := prevWalk_spec eng.route_nodes_ _ _ st
    hs2 rank hrank fuel bf [] d r2 List.nodup_nil (by simp)
    (by unfold searchFuel at hfuel; simp only [List.length_nil]; omega)
  obtain ⟨s2, hs2A, hs2eq⟩ := hs2.core.origin bf d r2
  have hroot : root = s2 := by
    rw [q5] at hs2eq
    exact Int.ofNat_inj.1 hs2eq
  subst hroot
  have hbf : bf < eng.route_nodes_.length := hstops _ ((hB bf).1 r1)
  obtain ⟨-, nt, -, -, hsrc⟩ := sourceNode_of_lt geo eng hc bf hbf
  obtain ⟨out, root2, ndr, p1, p2, p3, -, -⟩ := recoverRoute_spec geo eng hc _ _ st hs2
    rank hrank fuel bf [] [] nt d r2 hsrc List.nodup_nil (by simp)
    (by unfold searchFuel at hfuel; simp only [List.length_nil]; omega)
  have hroot2 : root2 = root := by
    rw [q5] at p2
    exact (Int.ofNat_inj.1 p2).symm
  subst hroot2
  simp only [List.nil_append] at p1
  have halong := recoverRoute_along_prevWalk eng st.prevs fuel bf (st.prevs.getD bf (-1)) []
    chain q1
  rw [p1] at halong
  have hhop : hopNodes eng chain = .ok out := by
    cases hh : hopNodes eng chain with
    | error err => rw [hh] at halong; simp at halong
    | ok out2 =>
      rw [hh] at halong
      simp only [List.nil_append, Except.ok.injEq] at halong
      rw [halong]
  have hstopA : (name_a, root2) ∈ eng.stops_ := (mem_equalRange _ _ _).1 hs2A
  refine ⟨chain, root2, out, ndr, nt, q1, q7, q2, q3, q6,
    nodup_length_le _ _ q7 (fun x hx => (q8 x hx).1), q4, q5, hstopA, (hB bf).1 r1, hhop, p1,
    p3, hsrc, ?_⟩
  intro result
  obtain ⟨rs, hrs1, hrs2⟩ := sourceNode_some eng root2 ndr p3
  obtain ⟨rt, hrt1, hrt2⟩ := sourceNode_some eng bf nt hsrc
  have htn : (st.starts.getD bf (-1)).toNat = root2 := by rw [q5]; rfl
  have hAne := startNodes_eq_nil_iff eng name_a
  rw [FindRoute_unfold]
  simp only []
  cases hsn : (equalRange eng.stops_ name_a).foldl nodeSetInsert [] with
  | nil => exact absurd ⟨root2, hstopA⟩ (hAne.1 hsn)
  | cons s0 sr =>
    rw [hfn]
    simp only []
    rw [hd]
    simp only []
    rw [hcf]
    simp only []
    rw [htn, hrs1, hrt1]
    simp only [hrs2, hrt2, p1]
    exact ⟨_, rfl, rfl, rfl, rfl, rfl⟩

/-- C32: on an engine that Prepare has compiled, with non-negative edge lengths, an end
name of the stop index and enough fuel, the search ends; and when its best end node has a
finite length, the walk that follows `prevs` from it returns within the fuel: it visits no
routing node twice, so it has at most as many nodes as there are routing nodes, each of
its nodes is followed by its predecessor, and its last node has the predecessor -1, is
`starts[best_fin]` and is indexed under the start name. The recovery loop of FindRoute
runs over the hops of this walk: it returns the nodes of these hops, and FindRoute returns
true with these nodes and the source node of the last node of the walk, reversed, as the
route, and with that source node as the start node. -/
theorem FindRoute_prev_walk_ends_at_start (geo : GeoMath) (ways : List Way)
    (nodes : List Node) (eng : Engine) (hparse : Parse geo ways nodes = .ok eng)
    (hnn : NonNegLengths eng.route_nodes_) (name_a name_b : String)
    (hb : HasStop eng name_b) (fuel : Nat) (hfuel : searchFuel eng name_a ≤ fuel) :
    (∀ (prevs : List Int) (fuel2 cur : Nat) (prev : Int) (acc : List Node) (chain : List Nat),
      prevWalk prevs fuel2 cur prev [] = some chain →
      recoverRoute eng prevs fuel2 cur prev acc =
        match hopNodes eng chain with
        | .error err => .error err
        | .ok out => .ok (acc ++ out)) ∧
    ∃ st best_fin best_length,
      searchEnd eng fuel name_a name_b = some (st, best_fin, best_length) ∧
        ∀ d, best_length = some d →
          ∃ chain root out start_node end_node,
            prevWalk st.prevs fuel best_fin (st.prevs.getD best_fin (-1)) [] = some chain ∧
              chain.Nodup ∧ chain.head? = some best_fin ∧ chain.getLast? = some root ∧
              PrevLinked st.prevs chain ∧ chain.length ≤ eng.route_nodes_.length ∧
              st.prevs.getD root (-1) = -1 ∧
              st.starts.getD best_fin (-1) = Int.ofNat root ∧
              (name_a, root) ∈ eng.stops_ ∧ (name_b, best_fin) ∈ eng.stops_ ∧
              hopNodes eng chain = .ok out ∧
              recoverRoute eng st.prevs fuel best_fin (st.prevs.getD best_fin (-1)) []
                = .ok out ∧
              sourceNode eng root = some start_node ∧
              sourceNode eng best_fin = some end_node ∧
              ∀ result, ∃ r,
                FindRoute geo eng fuel name_a name_b result = .ok (true, r) ∧
                  r.route_nodes = (out ++ [start_node]).reverse ∧
                  r.start_node = some start_node ∧ r.end_node = some end_node ∧
                  r.distance = some d :=
  ⟨fun prevs fuel2 cur prev acc chain h =>
      recoverRoute_along_prevWalk eng prevs fuel2 cur prev acc chain h,
    search_prevWalk geo eng (parse_compiled geo ways nodes eng hparse) hnn name_a name_b hb fuel
      hfuel⟩

/-- C32 on scenario S1, for the search from A to B: the walk back from routing node 1 is
[1, 0], the recovery loop returns the nodes 3 and 2 of its one hop, and FindRoute returns
the route of the nodes 1, 2, 3. -/
theorem FindRoute_prev_walk_ends_at_start_witness :
    Parse exGeo [exWay] [exNode1, exNode2, exNode3] = .ok exEngine ∧
      NonNegLengths exEngine.route_nodes_ ∧ HasStop exEngine "B" ∧
      searchFuel exEngine "A" ≤ 9 ∧
      searchEnd exEngine 9 "A" "B" = some (exSearchState, 1, some 20000) ∧
      prevWalk exSearchState.prevs 9 1 (exSearchState.prevs.getD 1 (-1)) [] = some [1, 0] ∧
      hopNodes exEngine [1, 0] = .ok [exNode3, exNode2] ∧
      recoverRoute exEngine exSearchState.prevs 9 1 (exSearchState.prevs.getD 1 (-1)) []
        = .ok [exNode3, exNode2] ∧
      FindRoute exGeo exEngine 9 "A" "B" exResult5 = .ok (true, exRouteResult) ∧
      exRouteResult.route_nodes = ([exNode3, exNode2] ++ [exNode1]).reverse ∧
      ∃ st best_fin best_length,
        searchEnd exEngine 9 "A" "B" = some (st, best_fin, best_length) ∧
          ∀ d, best_length = some d →
            ∃ chain root out start_node end_node,
              prevWalk st.prevs 9 best_fin (st.prevs.getD best_fin (-1)) [] = some chain ∧
                chain.Nodup ∧ chain.head? = some best_fin ∧ chain.getLast? = some root ∧
                PrevLinked st.prevs chain ∧ chain.length ≤ exEngine.route_nodes_.length ∧
                st.prevs.getD root (-1) = -1 ∧
                st.starts.getD best_fin (-1) = Int.ofNat root ∧
                ("A", root) ∈ exEngine.stops_ ∧ ("B", best_fin) ∈ exEngine.stops_ ∧
                hopNodes exEngine chain = .ok out ∧
                recoverRoute exEngine st.prevs 9 best_fin (st.prevs.getD best_fin (-1)) []
                  = .ok out ∧
                sourceNode exEngine root = some start_node ∧
                sourceNode exEngine best_fin = some end_node ∧
                ∀ result, ∃ r,
                  FindRoute exGeo exEngine 9 "A" "B" result = .ok (true, r) ∧
                    r.route_nodes = (out ++ [start_node]).reverse ∧
                    r.start_node = some start_node ∧ r.end_node = some end_node ∧
                    r.distance = some d :=
  have hnn : NonNegLengths exEngine.route_nodes_ := by
    intro r hr e he
    simp only [exEngine, List.mem_cons, List.mem_singleton, List.not_mem_nil, or_false] at hr
    rcases hr with rfl | rfl <;>
    · simp only [List.mem_singleton] at he
      subst he
      decide
  have hb : HasStop exEngine "B" := ⟨1, by decide⟩
  ⟨by rfl, hnn, hb, by decide, by rfl, by rfl, by rfl, by rfl, by rfl, by rfl,
    (FindRoute_prev_walk_ends_at_start exGeo [exWay] [exNode1, exNode2, exNode3] exEngine
      (by rfl) hnn "A" "B" hb 9 (by decide)).2⟩

end RailRouting


namespace RailRouting

/-! ## C35: the search from a station to itself -/

theorem getD_set_cases {α : Type} (l : List α) (i j : Nat) (a d : α) :
    (l.set i a).getD j d = l.getD j d ∨ (j = i ∧ (l.set i a).getD j d = a) := by
  by_cases h : i = j
  · by_cases hl : i < l.length
    · right
      rw [← h]
      exact ⟨rfl, getD_set_self _ _ _ _ hl⟩
    · left
      rw [List.set_eq_of_length_le (by omega)]
  · left
    exact getD_set_other _ _ _ _ _ h

/-- A relaxation with a non-negative new length does not touch a start node, and the
labels stay non-negative. -/
theorem relax_keeps (S : List Nat) (st : SearchState) (u v : Nat) (nl : Int) (hnl : 0 ≤ nl)
    (himp : ELen.lt (some nl) (st.lengths.getD v none) = true)
    (hk : StartsKept S st) (hpos : ∀ z y, st.len z = some y → 0 ≤ y) :
    StartsKept S (relax st u v (some nl)) ∧
      ∀ z y, (relax st u v (some nl)).len z = some y → 0 ≤ y := by
  have hvS : v ∉ S := by
    intro hv
    have h0 := (hk v hv).1
    unfold SearchState.len at h0
    rw [h0, ELen.lt_some_some] at himp
    omega
  constructor
  · intro s hs
    have hne : v ≠ s := fun h => hvS (h ▸ hs)
    obtain ⟨k1, k2, k3⟩ := hk s hs
    unfold relax SearchState.len
    simp only
    rw [getD_set_other _ _ _ _ _ hne, getD_set_other _ _ _ _ _ hne,
      getD_set_other _ _ _ _ _ hne]
    exact ⟨k1, k2, k3⟩
  · intro z y hz
    unfold relax SearchState.len at hz
    simp only at hz
    rcases getD_set_cases st.lengths v z (some nl) none with g | ⟨-, g⟩
    · rw [g] at hz
      exact hpos z y hz
    · rw [g] at hz
      injection hz with hz
      omega

theorem scanEdges_keeps (rn : List RouteNode) (hn : NonNegLengths rn) (S : List Nat) (u : Nat)
    (edges : List RouteEdge) (st : SearchState) (hsub : ∀ e ∈ edges, e ∈ edgesOf rn u)
    (hk : StartsKept S st) (hpos : ∀ z y, st.len z = some y → 0 ≤ y) :
    StartsKept S (scanEdges u edges st) ∧
      ∀ z y, (scanEdges u edges st).len z = some y → 0 ≤ y := by
  induction edges generalizing st with
  | nil => exact ⟨hk, hpos⟩
  | cons e rest ih =>
    have he : e ∈ edgesOf rn u := hsub e (List.mem_cons_self _ _)
    have hrest : ∀ e2 ∈ rest, e2 ∈ edgesOf rn u :=
      fun e2 h2 => hsub e2 (List.mem_cons_of_mem _ h2)
    have hw := edgesOf_nonneg rn hn u e he
    unfold scanEdges
    simp only
    by_cases hbreak : ELen.lt st.shortest_length
        (ELen.addLen (st.lengths.getD u none) e.length) = true
    · rw [if_pos hbreak]
      exact ⟨hk, hpos⟩
    · rw [if_neg hbreak]
      by_cases hempty : e.node = -1
      · rw [if_pos hempty]
        exact ih st hrest hk hpos
      · rw [if_neg hempty]
        by_cases himp : ELen.lt (ELen.addLen (st.lengths.getD u none) e.length)
            (st.lengths.getD e.node.toNat none) = true
        · rw [if_pos himp]
          cases hu : st.lengths.getD u none with
          | none =>
            rw [hu] at himp
            simp only [ELen.addLen] at himp
            rw [ELen.lt_none] at himp
            simp at himp
          | some x =>
            rw [hu] at himp
            simp only [ELen.addLen] at himp ⊢
            have hx : 0 ≤ x := hpos u x hu
            obtain ⟨r1, r2⟩ := relax_keeps S st u e.node.toNat (x + e.length) (by omega) himp
              hk hpos
            exact ih _ hrest r1 r2
        · rw [if_neg himp]
          exact ih st hrest hk hpos

theorem dijkstraLoop_keeps (rn : List RouteNode) (hn : NonNegLengths rn) (S F : List Nat)
    (fuel : Nat) (st st2 : SearchState) (hk : StartsKept S st)
    (hpos : ∀ z y, st.len z = some y → 0 ≤ y)
    (hd : dijkstraLoop rn F fuel st = some st2) :
    StartsKept S st2 ∧ ∀ z y, st2.len z = some y → 0 ≤ y := by
  induction fuel generalizing st with
  | zero =>
    unfold dijkstraLoop at hd
    cases hq : st.queue with
    | nil =>
      rw [hq] at hd
      simp only [Option.some.injEq] at hd
      rw [← hd]
      exact ⟨hk, hpos⟩
    | cons p rest =>
      rw [hq] at hd
      simp at hd
  | succ fuel ih =>
    unfold dijkstraLoop at hd
    cases hq : st.queue with
    | nil =>
      rw [hq] at hd
      simp only [Option.some.injEq] at hd
      rw [← hd]
      exact ⟨hk, hpos⟩
    | cons p rest =>
      obtain ⟨k, u⟩ := p
      rw [hq] at hd
      simp only at hd
      by_cases hstale : ELen.lt (st.lengths.getD u none) k = true
      · rw [if_pos hstale] at hd
        exact ih { st with queue := rest } hk hpos hd
      · rw [if_neg hstale] at hd
        have hscan := scanEdges_keeps rn hn S u (edgesOf rn u)
          (if u ∈ F then
            { ({ st with queue := rest } : SearchState) with
              shortest_length :=
                ELen.min ({ st with queue := rest } : SearchState).shortest_length
                  (({ st with queue := rest } : SearchState).lengths.getD u none) }
          else { st with queue := rest })
          (fun e he => he)
          (by split_ifs <;> exact hk)
          (by split_ifs <;> exact hpos)
        exact ih _ hscan.1 hscan.2 hd

/-- With non-negative labels the loop "find closest final node" keeps a first node of
length 0. -/
theorem closestFin_zero (L : List ELen) (hpos : ∀ z y, L.getD z none = some y → 0 ≤ y)
    (more : List Nat) (first : Nat) :
    closestFin L more first (some 0) = (first, some 0) := by
  induction more with
  | nil => rfl
  | cons fin rest ih =>
    unfold closestFin
    have hnot : ¬ (ELen.lt (L.getD fin none) (some 0) = true) := by
      cases hl : L.getD fin none with
      | none => simp [ELen.lt]
      | some y =>
        rw [ELen.lt_some_some]
        have := hpos fin y hl
        omega
    rw [if_neg hnot]
    exact ih

theorem recoverRoute_root (eng : Engine) (prevs : List Int) (fuel cur : Nat)
    (acc : List Node) : recoverRoute eng prevs fuel cur (-1) acc = .ok acc := by
  cases fuel <;> simp [recoverRoute]

theorem mem_of_foldl_nodeSetInsert_head (stops : List Nat) (first : Nat) (more : List Nat)
    (h : stops.foldl nodeSetInsert [] = first :: more) : first ∈ stops := by
  have hm : first ∈ stops.foldl nodeSetInsert [] := by
    rw [h]
    exact List.mem_cons_self _ _
  rw [mem_foldl_nodeSetInsert] at hm
  simpa using hm

end RailRouting


namespace RailRouting

/-- The state after the loop "find stops for station A": the start nodes carry the length
0, no predecessor and themselves as the start, and no label is negative. -/
theorem initStarts_keeps (eng : Engine) (hstops : StopsInRange eng) (name : String) :
    StartsKept (equalRange eng.stops_ name)
        (initStarts (equalRange eng.stops_ name) []
          { queue := [], starts := List.replicate eng.route_nodes_.length (-1),
            prevs := List.replicate eng.route_nodes_.length (-1),
            lengths := List.replicate eng.route_nodes_.length none,
            shortest_length := none } 0).2.1 ∧
      ∀ z y, (initStarts (equalRange eng.stops_ name) []
          { queue := [], starts := List.replicate eng.route_nodes_.length (-1),
            prevs := List.replicate eng.route_nodes_.length (-1),
            lengths := List.replicate eng.route_nodes_.length none,
            shortest_length := none } 0).2.1.len z = some y → 0 ≤ y := by
  have hAlt : ∀ s ∈ equalRange eng.stops_ name, s < eng.route_nodes_.length :=
    fun s hs => hstops _ ((mem_equalRange _ _ _).1 hs)
  have hinit := initStarts_inv eng.route_nodes_ (equalRange eng.stops_ name) [] []
    { queue := [], starts := List.replicate eng.route_nodes_.length (-1),
      prevs := List.replicate eng.route_nodes_.length (-1),
      lengths := List.replicate eng.route_nodes_.length none, shortest_length := none } 0
    hAlt (initInv_empty eng.route_nodes_)
  simp only [List.nil_append] at hinit
  constructor
  · intro s hs
    refine ⟨(hinit.pending s hs).2, hinit.prevs s, ?_⟩
    rcases hinit.labels s with h | ⟨-, -, h⟩
    · rw [(hinit.pending s hs).2] at h
      simp at h
    · exact h
  · intro z y hz
    rcases hinit.labels z with h | ⟨h, -, -⟩
    · rw [h] at hz
      simp at hz
    · rw [h] at hz
      injection hz with hz
      omega

/-- The search from a name of the stop index to the same name, on a compiled engine with
non-negative edge lengths: the first end node is a start node, and the call returns it
with the distance 0. -/
theorem same_station_result (geo : GeoMath) (eng : Engine) (hc : Compiled geo eng)
    (hnn : NonNegLengths eng.route_nodes_) (name : String) (ha : HasStop eng name)
    (fuel : Nat) (hfuel : searchFuel eng name ≤ fuel) (result : FindRouteResult) :
    ∃ n node, (name, n) ∈ eng.stops_ ∧ sourceNode eng n = some node ∧
      FindRoute geo eng fuel name name result =
        .ok (true,
          { status := .OK
            start_count := (equalRange eng.stops_ name).length
            end_count := (equalRange eng.stops_ name).length
            start_node := some node, end_node := some node, distance := some 0
            route_nodes := [node], sharp_turns := [] }) := by
  have hstops := compiled_stopsInRange geo eng hc
  obtain ⟨st, first, more, hfn, -, -, -, hd⟩ :=
    searchEnd_spec geo eng hc hnn name name ha fuel hfuel
  obtain ⟨i1, i2⟩ := initStarts_keeps eng hstops name
  obtain ⟨k, hpos⟩ := dijkstraLoop_keeps eng.route_nodes_ hnn (equalRange eng.stops_ name)
    (first :: more) fuel _ st i1 i2 hd
  have hfirst : first ∈ equalRange eng.stops_ name :=
    mem_of_foldl_nodeSetInsert_head _ first more hfn
  have hstop : (name, first) ∈ eng.stops_ := (mem_equalRange _ _ _).1 hfirst
  have hlt : first < eng.route_nodes_.length := hstops _ hstop
  obtain ⟨k1, k2, k3⟩ := k first hfirst
  obtain ⟨id, node, -, -, hsrc⟩ := sourceNode_of_lt geo eng hc first hlt
  obtain ⟨r, hr1, hr2⟩ := sourceNode_some eng first node hsrc
  refine ⟨first, node, hstop, hsrc, ?_⟩
  rw [FindRoute_unfold]
  simp only []
  rw [hfn]
  simp only []
  rw [hd]
  simp only []
  have hl : st.lengths.getD first none = some 0 := k1
  rw [hl, closestFin_zero st.lengths hpos more first]
  simp only []
  have htn : (st.starts.getD first (-1)).toNat = first := by rw [k3]; rfl
  rw [htn, hr1]
  simp only []
  rw [hr2]
  simp only []
  rw [k2, recoverRoute_root]
  rfl

/-- C35: on an engine that Prepare has compiled, with non-negative edge lengths, for every
name with an entry in the stop index and enough fuel, FindRoute(name, name) returns true
with the status OK, the distance 0, the same node as start node and end node, that node
alone as the route, and no sharp turn; the node is the source node of a routing node
indexed under the name. -/
theorem FindRoute_same_station (geo : GeoMath) (ways : List Way) (nodes : List Node)
    (eng : Engine) (hparse : Parse geo ways nodes = .ok eng)
    (hnn : NonNegLengths eng.route_nodes_) (name : String) (ha : HasStop eng name)
    (fuel : Nat) (hfuel : searchFuel eng name ≤ fuel) (result : FindRouteResult) :
    ∃ n node, (name, n) ∈ eng.stops_ ∧ sourceNode eng n = some node ∧
      FindRoute geo eng fuel name name result =
        .ok (true,
          { status := .OK
            start_count := (equalRange eng.stops_ name).length
            end_count := (equalRange eng.stops_ name).length
            start_node := some node, end_node := some node, distance := some 0
            route_nodes := [node], sharp_turns := [] }) :=
  same_station_result geo eng (parse_compiled geo ways nodes eng hparse) hnn name ha fuel hfuel
    result

/-- C35 on scenario S1, for the search from A to A. -/
theorem FindRoute_same_station_witness :
    Parse exGeo [exWay] [exNode1, exNode2, exNode3] = .ok exEngine ∧
      NonNegLengths exEngine.route_nodes_ ∧ HasStop exEngine "A" ∧
      searchFuel exEngine "A" ≤ 9 ∧
      FindRoute exGeo exEngine 9 "A" "A" exResult5 = .ok (true, exSameResult) ∧
      ∃ n node, ("A", n) ∈ exEngine.stops_ ∧ sourceNode exEngine n = some node ∧
        FindRoute exGeo exEngine 9 "A" "A" exResult5 =
          .ok (true,
            { status := .OK
              start_count := (equalRange exEngine.stops_ "A").length
              end_count := (equalRange exEngine.stops_ "A").length
              start_node := some node, end_node := some node, distance := some 0
              route_nodes := [node], sharp_turns := [] }) :=
  have hnn : NonNegLengths exEngine.route_nodes_ := by
    intro r hr e he
    simp only [exEngine, List.mem_cons, List.mem_singleton, List.not_mem_nil, or_false] at hr
    rcases hr with rfl | rfl <;>
    · simp only [List.mem_singleton] at he
      subst he
      decide
  have ha : HasStop exEngine "A" := ⟨0, by decide⟩
  ⟨by rfl, hnn, ha, by decide, by rfl,
    FindRoute_same_station exGeo [exWay] [exNode1, exNode2, exNode3] exEngine (by rfl) hnn
      "A" ha 9 (by decide) exResult5⟩

end RailRouting


namespace RailRouting

/-! ## Counterexamples of C2, C19 and C30 -/

/-- C2 (counterexample). The stations P, at latitude 85 degrees, and Q, at latitude 95
degrees and 180 degrees of longitude away, joined by the rail way 30. The distance between
them is NaN, and so is the length of the two edges of the compiled graph. Both names are in
the stop index and the routing node of Q is the node of a populated edge of the routing
node of P, yet FindRoute from P to Q returns false with NO_ROUTE_FOUND: the comparison
`new_length < lengths[other_node]` is false for NaN, and Q is never given a length. -/
theorem FindRoute_nan_edge_no_route :
    ParseNan exGeoNan [exWayPQ] [exNodeP, exNodeQ] = .ok exEngineNan ∧
      exGeoNan.Distance exNodeP exNodeQ = .nan ∧
      ("P", 0) ∈ exEngineNan.stops_ ∧ ("Q", 1) ∈ exEngineNan.stops_ ∧
      (∃ e ∈ edgesOfNan exEngineNan.route_nodes_ 0, e.node = 1 ∧ e.node ≠ -1) ∧
      FindRouteNan exGeoNan exEngineNan 9 "P" "Q" exResultNan =
        .ok (false,
          { exResultNan with status := .NO_ROUTE_FOUND, start_count := 1, end_count := 1 }) := by
  refine ⟨by rfl, by rfl, by decide, by decide, ?_, by rfl⟩
  exact ⟨⟨30, 0, 1, 1, 0, .nan⟩, by decide, by decide, by decide⟩

/-- C19 (counterexample). The rail way 10 over the nodes 1, 2, 3 and a second rail way of
the id 10 over the nodes 2, 3. Node 2 stands in both rail ways, each with at least 2 node
references, at positions that resolve in the node map, so its occurrence count over such
ways is 2; it is no routing node after the compilation, because the way map holds only the
first way of an id and the counts are taken over the way map. -/
theorem Prepare_classification_over_way_map :
    Parse exGeo [exWay, exWayTail] [exNode1, exNode2, exNode3] = .ok exEngine ∧
      isRailWay exWay = true ∧ isRailWay exWayTail = true ∧
      2 ≤ exWay.nodes_.length ∧ 2 ≤ exWayTail.nodes_.length ∧
      exWay.nodes_[1]? = some 2 ∧ exWayTail.nodes_[0]? = some 2 ∧
      mapFind exEngine.nodes_ 2 = some exNode2 ∧
      occurrenceCount [(10, exWay), (10, exWayTail)] 2 = 2 ∧
      occurrenceCount exEngine.ways_ 2 = 1 ∧
      ¬ ∃ r ∈ exEngine.route_nodes_, r.osmid = 2 := by
  refine ⟨by rfl, by rfl, by rfl, by decide, by decide, by rfl, by rfl, by rfl, by rfl, by rfl,
    ?_⟩
  rintro ⟨r, hr, hid⟩
  simp only [exEngine, List.mem_cons, List.mem_singleton, List.not_mem_nil, or_false] at hr
  rcases hr with rfl | rfl <;> simp at hid

/-- C30 (counterexample). The rail way 10 over the nodes 1, 2, 3 and a second rail way of
the id 10 over the nodes 2, 3. The second way is a rail way with 2 node references whose
first node, node 2, resolves in the node map; node 2 is no routing node after the
compilation, because the second way is not in the way map. -/
theorem Prepare_dropped_way_end_not_routing :
    Parse exGeo [exWay, exWayTail] [exNode1, exNode2, exNode3] = .ok exEngine ∧
      isRailWay exWayTail = true ∧ exWayTail.nodes_.length = 2 ∧
      exWayTail.nodes_[0]? = some 2 ∧ mapFind exEngine.nodes_ 2 = some exNode2 ∧
      mapFind exEngine.ways_ exWayTail.id_ = some exWay ∧
      ¬ ∃ r ∈ exEngine.route_nodes_, r.osmid = 2 := by
  refine ⟨by rfl, by rfl, by rfl, by rfl, by rfl, by rfl, ?_⟩
  rintro ⟨r, hr, hid⟩
  simp only [exEngine, List.mem_cons, List.mem_singleton, List.not_mem_nil, or_false] at hr
  rcases hr with rfl | rfl <;> simp at hid

end RailRouting


namespace RailRouting

/-! ## The search on lengths that are numbers

On an engine whose lengths are numbers the search with doubles that may be NaN is the
search of the section "Route search". -/

theorem Dbl_lt_toDbl (a b : ELen) : Dbl.lt (ELen.toDbl a) (ELen.toDbl b) = ELen.lt a b := by
  cases a <;> cases b <;> rfl

theorem Dbl_add_toDbl (a : ELen) (w : Int) :
    Dbl.add (ELen.toDbl a) (.finite w) = ELen.toDbl (ELen.addLen a w) := by
  cases a <;> rfl

theorem Dbl_min_toDbl (a b : ELen) :
    Dbl.min (ELen.toDbl a) (ELen.toDbl b) = ELen.toDbl (ELen.min a b) := by
  unfold Dbl.min ELen.min
  rw [Dbl_lt_toDbl]
  split <;> rfl

theorem getD_map_toDbl (l : List ELen) (i : Nat) :
    (l.map ELen.toDbl).getD i .inf = ELen.toDbl (l.getD i none) := by
  induction l generalizing i with
  | nil => rfl
  | cons x xs ih =>
    cases i with
    | zero => rfl
    | succ j => simpa using ih j

theorem queueInsertNan_map (q : List (ELen × Nat)) (k : ELen) (v : Nat) :
    queueInsertNan (q.map (fun p => (ELen.toDbl p.1, p.2))) (ELen.toDbl k) v =
      (queueInsert q k v).map (fun p => (ELen.toDbl p.1, p.2)) := by
  induction q with
  | nil => rfl
  | cons p rest ih =>
    obtain ⟨k1, v1⟩ := p
    simp only [List.map_cons, queueInsertNan, queueInsert, Dbl_lt_toDbl]
    split
    · rfl
    · rw [List.map_cons, ih]

theorem initStartsNan_toNan (stops : List Nat) (start_nodes : List Nat) (st : SearchState)
    (start_count : Nat) :
    initStartsNan stops start_nodes st.toNan start_count =
      ((initStarts stops start_nodes st start_count).1,
        (initStarts stops start_nodes st start_count).2.1.toNan,
        (initStarts stops start_nodes st start_count).2.2) := by
  induction stops generalizing start_nodes st start_count with
  | nil => rfl
  | cons stop rest ih =>
    simp only [initStartsNan, initStarts]
    rw [← ih]
    congr 1
    simp only [SearchState.toNan, List.map_set]
    rw [show Dbl.finite 0 = ELen.toDbl (some 0) from rfl, queueInsertNan_map]

theorem relaxNan_toNan (st : SearchState) (current_node other_node : Nat) (new_length : ELen) :
    relaxNan st.toNan current_node other_node (ELen.toDbl new_length) =
      (relax st current_node other_node new_length).toNan := by
  simp only [relaxNan, relax, SearchState.toNan, List.map_set, queueInsertNan_map]

theorem scanEdgesNan_toNan (current_node : Nat) (edges : List RouteEdge) (st : SearchState) :
    scanEdgesNan current_node (edges.map RouteEdge.toNan) st.toNan =
      (scanEdges current_node edges st).toNan := by
  induction edges generalizing st with
  | nil => rfl
  | cons e rest ih =>
    have hl : ∀ i, st.toNan.lengths.getD i .inf = ELen.toDbl (st.lengths.getD i none) :=
      fun i => getD_map_toDbl st.lengths i
    have hs : st.toNan.shortest_length = ELen.toDbl st.shortest_length := rfl
    have hlen : (RouteEdge.toNan e).length = .finite e.length := rfl
    have hnode : (RouteEdge.toNan e).node = e.node := rfl
    simp only [List.map_cons, scanEdgesNan, scanEdges, hl, hs, hlen, hnode, Dbl_add_toDbl,
      Dbl_lt_toDbl]
    split
    · rfl
    · split
      · exact ih st
      · split
        · rw [relaxNan_toNan]
          exact ih _
        · exact ih st

theorem edgesOfNan_map (rn : List RouteNode) (n : Nat) :
    edgesOfNan (rn.map RouteNode.toNan) n = (edgesOf rn n).map RouteEdge.toNan := by
  unfold edgesOfNan edgesOf
  rw [List.getElem?_map]
  cases rn[n]? <;> rfl

theorem dijkstraLoopNan_toNan (rn : List RouteNode) (fin_nodes : List Nat) (fuel : Nat)
    (st : SearchState) :
    dijkstraLoopNan (rn.map RouteNode.toNan) fin_nodes fuel st.toNan =
      (dijkstraLoop rn fin_nodes fuel st).map SearchState.toNan := by
  induction fuel generalizing st with
  | zero =>
    obtain ⟨queue, starts, prevs, lengths, shortest⟩ := st
    cases queue <;> rfl
  | succ fuel ih =>
    obtain ⟨queue, starts, prevs, lengths, shortest⟩ := st
    cases queue with
    | nil => rfl
    | cons p rest =>
      obtain ⟨k, v⟩ := p
      simp only [dijkstraLoopNan, dijkstraLoop, SearchState.toNan, List.map_cons,
        getD_map_toDbl, Dbl_lt_toDbl, Dbl_min_toDbl]
      split
      · exact ih ⟨rest, starts, prevs, lengths, shortest⟩
      · split
        · have h := ih (scanEdges v (edgesOf rn v)
            ⟨rest, starts, prevs, lengths, ELen.min shortest (lengths.getD v none)⟩)
          rw [← scanEdgesNan_toNan, ← edgesOfNan_map] at h
          exact h
        · have h := ih (scanEdges v (edgesOf rn v) ⟨rest, starts, prevs, lengths, shortest⟩)
          rw [← scanEdgesNan_toNan, ← edgesOfNan_map] at h
          exact h

theorem closestFinNan_toDbl (lengths : List ELen) (fins : List Nat) (best_fin : Nat)
    (best_length : ELen) :
    closestFinNan (lengths.map ELen.toDbl) fins best_fin (ELen.toDbl best_length) =
      ((closestFin lengths fins best_fin best_length).1,
        ELen.toDbl (closestFin lengths fins best_fin best_length).2) := by
  induction fins generalizing best_fin best_length with
  | nil => rfl
  | cons fin rest ih =>
    simp only [closestFinNan, closestFin, getD_map_toDbl, Dbl_lt_toDbl]
    split
    · exact ih _ _
    · exact ih _ _

theorem edgePositionsNan_toNan (e : RouteEdge) :
    edgePositionsNan e.toNan = edgePositions e := rfl

theorem find_edge_map (edges : List RouteEdge) (cur : Nat) :
    (edges.map RouteEdge.toNan).find? (fun e => e.node == Int.ofNat cur) =
      (edges.find? (fun e => e.node == Int.ofNat cur)).map RouteEdge.toNan := by
  induction edges with
  | nil => rfl
  | cons e rest ih =>
    simp only [List.map_cons, List.find?_cons]
    have hnode : (RouteEdge.toNan e).node = e.node := rfl
    rw [hnode]
    split
    · rfl
    · exact ih

theorem recoverRouteNan_toNan (eng : Engine) (prevs : List Int) (fuel cur : Nat) (prev : Int)
    (acc : List Node) :
    recoverRouteNan eng.toNan prevs fuel cur prev acc = recoverRoute eng prevs fuel cur prev acc := by
  induction fuel generalizing cur prev acc with
  | zero => rfl
  | succ fuel ih =>
    simp only [recoverRouteNan, recoverRoute]
    split
    · rfl
    · have h1 : eng.toNan.route_nodes_ = eng.route_nodes_.map RouteNode.toNan := rfl
      rw [h1, edgesOfNan_map, find_edge_map]
      cases (edgesOf eng.route_nodes_ prev.toNat).find? (fun e => e.node == Int.ofNat cur) with
      | none => rfl
      | some edge =>
        simp only [Option.map_some']
        have h2 : eng.toNan.ways_ = eng.ways_ := rfl
        have h3 : eng.toNan.nodes_ = eng.nodes_ := rfl
        have h4 : (RouteEdge.toNan edge).osmid = edge.osmid := rfl
        rw [h2, h3, h4, edgePositionsNan_toNan]
        cases mapFind eng.ways_ edge.osmid with
        | none => rfl
        | some way =>
          simp only []
          cases expandPositions eng.nodes_ way (edgePositions edge) with
          | error err => rfl
          | ok more => exact ih _ _ _

theorem sharpTurnsLoopNan_numbers (geo : GeoMathNan) (prev_bearing : Int) (nodes : List Node) :
    sharpTurnsLoopNan geo prev_bearing nodes = sharpTurnsLoop geo.numbers prev_bearing nodes := by
  induction nodes generalizing prev_bearing with
  | nil => rfl
  | cons node rest ih =>
    cases rest with
    | nil => rfl
    | cons next rest2 =>
      simp only [sharpTurnsLoopNan, sharpTurnsLoop]
      have hb : geo.numbers.Bearing node next = geo.Bearing node next := rfl
      rw [hb, ih]

theorem findSharpTurnsNan_numbers (geo : GeoMathNan) (nodes : List Node) :
    findSharpTurnsNan geo nodes = findSharpTurns geo.numbers nodes := by
  unfold findSharpTurnsNan findSharpTurns
  split
  · cases nodes with
    | nil => rfl
    | cons first rest =>
      cases rest with
      | nil => rfl
      | cons second rest2 =>
        simp only []
        rw [sharpTurnsLoopNan_numbers]
        rfl
  · rfl

end RailRouting


namespace RailRouting

/-- FindRoute on an engine whose lengths are numbers: the search with doubles returns what
the search of the section "Route search" returns, with the distance found as a double and,
when it returns false, the distance that the result object had. -/
theorem FindRouteNan_toNan (geo : GeoMathNan) (eng : Engine) (fuel : Nat)
    (name_a name_b : String) (result : FindRouteResultNan) :
    FindRouteNan geo eng.toNan fuel name_a name_b result =
      match FindRoute geo.numbers eng fuel name_a name_b result.numbers with
      | .error err => .error err
      | .ok (true, r) => .ok (true, r.toNan (ELen.toDbl r.distance))
      | .ok (false, r) => .ok (false, r.toNan result.distance) := by
  have hlen : eng.toNan.route_nodes_.length = eng.route_nodes_.length := by
    simp [Engine.toNan]
  have hst0 : (⟨[], List.replicate eng.toNan.route_nodes_.length (-1),
      List.replicate eng.toNan.route_nodes_.length (-1),
      List.replicate eng.toNan.route_nodes_.length .inf, .inf⟩ : SearchStateNan) =
      SearchState.toNan ⟨[], List.replicate eng.route_nodes_.length (-1),
        List.replicate eng.route_nodes_.length (-1),
        List.replicate eng.route_nodes_.length none, none⟩ := by
    rw [hlen]
    simp [SearchState.toNan, ELen.toDbl]
  have hstops : eng.toNan.stops_ = eng.stops_ := rfl
  have hrn : eng.toNan.route_nodes_ = eng.route_nodes_.map RouteNode.toNan := rfl
  have hnodes : eng.toNan.nodes_ = eng.nodes_ := rfl
  unfold FindRouteNan FindRoute
  simp only []
  rw [hst0, initStartsNan_toNan, hstops]
  rcases hI : initStarts (equalRange eng.stops_ name_a) []
    ⟨[], List.replicate eng.route_nodes_.length (-1),
      List.replicate eng.route_nodes_.length (-1),
      List.replicate eng.route_nodes_.length none, none⟩ 0 with ⟨sn, st1, c⟩
  rcases hF : initFins (equalRange eng.stops_ name_b) [] 0 with ⟨fn, ec⟩
  simp only []
  cases sn with
  | nil => cases fn <;> rfl
  | cons s0 sr =>
    cases fn with
    | nil => rfl
    | cons first_fin more_fins =>
      simp only []
      rw [hrn, dijkstraLoopNan_toNan]
      cases dijkstraLoop eng.route_nodes_ (first_fin :: more_fins) fuel st1 with
      | none => rfl
      | some st =>
        simp only [Option.map_some']
        have hl : st.toNan.lengths = st.lengths.map ELen.toDbl := rfl
        have hs : st.toNan.starts = st.starts := rfl
        have hp : st.toNan.prevs = st.prevs := rfl
        rw [hl, hs, hp, getD_map_toDbl, closestFinNan_toDbl]
        rcases closestFin st.lengths more_fins first_fin (st.lengths.getD first_fin none) with
          ⟨best_fin, best_length⟩
        cases best_length with
        | none => rfl
        | some d =>
          simp only [ELen.toDbl, List.getElem?_map, hnodes]
          cases eng.route_nodes_[(st.starts.getD best_fin (-1)).toNat]? with
          | none => rfl
          | some start_rn =>
            cases eng.route_nodes_[best_fin]? with
            | none => rfl
            | some end_rn =>
              simp only [Option.map_some']
              have h1 : (RouteNode.toNan start_rn).osmid = start_rn.osmid := rfl
              have h2 : (RouteNode.toNan end_rn).osmid = end_rn.osmid := rfl
              rw [h1, h2]
              cases mapFind eng.nodes_ start_rn.osmid with
              | none => rfl
              | some start_node =>
                simp only []
                cases mapFind eng.nodes_ end_rn.osmid with
                | none => rfl
                | some end_node =>
                  simp only []
                  rw [recoverRouteNan_toNan]
                  cases recoverRoute eng st.prevs fuel best_fin (st.prevs.getD best_fin (-1))
                      [] with
                  | error err => rfl
                  | ok temp_nodes =>
                    simp only []
                    rw [findSharpTurnsNan_numbers]
                    rfl

end RailRouting


namespace RailRouting

/-! ## The compilation on distances that are numbers

When the distance between every two neighbouring nodes of a way is a non-negative number,
the compilation with doubles that may be NaN is the compilation of the section "Graph
compilation". -/

theorem fillSlotNan_map (edges : List RouteEdge) (e : RouteEdge) :
    fillSlotNan (edges.map RouteEdge.toNan) e.toNan =
      (fillSlot edges e).map (List.map RouteEdge.toNan) := by
  induction edges with
  | nil => rfl
  | cons slot rest ih =>
    have hid : (RouteEdge.toNan slot).osmid = slot.osmid := rfl
    simp only [List.map_cons, fillSlotNan, fillSlot, hid]
    split
    · rfl
    · rw [ih]
      cases fillSlot rest e <;> rfl

theorem addEdgeNan_map (rn : List RouteNode) (n : Nat) (e : RouteEdge) :
    addEdgeNan (rn.map RouteNode.toNan) n e.toNan =
      (addEdge rn n e).map (List.map RouteNode.toNan) := by
  unfold addEdgeNan addEdge
  rw [List.getElem?_map]
  cases rn[n]? with
  | none => rfl
  | some r =>
    simp only [Option.map_some']
    have he : (RouteNode.toNan r).edges = r.edges.map RouteEdge.toNan := rfl
    rw [he, fillSlotNan_map]
    cases fillSlot r.edges e with
    | none => rfl
    | some edges1 =>
      simp only [Option.map_some', Except.map, List.map_set]
      rfl

theorem commitEdgesNan_map (geo : GeoMathNan) (way_id : Int) (way : Way) (walk : WayWalk)
    (this_node : Node) (second_node : Option Node) (dist : Int)
    (this_route_node node_pos : Nat) (rn : List RouteNode) :
    commitEdgesNan geo way_id way walk.toNan this_node second_node (.finite dist)
        this_route_node node_pos (rn.map RouteNode.toNan) =
      (commitEdges geo.numbers way_id way walk this_node second_node dist this_route_node
        node_pos rn).map (List.map RouteNode.toNan) := by
  unfold commitEdgesNan commitEdges
  simp only []
  have hf := addEdgeNan_map rn walk.start_route_node
    { osmid := way_id, start_pos := walk.start_node_pos, end_pos := node_pos,
      node := Int.ofNat this_route_node,
      direction := geo.Bearing walk.start_node (second_node.getD this_node),
      length := dist }
  by_cases hfw : forwardAllowed way = true
  · simp only [hfw, if_true]
    have h1 : addEdgeNan (rn.map RouteNode.toNan) walk.toNan.start_route_node
        { osmid := way_id, start_pos := walk.toNan.start_node_pos, end_pos := node_pos,
          node := Int.ofNat this_route_node,
          direction := geo.Bearing walk.toNan.start_node (second_node.getD this_node),
          length := .finite dist } =
        (addEdge rn walk.start_route_node
          { osmid := way_id, start_pos := walk.start_node_pos, end_pos := node_pos,
            node := Int.ofNat this_route_node,
            direction := geo.numbers.Bearing walk.start_node (second_node.getD this_node),
            length := dist }).map (List.map RouteNode.toNan) := hf
    rw [h1]
    cases addEdge rn walk.start_route_node
        { osmid := way_id, start_pos := walk.start_node_pos, end_pos := node_pos,
          node := Int.ofNat this_route_node,
          direction := geo.numbers.Bearing walk.start_node (second_node.getD this_node),
          length := dist } with
    | error err => rfl
    | ok rn1 =>
      simp only [Except.map]
      by_cases hbw : backwardAllowed way = true
      · simp only [hbw, if_true]
        exact addEdgeNan_map rn1 this_route_node
          { osmid := way_id, start_pos := node_pos, end_pos := walk.start_node_pos,
            node := Int.ofNat walk.start_route_node,
            direction := geo.Bearing this_node walk.prev_node,
            length := dist }
      · simp only [hbw]
        rfl
  · simp only [hfw]
    by_cases hbw : backwardAllowed way = true
    · simp only [hbw, if_true]
      exact addEdgeNan_map rn this_route_node
        { osmid := way_id, start_pos := node_pos, end_pos := walk.start_node_pos,
          node := Int.ofNat walk.start_route_node,
          direction := geo.Bearing this_node walk.prev_node,
          length := dist }
    · simp only [hbw]
      rfl

theorem drop_cons_getElem {α : Type} (l : List α) (n : Nat) (x : α) (rest : List α)
    (h : l.drop n = x :: rest) : l[n]? = some x ∧ l.drop (n + 1) = rest := by
  induction l generalizing n with
  | nil => simp at h
  | cons y ys ih =>
    cases n with
    | zero =>
      simp only [List.drop_zero, List.cons.injEq] at h
      obtain ⟨rfl, rfl⟩ := h
      exact ⟨by simp, by simp⟩
    | succ m =>
      simp only [List.drop_succ_cons] at h
      obtain ⟨h1, h2⟩ := ih m h
      exact ⟨by simpa using h1, by simpa using h2⟩

theorem walkWayNan_map (geo : GeoMathNan) (nodes_ : List (Int × Node))
    (id_to_routenode : List (Int × Nat)) (way_id : Int) (way : Way)
    (H : ∀ pos a b, nodeAt nodes_ way pos = some a → nodeAt nodes_ way (pos + 1) = some b →
      geo.Distance a b = .finite (geo.numbers.Distance a b))
    (ids : List Int) :
    ∀ (node_pos : Nat) (walk : WayWalk) (rn : List RouteNode),
      way.nodes_.drop (node_pos + 1) = ids →
      nodeAt nodes_ way node_pos = some walk.prev_node →
      walkWayNan geo nodes_ id_to_routenode way_id way (node_pos + 1) ids walk.toNan
          (rn.map RouteNode.toNan) =
        (walkWay geo.numbers nodes_ id_to_routenode way_id way (node_pos + 1) ids walk rn).map
          (List.map RouteNode.toNan) := by
  induction ids with
  | nil => intro node_pos walk rn _ _; rfl
  | cons id rest ih =>
    intro node_pos walk rn hdrop hprev
    obtain ⟨hid, hrest⟩ := drop_cons_getElem _ _ _ _ hdrop
    unfold walkWayNan walkWay
    cases hfind : mapFind nodes_ id with
    | none => rfl
    | some this_node =>
      have hthis : nodeAt nodes_ way (node_pos + 1) = some this_node := by
        unfold nodeAt
        rw [hid]
        exact hfind
      have hd : geo.Distance walk.toNan.prev_node this_node =
          .finite (geo.numbers.Distance walk.prev_node this_node) :=
        H node_pos walk.prev_node this_node hprev hthis
      simp only []
      rw [hd]
      have hadd : Dbl.add walk.toNan.dist
          (.finite (geo.numbers.Distance walk.prev_node this_node)) =
          .finite (walk.dist + geo.numbers.Distance walk.prev_node this_node) := rfl
      rw [hadd]
      have hsp : walk.toNan.start_node_pos = walk.start_node_pos := rfl
      have hsn : walk.toNan.second_node = walk.second_node := rfl
      rw [hsp, hsn]
      split
      · rfl
      · split
        · rfl
        · cases mapFind id_to_routenode id with
          | some trn =>
            simp only []
            rw [commitEdgesNan_map]
            cases commitEdges geo.numbers way_id way walk this_node
                (if node_pos + 1 = 1 then some this_node else walk.second_node)
                (walk.dist + geo.numbers.Distance walk.prev_node this_node) trn (node_pos + 1)
                rn with
            | error err => rfl
            | ok rn1 =>
              simp only [Except.map]
              exact ih (node_pos + 1)
                { prev_node := this_node, start_node := this_node, start_route_node := trn,
                  start_node_pos := node_pos + 1,
                  second_node := if node_pos + 1 = 1 then some this_node else walk.second_node,
                  dist := 0 } rn1 hrest hthis
          | none =>
            simp only []
            exact ih (node_pos + 1)
              { walk with
                prev_node := this_node
                second_node := if node_pos + 1 = 1 then some this_node else walk.second_node
                dist := walk.dist + geo.numbers.Distance walk.prev_node this_node } rn hrest
              hthis

theorem splitWayNan_map (geo : GeoMathNan) (nodes_ : List (Int × Node))
    (id_to_routenode : List (Int × Nat)) (rn : List RouteNode) (entry : Int × Way)
    (H : ∀ pos a b, nodeAt nodes_ entry.2 pos = some a →
      nodeAt nodes_ entry.2 (pos + 1) = some b →
      geo.Distance a b = .finite (geo.numbers.Distance a b)) :
    splitWayNan geo nodes_ id_to_routenode (rn.map RouteNode.toNan) entry =
      (splitWay geo.numbers nodes_ id_to_routenode rn entry).map (List.map RouteNode.toNan) := by
  unfold splitWayNan splitWay
  split
  · rfl
  · cases hn : entry.2.nodes_ with
    | nil => rfl
    | cons first rest =>
      simp only []
      cases hfirst : mapFind nodes_ first with
      | none => rfl
      | some start_node =>
        simp only []
        cases mapFind id_to_routenode first with
        | none => rfl
        | some start_route_node =>
          simp only []
          have h0 : nodeAt nodes_ entry.2 0 = some start_node := by
            unfold nodeAt
            rw [hn]
            simp only [List.getElem?_cons_zero]
            exact hfirst
          exact walkWayNan_map geo nodes_ id_to_routenode entry.1 entry.2 H rest 0
            { prev_node := start_node, start_node := start_node,
              start_route_node := start_route_node, start_node_pos := 0,
              second_node := none, dist := 0 } rn (by rw [hn]; rfl) h0

theorem splitWaysNan_map (geo : GeoMathNan) (nodes_ : List (Int × Node))
    (id_to_routenode : List (Int × Nat)) (ws : List (Int × Way))
    (H : ∀ entry ∈ ws, ∀ pos a b, nodeAt nodes_ entry.2 pos = some a →
      nodeAt nodes_ entry.2 (pos + 1) = some b →
      geo.Distance a b = .finite (geo.numbers.Distance a b))
    (rn : List RouteNode) :
    splitWaysNan geo nodes_ id_to_routenode ws (rn.map RouteNode.toNan) =
      (splitWays geo.numbers nodes_ id_to_routenode ws rn).map (List.map RouteNode.toNan) := by
  induction ws generalizing rn with
  | nil => rfl
  | cons entry rest ih =>
    unfold splitWaysNan splitWays
    rw [splitWayNan_map geo nodes_ id_to_routenode rn entry
      (H entry (List.mem_cons_self _ _))]
    cases splitWay geo.numbers nodes_ id_to_routenode rn entry with
    | error err => rfl
    | ok rn1 =>
      simp only [Except.map]
      exact ih (fun e he => H e (List.mem_cons_of_mem _ he)) rn1

theorem createRouteNodesNan_map (conn : List (Int × ConnectivityInfo))
    (nodes : List (Int × Node)) (st : RouteNodesState) :
    createRouteNodesNan conn nodes st.toNan =
      (createRouteNodes conn nodes st).map RouteNodesState.toNan := by
  induction nodes generalizing st with
  | nil => rfl
  | cons p rest ih =>
    obtain ⟨id, node⟩ := p
    unfold createRouteNodesNan createRouteNodes
    cases mapFind conn id with
    | none => rfl
    | some connectivity =>
      simp only []
      split
      · have hp : st.toNan.route_edge_pool = st.route_edge_pool := rfl
        rw [hp]
        cases st.route_edge_pool.alloc connectivity.nedges with
        | error err => rfl
        | ok res =>
          obtain ⟨pool1, ptr⟩ := res
          simp only []
          have hst : (⟨st.toNan.route_nodes ++
                [⟨id, List.replicate connectivity.nedges RouteEdgeNan.empty⟩],
              idMapInsert st.toNan.id_to_routenode id (st.toNan.route_nodes.length + 1 - 1),
              pool1⟩ : RouteNodesStateNan) =
              RouteNodesState.toNan
                ⟨st.route_nodes ++ [⟨id, List.replicate connectivity.nedges RouteEdge.empty⟩],
                  idMapInsert st.id_to_routenode id (st.route_nodes.length + 1 - 1),
                  pool1⟩ := by
            simp only [RouteNodesState.toNan, List.map_append, List.map_cons, List.map_nil,
              List.length_map, RouteNode.toNan, List.map_replicate]
            rfl
          rw [hst]
          exact ih _
      · exact ih st

theorem foldl_ProcessWayNan (ways : List Way) (eng : Engine) :
    ways.foldl ProcessWayNan eng.toNan = (ways.foldl ProcessWay eng).toNan := by
  induction ways generalizing eng with
  | nil => rfl
  | cons way rest ih =>
    simp only [List.foldl_cons]
    have h : ProcessWayNan eng.toNan way = (ProcessWay eng way).toNan := by
      unfold ProcessWayNan ProcessWay
      split <;> rfl
    rw [h]
    exact ih _

theorem foldl_ProcessNodeNan (nodes : List Node) (eng : Engine) :
    nodes.foldl ProcessNodeNan eng.toNan = (nodes.foldl ProcessNode eng).toNan := by
  induction nodes generalizing eng with
  | nil => rfl
  | cons node rest ih =>
    simp only [List.foldl_cons]
    have h : ProcessNodeNan eng.toNan node = (ProcessNode eng node).toNan := by
      unfold ProcessNodeNan ProcessNode
      have hn : eng.toNan.needed_nodes_ = eng.needed_nodes_ := rfl
      rw [hn]
      split <;> rfl
    rw [h]
    exact ih _

theorem PrepareNan_map (geo : GeoMathNan) (eng : Engine)
    (H : ∀ entry ∈ eng.ways_, ∀ pos a b, nodeAt eng.nodes_ entry.2 pos = some a →
      nodeAt eng.nodes_ entry.2 (pos + 1) = some b →
      geo.Distance a b = .finite (geo.numbers.Distance a b)) :
    PrepareNan geo eng.toNan = (Prepare geo.numbers eng).map Engine.toNan := by
  unfold PrepareNan Prepare
  simp only []
  have hn : eng.toNan.nodes_ = eng.nodes_ := rfl
  have hw : eng.toNan.ways_ = eng.ways_ := rfl
  have hs : eng.toNan.stops_ = eng.stops_ := rfl
  have hst : (⟨eng.toNan.route_nodes_, [], eng.toNan.route_edge_pool_⟩ : RouteNodesStateNan) =
      RouteNodesState.toNan ⟨eng.route_nodes_, [], eng.route_edge_pool_⟩ := rfl
  rw [hn, hw, hs, hst, createRouteNodesNan_map]
  cases createRouteNodes
      ((eng.ways_.foldl countWayStep (eng.nodes_.foldl findStopsStep ([], [])).2))
      eng.nodes_ ⟨eng.route_nodes_, [], eng.route_edge_pool_⟩ with
  | error err => rfl
  | ok created =>
    simp only [Except.map]
    have h1 : created.toNan.route_nodes = created.route_nodes.map RouteNode.toNan := rfl
    have h2 : created.toNan.id_to_routenode = created.id_to_routenode := rfl
    have h3 : created.toNan.route_edge_pool = created.route_edge_pool := rfl
    rw [h1, h2, h3, splitWaysNan_map geo eng.nodes_ created.id_to_routenode eng.ways_ H]
    cases splitWays geo.numbers eng.nodes_ created.id_to_routenode eng.ways_
        created.route_nodes with
    | error err => rfl
    | ok route_nodes =>
      simp only [Except.map]
      cases postprocessStops created.id_to_routenode
          (eng.nodes_.foldl findStopsStep ([], [])).1 eng.stops_ with
      | error err => rfl
      | ok stops => rfl

end RailRouting


namespace RailRouting

/-! ## C2 on the graphs whose distances are numbers -/

theorem PrepareNan_keeps (geo : GeoMathNan) (eng eng1 : EngineNan)
    (h : PrepareNan geo eng = .ok eng1) : eng1.nodes_ = eng.nodes_ ∧ eng1.ways_ = eng.ways_ := by
  unfold PrepareNan at h
  simp only [] at h
  split at h
  · cases h
  · split at h
    · cases h
    · split at h
      · cases h
      · cases h
        exact ⟨rfl, rfl⟩

theorem numbers_distance (geo : GeoMathNan) (a b : Node)
    (h : ∃ x, geo.Distance a b = .finite x ∧ 0 ≤ x) :
    geo.Distance a b = .finite (geo.numbers.Distance a b) := by
  obtain ⟨x, hx, h0⟩ := h
  unfold GeoMathNan.numbers
  simp only [hx, if_pos h0]

theorem numbers_nonneg (geo : GeoMathNan) (a b : Node) : 0 ≤ geo.numbers.Distance a b := by
  unfold GeoMathNan.numbers
  simp only []
  split
  · split
    · assumption
    · exact le_refl 0
  · exact le_refl 0

/-- A compilation with doubles that returns an engine in which the distance between every
two neighbouring nodes of a way is a non-negative number is a compilation of the section
"Graph compilation". -/
theorem ParseNan_numbers (geo : GeoMathNan) (ways : List Way) (nodes : List Node)
    (engN : EngineNan) (hparse : ParseNan geo ways nodes = .ok engN)
    (hnum : NumberDistances geo engN) :
    ∃ eng, Parse geo.numbers ways nodes = .ok eng ∧ engN = eng.toNan := by
  unfold ParseNan at hparse
  have hinit : EngineNan.init = Engine.init.toNan := rfl
  rw [hinit, foldl_ProcessWayNan, foldl_ProcessNodeNan] at hparse
  obtain ⟨hn, hw⟩ := PrepareNan_keeps geo _ engN hparse
  have H : ∀ entry ∈ (nodes.foldl ProcessNode (ways.foldl ProcessWay Engine.init)).ways_,
      ∀ pos a b,
        nodeAt (nodes.foldl ProcessNode (ways.foldl ProcessWay Engine.init)).nodes_ entry.2 pos
          = some a →
        nodeAt (nodes.foldl ProcessNode (ways.foldl ProcessWay Engine.init)).nodes_ entry.2
          (pos + 1) = some b →
        geo.Distance a b = .finite (geo.numbers.Distance a b) := by
    intro entry he pos a b ha hb
    apply numbers_distance
    have he2 : entry ∈ engN.ways_ := by rw [hw]; exact he
    exact hnum entry he2 pos a b (by rw [hn]; exact ha) (by rw [hn]; exact hb)
  rw [PrepareNan_map geo _ H] at hparse
  unfold Parse
  cases hP : Prepare geo.numbers (nodes.foldl ProcessNode (ways.foldl ProcessWay Engine.init)) with
  | error err =>
    rw [hP] at hparse
    cases hparse
  | ok eng =>
    rw [hP] at hparse
    simp only [Except.map, Except.ok.injEq] at hparse
    exact ⟨eng, rfl, hparse.symm⟩

theorem PathNan_of_walk (rn : List RouteNode) (u w : Nat) (d : Int) (h : Walk rn u w d) :
    PathNan (rn.map RouteNode.toNan) u w := by
  induction h with
  | nil u => exact PathNan.nil u
  | cons u v w e len he hnode _ ih =>
    refine PathNan.cons u v w e.toNan ?_ hnode ih
    rw [edgesOfNan_map]
    exact List.mem_map_of_mem _ he

theorem walk_of_PathNan (rn : List RouteNode) (rnN : List RouteNodeNan)
    (hrn : rnN = rn.map RouteNode.toNan) (u w : Nat) (h : PathNan rnN u w) :
    ∃ d, Walk rn u w d := by
  induction h with
  | nil u => exact ⟨0, Walk.nil u⟩
  | cons u v w eN heN hnode _ ih =>
    obtain ⟨d, hd⟩ := ih
    rw [hrn, edgesOfNan_map] at heN
    obtain ⟨e, he, rfl⟩ := List.mem_map.1 heN
    exact ⟨e.length + d, Walk.cons u v w e d he hnode hd⟩

theorem ReachableNan_toNan (eng : Engine) (name_a name_b : String) :
    ReachableNan eng.toNan name_a name_b ↔ Reachable eng name_a name_b := by
  constructor
  · rintro ⟨s, t, hs, ht, hp⟩
    obtain ⟨d, hd⟩ := walk_of_PathNan eng.route_nodes_ _ rfl s t hp
    exact ⟨d, s, t, hs, ht, hd⟩
  · rintro ⟨d, s, t, hs, ht, hw⟩
    exact ⟨s, t, hs, ht, PathNan_of_walk eng.route_nodes_ s t d hw⟩

theorem searchFuelNan_toNan (eng : Engine) (name_a : String) :
    searchFuelNan eng.toNan name_a = searchFuel eng name_a := by
  unfold searchFuelNan searchFuel totalEdgesNan totalEdges
  simp only [Engine.toNan, List.map_map, List.length_map]
  have h : ((fun r : RouteNodeNan => r.edges.length) ∘ RouteNode.toNan) =
      (fun r : RouteNode => r.edges.length) := by
    funext r
    simp [RouteNode.toNan]
  rw [h]

theorem exOneway_numberDistances : NumberDistances exGeoNan exEngineOneway.toNan := by
  intro p hp pos a b ha hb
  have hp2 : p = (10, exWayOneway) := by
    simpa [Engine.toNan, exEngineOneway] using hp
  subst hp2
  have hN : exEngineOneway.toNan.nodes_ = [(1, exNode1), (2, exNode2), (3, exNode3)] := rfl
  rw [hN] at ha hb
  match pos, ha, hb with
  | 0, ha, hb =>
    have h1 : nodeAt [(1, exNode1), (2, exNode2), (3, exNode3)] exWayOneway 0 = some exNode1 :=
      by rfl
    have h2 : nodeAt [(1, exNode1), (2, exNode2), (3, exNode3)] exWayOneway 1 = some exNode2 :=
      by rfl
    rw [h1] at ha
    rw [h2] at hb
    cases ha
    cases hb
    exact ⟨10000, by rfl, by decide⟩
  | 1, ha, hb =>
    have h1 : nodeAt [(1, exNode1), (2, exNode2), (3, exNode3)] exWayOneway 1 = some exNode2 :=
      by rfl
    have h2 : nodeAt [(1, exNode1), (2, exNode2), (3, exNode3)] exWayOneway 2 = some exNode3 :=
      by rfl
    rw [h1] at ha
    rw [h2] at hb
    cases ha
    cases hb
    exact ⟨10000, by rfl, by decide⟩
  | k + 2, ha, hb =>
    have h2 : nodeAt [(1, exNode1), (2, exNode2), (3, exNode3)] exWayOneway (k + 2 + 1) = none :=
      by
        unfold nodeAt
        have : exWayOneway.nodes_[k + 2 + 1]? = none := by
          simp [exWayOneway]
        rw [this]
    rw [h2] at hb
    cases hb

/-- C2 (amended). On a graph compiled by `Parse`, the lengths being doubles that may be
NaN, in which the distance between every two neighbouring nodes of a way of the way map is
a non-negative number, for two names of the stop index and a fuel of at least
`searchFuelNan`, FindRoute returns; it returns false with NO_ROUTE_FOUND if and only if no
end node of the second name can be reached from a start node of the first along populated
edges, and otherwise it returns true with OK. -/
theorem FindRouteNan_no_route_iff (geo : GeoMathNan) (ways : List Way) (nodes : List Node)
    (eng : EngineNan) (hparse : ParseNan geo ways nodes = .ok eng)
    (hnum : NumberDistances geo eng) (name_a name_b : String)
    (ha : HasStopNan eng name_a) (hb : HasStopNan eng name_b) (fuel : Nat)
    (hfuel : searchFuelNan eng name_a ≤ fuel) (result : FindRouteResultNan) :
    ∃ ok r, FindRouteNan geo eng fuel name_a name_b result = .ok (ok, r) ∧
      ((ok = false ∧ r.status = .NO_ROUTE_FOUND) ↔ ¬ ReachableNan eng name_a name_b) ∧
      (ReachableNan eng name_a name_b → ok = true ∧ r.status = .OK) := by
  obtain ⟨eng0, hparse0, rfl⟩ := ParseNan_numbers geo ways nodes eng hparse hnum
  have hc := parse_compiled geo.numbers ways nodes eng0 hparse0
  have hnn := compiled_nonNegLengths geo.numbers (numbers_nonneg geo) eng0 hc
  rw [searchFuelNan_toNan] at hfuel
  rw [ReachableNan_toNan, FindRouteNan_toNan]
  rcases FindRoute_compiled geo.numbers eng0 hc hnn name_a name_b ha hb fuel hfuel
    result.numbers with ⟨hn, h⟩ | ⟨d, s, t, ns, nt, route, h1, -, -, -, -, -, -, -, h⟩
  · rw [h]
    exact ⟨false, _, rfl, by simp [hn, FindRouteResult.toNan], fun hr => absurd hr hn⟩
  · have hr : Reachable eng0 name_a name_b := ⟨d, h1.1⟩
    rw [h]
    exact ⟨true, _, rfl, by simp [hr], fun _ => ⟨rfl, rfl⟩⟩

/-- C2 (witness). Scenario S2 under a distance that is NaN between some points, none of
them on the way: with `oneway=yes` on the way, the query from B to A on the compiled
engine returns. -/
theorem FindRouteNan_no_route_iff_witness :
    ParseNan exGeoNan [exWayOneway] [exNode1, exNode2, exNode3] = .ok exEngineOneway.toNan ∧
      NumberDistances exGeoNan exEngineOneway.toNan ∧
      HasStopNan exEngineOneway.toNan "B" ∧ HasStopNan exEngineOneway.toNan "A" ∧
      searchFuelNan exEngineOneway.toNan "B" ≤ 9 ∧
      ∃ ok r, FindRouteNan exGeoNan exEngineOneway.toNan 9 "B" "A" exResultNan = .ok (ok, r) ∧
        ((ok = false ∧ r.status = .NO_ROUTE_FOUND) ↔
          ¬ ReachableNan exEngineOneway.toNan "B" "A") ∧
        (ReachableNan exEngineOneway.toNan "B" "A" → ok = true ∧ r.status = .OK) :=
  ⟨by rfl, exOneway_numberDistances, ⟨1, by decide⟩, ⟨0, by decide⟩, by decide,
    FindRouteNan_no_route_iff exGeoNan [exWayOneway] [exNode1, exNode2, exNode3]
      exEngineOneway.toNan (by rfl) exOneway_numberDistances "B" "A" ⟨1, by decide⟩
      ⟨0, by decide⟩ 9 (by decide) exResultNan⟩

end RailRouting
